import Mathlib

/-!
# zcp : block-parallel LZ4 frame writer and reader

A shallow embedding of `src/zfile.{hh,cc}`, `src/mempool.hh` and
`src/zfilelz4.{hh,cc}`.

Modelling conventions

* a byte (`char`, `uint8_t`) is a `Fin 256`; a buffer is the list of its valid bytes;
* the host is little-endian, so `htole32`/`le32toh` are the identity on the 32-bit value
  and a stored `uint32_t` is laid out as its four little-endian bytes;
* `uint32_t` values are taken modulo `2^32` where they are produced; the `size_t`
  returned by `zFilelz4::compress` is taken modulo `2^64`; the running counters
  `_zip.noffset`, `_zip.nzoffset` are natural numbers;
* the LZ4 and XXH32 libraries and the thread primitives are not part of the sources;
  they are the fields of `Lib`;
* a read outside a buffer has no defined result: the function returns `none`.
-/

namespace Zcp

/-! ## Bytes and little-endian words -/

/-- One byte of a buffer or of a file. -/
abbrev Byte := Fin 256

/-- The low byte of a number. -/
def byteOf (v : Nat) : Byte := ⟨v % 256, Nat.mod_lt _ (by decide)⟩

/-- Memory image of a `uint32_t` on the little-endian host (value taken modulo `2^32`). -/
def le32 (v : Nat) : List Byte :=
  [byteOf v, byteOf (v / 256), byteOf (v / 65536), byteOf (v / 16777216)]

/-- The `uint32_t` held by the first four bytes of a buffer (absent bytes read as zero;
callers check the length first). -/
def le32toh (bs : List Byte) : Nat :=
  (bs.getD 0 0).val + 256 * (bs.getD 1 0).val + 65536 * (bs.getD 2 0).val
    + 16777216 * (bs.getD 3 0).val

/-- Conversion of an unsigned value to `int` (two's complement, 32 bits). -/
def toInt32 (n : Nat) : Int :=
  if n % 4294967296 < 2147483648 then ((n % 4294967296 : Nat) : Int)
  else ((n % 4294967296 : Nat) : Int) - 4294967296

/-- Conversion of an `int` to `size_t` (64 bits). -/
def toSizeT (r : Int) : Nat := (r % 18446744073709551616).toNat

/-- Conversion of a `size_t` to the signed stream offset type (64 bits). -/
def toOff (n : Nat) : Int :=
  if n % 18446744073709551616 < 9223372036854775808 then ((n % 18446744073709551616 : Nat) : Int)
  else ((n % 18446744073709551616 : Nat) : Int) - 18446744073709551616

/-- Difference of two `size_t` values (wraps around when the result would be negative). -/
def sizeSub (a b : Nat) : Nat := if b ≤ a then a - b else a + 18446744073709551616 - b

/-- Difference of two `uint32_t` values. -/
def u32Sub (a b : Nat) : Nat := (a + 4294967296 - b % 4294967296) % 4294967296

/-! ## Constants of `zfilelz4.cc` -/

def LZ4F_MAGICNUMBER : Nat := 0x184D2204
def LZ4S_EOS : Nat := 0
def LZ4F_BLOC4_SIZE : Nat := 64 * 1024
def LZ4F_BLOC5_SIZE : Nat := 256 * 1024
def LZ4F_BLOC6_SIZE : Nat := 1024 * 1024
def LZ4F_BLOC7_SIZE : Nat := 4 * 1024 * 1024
def LZ4F_MAXBLOC_SIZE : Nat := LZ4F_BLOC7_SIZE
def SKIPPABLE_MAGIC_NUMBER_0 : Nat := 0x184D2A50
def METADATA_MAGIC_NUMBER_0 : Nat := 0xCAFEDECA
/-- Value of `zFilelz4::__min__HClevel__`. -/
def min_HClevel : Nat := 3
/-- Value of `zFilelz4::__checksum_seed__`. -/
def checksum_seed : Nat := 0
/-- Value of `sizeof(MetaHeader_t)`: two `uint32_t`. -/
def sizeof_MetaHeader_t : Nat := 8
/-- Value of `sizeof(MetaIdentification_t)`: four `uint32_t`. -/
def sizeof_MetaIdentification_t : Nat := 16
/-- Value of `__sizeof__(IndexEntry_t, offset)`: two `uint32_t`. -/
def indexsize : Nat := 8
/-- Value of `offsetof(FileHeader_t, unused)`: magic (4), flag, blk, crc. -/
def offsetof_unused : Nat := 7

/-! ## Enumerations of `zfile.hh` -/

inductive OpenMode_t where
  | e_ReadMode
  | e_WriteMode
  deriving DecidableEq, Repr

inductive SeekDirection_t where
  | e_SeekBegin
  | e_SeekCurrent
  | e_SeekEnd
  deriving DecidableEq, Repr

inductive CompressionType_t where
  | e_none
  | e_lz4
  | e_lz4hc
  | e_snappy
  | e_zlib
  | e_zstd
  | e_zerr
  deriving DecidableEq, Repr

inductive zFileError_t where
  | e_SuccessError
  | e_OpenError
  | e_ReadError
  | e_WriteError
  | e_compressError
  | e_JobInitError
  | e_JobCreateError
  | e_JobWaitError
  | e_JobUnknownError
  | e_HeaderError
  | e_TailError
  | e_MetaError
  | e_SeekError
  deriving DecidableEq, Repr

/-- The four functions a `compressFunc_t` can point to. -/
inductive compressFunc_t where
  | compress_fast_extState
  | compress_fast_continue
  | compress_HC_extStateHC
  | compress_HC_continue
  deriving DecidableEq, Repr

/-- The two functions an `uncompressFunc_t` can point to. -/
inductive uncompressFunc_t where
  | decompress_fast
  | decompress_fast_continue
  deriving DecidableEq, Repr

/-- Run mode of a memory pool (`MemPool::PoolRunMode_t`). -/
inductive PoolRunMode_t where
  | e_ZipPool
  | e_UnzipPool
  deriving DecidableEq, Repr

/-! ## External libraries -/

/-- The collaborators that are not part of the sources.

* `XXH32 data seed` is the one-shot hash; the streaming state is modelled by the bytes fed
  so far, `XXH32_digest` being the one-shot hash of their concatenation;
* `compress f src dstSize level` is the call `f(ctx, src, dst, srcSize, dstSize, level)`:
  it gives the returned `int` and the bytes the call left in `dst`;
* `decompress f src maxsize` is the call `f(ctx, src, dst, size, maxsize)`: the returned
  `int` and the bytes left in `dst`;
* `pthread_attr_init`, `pthread_create`, `pthread_join` are the return codes of the
  thread primitives (0 on success) during one call of an operation of the stream: every
  operation takes the record of the call, so that a primitive that fails in one call and
  succeeds in a later one is two calls with two records;
* `stack` is the number of bytes the stack of the process can still take when
  `zFilelz4::readTail` declares its array `char ptr[header.size]`. -/
structure Lib where
  XXH32 : List Byte → Nat → Nat
  compress : compressFunc_t → List Byte → Int → Nat → Int × List Byte
  decompress : uncompressFunc_t → List Byte → Int → Int × List Byte
  pthread_attr_init : Nat
  pthread_create : Nat
  pthread_join : Nat
  stack : Nat

/-! ## The file stream (`std::fstream`) -/

/-- State of the `fstream` member `_file.stream`: the bytes of the file, the current
position and the two state bits the sources test. -/
structure FStream where
  content : List Byte
  pos : Nat
  eofbit : Bool
  failbit : Bool
  deriving DecidableEq, Repr

namespace FStream

/-- Result of `fstream::open`: `none` is a file that cannot be opened. -/
def openFile (file : Option (List Byte)) : FStream :=
  match file with
  | some c => { content := c, pos := 0, eofbit := false, failbit := false }
  | none => { content := [], pos := 0, eofbit := false, failbit := true }

def good (f : FStream) : Bool := !f.eofbit && !f.failbit

def fail (f : FStream) : Bool := f.failbit

def eof (f : FStream) : Bool := f.eofbit

/-- Unformatted input `read(buf, n)`: on a stream that is not good nothing is extracted
and `failbit` is set; otherwise up to `n` bytes are extracted and a short count sets
`eofbit` and `failbit`. The second component holds the extracted bytes (`gcount` is its
length). -/
def read (f : FStream) (n : Nat) : FStream × List Byte :=
  if f.good then
    let got := (f.content.drop f.pos).take n
    if got.length = n then ({ f with pos := f.pos + got.length }, got)
    else ({ f with pos := f.pos + got.length, eofbit := true, failbit := true }, got)
  else ({ f with failbit := true }, [])

/-- Positioning `seekg(off, dir)`: clears `eofbit`, does nothing on a failed stream, and
sets `failbit` when the target position is negative. -/
def seekg (f : FStream) (off : Int) (dir : SeekDirection_t) : FStream :=
  if f.failbit then { f with eofbit := false }
  else
    let base : Int :=
      match dir with
      | .e_SeekBegin => 0
      | .e_SeekCurrent => (f.pos : Int)
      | .e_SeekEnd => (f.content.length : Int)
    if base + off < 0 then { f with eofbit := false, failbit := true }
    else { f with eofbit := false, pos := (base + off).toNat }

/-- Positioning `seekp(off, beg)` (the file buffer has a single position for reading and
writing): does nothing on a failed stream. -/
def seekp (f : FStream) (off : Nat) : FStream :=
  if f.failbit then f else { f with pos := off }

/-- Value of `tellg()` converted to `size_t`: the position, or `(size_t)-1` on a failed
stream. -/
def tellg (f : FStream) : Nat :=
  if f.failbit then 18446744073709551615 else f.pos

/-- Unformatted output `write(buf, n)` on a stream opened for writing: the bytes are
appended (the sources only write sequentially); nothing is written on a stream that is
not good. -/
def write (f : FStream) (bs : List Byte) : FStream :=
  if f.good then { f with content := f.content ++ bs, pos := f.pos + bs.length }
  else { f with failbit := true }

end FStream

/-! ## Memory pools (`mempool.hh`) -/

/-- What the worker thread of a pool stores when it ends: `_outsize`, the bytes of
`_out`, `_zreturn`, and the input side (moved to the front by an unzip job). -/
structure Job where
  outsize : Nat
  out : List Byte
  zreturn : Nat
  inb : List Byte
  deriving DecidableEq, Repr

/-- A `MemPool`. `inb` holds the `_insize` valid bytes of `_in`, `out` the bytes stored in
`_out`, `ptr` is `_ptr - _out`. `thid` is the thread handle (0: nothing to join) and `job`
the result a launched worker has not stored yet: the worker reads only fields that
nobody changes while it runs, so its result is fixed when it is launched. -/
structure MemPool where
  poolsize : Nat
  inb : List Byte
  outsize : Nat
  out : List Byte
  ptr : Nat
  zreturn : Nat
  mode : PoolRunMode_t
  thid : Nat
  job : Option Job
  id : Nat
  deriving DecidableEq, Repr

namespace MemPool

/-- Constructor `MemPool(id, blocsize, mode, zfile, puser)`. -/
def ctor (id blocsize : Nat) (mode : PoolRunMode_t) : MemPool :=
  { poolsize := blocsize, inb := [], outsize := 0, out := [], ptr := 0, zreturn := 0,
    mode := mode, thid := 0, job := none, id := id }

def getInsize (p : MemPool) : Nat := p.inb.length
def getOutsize (p : MemPool) : Nat := p.outsize
def getInptr (p : MemPool) : List Byte := p.inb
/-- The `getOutsize()` bytes at `getOutptr()`. -/
def getOutptr (p : MemPool) : List Byte := p.out.take p.outsize
def getId (p : MemPool) : Nat := p.id
def getReturn (p : MemPool) : Nat := p.zreturn
def inEmpty (p : MemPool) : Bool := p.inb.length = 0
def outEmpty (p : MemPool) : Bool := sizeSub p.outsize p.ptr = 0

/-- Copy of `add(const char*, size_t)`: result is the pool and the number of copied
bytes. -/
def add (p : MemPool) (data : List Byte) : MemPool × Nat :=
  let nsize := min (sizeSub p.poolsize p.inb.length) data.length
  if nsize = 0 then (p, 0)
  else ({ p with inb := p.inb ++ data.take nsize }, nsize)

/-- Copy of `add(fstream&, size_t)`: result is the pool, the stream and the number of
bytes read. -/
def addStream (p : MemPool) (fs : FStream) (size : Nat) : MemPool × FStream × Nat :=
  let nsize := min (sizeSub p.poolsize p.inb.length) size
  if nsize = 0 then (p, fs, 0)
  else
    let r := fs.read nsize
    ({ p with inb := p.inb ++ r.2 }, r.1, r.2.length)

/-- Copy of `get(char*, size_t)`: result is the pool, the returned count and the bytes
copied to the caller. -/
def get (p : MemPool) (size : Nat) : MemPool × Nat × List Byte :=
  let nsize := min (sizeSub p.outsize p.ptr) size
  if nsize = 0 then (p, 0, [])
  else ({ p with ptr := p.ptr + nsize }, nsize, (p.out.drop p.ptr).take nsize)

def reset (p : MemPool) : MemPool :=
  { p with inb := [], outsize := 0, out := [], ptr := 0, zreturn := 0 }

/-- Copy of `run()`: `j` is what the static function `thread` computes for this pool.
Codes: 0 launched, 1 attribute error, 2 creation error, 3 empty pool. -/
def run (lib : Lib) (j : Job) (p : MemPool) : MemPool × Nat :=
  if p.inb.length = 0 then (p, 3)
  else if lib.pthread_attr_init ≠ 0 then (p, 1)
  else if lib.pthread_create ≠ 0 then (p, 2)
  else ({ p with thid := p.id + 1, job := some j }, 0)

/-- The worker of the pool ends: it stores its result and `_ptr = _out`. -/
def finish (p : MemPool) : MemPool :=
  match p.job with
  | some j =>
    { p with outsize := j.outsize, out := j.out, zreturn := j.zreturn, inb := j.inb,
             ptr := 0, job := none }
  | none => p

/-- Copy of `wait()`: joining returns once the worker has ended. -/
def wait (lib : Lib) (p : MemPool) : MemPool × Nat :=
  if p.thid = 0 then (p, 0)
  else if lib.pthread_join ≠ 0 then (p, 1)
  else ({ p.finish with thid := 0 }, 0)

end MemPool

/-! ## Data of `zFile` and `zFilelz4` -/

/-- The member `offset` of an index entry: two `uint32_t`. -/
structure IndexOffset where
  n : Nat
  z : Nat
  deriving DecidableEq, Repr

/-- The member `size` of an index entry: two `uint32_t`. -/
structure IndexSize where
  n : Nat
  z : Nat
  deriving DecidableEq, Repr

/-- An entry of the index table; the constructor arguments are `uint32_t`. -/
structure IndexEntry_t where
  offset : IndexOffset
  size : IndexSize
  deriving DecidableEq, Repr

/-- Constructor `_IndexEntry_t(offset, size, zoffset, zsize)`. -/
def IndexEntry_t.ctor (offset size zoffset zsize : Nat) : IndexEntry_t :=
  { offset := { n := offset % 4294967296, z := zoffset % 4294967296 },
    size := { n := size % 4294967296, z := zsize % 4294967296 } }

/-- Insertion in `set<IndexEntry_t, IndexEntry_t::compare>`: the container is ordered by
`offset.n` and an entry whose `offset.n` is already present is not inserted. -/
def setInsert (e : IndexEntry_t) : List IndexEntry_t → List IndexEntry_t
  | [] => [e]
  | x :: xs =>
    if e.offset.n < x.offset.n then e :: x :: xs
    else if x.offset.n < e.offset.n then x :: setInsert e xs
    else x :: xs

/-- The bit field `zFilelz4::__flag`. -/
structure Flag where
  presetDictionary : Nat
  reserved1 : Nat
  streamChecksum : Nat
  streamSize : Nat
  blockChecksum : Nat
  blockIndependence : Nat
  versionNumber : Nat
  deriving DecidableEq, Repr

/-- Constructor `__flag()`. -/
def Flag.ctor : Flag :=
  { presetDictionary := 0, reserved1 := 0, streamChecksum := 1, streamSize := 0,
    blockChecksum := 0, blockIndependence := 1, versionNumber := 1 }

/-- The byte read by `*(uint8_t*)&_flag`: the fields are allocated from bit 0 upwards, as
the comments of the declaration state. -/
def Flag.byte (f : Flag) : Byte :=
  byteOf (f.presetDictionary % 2 + 2 * (f.reserved1 % 2) + 4 * (f.streamChecksum % 2)
    + 8 * (f.streamSize % 2) + 16 * (f.blockChecksum % 2) + 32 * (f.blockIndependence % 2)
    + 64 * (f.versionNumber % 4))

/-- Streaming state of XXH32: the seed and the bytes fed so far. -/
structure XXH32_state where
  seed : Nat
  data : List Byte
  deriving DecidableEq, Repr

def XXH32_reset (seed : Nat) : XXH32_state := { seed := seed, data := [] }

def XXH32_update (st : XXH32_state) (bs : List Byte) : XXH32_state :=
  { st with data := st.data ++ bs }

def XXH32_digest (lib : Lib) (st : XXH32_state) : Nat := lib.XXH32 st.data st.seed % 4294967296

/-- The members of a `zFile` object, followed by those `zFilelz4` adds. `curpool` and
`readpool` are pointers (`none` is `NULL`); the lists hold the pools they point to.
`submitted` is a history variable that is not in the sources and that nothing reads: the
input blocks of the pools in the order in which `nextPool` appended them to `listused`. -/
structure zFile where
  lasterror : zFileError_t
  errormsg : String
  blocsize : Nat
  listindex : List IndexEntry_t
  zip_level : Nat
  zip_noffset : Nat
  zip_nzoffset : Nat
  zip_curpool : Option MemPool
  zip_listfree : List MemPool
  zip_listused : List MemPool
  zip_listpool : List Nat
  unzip_readpool : Option MemPool
  file_stream : FStream
  file_mode : OpenMode_t
  file_type : CompressionType_t
  lz4_compressfunc : Option compressFunc_t
  lz4_ncontext : Nat
  unlz4_eos : Bool
  unlz4_uncompressfunc : Option uncompressFunc_t
  flag : Flag
  blockSizeId : Nat
  xxh32state : XXH32_state
  submitted : List (List Byte)
  deriving DecidableEq, Repr

namespace zFile

def setError (s : zFile) (error : zFileError_t) (message : String) : zFile :=
  { s with lasterror := error, errormsg := message }

def fail (s : zFile) : Bool := s.lasterror != zFileError_t.e_SuccessError

def getError (s : zFile) : zFileError_t := s.lasterror

def strError (s : zFile) : String := s.errormsg

/-- The pools `MemPool(i, blocsize, e_ZipPool, this, NULL)` for `i = first, first+1, ...`. -/
def mkPools (blocsize : Nat) : Nat → Nat → List MemPool
  | _, 0 => []
  | first, k + 1 => MemPool.ctor first blocsize .e_ZipPool :: mkPools blocsize (first + 1) k

/-- Constructor `zFile(filename, mode, blocsize, nthread)`. `file` is what opening
`filename` gives: `none` when the file cannot be opened, otherwise its bytes (a file
opened for writing starts empty). -/
def ctor (file : Option (List Byte)) (mode : OpenMode_t) (blocsize nthread : Nat) : zFile :=
  let s0 : zFile :=
    { lasterror := .e_SuccessError, errormsg := "", blocsize := blocsize, listindex := [],
      zip_level := 1, zip_noffset := 0, zip_nzoffset := 0, zip_curpool := none,
      zip_listfree := [], zip_listused := [], zip_listpool := [],
      unzip_readpool := none,
      file_stream := FStream.openFile none, file_mode := mode, file_type := .e_none,
      lz4_compressfunc := none, lz4_ncontext := 0, unlz4_eos := false,
      unlz4_uncompressfunc := none, flag := Flag.ctor, blockSizeId := 0,
      xxh32state := XXH32_reset 0, submitted := [] }
  let s1 : zFile :=
    match mode with
    | .e_ReadMode =>
      { s0 with unzip_readpool := some (MemPool.ctor 0 blocsize .e_UnzipPool),
                file_stream := FStream.openFile file }
    | .e_WriteMode =>
      { s0 with zip_curpool := (mkPools blocsize 0 nthread).head?,
                zip_listfree := (mkPools blocsize 0 nthread).tail,
                zip_listpool := List.range nthread,
                file_stream := FStream.openFile (file.map (fun _ => [])) }
  if s1.file_stream.fail then s1.setError .e_OpenError "File open error"
  else { s1 with file_stream := s1.file_stream.seekg 0 .e_SeekBegin }

/-! ### Block codec entry points -/

/-- Copy of `zFile::compress` (pass-through): result is the returned size, the bytes of
`out` and `*preturn`. -/
def compress (inb : List Byte) : Nat × List Byte × Nat :=
  (inb.length, inb, 0)

/-- Copy of `zFile::uncompress` (pass-through): result is the returned size, the bytes
of `out`, `*preturn` and `*psize`. -/
def uncompress (inb : List Byte) : Nat × List Byte × Nat × Nat :=
  (inb.length, inb, 0, 0)

end zFile

namespace zFilelz4

/-- Copy of `zFilelz4::compress(id, puser, in, insize, out, outsize, preturn)` for the
selected function `func` and level: result is the returned `size_t`, the bytes of `out`
(length word, then payload) and `*preturn`. The codec writes at `out + 4` and is told
`outsize - 4` as destination size; its `int` result is stored in a `size_t`, so the test
`size <= 0` holds only for 0. -/
def compress (lib : Lib) (func : compressFunc_t) (level : Nat) (inb : List Byte)
    (outsize : Nat) : Nat × List Byte × Nat :=
  let r := lib.compress func inb (toInt32 (sizeSub outsize 4)) level
  let size := toSizeT r.1
  if size = 0 then
    (((inb.length + 4) % 18446744073709551616),
     le32 (((inb.length % 4294967296) &&& 0x7fffffff) ||| 0x80000000) ++ inb,
     0)
  else
    (((size + 4) % 18446744073709551616), le32 size ++ r.2, 1)

/-- The loop of `zFilelz4::uncompress`; the state is `inptrsz`, `outptrsz` and the bytes
written to `out`; the result adds `*preturn`. The loop consumes at least four input bytes
per turn, so `fuel` = number of input bytes + 1 turns are never used up. -/
def uncompressLoop (lib : Lib) (func : uncompressFunc_t) (inb : List Byte) (outsize : Nat) :
    Nat → Nat → Nat → List Byte → Nat × Nat × List Byte × Nat
  | 0, inptrsz, outptrsz, out => (inptrsz, outptrsz, out, 0)
  | fuel + 1, inptrsz, outptrsz, out =>
    if inptrsz + 4 < inb.length then
      let word := le32toh (inb.drop inptrsz)
      let uncompressed : Bool := decide (2147483648 ≤ word)
      let zblocsize := word &&& 0x7fffffff
      if inptrsz + zblocsize + 4 > inb.length then (inptrsz, outptrsz, out, 1)
      else if zblocsize = LZ4S_EOS then (inb.length, outptrsz, out, 3)
      else if uncompressed then
        if outptrsz + zblocsize > outsize then (inptrsz, outptrsz, out, 2)
        else
          uncompressLoop lib func inb outsize fuel (inptrsz + zblocsize + 4)
            (outptrsz + zblocsize) (out ++ (inb.drop (inptrsz + 4)).take zblocsize)
      else
        let r := lib.decompress func ((inb.drop (inptrsz + 4)).take zblocsize)
                   (toInt32 (sizeSub outsize outptrsz))
        if r.1 ≤ 0 then (inptrsz, outptrsz, out, 2)
        else
          uncompressLoop lib func inb outsize fuel (inptrsz + zblocsize + 4)
            (outptrsz + r.1.toNat) (out ++ r.2.take r.1.toNat)
    else (inptrsz, outptrsz, out, 0)

/-- Copy of `zFilelz4::uncompress(id, puser, in, insize, out, outsize, preturn, psize)`:
result is the returned size `outptrsz`, the bytes of `out`, `*preturn` and `*psize`. -/
def uncompress (lib : Lib) (func : uncompressFunc_t) (inb : List Byte) (outsize : Nat) :
    Nat × List Byte × Nat × Nat :=
  let r := uncompressLoop lib func inb outsize (inb.length + 1) 0 0 []
  (r.2.1, r.2.2.1, r.2.2.2, inb.length - r.1)

end zFilelz4

/-! ## Worker jobs and the write path (`zfile.cc`) -/

namespace zFile

/-- The virtual call `_zfile->compress(...)`: a `zFilelz4` object (recognised by
`_file.type`, which only its constructor sets) runs `zFilelz4::compress`, a plain `zFile`
runs the pass-through. A null `compressfunc` cannot be called; that case is outside the
model and gives the pass-through result. -/
def compressV (lib : Lib) (s : zFile) (inb : List Byte) (outsize : Nat) :
    Nat × List Byte × Nat :=
  if s.file_type = .e_lz4 then
    match s.lz4_compressfunc with
    | some f => zFilelz4.compress lib f s.zip_level inb outsize
    | none => zFile.compress inb
  else zFile.compress inb

/-- The virtual call `_zfile->uncompress(...)`. -/
def uncompressV (lib : Lib) (s : zFile) (inb : List Byte) (outsize : Nat) :
    Nat × List Byte × Nat × Nat :=
  if s.file_type = .e_lz4 then
    match s.unlz4_uncompressfunc with
    | some f => zFilelz4.uncompress lib f inb outsize
    | none => zFile.uncompress inb
  else zFile.uncompress inb

/-- Body of the static function `MemPool::thread` for pool `p` of stream `s`: a zip pool
compresses `_in` into `_out`; an unzip pool decompresses and moves the unconsumed input
bytes to the front of `_in`. -/
def threadJob (lib : Lib) (s : zFile) (p : MemPool) : Job :=
  match p.mode with
  | .e_ZipPool =>
    let r := s.compressV lib p.inb p.poolsize
    { outsize := r.1, out := r.2.1, zreturn := r.2.2, inb := p.inb }
  | .e_UnzipPool =>
    let r := s.uncompressV lib p.inb p.poolsize
    let remaining := r.2.2.2
    { outsize := r.1, out := r.2.1, zreturn := r.2.2.1,
      inb := (p.inb.drop (p.inb.length - remaining)).take remaining }

/-- Copy of `zFile::flush`: the oldest used pool is joined, its output written, an index
entry with the two running offsets put in the index, the counters advanced and the pool
recycled. The statement `_listindex.push_back(IndexEntry_t(noffset, nzoffset))` names a
member function the container does not have and a constructor with two arguments instead
of four: it is read as the insertion, in the `std::set` ordered by `offset.n`, of an entry
with these two offsets (an entry whose `offset.n` is already present is not inserted). The
size members, which the statement does not name, are 0 here; in write mode nothing reads
them. `front()` of an empty list is not defined: the state is returned unchanged. -/
def flush_zFile (lib : Lib) (s : zFile) : zFile :=
  match s.zip_listused with
  | [] => s
  | pool :: rest =>
    let w := pool.wait lib
    let s1 := if w.2 ≠ 0 then s.setError .e_JobWaitError "Error joining write thread" else s
    let pool1 := w.1
    { s1 with
      zip_listused := rest,
      file_stream := s1.file_stream.write pool1.getOutptr,
      listindex := setInsert (IndexEntry_t.ctor s1.zip_noffset 0 s1.zip_nzoffset 0) s1.listindex,
      zip_nzoffset := s1.zip_nzoffset + (pool1.getOutsize &&& 0x7fffffff),
      zip_noffset := s1.zip_noffset + pool1.getInsize,
      zip_listfree := s1.zip_listfree ++ [pool1.reset] }

/-- Copy of `zFilelz4::flush`: the checksum state is fed with the input of the oldest used
pool, the pool is joined, then `zFile::flush` runs. -/
def flush_zFilelz4 (lib : Lib) (s : zFile) : zFile :=
  match s.zip_listused with
  | [] => s
  | pool :: rest =>
    let s1 := { s with xxh32state := XXH32_update s.xxh32state pool.getInptr }
    let w := pool.wait lib
    let s2 := if w.2 ≠ 0 then s1.setError .e_JobWaitError "Error joining write thread" else s1
    flush_zFile lib { s2 with zip_listused := w.1 :: rest }

/-- The virtual call `flush()`. -/
def flush (lib : Lib) (s : zFile) : zFile :=
  if s.file_type = .e_lz4 then flush_zFilelz4 lib s else flush_zFile lib s

/-- Copy of `zFile::nextPool`. With a null `curpool` the call is not defined: the state
is returned unchanged. -/
def nextPool (lib : Lib) (s : zFile) : zFile :=
  match s.zip_curpool with
  | none => s
  | some cur =>
    let s1 := { s with zip_listused := s.zip_listused ++ [cur],
                       submitted := s.submitted ++ [cur.inb] }
    let s2 := if s1.zip_listfree.length = 0 then flush lib s1 else s1
    { s2 with zip_curpool := s2.zip_listfree.head?, zip_listfree := s2.zip_listfree.tail }

/-- The `while (treatsize > 0)` loop of `zFile::mwrite`; `data` holds the `treatsize` bytes
at `ptreatptr`. Result: the state and the bytes left when the loop ends. -/
def mwriteLoop (lib : Lib) : Nat → zFile → List Byte → zFile × List Byte
  | 0, s, data => (s, data)
  | fuel + 1, s, data =>
    if data.length > 0 then
      match s.zip_curpool with
      | none => (s, data)
      | some cur =>
        let a := cur.add data
        if a.2 = 0 then
          let r := cur.run lib (s.threadJob lib cur)
          if r.2 ≠ 0 then
            (match r.2 with
             | 1 => s.setError .e_JobInitError "Error initializing write thread"
             | 2 => s.setError .e_JobCreateError "Error running write thread"
             | _ => s.setError .e_JobUnknownError "Unhandled write thread error", data)
          else mwriteLoop lib fuel (nextPool lib { s with zip_curpool := some r.1 }) data
        else mwriteLoop lib fuel { s with zip_curpool := some a.1 } (data.drop a.2)
    else (s, data)

/-- Copy of `zFile::mwrite(ptr, size)`: result is the state and the returned count
`size - treatsize`. A turn of the loop either takes bytes or replaces the current pool,
and a replaced pool is taken from the free list or comes back reset from `flush`, so
`2 * size + |listfree| + 2` turns are enough. -/
def mwrite (lib : Lib) (s : zFile) (data : List Byte) : zFile × Nat :=
  if s.file_mode ≠ .e_WriteMode then
    (s.setError .e_WriteError "Error writing in a read mode file", 0)
  else
    let r := mwriteLoop lib (2 * data.length + s.zip_listfree.length + 2) s data
    (r.1, data.length - r.2.length)

/-- The loop `while (_zip.listused.size() != 0) flush();` of `zFile::close`; every call of
`flush` removes one pool from the list. -/
def flushLoop (lib : Lib) : Nat → zFile → zFile
  | 0, s => s
  | fuel + 1, s => if s.zip_listused.length ≠ 0 then flushLoop lib fuel (flush lib s) else s

/-- Copy of `zFile::close`. The call dereferences `curpool`: with a null `curpool` (a
stream built with `nthread = 0`) it is not defined, and the state is returned unchanged;
the statements about `close` are made for streams built with at least one pool. -/
def close (lib : Lib) (s : zFile) : zFile :=
  if s.file_mode = .e_WriteMode then
    match s.zip_curpool with
    | none => s
    | some cur =>
      let r := cur.run lib (s.threadJob lib cur)
      let s1 := if r.2 = 0 then nextPool lib { s with zip_curpool := some r.1 } else s
      flushLoop lib s1.zip_listused.length s1
  else s

/-- Copy of `zFile::seekf`: result is the state and the returned boolean. -/
def seekf (s : zFile) (offset : Nat) (way : SeekDirection_t) : zFile × Bool :=
  if s.file_mode = .e_ReadMode then
    let st := s.file_stream.seekg (toOff offset) way
    ({ s with file_stream := st }, !st.fail)
  else (s.setError .e_SeekError "Seek unhandled for write mode files", false)

/-- Copy of `zFile::eof`. -/
def eof (s : zFile) : Bool :=
  match s.unzip_readpool with
  | none => false
  | some rp => s.file_stream.eof && rp.inEmpty && rp.outEmpty

end zFile

/-! ## Frame codec (`zfilelz4.cc`) -/

namespace zFilelz4

/-- The header check byte: `(XXH32(&buffer.flag, 2, seed) >> 8) & 0xff`. -/
def headerCrc (lib : Lib) (flag blk : Byte) : Byte :=
  byteOf (((lib.XXH32 [flag, blk] checksum_seed % 4294967296) >>> 8) &&& 0xff)

/-- Copy of `zFilelz4::writeHeader`. -/
def writeHeader (lib : Lib) (s : zFile) : zFile :=
  let magic := le32 LZ4F_MAGICNUMBER
  let flag := s.flag.byte
  let blk := byteOf ((s.blockSizeId &&& 7) <<< 4)
  let crc := headerCrc lib flag blk
  let st := s.file_stream.write (magic ++ [flag, blk, crc])
  let s1 := { s with file_stream := st }
  let s2 := if st.fail then s1.setError .e_WriteError "Error writing lz4 header" else s1
  { s2 with zip_nzoffset := s2.zip_nzoffset + offsetof_unused }

/-- Copy of `zFilelz4::readHeader`. -/
def readHeader (lib : Lib) (s : zFile) : zFile :=
  let r := s.file_stream.read offsetof_unused
  let s1 := { s with file_stream := r.1 }
  if r.1.fail then s1.setError .e_ReadError "Error reading lz4 file header"
  else
    let buffer := r.2
    let flag := buffer.getD 4 0
    let blk := buffer.getD 5 0
    let bcrc := buffer.getD 6 0
    let crc := headerCrc lib flag blk
    if le32toh buffer ≠ LZ4F_MAGICNUMBER then
      s1.setError .e_HeaderError "Invalid magic number"
    else if flag ≠ s.flag.byte then
      s1.setError .e_HeaderError "Unhandled lz4 file format"
    else if bcrc ≠ crc then
      s1.setError .e_HeaderError "CRC header error"
    else { s1 with blockSizeId := (blk.val >>> 4) &&& 7 }

/-- Copy of `zFilelz4::writeTail`: the end mark and the checksum, the skippable header,
the identification, the `offset` member of every entry, and the header once more. -/
def writeTail (lib : Lib) (s : zFile) : zFile :=
  let crc := if s.flag.streamChecksum ≠ 0 then XXH32_digest lib s.xxh32state else 0
  let st1 := s.file_stream.write (le32 LZ4S_EOS ++ le32 crc)
  let s1 := { s with file_stream := st1 }
  let s2 := if st1.fail then s1.setError .e_WriteError "Error writing lz4 tail" else s1
  let header :=
    le32 SKIPPABLE_MAGIC_NUMBER_0 ++
    le32 (sizeof_MetaIdentification_t + s.listindex.length * indexsize + sizeof_MetaHeader_t)
  let ident :=
    le32 METADATA_MAGIC_NUMBER_0 ++ le32 1 ++ le32 0 ++ le32 (s.listindex.length * indexsize)
  let st2 := s2.file_stream.write header
  let s3 := { s2 with file_stream := st2 }
  let s4 := if st2.fail then s3.setError .e_WriteError "Error writing lz4 tail header" else s3
  let st3 := s4.file_stream.write ident
  let s5 := { s4 with file_stream := st3 }
  let s6 :=
    if st3.fail then s5.setError .e_WriteError "Error writing lz4 tail metadata identification"
    else s5
  let st4 := s6.listindex.foldl (fun st e => st.write (le32 e.offset.n ++ le32 e.offset.z))
               s6.file_stream
  let st5 := st4.write header
  let s7 := { s6 with file_stream := st5 }
  if st5.fail then s7.setError .e_WriteError "Error writing lz4 tail second header" else s7

/-- The `for` loop of `zFilelz4::readTail`: `count` turns, each reading the entry at
`pptr` and the next one. -/
def readTailLoop (ptr : List Byte) : Nat → Nat → List IndexEntry_t → Nat × List IndexEntry_t
  | 0, pptr, idx => (pptr, idx)
  | count + 1, pptr, idx =>
    let n := le32toh (ptr.drop pptr)
    let z := le32toh (ptr.drop (pptr + 4))
    let nn := le32toh (ptr.drop (pptr + indexsize))
    let nz := le32toh (ptr.drop (pptr + indexsize + 4))
    readTailLoop ptr count (pptr + indexsize)
      (setInsert (IndexEntry_t.ctor n (u32Sub nn n) z (u32Sub nz z)) idx)

/-- The part of `zFilelz4::readTail` that works on the array `ptr` (of `header.size`
bytes) once it is read: the identification is checked and the entries are inserted in the
index, each with the differences to the next entry as sizes, the last one with the
distance to `lastbloc`. The result is `none` when the function reads outside `ptr`: when
`ptr` is shorter than the 16 bytes of the identification, or when the entries visited
(`ident->size / 8 - 1` turns of the loop, computed in `size_t`, plus the last entry) do
not fit in it. -/
def parseMeta (ptr : List Byte) (lastbloc : Nat) (idx : List IndexEntry_t) :
    Option (List IndexEntry_t) :=
  if ptr.length < sizeof_MetaIdentification_t then none
  else
    let imagic := le32toh ptr
    let iversion := le32toh (ptr.drop 4)
    let itype := le32toh (ptr.drop 8)
    let isize := le32toh (ptr.drop 12)
    if imagic = METADATA_MAGIC_NUMBER_0 ∧ iversion = 1 ∧ itype = 0 then
      let count := sizeSub (isize / indexsize) 1
      if sizeof_MetaIdentification_t + (count + 1) * indexsize ≤ ptr.length then
        let l := readTailLoop ptr count sizeof_MetaIdentification_t idx
        let n := le32toh (ptr.drop l.1)
        let z := le32toh (ptr.drop (l.1 + 4))
        some (setInsert (IndexEntry_t.ctor n (sizeSub lastbloc z) z (sizeSub lastbloc z)) l.2)
      else none
    else some idx

/-- Copy of `zFilelz4::readTail`: the last 8 bytes of the file are read; when they carry
the skippable magic number, the array `char ptr[header.size]` is declared on the stack, the
`header.size` last bytes are read into it and parsed (`parseMeta`); the position is then
set just after the file header. The result is `none` when the function does not return:
when the array does not fit in the stack (`lib.stack < header.size`, the process is
killed at the next call), or when `parseMeta` reads outside the array. -/
def readTail (lib : Lib) (s : zFile) : Option zFile :=
  let st1 := s.file_stream.seekg (toOff (sizeSub 0 sizeof_MetaHeader_t)) .e_SeekEnd
  let r1 := st1.read sizeof_MetaHeader_t
  if r1.1.fail || r1.2.length ≠ sizeof_MetaHeader_t then
    some ({ s with file_stream := r1.1 }.setError .e_ReadError
            "Error reading lz4 tail second header")
  else
    let hmagic := le32toh r1.2
    let hsize := le32toh (r1.2.drop 4)
    if hmagic = SKIPPABLE_MAGIC_NUMBER_0 then
      if lib.stack < hsize then none
      else
        let st2 := r1.1.seekg (toOff (sizeSub 0 hsize)) .e_SeekEnd
        let lastbloc := st2.tellg
        let r2 := st2.read hsize
        if r2.1.fail || r2.2.length ≠ hsize then
          some ({ s with file_stream := r2.1 }.setError .e_ReadError
                  "Error reading lz4 meta data")
        else
          match parseMeta r2.2 lastbloc s.listindex with
          | none => none
          | some idx =>
            some { s with listindex := idx, file_stream := r2.1.seekp offsetof_unused }
    else some { s with file_stream := r1.1.seekp offsetof_unused }

/-- The base-class construction and the member initialisations that precede the mode test
in the constructor `zFilelz4(filename, mode, blocsize, level, nthread)`: the base class
gets `min(blocsize, 4 MiB)` in write mode and 4 MiB in read mode. The parameter `level` is
a `uint8_t`: the argument of the caller is reduced modulo 256. -/
def ctorInit (file : Option (List Byte)) (mode : OpenMode_t)
    (blocsize level nthread : Nat) : zFile :=
  let b := zFile.ctor file mode
    (if mode = .e_WriteMode then min blocsize LZ4F_MAXBLOC_SIZE else LZ4F_MAXBLOC_SIZE) nthread
  { b with file_type := .e_lz4, zip_level := level % 256, lz4_compressfunc := none,
           lz4_ncontext := 0, unlz4_uncompressfunc := none, unlz4_eos := false,
           blockSizeId := 0, xxh32state := XXH32_reset checksum_seed }

/-- Constructor `zFilelz4(filename, mode, blocsize, level, nthread)`; `file` as for
`zFile.ctor`. In read mode the result is `none` when `readTail` does not return. -/
def ctor (lib : Lib) (file : Option (List Byte)) (mode : OpenMode_t)
    (blocsize level nthread : Nat) : Option zFile :=
  let s0 := ctorInit file mode blocsize level nthread
  if s0.file_mode = .e_WriteMode then
    let id :=
      if s0.blocsize ≤ LZ4F_BLOC4_SIZE then 4
      else if s0.blocsize ≤ LZ4F_BLOC5_SIZE then 5
      else if s0.blocsize ≤ LZ4F_BLOC6_SIZE then 6
      else 7
    let func :=
      if s0.zip_level < min_HClevel then
        (if s0.flag.blockIndependence = 1 then compressFunc_t.compress_fast_extState
         else compressFunc_t.compress_fast_continue)
      else
        (if s0.flag.blockIndependence = 1 then compressFunc_t.compress_HC_extStateHC
         else compressFunc_t.compress_HC_continue)
    some (writeHeader lib
      { s0 with blockSizeId := id, lz4_ncontext := s0.zip_listpool.length,
                lz4_compressfunc := some func })
  else
    match readTail lib (readHeader lib s0) with
    | none => none
    | some s1 =>
      let ufunc :=
        if s1.flag.blockIndependence = 1 then uncompressFunc_t.decompress_fast
        else uncompressFunc_t.decompress_fast_continue
      some { s1 with unlz4_uncompressfunc := some ufunc }

end zFilelz4

namespace zFile

/-- Destructor `~zFile`: `close()` runs on an object that is a plain `zFile` by then (its
virtual calls reach the `zFile` versions); the pools are freed and the stream closed. -/
def dtor (lib : Lib) (s : zFile) : zFile :=
  close lib { s with file_type := .e_none }

end zFile

namespace zFilelz4

/-- Destructor `~zFilelz4` followed by `~zFile`: in write mode the last pools are flushed
and the tail written. The bytes of the file are `file_stream.content` of the result. -/
def dtor (lib : Lib) (s : zFile) : zFile :=
  if s.file_mode = .e_WriteMode then zFile.dtor lib (writeTail lib (zFile.close lib s))
  else zFile.dtor lib s

/-- Copy of `zFilelz4::islz4`: a read-mode object is built with `(65536, 1, 1)` and the
answer is `!fail()`. -/
def islz4 (lib : Lib) (file : Option (List Byte)) : Option Bool :=
  (ctor lib file .e_ReadMode 65536 1 1).map fun z => !z.fail

end zFilelz4

namespace zFile

/-- Copy of `zFile::getFormat`. -/
def getFormat (lib : Lib) (file : Option (List Byte)) : Option CompressionType_t :=
  (zFilelz4.islz4 lib file).map fun b =>
    if b then CompressionType_t.e_lz4 else CompressionType_t.e_none

/-- Copy of `zFile::create(filename, mode, type, level, blocsize, nthread)`, the only
public way to a `zFilelz4` object: its `uint16_t level` is passed to the `uint8_t`
parameter of the constructor, which keeps the 8 low bits (`ctorInit`). Result: `none` when the constructor does not return,
otherwise the pointer (`some none` is `NULL`, for a type that is neither lz4 nor none). -/
def create (lib : Lib) (file : Option (List Byte)) (mode : OpenMode_t)
    (type : CompressionType_t) (level blocsize nthread : Nat) : Option (Option zFile) :=
  match type with
  | .e_lz4 => (zFilelz4.ctor lib file mode blocsize level nthread).map some
  | .e_none => some (some (zFile.ctor file mode blocsize nthread))
  | _ => some none

/-! ### The read path -/

/-- The `while (readsize > 0)` loop of `zFile::read`. Result: the state, `readsize` when
the loop ends and the bytes copied to the caller; `none` when the loop has not ended
after `fuel` turns. -/
def readLoop (lib : Lib) : Nat → zFile → Nat → List Byte → Option (zFile × Nat × List Byte)
  | 0, _, _, _ => none
  | fuel + 1, s, readsize, acc =>
    if readsize > 0 then
      match s.unzip_readpool with
      | none => some (s, readsize, acc)
      | some rp =>
        let g := rp.get readsize
        if g.2.1 ≠ 0 then
          readLoop lib fuel { s with unzip_readpool := some g.1 } (readsize - g.2.1)
            (acc ++ g.2.2)
        else
          let a : MemPool × FStream × Nat :=
            if rp.getReturn ≠ 2 then rp.addStream s.file_stream s.blocsize
            else (rp, s.file_stream, 0)
          let s1 := { s with unzip_readpool := some a.1, file_stream := a.2.1 }
          if rp.getReturn ≠ 2 ∧ a.2.1.fail ∧ a.2.2 = 0 then
            some (s1.setError .e_ReadError "Error reading data", readsize, acc)
          else
            let r := a.1.run lib (s1.threadJob lib a.1)
            if r.2 ≠ 0 then
              some (s1.setError .e_ReadError "Error running read thread", readsize, acc)
            else
              let w := r.1.wait lib
              let s2 := { s1 with unzip_readpool := some w.1 }
              if w.2 ≠ 0 then
                some (s2.setError .e_ReadError "Error joining read thread", readsize, acc)
              else readLoop lib fuel s2 readsize acc
    else some (s, readsize, acc)

/-- Copy of `zFile::read(ptr, size)` run for at most `fuel` turns of its loop: the state,
the returned count `size - readsize` and the bytes stored at `ptr`. -/
def read (lib : Lib) (fuel : Nat) (s : zFile) (size : Nat) : Option (zFile × Nat × List Byte) :=
  if s.file_mode = .e_WriteMode then
    some (s.setError .e_ReadError "Error reading a file openned in write mode", 0, [])
  else
    (readLoop lib fuel s size []).map fun r => (r.1, size - r.2.1, r.2.2)

end zFile

end Zcp

namespace Zcp

/-! ## Sample collaborators used to evaluate the model -/

/-! The XXH32 algorithm as published (32-bit arithmetic), used to instantiate `Lib.XXH32`
in the examples; the theorems hold for every `Lib`. -/

def PRIME32_1 : Nat := 2654435761
def PRIME32_2 : Nat := 2246822519
def PRIME32_3 : Nat := 3266489917
def PRIME32_4 : Nat := 668265263
def PRIME32_5 : Nat := 374761393

def rotl32 (x r : Nat) : Nat := ((x <<< r) ||| (x >>> (32 - r))) % 4294967296

def word32 (a b c d : Byte) : Nat := a.val + 256 * b.val + 65536 * c.val + 16777216 * d.val

def xxh32Round (acc w : Nat) : Nat :=
  (rotl32 ((acc + w * PRIME32_2) % 4294967296) 13 * PRIME32_1) % 4294967296

/-- Stripes of 16 bytes folded into the four accumulators. -/
def xxh32Stripes : List Byte → Nat × Nat × Nat × Nat → (Nat × Nat × Nat × Nat) × List Byte
  | a0 :: a1 :: a2 :: a3 :: b0 :: b1 :: b2 :: b3 :: c0 :: c1 :: c2 :: c3 :: d0 :: d1 :: d2 :: d3 :: rest,
    (v1, v2, v3, v4) =>
    xxh32Stripes rest
      (xxh32Round v1 (word32 a0 a1 a2 a3), xxh32Round v2 (word32 b0 b1 b2 b3),
       xxh32Round v3 (word32 c0 c1 c2 c3), xxh32Round v4 (word32 d0 d1 d2 d3))
  | rest, v => (v, rest)

def xxh32Tail : List Byte → Nat → Nat
  | a :: b :: c :: d :: rest, h =>
    xxh32Tail rest ((rotl32 ((h + word32 a b c d * PRIME32_3) % 4294967296) 17 * PRIME32_4) % 4294967296)
  | a :: rest, h =>
    xxh32Tail rest ((rotl32 ((h + a.val * PRIME32_5) % 4294967296) 11 * PRIME32_1) % 4294967296)
  | [], h => h

def xxh32Avalanche (h : Nat) : Nat :=
  let h1 := ((h ^^^ (h >>> 15)) * PRIME32_2) % 4294967296
  let h2 := ((h1 ^^^ (h1 >>> 13)) * PRIME32_3) % 4294967296
  h2 ^^^ (h2 >>> 16)

def xxh32 (data : List Byte) (seed : Nat) : Nat :=
  let h0 :=
    if 16 ≤ data.length then
      let r := xxh32Stripes data
        ((seed + PRIME32_1 + PRIME32_2) % 4294967296, (seed + PRIME32_2) % 4294967296,
         seed % 4294967296, (seed + 4294967296 - PRIME32_1) % 4294967296)
      ((rotl32 r.1.1 1 + rotl32 r.1.2.1 7 + rotl32 r.1.2.2.1 12 + rotl32 r.1.2.2.2 18) % 4294967296,
       r.2)
    else ((seed + PRIME32_5) % 4294967296, data)
  xxh32Avalanche (xxh32Tail h0.2 ((h0.1 + data.length) % 4294967296))


/-- A stand-in for the libraries: the XXH32 hash, and a block codec that packs a run of 3
to 255 equal bytes into two bytes (count, byte) when two bytes fit the destination and
reports 0 otherwise; thread primitives that succeed; and the 8 MiB stack of a process,
64 KiB of which are in use when `readTail` runs. -/
def libRun : Lib :=
  { XXH32 := xxh32,
    compress := fun _ src dstSize _ =>
      match src with
      | b :: rest =>
        if 3 ≤ src.length ∧ src.length < 256 ∧ rest.all (fun c => c == b) ∧ 2 ≤ dstSize then
          (2, [byteOf src.length, b])
        else (0, [])
      | [] => (0, []),
    decompress := fun _ src maxsize =>
      match src with
      | [n, b] =>
        if (n.val : Int) ≤ maxsize then ((n.val : Int), List.replicate n.val b) else (-1, [])
      | _ => (-1, []),
    pthread_attr_init := 0, pthread_create := 0, pthread_join := 0,
    stack := 8323072 }

/-- A codec that reports the error code -1 on every block. -/
def libNeg : Lib :=
  { libRun with compress := fun _ _ _ _ => (-1, []) }

end Zcp

namespace Zcp

/-! ## Statement vocabulary for the file probes -/

/-- The header test of `readHeader` on a file: 7 readable bytes, the magic number
`04 22 4D 18`, the flag byte `0x64` and the matching check byte. -/
def headerAccepted (lib : Lib) (f : List Byte) : Prop :=
  7 ≤ f.length ∧ f.take 4 = [0x04, 0x22, 0x4D, 0x18] ∧ f.getD 4 0 = 0x64 ∧
    f.getD 6 0 = zFilelz4.headerCrc lib (f.getD 4 0) (f.getD 5 0)

/-- The magic word of the last 8 bytes of a file. -/
def tailMagic (f : List Byte) : Nat := le32toh (f.drop (f.length - 8))

/-- The size word of the last 8 bytes of a file. -/
def tailSize (f : List Byte) : Nat := le32toh (f.drop (f.length - 4))

/-- The reads of `readTail` succeed: the last 8 bytes exist and, when they start with the
skippable magic number, their size word does not exceed the file length. -/
def tailAccepted (f : List Byte) : Prop :=
  8 ≤ f.length ∧ (tailMagic f = SKIPPABLE_MAGIC_NUMBER_0 → tailSize f ≤ f.length)

/-- The array `char ptr[header.size]` of `readTail` fits in the stack: when the last 8
bytes start with the skippable magic number, their size word does not exceed the room
the stack has left. -/
def tailFits (lib : Lib) (f : List Byte) : Prop :=
  8 ≤ f.length → tailMagic f = SKIPPABLE_MAGIC_NUMBER_0 → tailSize f ≤ lib.stack

/-- The parse of `readTail` stays inside the payload it read. -/
def tailInside (f : List Byte) : Prop :=
  8 ≤ f.length → tailMagic f = SKIPPABLE_MAGIC_NUMBER_0 → tailSize f ≤ f.length →
    (zFilelz4.parseMeta (f.drop (f.length - tailSize f)) (f.length - tailSize f) []).isSome
      = true

/-- The frame of a block: the `out_len` first bytes of `out` after `zFilelz4::compress`,
which are the bytes `flush` writes to the file. -/
def blockFrame (lib : Lib) (func : compressFunc_t) (level : Nat) (inb : List Byte)
    (outsize : Nat) : List Byte :=
  ((zFilelz4.compress lib func level inb outsize).2.1).take
    (zFilelz4.compress lib func level inb outsize).1

/-- The state `a` is the state `b` of an operation run with the error `e`, `m` recorded
beforehand: the operation did the same work and kept the recorded error (`a` is `b` with
`e`, `m` stored), or it did the same work and recorded an error of its own over it (`a` is
`b`, and `b` holds an error). -/
def zFile.errorKept (e : zFileError_t) (m : String) (a b : zFile) : Prop :=
  a = b.setError e m ∨ (a = b ∧ b.fail = true)

end Zcp

namespace Zcp

/-! ## States used in the examples -/

/-- A write-mode `zFilelz4` object (64 KiB blocks, level 1, one thread) on an empty file,
before the header is written, holding the index `idx`. -/
def writerWith (idx : List IndexEntry_t) : zFile :=
  { zFilelz4.ctorInit (some []) .e_WriteMode 65536 1 1 with listindex := idx }

/-- A read-mode `zFilelz4` object on the file `f`, before the header is read. -/
def readerOn (f : List Byte) : zFile :=
  zFilelz4.ctorInit (some f) .e_ReadMode 65536 1 1

/-- An index of `2^29` entries with `uoff = zoff = 0, 1, 2, ...`. -/
def bigIndex : List IndexEntry_t :=
  (List.range 536870912).map (fun i => IndexEntry_t.ctor i 0 i 0)

end Zcp

namespace Zcp

/-! ## Write sessions with worker completions -/

/-- What can happen to a write-mode stream between its construction and its destruction:
the producer calls `mwrite` or `close`, or the worker of the pool `id` ends. -/
inductive WEvent where
  | mwrite (data : List Byte)
  | close
  | workerDone (id : Nat)
  deriving DecidableEq, Repr

/-- The worker of the in-flight pool `id` ends and stores its result. -/
def zFile.workerDone (s : zFile) (id : Nat) : zFile :=
  { s with zip_listused := s.zip_listused.map (fun p => if p.id = id then p.finish else p) }

/-- The state after a sequence of events. -/
def runEvents (lib : Lib) : List WEvent → zFile → zFile
  | [], s => s
  | WEvent.mwrite data :: es, s => runEvents lib es (zFile.mwrite lib s data).1
  | WEvent.close :: es, s => runEvents lib es (zFile.close lib s)
  | WEvent.workerDone id :: es, s => runEvents lib es (s.workerDone id)

/-- The state after a sequence of events in which every call has its own record of library
results: the thread primitives may fail in one call and succeed in the next. -/
def runCalls : List (Lib × WEvent) → zFile → zFile
  | [], s => s
  | (lib, WEvent.mwrite data) :: es, s => runCalls es (zFile.mwrite lib s data).1
  | (lib, WEvent.close) :: es, s => runCalls es (zFile.close lib s)
  | (_, WEvent.workerDone id) :: es, s => runCalls es (s.workerDone id)

/-- A session on three pools of 4 bytes: nine bytes written, then the worker of the second
pool ends before the worker of the first, then `close()`. -/
def orderEvents : List WEvent :=
  [.mwrite [1, 1, 1, 1, 2, 2, 2, 2, 3], .workerDone 1, .workerDone 0, .close]

/-- The offsets `flush` records for the blocks `bs` flushed in this order, when the
counters `N` and `Z` hold `n` and `z` before the first of them: each block advances `N`
by its length and `Z` by `out_len & 0x7FFFFFFF`. -/
def indexOffsets (lib : Lib) (func : compressFunc_t) (level C : Nat) :
    Nat → Nat → List (List Byte) → List (Nat × Nat)
  | _, _, [] => []
  | n, z, b :: bs =>
    (n % 4294967296, z % 4294967296) ::
      indexOffsets lib func level C (n + b.length)
        (z + ((zFilelz4.compress lib func level b C).1 &&& 0x7fffffff)) bs

/-- The `(uoff, zoff)` pairs of the index after `setInsert` of an entry with the offsets
`p`: the index is ordered by `uoff` and holds one entry for each `uoff`. -/
def insertOffset (p : Nat × Nat) : List (Nat × Nat) → List (Nat × Nat)
  | [] => [p]
  | x :: xs =>
    if p.1 < x.1 then p :: x :: xs
    else if x.1 < p.1 then x :: insertOffset p xs
    else x :: xs

/-- The `(uoff, zoff)` pairs of the index once the offsets `ps` have been inserted one
after the other, starting from the empty index. -/
def setOffsets (ps : List (Nat × Nat)) : List (Nat × Nat) :=
  ps.foldl (fun idx p => insertOffset p idx) []

end Zcp

namespace Zcp

/-! ## Invariant of a write session -/

/-- The total length of the blocks `bs`. -/
def sumN (bs : List (List Byte)) : Nat := (bs.map (fun b => b.length)).sum

/-- The total of `out_len & 0x7FFFFFFF` over the frames of the blocks `bs`. -/
def sumZ (lib : Lib) (func : compressFunc_t) (level C : Nat) (bs : List (List Byte)) : Nat :=
  (bs.map (fun b => (zFilelz4.compress lib func level b C).1 &&& 0x7fffffff)).sum

/-- An in-flight pool: a zip pool of capacity `C` whose worker either is still to store
the result of `zFilelz4::compress` on the input of the pool, or has stored it. -/
def InFlight (lib : Lib) (func : compressFunc_t) (level C : Nat) (p : MemPool) : Prop :=
  p.mode = .e_ZipPool ∧ p.poolsize = C ∧
  ((p.thid ≠ 0 ∧
      p.job = some { outsize := (zFilelz4.compress lib func level p.inb C).1,
                     out := (zFilelz4.compress lib func level p.inb C).2.1,
                     zreturn := (zFilelz4.compress lib func level p.inb C).2.2,
                     inb := p.inb }) ∨
   (p.job = none ∧ p.outsize = (zFilelz4.compress lib func level p.inb C).1 ∧
      p.out = (zFilelz4.compress lib func level p.inb C).2.1))

/-- The invariant of a write-mode `zFilelz4` stream with pools of capacity `C`, codec
`func` and `level`, whose file started with the bytes `hdr`: `done` are the blocks
flushed so far, in order. -/
structure WInv (lib : Lib) (func : compressFunc_t) (level C : Nat) (hdr : List Byte)
    (s : zFile) (done : List (List Byte)) : Prop where
  ftype : s.file_type = .e_lz4
  fmode : s.file_mode = .e_WriteMode
  cfunc : s.lz4_compressfunc = some func
  lvl : s.zip_level = level
  good : s.file_stream.good = true
  cur : ∃ cur, s.zip_curpool = some cur ∧ cur.mode = .e_ZipPool ∧ cur.poolsize = C
  free : ∀ p ∈ s.zip_listfree, p.mode = .e_ZipPool ∧ p.poolsize = C
  used : ∀ p ∈ s.zip_listused, InFlight lib func level C p
  sub : s.submitted = done ++ s.zip_listused.map (fun p => p.inb)
  content : s.file_stream.content = hdr ++ done.flatMap (fun b => blockFrame lib func level b C)
  index : s.listindex.map (fun e => (e.offset.n, e.offset.z))
            = setOffsets (indexOffsets lib func level C 0 7 done)
  noff : s.zip_noffset = sumN done
  nzoff : s.zip_nzoffset = 7 + sumZ lib func level C done

end Zcp

namespace Zcp

/-! ## Whole sessions -/

/-- The write session of `main.cpp` on an lz4 output file: the stream is built on the
empty file, `X` is written with `mwrite`, then `close()` and `delete`. Result: the bytes
of the produced file. -/
def writeSession (lib : Lib) (blocsize level nthread : Nat) (X : List Byte) :
    Option (List Byte) :=
  (zFilelz4.ctor lib (some []) .e_WriteMode blocsize level nthread).map fun s =>
    (zFilelz4.dtor lib (zFile.close lib (zFile.mwrite lib s X).1)).file_stream.content

end Zcp

namespace Zcp

/-! ## Seek by uncompressed offset -/

namespace zFile

/-- Modelled from the spec: the entry from which a seek to the uncompressed `offset`
starts, the one with the largest `uoff ≤ offset` (the index is ordered by `uoff`). -/
def seekEntry (idx : List IndexEntry_t) (offset : Nat) : Option IndexEntry_t :=
  (idx.filter (fun e => decide (e.offset.n ≤ offset))).getLast?

/-- Modelled from the spec: `seekz(offset, e_SeekBegin)`. The sources declare `seekz` and
hold no body for it. The entry with the largest `uoff ≤ offset` is looked up, the file is
positioned at its `zoff`, the reader pool is reset, and `offset - uoff` bytes are decoded
with `read` and dropped. The boolean is `!fail()`; the result is `none` when the decoding
has not ended after `fuel` turns of the loop of `read`. -/
def seekz (lib : Lib) (fuel : Nat) (s : zFile) (offset : Nat) : Option (zFile × Bool) :=
  match seekEntry s.listindex offset with
  | none => some (s.setError .e_SeekError "Seek outside the index", false)
  | some e =>
    let s1 := { s with file_stream := s.file_stream.seekg (toOff e.offset.z) .e_SeekBegin,
                       unzip_readpool := s.unzip_readpool.map MemPool.reset }
    (read lib fuel s1 (offset - e.offset.n)).map fun r => (r.1, !r.1.fail)

end zFile

/-- A read-mode stream whose reader pool is full of input that starts with a block
frame longer than the pool: the block-length word announces more bytes than the pool
holds, nothing is left to hand out, and the file stream has not failed. -/
structure Stuck (s : zFile) : Prop where
  fmode : s.file_mode = .e_ReadMode
  ftype : s.file_type = .e_lz4
  ufunc : ∃ f, s.unlz4_uncompressfunc = some f
  pool : ∃ rp, s.unzip_readpool = some rp ∧ rp.mode = .e_UnzipPool ∧
    rp.inb.length = rp.poolsize ∧ 4 < rp.inb.length ∧
    rp.inb.length < (le32toh rp.inb &&& 0x7fffffff) + 4 ∧
    sizeSub rp.outsize rp.ptr = 0 ∧ rp.zreturn ≠ 2
  nofail : s.file_stream.failbit = false

end Zcp

namespace Zcp

/-- The bytes of an lz4 file of 4 MiB blocks whose only block is stored raw: the header
`04 22 4D 18 64 70 B9`, the block-length word `0x80400000`, the 4 MiB of the block (zeros
here) and the end mark. -/
def rawBlockFile : List Byte :=
  [0x04, 0x22, 0x4D, 0x18, 0x64, 0x70, 0xB9] ++
    (le32 0x80400000 ++ (List.replicate 4194304 0 ++ [0, 0, 0, 0]))

/-- A read-mode `zFilelz4` object on `rawBlockFile`: the state `ctorInit` builds, with the
index entry of the block and the decompression function. -/
def rawBlockReader : zFile :=
  { zFilelz4.ctorInit (some rawBlockFile) .e_ReadMode 4194304 1 1 with
      listindex := [IndexEntry_t.ctor 0 4194304 7 4194308]
      unlz4_uncompressfunc := some .decompress_fast }

end Zcp

namespace Zcp

/-- The cap the specification gives to a block-size id: 4 → 64 KiB, 5 → 256 KiB,
6 → 1 MiB, 7 → 4 MiB (the comments `max 64KB` ... `max 4MB` of the constructor). -/
def specBlockCap (id : Nat) : Nat := 65536 * 4 ^ (id - 4)

/-- The text "hello world". -/
def helloWorld : List Byte := [104, 101, 108, 108, 111, 32, 119, 111, 114, 108, 100]

end Zcp

namespace Zcp

/-- The 70 bytes the writer produces for "hello world" (64 KiB blocks, level 1, one
thread) when the codec stores the block raw: header (7), block frame `0B 00 00 80` +
11 bytes (15), end mark (4), checksum `CEBB6622` (4), skippable header with size 32 (8),
identification (16), the entry `(0, 7)` (8), skippable header again (8). -/
def helloFile : List Byte :=
  [0x04, 0x22, 0x4D, 0x18, 0x64, 0x40, 0xA7,
   0x0B, 0, 0, 0x80, 104, 101, 108, 108, 111, 32, 119, 111, 114, 108, 100,
   0, 0, 0, 0, 0x22, 0x66, 0xBB, 0xCE,
   0x50, 0x2A, 0x4D, 0x18, 32, 0, 0, 0,
   0xCA, 0xDE, 0xFE, 0xCA, 1, 0, 0, 0, 0, 0, 0, 0, 8, 0, 0, 0,
   0, 0, 0, 0, 7, 0, 0, 0,
   0x50, 0x2A, 0x4D, 0x18, 32, 0, 0, 0]

end Zcp

namespace Zcp

/-! ## Accounting of a write session -/

/-- The bytes `mwrite` has accepted so far: the blocks handed to the workers, in
submission order, followed by the content of the current pool. -/
def zFile.accepted (s : zFile) : List Byte :=
  s.submitted.flatten ++ (match s.zip_curpool with
                          | some c => c.inb
                          | none => [])

/-- The bytes a sequence of events passes to `mwrite`, in order. -/
def bytesWritten : List WEvent → List Byte
  | [] => []
  | WEvent.mwrite data :: es => data ++ bytesWritten es
  | WEvent.close :: es => bytesWritten es
  | WEvent.workerDone _ :: es => bytesWritten es

/-- Every call `mwrite(ptr, size)` of the sequence returns `size`. -/
def mwritesComplete (lib : Lib) : List WEvent → zFile → Prop
  | [], _ => True
  | WEvent.mwrite data :: es, s =>
    (zFile.mwrite lib s data).2 = data.length ∧ mwritesComplete lib es (zFile.mwrite lib s data).1
  | WEvent.close :: es, s => mwritesComplete lib es (zFile.close lib s)
  | WEvent.workerDone id :: es, s => mwritesComplete lib es (s.workerDone id)

/-- The invariant of a write session with its accounting: `WInv`, the checksum state fed
with the flushed blocks in order, free pools that are reset, a current pool that has
nothing but input (at most `C` bytes), and submitted blocks of `1 .. C` bytes. -/
structure SInv (lib : Lib) (func : compressFunc_t) (level C : Nat) (hdr : List Byte)
    (s : zFile) (done : List (List Byte)) : Prop where
  base : WInv lib func level C hdr s done
  xxh : s.xxh32state = { seed := checksum_seed, data := done.flatten }
  free : ∀ p ∈ s.zip_listfree, p.reset = p
  cur : ∀ c, s.zip_curpool = some c → { c with inb := [] } = c.reset ∧ c.inb.length ≤ C
  blocks : ∀ b ∈ s.submitted, b ≠ [] ∧ b.length ≤ C

end Zcp

namespace Zcp

/-! ## Block frames as the decoder sees them -/

/-- A complete block frame with the plaintext it stands for: the flag of the length word
(`raw` = top bit set), the payload that follows the word, and the plaintext. -/
structure Frame where
  raw : Bool
  payload : List Byte
  plain : List Byte
  deriving DecidableEq, Repr

/-- The bytes of a frame: the little-endian length word (payload length, plus the top bit
for a raw frame) and the payload. -/
def Frame.bytes (f : Frame) : List Byte :=
  le32 (if f.raw then f.payload.length + 2147483648 else f.payload.length) ++ f.payload

/-- A well-formed data frame: a payload of `1 .. 2^31 - 1` bytes; a raw frame stands for
its payload; a compressed frame stands for a non-empty plaintext that the block decoder
`func` returns (its count and its bytes) whenever the capacity it is given is at least
the length of the plaintext. -/
def Frame.ok (lib : Lib) (func : uncompressFunc_t) (f : Frame) : Prop :=
  1 ≤ f.payload.length ∧ f.payload.length < 2147483648 ∧
  (f.raw = true → f.plain = f.payload) ∧
  (f.raw = false →
    1 ≤ f.plain.length ∧
    ∀ cap : Int, (f.plain.length : Int) ≤ cap →
      (lib.decompress func f.payload cap).1 = (f.plain.length : Int) ∧
      (lib.decompress func f.payload cap).2.take f.plain.length = f.plain)

/-- The plaintext of a sequence of frames. -/
def framesPlain (fs : List Frame) : List Byte := (fs.map (fun f => f.plain)).flatten

/-- The bytes of a sequence of frames. -/
def framesBytes (fs : List Frame) : List Byte := (fs.map (fun f => f.bytes)).flatten

end Zcp

namespace Zcp

/-! ## The index `readTail` rebuilds -/

/-- The entries the loop of `readTail` builds from the stored offsets `es`: one for each
offset that has a successor, with the differences to the successor (computed in
`uint32_t`) as sizes. -/
def pairEntries : List IndexEntry_t → List IndexEntry_t
  | a :: b :: rest =>
    IndexEntry_t.ctor a.offset.n (u32Sub b.offset.n a.offset.n) a.offset.z
        (u32Sub b.offset.z a.offset.z) :: pairEntries (b :: rest)
  | _ => []

/-- The entry `readTail` builds for the last stored offset: both sizes are
`lastbloc - zoff`. -/
def lastEntry (lastbloc : Nat) (l : IndexEntry_t) : IndexEntry_t :=
  IndexEntry_t.ctor l.offset.n (sizeSub lastbloc l.offset.z) l.offset.z
    (sizeSub lastbloc l.offset.z)

/-- The index `readTail` rebuilds from the stored offsets `es` (ordered by `uoff`). -/
def parsedIndex (lastbloc : Nat) (es : List IndexEntry_t) : List IndexEntry_t :=
  pairEntries es ++ (match es.getLast? with
                     | some l => [lastEntry lastbloc l]
                     | none => [])

end Zcp
namespace Zcp

/-- Index monotonicity: in each pair of adjacent entries `a`, `b` the uncompressed and the
compressed offsets increase strictly and `b.uoff = a.uoff + a.usize`. -/
def indexMonotone : List IndexEntry_t → Bool
  | a :: b :: rest =>
    decide (a.offset.n < b.offset.n) && decide (a.offset.z < b.offset.z) &&
      decide (b.offset.n = a.offset.n + a.size.n) && indexMonotone (b :: rest)
  | _ => true

end Zcp

namespace Zcp

/-- An input of 1026 blocks of 4 MiB - 1: 4 303 354 878 zero bytes, more than `2^32`. -/
def wrapInput : List Byte := List.replicate (1026 * 4194303) 0

end Zcp
namespace Zcp

/-! ## Vocabulary for the memory pools -/

/-- Successive calls `get(dst, n)` for the sizes `ns`: the pool afterwards and the bytes
copied to the caller, in order. -/
def MemPool.gets : MemPool → List Nat → MemPool × List Byte
  | p, [] => (p, [])
  | p, n :: ns =>
    ((MemPool.gets (p.get n).1 ns).1, (p.get n).2.2 ++ (MemPool.gets (p.get n).1 ns).2)

/-- The buffer invariant: `in_len ≤ C`, `out_len ≤ C + 4` and `pos ≤ out_len`. -/
def MemPool.inv (p : MemPool) : Prop :=
  p.inb.length ≤ p.poolsize ∧ p.outsize ≤ p.poolsize + 4 ∧ p.ptr ≤ p.outsize

instance MemPool.decidableInv (p : MemPool) : Decidable p.inv := by
  unfold MemPool.inv
  infer_instance

/-- A block compressor that respects the destination bound it is given: it returns the
number of bytes it wrote, 0 when the result does not fit. -/
def Lib.compressBounded (lib : Lib) : Prop :=
  ∀ (f : compressFunc_t) (src : List Byte) (dst : Int) (level : Nat),
    0 ≤ (lib.compress f src dst level).1 ∧
    ((lib.compress f src dst level).1 = 0 ∨ (lib.compress f src dst level).1 ≤ dst)

/-- A block decompressor that respects the destination bound it is given: a positive
result (the number of bytes written; an error is reported by a result `≤ 0`) does not
exceed the bound. -/
def Lib.decompressBounded (lib : Lib) : Prop :=
  ∀ (f : uncompressFunc_t) (src : List Byte) (cap : Int),
    0 < (lib.decompress f src cap).1 → (lib.decompress f src cap).1 ≤ cap

end Zcp
namespace Zcp

/-! ## Vocabulary for the pool partition -/

/-- The pools a write-mode stream holds: the current one, the free queue and the in-flight
queue, in this order. -/
def zFile.pools (s : zFile) : List MemPool :=
  s.zip_curpool.toList ++ s.zip_listfree ++ s.zip_listused

/-- Pool partition for `n` buffers: a current pool is set, and the identifiers of the
current pool, the free queue and the in-flight queue are the identifiers `0 .. n-1` of
the buffers the constructor allocated, each one once. -/
def PoolPartition (n : Nat) (s : zFile) : Prop :=
  s.zip_curpool.isSome = true ∧ (s.pools.map (fun p => p.id)).Perm (List.range n)

end Zcp
namespace Zcp

/-- The output of the block compressor holds the bytes it reports: a positive result `r`
comes with at least `r` output bytes. -/
def Lib.compressFills (lib : Lib) : Prop :=
  ∀ (f : compressFunc_t) (src : List Byte) (dst : Int) (level : Nat),
    (lib.compress f src dst level).1.toNat ≤ (lib.compress f src dst level).2.length

end Zcp
namespace Zcp

/-! ## Codec selection (`zfilelz4.cc`, constructor) -/

/-- The two kinds of compression context: `LZ4_createStream()` and
`LZ4_createStreamHC()`. -/
inductive ContextKind where
  | stream
  | streamHC
  deriving DecidableEq, Repr

namespace zFilelz4

/-- Copy of the selection of `_lz4.compressfunc` in the constructor `zFilelz4`, for the
level `_zip.level` and the flags `_flag`. -/
def selectCompressFunc (level : Nat) (flag : Flag) : compressFunc_t :=
  if level < min_HClevel then
    (if flag.blockIndependence = 1 then compressFunc_t.compress_fast_extState
     else compressFunc_t.compress_fast_continue)
  else
    (if flag.blockIndependence = 1 then compressFunc_t.compress_HC_extStateHC
     else compressFunc_t.compress_HC_continue)

/-- Copy of the loop of the constructor `zFilelz4` that allocates `_lz4.context`: one
context per pool of `_zip.listpool`, of the kind the level asks for. -/
def contextKinds (s : zFile) : List ContextKind :=
  s.zip_listpool.map (fun _ =>
    if s.zip_level < min_HClevel then ContextKind.stream else ContextKind.streamHC)

end zFilelz4

end Zcp
namespace Zcp

/-! ## True offsets of the blocks (specification side of the index comparison) -/

/-- The true offsets of the blocks `bs`, in the words of the specification (`uoff`:
uncompressed start, `zoff`: compressed start): for each block the number of input bytes
before it and the number of file bytes before its frame, as unbounded naturals, when `n`
input bytes and `z` file bytes precede the first block. This definition is not taken from
the sources; the recorded offsets are compared with it. -/
def specTrueOffsets (lib : Lib) (func : compressFunc_t) (level C : Nat) :
    Nat → Nat → List (List Byte) → List (Nat × Nat)
  | _, _, [] => []
  | n, z, b :: bs =>
    (n, z) :: specTrueOffsets lib func level C (n + b.length)
      (z + (blockFrame lib func level b C).length) bs

end Zcp
namespace Zcp

/-- An lz4 file of 18 bytes whose first block frame is a compressed frame of three bytes
`01 02 03`: the header `04 22 4D 18 64 40 A7`, the length word `03 00 00 00`, the payload
and the end mark. -/
def rejectedFile : List Byte :=
  [0x04, 0x22, 0x4D, 0x18, 0x64, 0x40, 0xA7, 3, 0, 0, 0, 1, 2, 3, 0, 0, 0, 0]

end Zcp

/-! # Theorems -/

/-! ## Arithmetic of bytes and words -/

namespace Zcp

theorem byteOf_val (v : Nat) : (byteOf v).val = v % 256 := rfl

theorem le32_length (v : Nat) : (le32 v).length = 4 := rfl

theorem le32toh_cons (a b c d : Byte) (rest : List Byte) :
    le32toh (a :: b :: c :: d :: rest) = a.val + 256 * b.val + 65536 * c.val + 16777216 * d.val := by
  simp [le32toh]

theorem le32toh_le32_append (v : Nat) (rest : List Byte) :
    le32toh (le32 v ++ rest) = v % 4294967296 := by
  simp only [le32, List.cons_append, List.nil_append, le32toh_cons, byteOf_val]
  omega

theorem le32toh_le32 (v : Nat) : le32toh (le32 v) = v % 4294967296 := by
  simpa using le32toh_le32_append v []

theorem le32toh_lt (bs : List Byte) : le32toh bs < 4294967296 := by
  unfold le32toh
  have h0 := (bs.getD 0 0).isLt
  have h1 := (bs.getD 1 0).isLt
  have h2 := (bs.getD 2 0).isLt
  have h3 := (bs.getD 3 0).isLt
  omega

theorem and_7fffffff (x : Nat) : x &&& 0x7fffffff = x % 2147483648 := by
  simpa using Nat.and_pow_two_sub_one_eq_mod x 31

theorem and_ff (x : Nat) : x &&& 0xff = x % 256 := by
  simpa using Nat.and_pow_two_sub_one_eq_mod x 8

theorem and_7 (x : Nat) : x &&& 7 = x % 8 := by
  simpa using Nat.and_pow_two_sub_one_eq_mod x 3

theorem or_80000000 (a : Nat) (h : a < 2147483648) : a ||| 0x80000000 = a + 2147483648 := by
  have := Nat.mul_add_lt_is_or (i := 31) (b := a) (by simpa using h) 1
  rw [Nat.or_comm]
  simp at this
  omega

end Zcp

namespace Zcp

theorem toSizeT_of_nonneg (r : Int) (h0 : 0 ≤ r) (h1 : r < 18446744073709551616) :
    toSizeT r = r.toNat := by
  unfold toSizeT
  rw [Int.emod_eq_of_lt h0 h1]

theorem toInt32_sizeSub_le (C : Nat) (hC : C ≤ 4194304) :
    toInt32 (sizeSub C 4) = (C : Int) - 4 := by
  unfold toInt32 sizeSub
  split_ifs <;> omega

/-- C4 (marker law). For every block of `1 ≤ in_len ≤ C` bytes, `C` being the capacity
`min(blocsize, 4 MiB)` the constructor gives the pools, and a codec call that returns the
number `r ≥ 0` of bytes it wrote (0, or at most the destination size it was given), the
frame `out[0 .. out_len)` produced by `zFilelz4::compress` starts with a length word `L`
such that `L & 0x7FFFFFFF = out_len - 4` = number of payload bytes, and when the top bit
of `L` is set the payload is the input. -/
theorem C4_marker_law (lib : Lib) (func : compressFunc_t) (level blocsize : Nat)
    (inb : List Byte)
    (hin1 : 1 ≤ inb.length) (hin2 : inb.length ≤ min blocsize LZ4F_MAXBLOC_SIZE)
    (hr0 : 0 ≤ (lib.compress func inb
              (toInt32 (sizeSub (min blocsize LZ4F_MAXBLOC_SIZE) 4)) level).1)
    (hr1 : (lib.compress func inb
              (toInt32 (sizeSub (min blocsize LZ4F_MAXBLOC_SIZE) 4)) level).1 = 0 ∨
           (lib.compress func inb
              (toInt32 (sizeSub (min blocsize LZ4F_MAXBLOC_SIZE) 4)) level).1
             ≤ toInt32 (sizeSub (min blocsize LZ4F_MAXBLOC_SIZE) 4))
    (hlen : 0 < (lib.compress func inb
              (toInt32 (sizeSub (min blocsize LZ4F_MAXBLOC_SIZE) 4)) level).1 →
            ((lib.compress func inb
              (toInt32 (sizeSub (min blocsize LZ4F_MAXBLOC_SIZE) 4)) level).2.length : Int)
            = (lib.compress func inb
              (toInt32 (sizeSub (min blocsize LZ4F_MAXBLOC_SIZE) 4)) level).1) :
    4 ≤ (zFilelz4.compress lib func level inb (min blocsize LZ4F_MAXBLOC_SIZE)).1 ∧
    le32toh (blockFrame lib func level inb (min blocsize LZ4F_MAXBLOC_SIZE)) &&& 0x7FFFFFFF
      = (zFilelz4.compress lib func level inb (min blocsize LZ4F_MAXBLOC_SIZE)).1 - 4 ∧
    ((blockFrame lib func level inb (min blocsize LZ4F_MAXBLOC_SIZE)).drop 4).length
      = (zFilelz4.compress lib func level inb (min blocsize LZ4F_MAXBLOC_SIZE)).1 - 4 ∧
    (2147483648 ≤ le32toh (blockFrame lib func level inb (min blocsize LZ4F_MAXBLOC_SIZE)) →
      (blockFrame lib func level inb (min blocsize LZ4F_MAXBLOC_SIZE)).drop 4 = inb) := by
  have hC : min blocsize LZ4F_MAXBLOC_SIZE ≤ 4194304 := by
    simp [LZ4F_MAXBLOC_SIZE, LZ4F_BLOC7_SIZE]
  generalize min blocsize LZ4F_MAXBLOC_SIZE = C at *
  rw [toInt32_sizeSub_le C hC] at hr0 hr1 hlen
  unfold blockFrame zFilelz4.compress
  rw [toInt32_sizeSub_le C hC]
  generalize lib.compress func inb ((C : Int) - 4) level = res at *
  obtain ⟨r, dst⟩ := res
  simp only at hr0 hr1 hlen ⊢
  have hrlt : r < 18446744073709551616 := by omega
  rw [toSizeT_of_nonneg r hr0 hrlt]
  by_cases hz : r.toNat = 0
  · -- stored raw
    have hinlt : inb.length % 4294967296 = inb.length := by omega
    have hw : ((inb.length % 4294967296) &&& 0x7fffffff) ||| 0x80000000
        = inb.length + 2147483648 := by
      rw [and_7fffffff, or_80000000 _ (Nat.mod_lt _ (by decide))]
      omega
    simp only [hz, if_true]
    rw [hw]
    have hsz : (inb.length + 4) % 18446744073709551616 = inb.length + 4 := by omega
    rw [hsz]
    have htake : List.take (inb.length + 4) (le32 (inb.length + 2147483648) ++ inb)
        = le32 (inb.length + 2147483648) ++ inb := by
      apply List.take_of_length_le
      simp [le32_length]
      omega
    rw [htake, le32toh_le32_append, and_7fffffff]
    refine ⟨by omega, by omega, ?_, ?_⟩
    · simp [le32]
    · intro _
      simp [le32]
  · -- compressed
    have hpos : 0 < r := by omega
    have hl := hlen hpos
    have hrle : r ≤ (C : Int) - 4 := by
      rcases hr1 with h | h
      · omega
      · exact h
    simp only [hz, if_false]
    have hsz : (r.toNat + 4) % 18446744073709551616 = r.toNat + 4 := by omega
    rw [hsz]
    have htake : List.take (r.toNat + 4) (le32 r.toNat ++ dst) = le32 r.toNat ++ dst := by
      apply List.take_of_length_le
      simp [le32_length]
      omega
    rw [htake, le32toh_le32_append, and_7fffffff]
    refine ⟨by omega, by omega, ?_, ?_⟩
    · simp [le32]
      omega
    · intro h
      omega

/-- Witness of C4: the 4-byte run `AAAA` in a 64 KiB pool is packed by the sample codec
into the frame `02 00 00 00 04 41`: the length word is 2 = `out_len - 4`. -/
theorem C4_marker_law_witness :
    blockFrame libRun .compress_fast_extState 1 [65, 65, 65, 65] (min 65536 LZ4F_MAXBLOC_SIZE)
      = [2, 0, 0, 0, 4, 65] ∧
    le32toh (blockFrame libRun .compress_fast_extState 1 [65, 65, 65, 65]
        (min 65536 LZ4F_MAXBLOC_SIZE)) &&& 0x7FFFFFFF
      = (zFilelz4.compress libRun .compress_fast_extState 1 [65, 65, 65, 65]
          (min 65536 LZ4F_MAXBLOC_SIZE)).1 - 4 :=
  ⟨by decide,
   (C4_marker_law libRun .compress_fast_extState 1 65536 [65, 65, 65, 65]
      (by decide) (by decide) (by decide) (by decide) (by decide)).2.1⟩

/-- C5, the code at the failing input: for the one-byte block `41` and a codec that
returns -1, `zFilelz4::compress` does not store the block raw: it writes the length word
`FF FF FF FF`, returns `out_len = 3` and the return code 1. -/
theorem C5_compress_negative_result :
    zFilelz4.compress libNeg .compress_fast_extState 1 [65] 65536
      = (3, [255, 255, 255, 255], 1) := by
  decide

end Zcp

namespace Zcp

theorem FStream.write_good (f : FStream) (bs : List Byte) (h : f.good = true) :
    f.write bs = { f with content := f.content ++ bs, pos := f.pos + bs.length } := by
  simp [FStream.write, h]

theorem FStream.good_iff (f : FStream) : f.good = true ↔ f.eofbit = false ∧ f.failbit = false := by
  simp [FStream.good]

theorem flag_byte_default : Flag.ctor.byte = 0x64 := by decide

/-- The bytes `writeHeader` appends and the advance of the compressed offset. -/
theorem writeHeader_content (lib : Lib) (s : zFile)
    (hgood : s.file_stream.good = true) (hflag : s.flag = Flag.ctor) :
    (zFilelz4.writeHeader lib s).file_stream.content =
      s.file_stream.content ++
        [0x04, 0x22, 0x4D, 0x18, 0x64, byteOf ((s.blockSizeId &&& 7) <<< 4),
         byteOf (((lib.XXH32 [0x64, byteOf ((s.blockSizeId &&& 7) <<< 4)] 0 % 4294967296)
                    >>> 8) &&& 0xFF)] ∧
    (zFilelz4.writeHeader lib s).zip_nzoffset = s.zip_nzoffset + 7 := by
  have hg := (FStream.good_iff _).1 hgood
  simp only [zFilelz4.writeHeader, FStream.write_good _ _ hgood, FStream.fail, hflag,
    flag_byte_default, zFilelz4.headerCrc, checksum_seed, offsetof_unused, hg.2]
  constructor
  · rfl
  · rfl

/-- C6 (header layout). On a writable stream and with the flags the constructor sets,
`writeHeader` appends exactly the 7 bytes `04 22 4D 18`, `64`, `(blockSizeId & 7) << 4`,
`(XXH32(flag‖blk, 0) >> 8) & 0xFF` for every value of the block-size id, and adds 7 to the
compressed offset `Z`. -/
theorem C6_writeHeader_layout (lib : Lib) (s : zFile)
    (hgood : s.file_stream.good = true) (hflag : s.flag = Flag.ctor) :
    (zFilelz4.writeHeader lib s).file_stream.content =
      s.file_stream.content ++
        [0x04, 0x22, 0x4D, 0x18, 0x64, byteOf ((s.blockSizeId &&& 7) <<< 4),
         byteOf (((lib.XXH32 [0x64, byteOf ((s.blockSizeId &&& 7) <<< 4)] 0 % 4294967296)
                    >>> 8) &&& 0xFF)] ∧
    (zFilelz4.writeHeader lib s).zip_nzoffset = s.zip_nzoffset + 7 :=
  writeHeader_content lib s hgood hflag

end Zcp

namespace Zcp

theorem FStream.read_of_drop (f : FStream) (n : Nat) (got rest : List Byte)
    (hgood : f.good = true) (hlen : got.length = n)
    (hbytes : f.content.drop f.pos = got ++ rest) :
    f.read n = ({ f with pos := f.pos + n }, got) := by
  have ht : List.take n (got ++ rest) = got := by
    rw [List.take_left' hlen]
  simp [FStream.read, hgood, hbytes, ht, hlen]

theorem readHeader_of_bytes (lib : Lib) (s : zFile) (b0 b1 b2 b3 flag blk crc : Byte)
    (rest : List Byte) (hgood : s.file_stream.good = true)
    (hbytes : s.file_stream.content.drop s.file_stream.pos
      = b0 :: b1 :: b2 :: b3 :: flag :: blk :: crc :: rest) :
    zFilelz4.readHeader lib s =
      if le32toh [b0, b1, b2, b3] ≠ LZ4F_MAGICNUMBER then
        { s with file_stream := { s.file_stream with pos := s.file_stream.pos + 7 } }.setError
          .e_HeaderError "Invalid magic number"
      else if flag ≠ s.flag.byte then
        { s with file_stream := { s.file_stream with pos := s.file_stream.pos + 7 } }.setError
          .e_HeaderError "Unhandled lz4 file format"
      else if crc ≠ zFilelz4.headerCrc lib flag blk then
        { s with file_stream := { s.file_stream with pos := s.file_stream.pos + 7 } }.setError
          .e_HeaderError "CRC header error"
      else
        { s with file_stream := { s.file_stream with pos := s.file_stream.pos + 7 },
                 blockSizeId := (blk.val >>> 4) &&& 7 } := by
  have hg := (FStream.good_iff _).1 hgood
  have hr := FStream.read_of_drop s.file_stream 7 [b0, b1, b2, b3, flag, blk, crc] rest hgood rfl
    (by simpa using hbytes)
  simp only [zFilelz4.readHeader, offsetof_unused, hr, FStream.fail, hg.2]
  simp [le32toh]

theorem blockSizeId_roundtrip (id : Nat) (h : id ∈ [4, 5, 6, 7]) :
    ((byteOf ((id &&& 7) <<< 4)).val >>> 4) &&& 7 = id := by
  simp only [List.mem_cons, List.mem_singleton, List.not_mem_nil, or_false] at h
  rcases h with h | h | h | h <;> subst h <;> decide

/-- C7 (header validation). With 7 readable header bytes `b0 b1 b2 b3 flag blk crc` at the
stream position, no earlier error and the flags of the constructor, `readHeader` leaves
the stream without error exactly when the magic is `0x184D2204`, the flag byte is `0x64`
and the check byte is `(XXH32(flag‖blk, 0) >> 8) & 0xFF`; otherwise it sets
`e_HeaderError`; on success the block-size id is bits 4-6 of `blk`. Hence a header written
by `writeHeader` with an id in {4,5,6,7} is accepted and the id recovered. -/
theorem C7_readHeader_validation (lib : Lib) (s : zFile) (b0 b1 b2 b3 flag blk crc : Byte)
    (rest : List Byte)
    (hgood : s.file_stream.good = true) (hflag : s.flag = Flag.ctor)
    (herr : s.lasterror = .e_SuccessError)
    (hbytes : s.file_stream.content.drop s.file_stream.pos
      = b0 :: b1 :: b2 :: b3 :: flag :: blk :: crc :: rest) :
    ((zFilelz4.readHeader lib s).lasterror = .e_SuccessError ↔
      (le32toh [b0, b1, b2, b3] = 0x184D2204 ∧ flag = 0x64 ∧
       crc = byteOf (((lib.XXH32 [flag, blk] 0 % 4294967296) >>> 8) &&& 0xFF))) ∧
    ((zFilelz4.readHeader lib s).lasterror ≠ .e_SuccessError →
      (zFilelz4.readHeader lib s).lasterror = .e_HeaderError) ∧
    ((zFilelz4.readHeader lib s).lasterror = .e_SuccessError →
      (zFilelz4.readHeader lib s).blockSizeId = (blk.val >>> 4) &&& 7) ∧
    (∀ (w : zFile) (more : List Byte),
      w.flag = Flag.ctor → w.file_stream = FStream.openFile (some []) →
      w.blockSizeId ∈ [4, 5, 6, 7] →
      (zFilelz4.readHeader lib { s with file_stream := (FStream.openFile
          (some ((zFilelz4.writeHeader lib w).file_stream.content ++ more))) }).lasterror
        = .e_SuccessError ∧
      (zFilelz4.readHeader lib { s with file_stream := (FStream.openFile
          (some ((zFilelz4.writeHeader lib w).file_stream.content ++ more))) }).blockSizeId
        = w.blockSizeId) := by
  refine ⟨?_, ?_, ?_, ?_⟩
  · rw [readHeader_of_bytes lib s b0 b1 b2 b3 flag blk crc rest hgood hbytes]
    simp only [hflag, flag_byte_default, LZ4F_MAGICNUMBER, zFilelz4.headerCrc, checksum_seed]
    split_ifs with h1 h2 h3 <;> simp_all [zFile.setError]
  · rw [readHeader_of_bytes lib s b0 b1 b2 b3 flag blk crc rest hgood hbytes]
    split_ifs <;> simp_all [zFile.setError]
  · rw [readHeader_of_bytes lib s b0 b1 b2 b3 flag blk crc rest hgood hbytes]
    split_ifs <;> simp_all [zFile.setError]
  · intro w more hwf hws hid
    have hwgood : w.file_stream.good = true := by rw [hws]; rfl
    have hc := (writeHeader_content lib w hwgood hwf).1
    rw [hws] at hc
    simp only [FStream.openFile, List.nil_append] at hc
    rw [hc]
    have hrd := readHeader_of_bytes lib
      { s with file_stream := (FStream.openFile (some
          ([0x04, 0x22, 0x4D, 0x18, 0x64, byteOf ((w.blockSizeId &&& 7) <<< 4),
            byteOf (((lib.XXH32 [0x64, byteOf ((w.blockSizeId &&& 7) <<< 4)] 0 % 4294967296)
                    >>> 8) &&& 0xFF)] ++ more))) }
      0x04 0x22 0x4D 0x18 0x64 (byteOf ((w.blockSizeId &&& 7) <<< 4))
      (byteOf (((lib.XXH32 [0x64, byteOf ((w.blockSizeId &&& 7) <<< 4)] 0 % 4294967296)
                    >>> 8) &&& 0xFF)) more rfl rfl
    rw [hrd]
    have hm : le32toh [(0x04 : Byte), 0x22, 0x4D, 0x18] = LZ4F_MAGICNUMBER := by decide
    simp only [hm, hflag, flag_byte_default, zFilelz4.headerCrc, checksum_seed, ne_eq,
      not_true_eq_false, if_false]
    exact ⟨herr, blockSizeId_roundtrip _ hid⟩

end Zcp

namespace Zcp

theorem toOff_neg8 : toOff (sizeSub 0 sizeof_MetaHeader_t) = -8 := by decide

theorem toOff_neg (h : Nat) (hh : h < 4294967296) : toOff (sizeSub 0 h) = -(h : Int) := by
  unfold toOff sizeSub
  split_ifs <;> omega

theorem FStream.read_exact (f : FStream) (n : Nat) (hgood : f.good = true)
    (hlen : f.pos + n ≤ f.content.length) :
    f.read n = ({ f with pos := f.pos + n }, (f.content.drop f.pos).take n) := by
  have h : ((f.content.drop f.pos).take n).length = n := by
    simp [List.length_take, List.length_drop]
    omega
  simp [FStream.read, hgood, h]

theorem FStream.read_not_good (f : FStream) (n : Nat) (h : f.good = false) :
    f.read n = ({ f with failbit := true }, []) := by
  simp [FStream.read, h]

theorem FStream.seekg_end_neg (f : FStream) (k : Nat) (hgood : f.good = true)
    (hk : k ≤ f.content.length) :
    f.seekg (-(k : Int)) .e_SeekEnd = { f with pos := f.content.length - k } := by
  have hg := (FStream.good_iff _).1 hgood
  have h1 : ¬ ((f.content.length : Int) + -(k : Int) < 0) := by omega
  have h2 : ((f.content.length : Int) + -(k : Int)).toNat = f.content.length - k := by omega
  simp only [FStream.seekg, hg.2, h1, h2, if_false, Bool.false_eq_true]
  cases f
  simp_all

theorem FStream.seekg_end_neg_fail (f : FStream) (k : Nat) (hgood : f.good = true)
    (hk : f.content.length < k) :
    f.seekg (-(k : Int)) .e_SeekEnd = { f with failbit := true } := by
  have hg := (FStream.good_iff _).1 hgood
  have h1 : ((f.content.length : Int) + -(k : Int) < 0) := by omega
  simp only [FStream.seekg, hg.2, h1, if_true, if_false, Bool.false_eq_true]
  cases f
  simp_all

/-- What `readTail` computes on a good stream over a file of at least 8 bytes. -/
theorem readTail_good (lib : Lib) (s : zFile) (hgood : s.file_stream.good = true)
    (hlen : 8 ≤ s.file_stream.content.length) :
    zFilelz4.readTail lib s =
      if le32toh (s.file_stream.content.drop (s.file_stream.content.length - 8))
          = SKIPPABLE_MAGIC_NUMBER_0 then
        if lib.stack
            < le32toh (s.file_stream.content.drop (s.file_stream.content.length - 4)) then
          none
        else if s.file_stream.content.length
            < le32toh (s.file_stream.content.drop (s.file_stream.content.length - 4)) then
          some ({ s with file_stream :=
                    { s.file_stream with pos := s.file_stream.content.length,
                                         failbit := true } }.setError
                  .e_ReadError "Error reading lz4 meta data")
        else
          match zFilelz4.parseMeta
              (s.file_stream.content.drop (s.file_stream.content.length -
                le32toh (s.file_stream.content.drop (s.file_stream.content.length - 4))))
              (s.file_stream.content.length -
                le32toh (s.file_stream.content.drop (s.file_stream.content.length - 4)))
              s.listindex with
          | none => none
          | some idx =>
            some { s with listindex := idx,
                          file_stream := { s.file_stream with pos := offsetof_unused } }
      else some { s with file_stream := { s.file_stream with pos := offsetof_unused } } := by
  have hg := (FStream.good_iff _).1 hgood
  obtain ⟨he, hf⟩ := hg
  generalize hfs : s.file_stream = fs at *
  obtain ⟨f, pos, eofb, failb⟩ := fs
  simp only at he hf hlen ⊢
  subst he hf
  unfold zFilelz4.readTail
  simp only [toOff_neg8, hfs]
  have hs1 := FStream.seekg_end_neg ⟨f, pos, false, false⟩ 8 rfl hlen
  simp only [Nat.cast_ofNat] at hs1
  rw [hs1]
  have hr1 := FStream.read_exact ⟨f, f.length - 8, false, false⟩ 8 rfl (by simp; omega)
  simp only [sizeof_MetaHeader_t]
  simp only [hr1]
  have h8 : f.length - 8 + 8 = f.length := by omega
  have ht8 : List.take 8 (List.drop (f.length - 8) f) = List.drop (f.length - 8) f := by
    apply List.take_of_length_le
    simp
    omega
  have hd4 : List.drop 4 (List.drop (f.length - 8) f) = List.drop (f.length - 4) f := by
    rw [List.drop_drop]
    congr 1
    omega
  simp only [h8, ht8, hd4, FStream.fail, List.length_drop, Bool.false_or]
  have hl8 : f.length - (f.length - 8) = 8 := by omega
  simp only [hl8, ne_eq, not_true_eq_false, decide_False, Bool.false_eq_true, if_false]
  by_cases hm : le32toh (List.drop (f.length - 8) f) = SKIPPABLE_MAGIC_NUMBER_0
  · simp only [hm, if_true]
    have hlt := le32toh_lt (List.drop (f.length - 4) f)
    generalize le32toh (List.drop (f.length - 4) f) = hsize at *
    rw [toOff_neg hsize hlt]
    by_cases hstk : lib.stack < hsize
    · simp only [hstk, if_true]
    simp only [hstk, if_false]
    by_cases hsz : f.length < hsize
    · simp only [hsz, if_true]
      have hs2 := FStream.seekg_end_neg_fail ⟨f, f.length, false, false⟩ hsize rfl hsz
      simp only [hs2]
      simp [FStream.read, FStream.good, FStream.fail]
    · simp only [hsz, if_false]
      have hs2 := FStream.seekg_end_neg ⟨f, f.length, false, false⟩ hsize rfl (by simp; omega)
      rw [hs2]
      have hr2 := FStream.read_exact ⟨f, f.length - hsize, false, false⟩ hsize rfl
        (by simp; omega)
      simp only at hr2 ⊢
      simp only [hr2]
      have hth : List.take hsize (List.drop (f.length - hsize) f)
          = List.drop (f.length - hsize) f := by
        apply List.take_of_length_le
        simp
        omega
      have hlh : f.length - (f.length - hsize) = hsize := by omega
      simp only [hth, FStream.fail, List.length_drop, hlh, FStream.tellg, FStream.seekp,
        Bool.false_or, ne_eq, not_true_eq_false, decide_False, Bool.false_eq_true, if_false]
  · simp only [hm, if_false, FStream.seekp, Bool.false_eq_true]

end Zcp

namespace Zcp

theorem le32toh_eq_magic_iff (b0 b1 b2 b3 : Byte) :
    le32toh [b0, b1, b2, b3] = LZ4F_MAGICNUMBER ↔
      [b0, b1, b2, b3] = [0x04, 0x22, 0x4D, 0x18] := by
  simp only [le32toh_cons, LZ4F_MAGICNUMBER]
  constructor
  · intro h
    have h0 := b0.isLt
    have h1 := b1.isLt
    have h2 := b2.isLt
    have h3 := b3.isLt
    have e0 : b0 = 0x04 := Fin.ext (by change b0.val = 4; omega)
    have e1 : b1 = 0x22 := Fin.ext (by change b1.val = 34; omega)
    have e2 : b2 = 0x4D := Fin.ext (by change b2.val = 77; omega)
    have e3 : b3 = 0x18 := Fin.ext (by change b3.val = 24; omega)
    simp [e0, e1, e2, e3]
  · intro h
    simp only [List.cons.injEq, and_true] at h
    obtain ⟨e0, e1, e2, e3⟩ := h
    subst e0 e1 e2 e3
    decide

theorem readTail_failed (lib : Lib) (s : zFile) (h : s.file_stream.failbit = true) :
    (zFilelz4.readTail lib s).map (fun z => z.lasterror) = some .e_ReadError := by
  simp [zFilelz4.readTail, FStream.seekg, FStream.read, FStream.good, FStream.fail, h,
    zFile.setError]

theorem readTail_short (lib : Lib) (s : zFile) (hgood : s.file_stream.good = true)
    (hlen : s.file_stream.content.length < 8) :
    (zFilelz4.readTail lib s).map (fun z => z.lasterror) = some .e_ReadError := by
  have hg := (FStream.good_iff _).1 hgood
  have h1 : ((s.file_stream.content.length : Int) + -8 < 0) := by omega
  simp [zFilelz4.readTail, toOff_neg8, FStream.seekg, FStream.read, FStream.good,
    FStream.fail, hg.1, hg.2, h1, zFile.setError]

theorem parseMeta_isSome_idx (ptr : List Byte) (lastbloc : Nat) (idx idx2 : List IndexEntry_t) :
    (zFilelz4.parseMeta ptr lastbloc idx).isSome
      = (zFilelz4.parseMeta ptr lastbloc idx2).isSome := by
  unfold zFilelz4.parseMeta
  by_cases h1 : ptr.length < sizeof_MetaIdentification_t
  · simp [h1]
  · by_cases h2 : le32toh ptr = METADATA_MAGIC_NUMBER_0 ∧ le32toh (List.drop 4 ptr) = 1 ∧
        le32toh (List.drop 8 ptr) = 0
    · by_cases h3 : sizeof_MetaIdentification_t +
          (sizeSub (le32toh (List.drop 12 ptr) / indexsize) 1 + 1) * indexsize ≤ ptr.length
      · simp only [h1, h2, h3, if_true, if_false, and_self, Option.isSome_some]
      · simp only [h1, h2, h3, if_true, if_false, and_self, Option.isSome_none]
    · simp only [h1, h2, if_false, Option.isSome_some]

/-- The error state after `readTail` on a good stream over at least 8 bytes. -/
theorem readTail_lasterror (lib : Lib) (s : zFile) (hgood : s.file_stream.good = true)
    (hlen : 8 ≤ s.file_stream.content.length) :
    (zFilelz4.readTail lib s).map (fun z => z.lasterror) =
      if tailMagic s.file_stream.content = SKIPPABLE_MAGIC_NUMBER_0 then
        if lib.stack < tailSize s.file_stream.content then none
        else if s.file_stream.content.length < tailSize s.file_stream.content then
          some .e_ReadError
        else if (zFilelz4.parseMeta
            (s.file_stream.content.drop
              (s.file_stream.content.length - tailSize s.file_stream.content))
            (s.file_stream.content.length - tailSize s.file_stream.content) []).isSome then
          some s.lasterror
        else none
      else some s.lasterror := by
  rw [readTail_good lib s hgood hlen]
  simp only [tailMagic, tailSize]
  split_ifs with h1 h0 h2 h3
  · rfl
  · simp [zFile.setError]
  · rw [parseMeta_isSome_idx _ _ [] s.listindex] at h3
    obtain ⟨idx, hidx⟩ := Option.isSome_iff_exists.1 h3
    simp [hidx]
  · rw [parseMeta_isSome_idx _ _ [] s.listindex] at h3
    have : zFilelz4.parseMeta
        (s.file_stream.content.drop (s.file_stream.content.length -
          le32toh (s.file_stream.content.drop (s.file_stream.content.length - 4))))
        (s.file_stream.content.length -
          le32toh (s.file_stream.content.drop (s.file_stream.content.length - 4)))
        s.listindex = none := by
      simpa using h3
    simp [this]
  · simp

end Zcp

namespace Zcp

theorem ctorInit_read (f : List Byte) (blocsize level nthread : Nat) :
    (zFilelz4.ctorInit (some f) .e_ReadMode blocsize level nthread).file_stream
        = { content := f, pos := 0, eofbit := false, failbit := false } ∧
    (zFilelz4.ctorInit (some f) .e_ReadMode blocsize level nthread).lasterror
        = .e_SuccessError ∧
    (zFilelz4.ctorInit (some f) .e_ReadMode blocsize level nthread).flag = Flag.ctor ∧
    (zFilelz4.ctorInit (some f) .e_ReadMode blocsize level nthread).listindex = [] ∧
    (zFilelz4.ctorInit (some f) .e_ReadMode blocsize level nthread).file_mode = .e_ReadMode := by
  simp [zFilelz4.ctorInit, zFile.ctor, FStream.openFile, FStream.fail, FStream.seekg]

theorem ctor_read_lasterror (lib : Lib) (file : Option (List Byte)) (blocsize level nthread : Nat) :
    (zFilelz4.ctor lib file .e_ReadMode blocsize level nthread).map (fun z => z.lasterror)
      = (zFilelz4.readTail lib (zFilelz4.readHeader lib
          (zFilelz4.ctorInit file .e_ReadMode blocsize level nthread))).map
            (fun z => z.lasterror) := by
  have hm : (zFilelz4.ctorInit file .e_ReadMode blocsize level nthread).file_mode
      = .e_ReadMode := by
    simp only [zFilelz4.ctorInit, zFile.ctor]
    split_ifs <;> rfl
  simp only [zFilelz4.ctor, hm]
  cases zFilelz4.readTail lib (zFilelz4.readHeader lib
      (zFilelz4.ctorInit file .e_ReadMode blocsize level nthread)) <;> simp

theorem getFormat_eq (lib : Lib) (file : Option (List Byte)) :
    zFile.getFormat lib file =
      ((zFilelz4.readTail lib (zFilelz4.readHeader lib
          (zFilelz4.ctorInit file .e_ReadMode 65536 1 1))).map (fun z => z.lasterror)).map
        (fun e => if e = zFileError_t.e_SuccessError then CompressionType_t.e_lz4
                  else CompressionType_t.e_none) := by
  rw [← ctor_read_lasterror]
  simp only [zFile.getFormat, zFilelz4.islz4, Option.map_map]
  congr 1
  funext z
  simp only [Function.comp, zFile.fail]
  by_cases h : z.lasterror = .e_SuccessError <;> simp [h]

theorem readHeader_short (lib : Lib) (s : zFile) (hgood : s.file_stream.good = true)
    (hpos : s.file_stream.pos = 0) (hlen : s.file_stream.content.length < 7) :
    (zFilelz4.readHeader lib s).file_stream.failbit = true := by
  have h : ¬ (min 7 s.file_stream.content.length = 7) := by omega
  simp [zFilelz4.readHeader, offsetof_unused, FStream.read, hgood, hpos, FStream.fail, h,
    zFile.setError]

theorem exists_header_bytes (f : List Byte) (h : 7 ≤ f.length) :
    ∃ b0 b1 b2 b3 flag blk crc rest, f = b0 :: b1 :: b2 :: b3 :: flag :: blk :: crc :: rest := by
  match f, h with
  | b0 :: b1 :: b2 :: b3 :: flag :: blk :: crc :: rest, _ =>
    exact ⟨b0, b1, b2, b3, flag, blk, crc, rest, rfl⟩

theorem readHeader_init (lib : Lib) (f : List Byte) (blocsize level nthread : Nat)
    (hlen : 7 ≤ f.length) :
    (zFilelz4.readHeader lib
        (zFilelz4.ctorInit (some f) .e_ReadMode blocsize level nthread)).file_stream
      = { content := f, pos := 7, eofbit := false, failbit := false } ∧
    ((zFilelz4.readHeader lib
        (zFilelz4.ctorInit (some f) .e_ReadMode blocsize level nthread)).lasterror
      = .e_SuccessError ↔ headerAccepted lib f) ∧
    (zFilelz4.readHeader lib
        (zFilelz4.ctorInit (some f) .e_ReadMode blocsize level nthread)).listindex = [] := by
  obtain ⟨hst, herr, hflag, hidx, -⟩ := ctorInit_read f blocsize level nthread
  generalize zFilelz4.ctorInit (some f) .e_ReadMode blocsize level nthread = s0 at *
  obtain ⟨b0, b1, b2, b3, flag, blk, crc, rest, rfl⟩ := exists_header_bytes f hlen
  have hgood : s0.file_stream.good = true := by rw [hst]; rfl
  have hb : s0.file_stream.content.drop s0.file_stream.pos
      = b0 :: b1 :: b2 :: b3 :: flag :: blk :: crc :: rest := by rw [hst]; rfl
  rw [readHeader_of_bytes lib s0 b0 b1 b2 b3 flag blk crc rest hgood hb]
  have hmag := le32toh_eq_magic_iff b0 b1 b2 b3
  simp only [headerAccepted, hflag, flag_byte_default, hst]
  refine ⟨?_, ?_, ?_⟩
  · split_ifs <;> simp [zFile.setError]
  · split_ifs with h1 h2 h3 <;> simp_all [zFile.setError]
  · split_ifs <;> simp [zFile.setError, hidx]

end Zcp

namespace Zcp

/-- C8 (format detection), as the code has it. When the array of `readTail` fits in the
stack and its parse stays inside the payload it read, `getFormat` answers `e_lz4` exactly
when the header is accepted (7 readable bytes, magic `04 22 4D 18`, flag byte `0x64`,
matching check byte) and the reads of `readTail` succeed (at least 8 bytes, and a size
word not above the file length when the last 8 bytes start with the skippable magic
number); it answers `e_none` in every other such case. When the array does not fit or
the parse leaves the payload the call does not return, and a file that cannot be opened
gives `e_none`. -/
theorem C8_getFormat (lib : Lib) (f : List Byte) :
    (tailFits lib f ∧ tailInside f →
      ((zFile.getFormat lib (some f) = some .e_lz4 ↔ headerAccepted lib f ∧ tailAccepted f) ∧
       (zFile.getFormat lib (some f) = some .e_none ↔
          ¬ (headerAccepted lib f ∧ tailAccepted f)))) ∧
    (¬ (tailFits lib f ∧ tailInside f) → zFile.getFormat lib (some f) = none) ∧
    zFile.getFormat lib none = some .e_none := by
  have hnone : zFile.getFormat lib none = some .e_none := by
    rw [getFormat_eq]
    have hf : (zFilelz4.readHeader lib
        (zFilelz4.ctorInit none .e_ReadMode 65536 1 1)).file_stream.failbit = true := by
      simp [zFilelz4.readHeader, zFilelz4.ctorInit, zFile.ctor, FStream.openFile, FStream.fail,
        FStream.read, FStream.good, zFile.setError, offsetof_unused]
    rw [readTail_failed lib _ hf]
    rfl
  rw [getFormat_eq]
  by_cases h7 : f.length < 7
  · -- the header cannot be read
    obtain ⟨hst, -, -, -, -⟩ := ctorInit_read f 65536 1 1
    have hf := readHeader_short lib (zFilelz4.ctorInit (some f) .e_ReadMode 65536 1 1)
      (by rw [hst]; rfl) (by rw [hst]) (by rw [hst]; exact h7)
    rw [readTail_failed lib _ hf]
    have hna : ¬ headerAccepted lib f := fun h => by
      have := h.1
      omega
    have hin : tailFits lib f ∧ tailInside f := ⟨fun h => by omega, fun h => by omega⟩
    refine ⟨fun _ => ⟨?_, ?_⟩, fun h => absurd hin h, hnone⟩
    · simp [hna]
    · simp [hna]
  · obtain ⟨hst, herr, hidx⟩ := readHeader_init lib f 65536 1 1 (by omega)
    generalize zFilelz4.readHeader lib (zFilelz4.ctorInit (some f) .e_ReadMode 65536 1 1)
      = s1 at *
    have hgood : s1.file_stream.good = true := by rw [hst]; rfl
    by_cases h8 : f.length < 8
    · rw [readTail_short lib s1 hgood (by rw [hst]; exact h8)]
      have hna : ¬ tailAccepted f := fun h => by
        have := h.1
        omega
      have hin : tailFits lib f ∧ tailInside f := ⟨fun h => by omega, fun h => by omega⟩
      refine ⟨fun _ => ⟨?_, ?_⟩, fun h => absurd hin h, hnone⟩
      · simp [hna]
      · simp [hna]
    · have h8' : 8 ≤ f.length := by omega
      rw [readTail_lasterror lib s1 hgood (by rw [hst]; exact h8')]
      simp only [hst]
      by_cases hm : tailMagic f = SKIPPABLE_MAGIC_NUMBER_0
      · by_cases hstk : lib.stack < tailSize f
        · have hin : ¬ (tailFits lib f ∧ tailInside f) := fun h => by
            have := h.1 h8' hm
            omega
          simp only [hm, hstk, if_true]
          exact ⟨fun h => absurd h hin, fun _ => rfl, hnone⟩
        have hfit : tailFits lib f := fun _ _ => by omega
        by_cases hsz : f.length < tailSize f
        · have hna : ¬ tailAccepted f := fun h => by
            have := h.2 hm
            omega
          have hin : tailFits lib f ∧ tailInside f := ⟨hfit, fun _ _ h => by omega⟩
          simp only [hm, hstk, hsz, if_true, if_false]
          refine ⟨fun _ => ⟨?_, ?_⟩, fun h => absurd hin h, hnone⟩
          · simp [hna]
          · simp [hna]
        · have hta : tailAccepted f := ⟨h8', fun _ => by omega⟩
          by_cases hp : (zFilelz4.parseMeta (f.drop (f.length - tailSize f))
              (f.length - tailSize f) []).isSome = true
          · have hin : tailFits lib f ∧ tailInside f := ⟨hfit, fun _ _ _ => hp⟩
            simp only [hm, hstk, hsz, hp, if_true, if_false]
            refine ⟨fun _ => ⟨?_, ?_⟩, fun h => absurd hin h, hnone⟩
            · simp only [Option.map_some', Option.some.injEq, hta, and_true, ← herr]
              split_ifs with he <;> simp [he]
            · simp only [Option.map_some', Option.some.injEq, hta, and_true, ← herr]
              split_ifs with he <;> simp [he]
          · have hin : ¬ (tailFits lib f ∧ tailInside f) :=
              fun h => hp (h.2 h8' hm (by omega))
            simp only [hm, hstk, hsz, hp, if_true, if_false]
            refine ⟨fun h => absurd h hin, fun _ => rfl, hnone⟩
      · have hta : tailAccepted f := ⟨h8', fun h => absurd h hm⟩
        have hin : tailFits lib f ∧ tailInside f :=
          ⟨fun _ h => absurd h hm, fun _ h => absurd h hm⟩
        simp only [hm, if_false]
        refine ⟨fun _ => ⟨?_, ?_⟩, fun h => absurd hin h, hnone⟩
        · simp only [Option.map_some', Option.some.injEq, hta, and_true, ← herr]
          split_ifs with he <;> simp [he]
        · simp only [Option.map_some', Option.some.injEq, hta, and_true, ← herr]
          split_ifs with he <;> simp [he]

/-- C8 as stated fails: the 11 bytes `04 22 4D 18 60 40 82 00 00 00 00` (an LZ4 frame
without content checksum and without blocks) start with the magic number and carry the
valid check byte `82`, and `getFormat` answers `e_none` because the flag byte is not
`0x64`. -/
theorem C8_counterexample :
    ([0x04, 0x22, 0x4D, 0x18, 0x60, 0x40, 0x82, 0, 0, 0, 0] : List Byte).take 4
      = [0x04, 0x22, 0x4D, 0x18] ∧
    (0x82 : Byte) = zFilelz4.headerCrc libRun 0x60 0x40 ∧
    zFile.getFormat libRun (some [0x04, 0x22, 0x4D, 0x18, 0x60, 0x40, 0x82, 0, 0, 0, 0])
      = some .e_none := by
  decide

end Zcp

namespace Zcp

theorem FStream.write_good_good (f : FStream) (bs : List Byte) (h : f.good = true) :
    (f.write bs).good = true := by
  rw [FStream.write_good f bs h]
  simpa [FStream.good] using h

theorem FStream.foldl_write (es : List IndexEntry_t) (f : FStream) (h : f.good = true) :
    es.foldl (fun st e => st.write (le32 e.offset.n ++ le32 e.offset.z)) f =
      { f with content := f.content ++ es.flatMap (fun e => le32 e.offset.n ++ le32 e.offset.z),
               pos := f.pos + 8 * es.length } := by
  induction es generalizing f with
  | nil => simp
  | cons e es ih =>
    simp only [List.foldl_cons]
    rw [ih _ (FStream.write_good_good f _ h), FStream.write_good f _ h]
    simp [List.flatMap_cons, le32_length]
    omega

theorem FStream.write_mk (c : List Byte) (p : Nat) (bs : List Byte) :
    FStream.write ⟨c, p, false, false⟩ bs = ⟨c ++ bs, p + bs.length, false, false⟩ := rfl

theorem FStream.foldl_write_mk (es : List IndexEntry_t) (c : List Byte) (p : Nat) :
    es.foldl (fun (st : FStream) e => st.write (le32 e.offset.n ++ le32 e.offset.z))
        (⟨c, p, false, false⟩ : FStream) =
      (⟨c ++ es.flatMap (fun e => le32 e.offset.n ++ le32 e.offset.z), p + 8 * es.length,
        false, false⟩ : FStream) := by
  exact FStream.foldl_write es ⟨c, p, false, false⟩ rfl

/-- The bytes `writeTail` appends for an index `idx` and a checksum state `st`. -/
theorem writeTail_content (lib : Lib) (s : zFile) (hgood : s.file_stream.good = true)
    (hflag : s.flag = Flag.ctor) :
    (zFilelz4.writeTail lib s).file_stream.content =
      s.file_stream.content ++
        (le32 0 ++ le32 (XXH32_digest lib s.xxh32state) ++
         (le32 0x184D2A50 ++ le32 (16 + s.listindex.length * 8 + 8)) ++
         (le32 0xCAFEDECA ++ le32 1 ++ le32 0 ++ le32 (s.listindex.length * 8)) ++
         s.listindex.flatMap (fun e => le32 e.offset.n ++ le32 e.offset.z) ++
         (le32 0x184D2A50 ++ le32 (16 + s.listindex.length * 8 + 8))) ∧
    (zFilelz4.writeTail lib s).lasterror = s.lasterror := by
  have hg := (FStream.good_iff _).1 hgood
  obtain ⟨he, hf⟩ := hg
  have hsc : Flag.ctor.streamChecksum ≠ 0 := by decide
  generalize hfs : s.file_stream = fs at *
  obtain ⟨c, p, eofb, failb⟩ := fs
  simp only at he hf
  subst he hf
  unfold zFilelz4.writeTail
  simp only [hflag, hsc, ne_eq, not_false_eq_true, if_true, not_true_eq_false, hfs,
    FStream.write_mk, FStream.fail, Bool.false_eq_true, if_false, FStream.foldl_write_mk]
  simp [LZ4S_EOS, SKIPPABLE_MAGIC_NUMBER_0, METADATA_MAGIC_NUMBER_0, sizeof_MetaHeader_t,
    sizeof_MetaIdentification_t, indexsize]

end Zcp

namespace Zcp

/-- C9 (tail layout). On a writable stream, with the flags of the constructor and an index
of `n` entries ordered by `uoff`, `writeTail` appends, in this order: the zero end mark,
the XXH32 digest, the skippable header (magic `0x184D2A50`, size `16 + 8n + 8`), the
identification (magic `0xCAFEDECA`, version 1, type 0, size `8n`), the `n` pairs
`(uoff, zoff)` in index order, i.e. by increasing `uoff`, and the skippable header again,
all as little-endian 32-bit words; the last 8 bytes of the file are that header, and the
two size words decode to `16 + 8n + 8` and `8n` whenever these fit 32 bits. -/
theorem C9_writeTail_layout (lib : Lib) (s : zFile) (hgood : s.file_stream.good = true)
    (hflag : s.flag = Flag.ctor)
    (hsorted : s.listindex.Pairwise (fun a b => a.offset.n < b.offset.n)) :
    (zFilelz4.writeTail lib s).file_stream.content =
      s.file_stream.content ++
        (le32 0 ++ le32 (XXH32_digest lib s.xxh32state) ++
         (le32 0x184D2A50 ++ le32 (16 + s.listindex.length * 8 + 8)) ++
         (le32 0xCAFEDECA ++ le32 1 ++ le32 0 ++ le32 (s.listindex.length * 8)) ++
         s.listindex.flatMap (fun e => le32 e.offset.n ++ le32 e.offset.z) ++
         (le32 0x184D2A50 ++ le32 (16 + s.listindex.length * 8 + 8))) ∧
    (s.listindex.map (fun e => e.offset.n)).Pairwise (fun a b => a < b) ∧
    (zFilelz4.writeTail lib s).file_stream.content.drop
        ((zFilelz4.writeTail lib s).file_stream.content.length - 8)
      = le32 0x184D2A50 ++ le32 (16 + s.listindex.length * 8 + 8) ∧
    (16 + s.listindex.length * 8 + 8 < 4294967296 →
      le32toh (le32 (16 + s.listindex.length * 8 + 8)) = 16 + s.listindex.length * 8 + 8 ∧
      le32toh (le32 (s.listindex.length * 8)) = s.listindex.length * 8) := by
  have hc := (writeTail_content lib s hgood hflag).1
  refine ⟨hc, ?_, ?_, ?_⟩
  · exact List.pairwise_map.2 hsorted
  · rw [hc]
    simp only [← List.append_assoc]
    rw [List.append_assoc _ (le32 0x184D2A50)]
    apply List.drop_left'
    simp only [List.length_append, le32_length]
    omega
  · intro h
    rw [le32toh_le32, le32toh_le32]
    omega

end Zcp

namespace Zcp

theorem setInsert_append (e : IndexEntry_t) (acc : List IndexEntry_t)
    (h : ∀ x ∈ acc, x.offset.n < e.offset.n) : setInsert e acc = acc ++ [e] := by
  induction acc with
  | nil => rfl
  | cons x xs ih =>
    have hx : x.offset.n < e.offset.n := h x (List.mem_cons_self _ _)
    have hnx : ¬ e.offset.n < x.offset.n := by omega
    simp only [setInsert, hnx, hx, if_true, if_false, List.cons_append]
    rw [ih (fun y hy => h y (List.mem_cons_of_mem _ hy))]

/-- The 8 bytes `writeTail` stores for one index entry. -/
theorem le32toh_entry (n z : Nat) (rest : List Byte) :
    le32toh ((le32 n ++ le32 z) ++ rest) = n % 4294967296 ∧
    le32toh (((le32 n ++ le32 z) ++ rest).drop 4) = z % 4294967296 := by
  constructor
  · rw [List.append_assoc, le32toh_le32_append]
  · rw [List.append_assoc, List.drop_left' (le32_length n), le32toh_le32_append]

/-- The loop of `readTail` over `k` entries that are each followed by another entry: the
entries are appended to the index in order, with their offsets. -/
theorem readTailLoop_entries (ptr : List Byte) (es : List IndexEntry_t) (post : List Byte) :
    ∀ (k pptr : Nat) (acc : List IndexEntry_t),
      ptr.drop pptr = es.flatMap (fun e => le32 e.offset.n ++ le32 e.offset.z) ++ post →
      k < es.length →
      (∀ e ∈ es, e.offset.n < 4294967296 ∧ e.offset.z < 4294967296) →
      es.Pairwise (fun a b => a.offset.n < b.offset.n) →
      (∀ x ∈ acc, ∀ e ∈ es, x.offset.n < e.offset.n) →
      (zFilelz4.readTailLoop ptr k pptr acc).1 = pptr + 8 * k ∧
      ((zFilelz4.readTailLoop ptr k pptr acc).2).map (fun e => e.offset)
        = acc.map (fun e => e.offset) ++ (es.take k).map (fun e => e.offset) ∧
      (∀ x ∈ (zFilelz4.readTailLoop ptr k pptr acc).2, ∀ e ∈ es.drop k,
          x.offset.n < e.offset.n) := by
  intro k
  induction k generalizing es with
  | zero =>
    intro pptr acc _ _ _ _ hacc
    simp only [zFilelz4.readTailLoop, List.take_zero, List.map_nil, List.append_nil,
      List.drop_zero, Nat.mul_zero, Nat.add_zero, true_and]
    exact hacc
  | succ k ih =>
    intro pptr acc hdrop hk hlt hsorted hacc
    match es, hk, hdrop, hlt, hsorted, hacc with
    | e :: es', hk, hdrop, hlt, hsorted, hacc =>
      have hk' : k < es'.length := by simpa using hk
      obtain ⟨hen, hez⟩ := hlt e (List.mem_cons_self _ _)
      have hd0 : ptr.drop pptr = (le32 e.offset.n ++ le32 e.offset.z) ++
          (es'.flatMap (fun e => le32 e.offset.n ++ le32 e.offset.z) ++ post) := by
        rw [hdrop, List.flatMap_cons, List.append_assoc]
      have hd8 : ptr.drop (pptr + 8)
          = es'.flatMap (fun e => le32 e.offset.n ++ le32 e.offset.z) ++ post := by
        rw [← List.drop_drop, hd0]
        exact List.drop_left' (by simp [le32_length])
      have hn : le32toh (ptr.drop pptr) = e.offset.n := by
        rw [hd0, (le32toh_entry _ _ _).1]
        omega
      have hz : le32toh (ptr.drop (pptr + 4)) = e.offset.z := by
        rw [← List.drop_drop, hd0, (le32toh_entry _ _ _).2]
        omega
      simp only [zFilelz4.readTailLoop, indexsize, hn, hz]
      have hins : setInsert (IndexEntry_t.ctor e.offset.n
            (u32Sub (le32toh (ptr.drop (pptr + 8))) e.offset.n) e.offset.z
            (u32Sub (le32toh (ptr.drop (pptr + 8 + 4))) e.offset.z)) acc
          = acc ++ [IndexEntry_t.ctor e.offset.n
            (u32Sub (le32toh (ptr.drop (pptr + 8))) e.offset.n) e.offset.z
            (u32Sub (le32toh (ptr.drop (pptr + 8 + 4))) e.offset.z)] := by
        apply setInsert_append
        intro x hx
        have := hacc x hx e (List.mem_cons_self _ _)
        simp only [IndexEntry_t.ctor]
        omega
      rw [hins]
      have hsorted' := (List.pairwise_cons.1 hsorted)
      obtain ⟨h1, h2, h3⟩ := ih es' (pptr + 8)
        (acc ++ [IndexEntry_t.ctor e.offset.n
            (u32Sub (le32toh (ptr.drop (pptr + 8))) e.offset.n) e.offset.z
            (u32Sub (le32toh (ptr.drop (pptr + 8 + 4))) e.offset.z)])
        hd8 hk' (fun x hx => hlt x (List.mem_cons_of_mem _ hx)) hsorted'.2
        (by
          intro x hx y hy
          rcases List.mem_append.1 hx with hx | hx
          · exact hacc x hx y (List.mem_cons_of_mem _ hy)
          · simp only [List.mem_singleton] at hx
            subst hx
            have := hsorted'.1 y hy
            simp only [IndexEntry_t.ctor]
            omega)
      refine ⟨by rw [h1]; omega, ?_, ?_⟩
      · rw [h2]
        simp only [List.map_append, List.map_cons, List.map_nil, List.take_succ_cons,
          List.append_assoc, List.singleton_append, IndexEntry_t.ctor]
        congr 2
        cases e with
        | mk off sz =>
          cases off
          simp only at hen hez ⊢
          congr 1 <;> omega
      · simpa using h3

end Zcp

namespace Zcp

theorem flatMap_entries_length (es : List IndexEntry_t) :
    (es.flatMap (fun e => le32 e.offset.n ++ le32 e.offset.z)).length = 8 * es.length := by
  induction es with
  | nil => rfl
  | cons e es ih =>
    simp only [List.flatMap_cons, List.length_append, le32_length, ih, List.length_cons]
    omega

theorem flatMap_entries_drop (es : List IndexEntry_t) (k : Nat) :
    (es.flatMap (fun e => le32 e.offset.n ++ le32 e.offset.z)).drop (8 * k)
      = (es.drop k).flatMap (fun e => le32 e.offset.n ++ le32 e.offset.z) := by
  induction k generalizing es with
  | zero => simp
  | succ k ih =>
    cases es with
    | nil => simp
    | cons e es =>
      have h8 : 8 * (k + 1) = 8 + 8 * k := by omega
      rw [h8, ← List.drop_drop, List.flatMap_cons, List.drop_left' (by simp [le32_length]),
        List.drop_succ_cons, ih]

/-- The parse of a payload written by `writeTail`: identification, `n ≥ 1` entries with
offsets below `2^32` ordered by `uoff`, then the trailing bytes `post`. -/
theorem parseMeta_written (es : List IndexEntry_t) (post : List Byte) (lastbloc : Nat)
    (hne : es ≠ [])
    (hlt : ∀ e ∈ es, e.offset.n < 4294967296 ∧ e.offset.z < 4294967296)
    (hsorted : es.Pairwise (fun a b => a.offset.n < b.offset.n))
    (hsize : es.length * 8 < 4294967296) :
    ∃ idx, zFilelz4.parseMeta
        ((le32 0xCAFEDECA ++ le32 1 ++ le32 0 ++ le32 (es.length * 8)) ++
          es.flatMap (fun e => le32 e.offset.n ++ le32 e.offset.z) ++ post) lastbloc []
        = some idx ∧
      idx.map (fun e => e.offset) = es.map (fun e => e.offset) := by
  have hn : 1 ≤ es.length := by
    cases es with
    | nil => exact absurd rfl hne
    | cons _ _ => simp
  generalize hptr : (le32 0xCAFEDECA ++ le32 1 ++ le32 0 ++ le32 (es.length * 8)) ++
          es.flatMap (fun e => le32 e.offset.n ++ le32 e.offset.z) ++ post = ptr
  have hlen : ptr.length = 16 + 8 * es.length + post.length := by
    rw [← hptr]
    simp only [List.length_append, le32_length, flatMap_entries_length]
  have hm : le32toh ptr = METADATA_MAGIC_NUMBER_0 := by
    rw [← hptr]
    simp only [List.append_assoc]
    rw [le32toh_le32_append]
    rfl
  have hv : le32toh (ptr.drop 4) = 1 := by
    rw [← hptr]
    simp only [List.append_assoc]
    rw [List.drop_left' (le32_length _), le32toh_le32_append]
  have ht : le32toh (ptr.drop 8) = 0 := by
    rw [← hptr]
    simp only [List.append_assoc]
    rw [← List.append_assoc (le32 0xCAFEDECA), List.drop_left' (by simp [le32_length]),
      le32toh_le32_append]
  have hs : le32toh (ptr.drop 12) = es.length * 8 := by
    rw [← hptr]
    simp only [List.append_assoc]
    rw [← List.append_assoc (le32 1), ← List.append_assoc (le32 0xCAFEDECA),
      List.drop_left' (by simp [le32_length]), le32toh_le32_append]
    omega
  have hd16 : ptr.drop 16 = es.flatMap (fun e => le32 e.offset.n ++ le32 e.offset.z) ++ post := by
    rw [← hptr]
    rw [List.append_assoc]
    exact List.drop_left' (by simp [le32_length])
  have hcnt : sizeSub (es.length * 8 / indexsize) 1 = es.length - 1 := by
    have : es.length * 8 / indexsize = es.length := by
      simp [indexsize]
    rw [this]
    unfold sizeSub
    simp [hn]
  have hfit : sizeof_MetaIdentification_t + (es.length - 1 + 1) * indexsize ≤ ptr.length := by
    simp only [sizeof_MetaIdentification_t, indexsize, hlen]
    omega
  obtain ⟨h1, h2, h3⟩ := readTailLoop_entries ptr es post (es.length - 1) 16 [] hd16
    (by omega) hlt hsorted (by simp)
  -- the last entry
  obtain ⟨last, hlast⟩ : ∃ last, es.drop (es.length - 1) = [last] := by
    have hl : (es.drop (es.length - 1)).length = 1 := by
      rw [List.length_drop]
      omega
    match es.drop (es.length - 1), hl with
    | [x], _ => exact ⟨x, rfl⟩
  have hlastmem : last ∈ es := by
    have : last ∈ es.drop (es.length - 1) := by rw [hlast]; simp
    exact List.mem_of_mem_drop this
  obtain ⟨hln, hlz⟩ := hlt last hlastmem
  have hdl : ptr.drop (16 + 8 * (es.length - 1))
      = (le32 last.offset.n ++ le32 last.offset.z) ++ post := by
    rw [← List.drop_drop, hd16, List.drop_append_of_le_length (by
      rw [flatMap_entries_length]; omega), flatMap_entries_drop, hlast]
    simp
  have hnl : le32toh (ptr.drop (16 + 8 * (es.length - 1))) = last.offset.n := by
    rw [hdl, (le32toh_entry _ _ _).1]
    omega
  have hzl : le32toh (ptr.drop (16 + 8 * (es.length - 1) + 4)) = last.offset.z := by
    rw [← List.drop_drop, hdl, (le32toh_entry _ _ _).2]
    omega
  have hnlen : ¬ ptr.length < sizeof_MetaIdentification_t := by
    simp only [sizeof_MetaIdentification_t, hlen]
    omega
  refine ⟨setInsert (IndexEntry_t.ctor last.offset.n (sizeSub lastbloc last.offset.z)
      last.offset.z (sizeSub lastbloc last.offset.z))
      (zFilelz4.readTailLoop ptr (es.length - 1) 16 []).2, ?_, ?_⟩
  · unfold zFilelz4.parseMeta
    simp only [hnlen, if_false, hm, hv, ht, hs, and_self, if_true, hcnt, hfit,
      sizeof_MetaIdentification_t, h1, hnl, hzl]
    simp only [sizeof_MetaIdentification_t] at hnlen hfit
    simp only [hnlen, hfit, if_false, if_true]
  · rw [setInsert_append]
    · rw [List.map_append, h2]
      simp only [List.map_nil, List.nil_append, List.map_cons, IndexEntry_t.ctor]
      have hes : es = es.take (es.length - 1) ++ [last] := by
        rw [← hlast, List.take_append_drop]
      conv_rhs => rw [hes]
      rw [List.map_append]
      congr 1
      cases last with
      | mk off sz =>
        cases off
        simp only at hln hlz ⊢
        congr 2 <;> omega
    · intro x hx
      have := h3 x hx last (by rw [hlast]; simp)
      simp only [IndexEntry_t.ctor]
      omega

end Zcp

namespace Zcp

theorem drop_length_sub (a b : List Byte) (k : Nat) (hk : b.length = k) :
    (a ++ b).drop ((a ++ b).length - k) = b := by
  apply List.drop_left'
  simp only [List.length_append]
  omega

/-- C10 (index round trip), as the code has it. For a non-empty index whose entries are
ordered by strictly increasing `uoff`, have offsets below `2^32`, and whose serialised
size `16 + 8n + 8` fits the 32-bit size word and the room the stack has left for the
array of `readTail`, `readTail` on a file that ends with the output of `writeTail` sets
no error and yields an index with the same number of entries and the same `(uoff, zoff)`
pairs in the same order. -/
theorem C10_index_roundtrip (lib : Lib) (w r : zFile)
    (hw : w.file_stream.good = true) (hwf : w.flag = Flag.ctor)
    (hne : w.listindex ≠ [])
    (hlt : ∀ e ∈ w.listindex, e.offset.n < 4294967296 ∧ e.offset.z < 4294967296)
    (hsorted : w.listindex.Pairwise (fun a b => a.offset.n < b.offset.n))
    (hsize : 16 + w.listindex.length * 8 + 8 < 4294967296)
    (hstack : 16 + w.listindex.length * 8 + 8 ≤ lib.stack)
    (hr : r.file_stream.good = true)
    (hrc : r.file_stream.content = (zFilelz4.writeTail lib w).file_stream.content)
    (hri : r.listindex = []) :
    ∃ r2, zFilelz4.readTail lib r = some r2 ∧ r2.lasterror = r.lasterror ∧
      r2.listindex.length = w.listindex.length ∧
      r2.listindex.map (fun e => (e.offset.n, e.offset.z))
        = w.listindex.map (fun e => (e.offset.n, e.offset.z)) := by
  have hc := (writeTail_content lib w hw hwf).1
  rw [← hrc] at hc
  generalize hS : 16 + w.listindex.length * 8 + 8 = S at *
  generalize hE : w.listindex.flatMap (fun e => le32 e.offset.n ++ le32 e.offset.z) = E at *
  have hElen : E.length = 8 * w.listindex.length := by rw [← hE, flatMap_entries_length]
  -- the three suffixes of the file that `readTail` looks at
  have hd8 : r.file_stream.content.drop (r.file_stream.content.length - 8)
      = le32 0x184D2A50 ++ le32 S := by
    rw [hc, ← List.append_assoc]
    exact drop_length_sub _ _ 8 (by simp [le32_length])
  have hd4 : r.file_stream.content.drop (r.file_stream.content.length - 4) = le32 S := by
    rw [hc, ← List.append_assoc, ← List.append_assoc]
    exact drop_length_sub _ _ 4 (le32_length _)
  have hdS : r.file_stream.content.drop (r.file_stream.content.length - S)
      = (le32 0xCAFEDECA ++ le32 1 ++ le32 0 ++ le32 (w.listindex.length * 8)) ++ E ++
          (le32 0x184D2A50 ++ le32 S) := by
    rw [hc]
    have : w.file_stream.content ++
        (le32 0 ++ le32 (XXH32_digest lib w.xxh32state) ++ (le32 0x184D2A50 ++ le32 S) ++
          (le32 0xCAFEDECA ++ le32 1 ++ le32 0 ++ le32 (w.listindex.length * 8)) ++ E ++
          (le32 0x184D2A50 ++ le32 S))
        = (w.file_stream.content ++
            (le32 0 ++ le32 (XXH32_digest lib w.xxh32state) ++ (le32 0x184D2A50 ++ le32 S))) ++
          ((le32 0xCAFEDECA ++ le32 1 ++ le32 0 ++ le32 (w.listindex.length * 8)) ++ E ++
            (le32 0x184D2A50 ++ le32 S)) := by
      simp only [List.append_assoc]
    rw [this]
    apply drop_length_sub
    simp only [List.length_append, le32_length, hElen]
    omega
  have hlen : r.file_stream.content.length
      = w.file_stream.content.length + 16 + S := by
    rw [hc]
    simp only [List.length_append, le32_length, hElen]
    omega
  have hread := readTail_good lib r hr (by omega)
  have hmagic : le32toh (le32 0x184D2A50 ++ le32 S) = SKIPPABLE_MAGIC_NUMBER_0 := by
    rw [le32toh_le32_append]
    rfl
  have hsz : le32toh (le32 S) = S := by
    rw [le32toh_le32]
    omega
  have hnlt : ¬ (r.file_stream.content.length < S) := by omega
  have hnstk : ¬ (lib.stack < S) := by omega
  obtain ⟨idx, hidx, hmap⟩ := parseMeta_written w.listindex (le32 0x184D2A50 ++ le32 S)
    (r.file_stream.content.length - S) hne hlt hsorted (by omega)
  rw [hE] at hidx
  simp only [hd8, hd4, hmagic, hsz, hnstk, hnlt, hdS, hri, hidx, if_true, if_false] at hread
  refine ⟨_, hread, rfl, ?_, ?_⟩
  · have := congrArg List.length hmap
    simpa using this
  · have := congrArg (List.map (fun (o : IndexOffset) => (o.n, o.z))) hmap
    simpa [List.map_map] using this

end Zcp

namespace Zcp

theorem writerWith_facts (idx : List IndexEntry_t) :
    (writerWith idx).file_stream = { content := [], pos := 0, eofbit := false, failbit := false } ∧
    (writerWith idx).flag = Flag.ctor ∧ (writerWith idx).listindex = idx := by
  simp [writerWith, zFilelz4.ctorInit, zFile.ctor, FStream.openFile, FStream.fail, FStream.seekg]

/-- When the size word of the skippable header has wrapped around to 24, `readTail` parses
the last two entries as the identification, does not find its magic number and leaves the
index empty. -/
theorem readTail_wrapped (lib : Lib) (pre : List IndexEntry_t) (e1 e2 : IndexEntry_t)
    (hsz : le32 (16 + (pre ++ [e1, e2]).length * 8 + 8) = le32 24)
    (hm : e1.offset.n % 4294967296 ≠ METADATA_MAGIC_NUMBER_0) (hstack : 24 ≤ lib.stack) :
    (zFilelz4.readTail lib
        (readerOn (zFilelz4.writeTail lib (writerWith (pre ++ [e1, e2]))).file_stream.content)).map
      (fun z => (z.lasterror, z.listindex.length)) = some (.e_SuccessError, 0) := by
  obtain ⟨hws, hwf, hwi⟩ := writerWith_facts (pre ++ [e1, e2])
  have hwg : (writerWith (pre ++ [e1, e2])).file_stream.good = true := by rw [hws]; rfl
  have hc := (writeTail_content lib (writerWith (pre ++ [e1, e2])) hwg hwf).1
  rw [hwi, hws, hsz] at hc
  simp only [List.nil_append] at hc
  generalize XXH32_digest lib (writerWith (pre ++ [e1, e2])).xxh32state = dg at hc
  generalize (zFilelz4.writeTail lib (writerWith (pre ++ [e1, e2]))).file_stream.content = F at *
  obtain ⟨hrs, hre, -, hri, -⟩ := ctorInit_read F 65536 1 1
  have hrg : (readerOn F).file_stream.good = true := by
    unfold readerOn
    rw [hrs]
    rfl
  have hE : (pre ++ [e1, e2]).flatMap (fun e => le32 e.offset.n ++ le32 e.offset.z)
      = pre.flatMap (fun e => le32 e.offset.n ++ le32 e.offset.z) ++
        (le32 e1.offset.n ++ le32 e1.offset.z ++ (le32 e2.offset.n ++ le32 e2.offset.z)) := by
    simp [List.flatMap_append, List.flatMap_cons]
  rw [hE] at hc
  generalize pre.flatMap (fun e => le32 e.offset.n ++ le32 e.offset.z) = E0 at hc
  generalize (pre ++ [e1, e2]).length * 8 = n8 at hc
  have h8 : (le32 0x184D2A50 ++ le32 24).length = 8 := rfl
  have h24 : (le32 e1.offset.n ++ le32 e1.offset.z ++ (le32 e2.offset.n ++ le32 e2.offset.z) ++
      (le32 0x184D2A50 ++ le32 24)).length = 24 := rfl
  have hd8 : F.drop (F.length - 8) = le32 0x184D2A50 ++ le32 24 := by
    rw [hc]
    exact drop_length_sub _ _ 8 h8
  have hd4 : F.drop (F.length - 4) = le32 24 := by
    rw [hc, ← List.append_assoc]
    exact drop_length_sub _ _ 4 (le32_length _)
  have hd24 : F.drop (F.length - 24)
      = le32 e1.offset.n ++ le32 e1.offset.z ++ (le32 e2.offset.n ++ le32 e2.offset.z) ++
          (le32 0x184D2A50 ++ le32 24) := by
    rw [hc]
    have : le32 0 ++ le32 dg ++ (le32 0x184D2A50 ++ le32 24) ++
          (le32 0xCAFEDECA ++ le32 1 ++ le32 0 ++ le32 n8) ++
          (E0 ++ (le32 e1.offset.n ++ le32 e1.offset.z ++
            (le32 e2.offset.n ++ le32 e2.offset.z))) ++
          (le32 0x184D2A50 ++ le32 24)
        = (le32 0 ++ le32 dg ++ (le32 0x184D2A50 ++ le32 24) ++
          (le32 0xCAFEDECA ++ le32 1 ++ le32 0 ++ le32 n8) ++ E0) ++
          (le32 e1.offset.n ++ le32 e1.offset.z ++ (le32 e2.offset.n ++ le32 e2.offset.z) ++
            (le32 0x184D2A50 ++ le32 24)) := by
      simp only [List.append_assoc]
    rw [this]
    exact drop_length_sub _ _ 24 h24
  have hlen : 24 ≤ F.length := by
    have h := congrArg List.length hc
    simp only [List.length_append, le32_length] at h
    omega
  have hcont : (readerOn F).file_stream.content = F := by
    unfold readerOn
    rw [hrs]
  have hread := readTail_good lib (readerOn F) hrg (by rw [hcont]; omega)
  have hli : (readerOn F).listindex = [] := hri
  have hle : (readerOn F).lasterror = .e_SuccessError := hre
  have hmagic : le32toh (le32 0x184D2A50 ++ le32 24) = SKIPPABLE_MAGIC_NUMBER_0 := by decide
  have hs24 : le32toh (le32 24) = 24 := by decide
  have hpm : zFilelz4.parseMeta
      (le32 e1.offset.n ++ le32 e1.offset.z ++ (le32 e2.offset.n ++ le32 e2.offset.z) ++
          (le32 0x184D2A50 ++ le32 24)) (F.length - 24) [] = some [] := by
    unfold zFilelz4.parseMeta
    have h1 : ¬ ((le32 e1.offset.n ++ le32 e1.offset.z ++
        (le32 e2.offset.n ++ le32 e2.offset.z) ++
          (le32 0x184D2A50 ++ le32 24)).length < sizeof_MetaIdentification_t) := by
      rw [h24]
      decide
    have h2 : ¬ (le32toh (le32 e1.offset.n ++ le32 e1.offset.z ++
          (le32 e2.offset.n ++ le32 e2.offset.z) ++ (le32 0x184D2A50 ++ le32 24))
        = METADATA_MAGIC_NUMBER_0) := by
      simp only [List.append_assoc]
      rw [le32toh_le32_append]
      exact hm
    simp only [h1, h2, if_false, false_and]
  have hnlt : ¬ (F.length < 24) := by omega
  have hnstk : ¬ (lib.stack < 24) := by omega
  simp only [hcont, hd8, hd4, hmagic, hs24, hnstk, hnlt, hd24, hli, hpm, if_true, if_false]
    at hread
  rw [hread]
  simp [hle]

theorem bigIndex_length : bigIndex.length = 536870912 := by
  unfold bigIndex
  rw [List.length_map, List.length_range]

theorem bigIndex_split :
    bigIndex = (List.range 536870910).map (fun i => IndexEntry_t.ctor i 0 i 0) ++
      [IndexEntry_t.ctor 536870910 0 536870910 0, IndexEntry_t.ctor 536870911 0 536870911 0] := by
  have h : (536870912 : Nat) = 536870910 + 1 + 1 := rfl
  unfold bigIndex
  rw [h, List.range_succ, List.range_succ, List.map_append, List.map_append]
  generalize List.map (fun i => IndexEntry_t.ctor i 0 i 0) (List.range 536870910) = X
  simp

theorem bigIndex_mem (e : IndexEntry_t) (h : e ∈ bigIndex) :
    ∃ i, i < 536870912 ∧ e.offset.n = i ∧ e.offset.z = i := by
  unfold bigIndex at h
  obtain ⟨i, hi, rfl⟩ := List.mem_map.1 h
  have hi' : i < 536870912 := List.mem_range.1 hi
  refine ⟨i, hi', ?_, ?_⟩ <;> simp only [IndexEntry_t.ctor] <;> omega

/-- C10 as stated fails: the index of `2^29` entries `(uoff, zoff) = (i, i)` is not empty
and has strictly increasing offsets, all below `2^32`; written by `writeTail` and read
back by `readTail`, it gives no error and an empty index (the 32-bit size word of the
skippable header holds `(16 + 8·2^29 + 8) mod 2^32 = 24`, so the last 24 bytes are parsed
and their first word is not the identification magic). -/
theorem C10_counterexample :
    bigIndex ≠ [] ∧
    (∀ e ∈ bigIndex, e.offset.n < 4294967296 ∧ e.offset.z < 4294967296) ∧
    bigIndex.Pairwise (fun a b => a.offset.n < b.offset.n ∧ a.offset.z < b.offset.z) ∧
    bigIndex.length = 536870912 ∧
    (zFilelz4.readTail libRun
        (readerOn (zFilelz4.writeTail libRun (writerWith bigIndex)).file_stream.content)).map
      (fun z => (z.lasterror, z.listindex.length)) = some (.e_SuccessError, 0) := by
  refine ⟨?_, ?_, ?_, bigIndex_length, ?_⟩
  · intro h
    have := bigIndex_length
    rw [h] at this
    exact absurd this (by decide)
  · intro e he
    obtain ⟨i, hi, hn, hz⟩ := bigIndex_mem e he
    omega
  · unfold bigIndex
    rw [List.pairwise_map]
    apply List.Pairwise.imp_of_mem _ (List.pairwise_lt_range 536870912)
    intro a b ha hb hab
    have ha' := List.mem_range.1 ha
    have hb' := List.mem_range.1 hb
    simp only [IndexEntry_t.ctor]
    omega
  · rw [bigIndex_split]
    apply readTail_wrapped
    · rw [List.length_append, List.length_map, List.length_range]
      decide
    · decide
    · decide

end Zcp

namespace Zcp

/-- Witness of C6: for the block-size id 4 the header is `04 22 4D 18 64 40 A7`. -/
theorem C6_writeHeader_layout_witness :
    (zFilelz4.writeHeader libRun { writerWith [] with blockSizeId := 4 }).file_stream.content
      = [0x04, 0x22, 0x4D, 0x18, 0x64, 0x40, 0xA7] ∧
    (zFilelz4.writeHeader libRun { writerWith [] with blockSizeId := 4 }).zip_nzoffset = 7 :=
  ⟨(C6_writeHeader_layout libRun { writerWith [] with blockSizeId := 4 }
      (by decide) (by decide)).1.trans (by decide),
   (C6_writeHeader_layout libRun { writerWith [] with blockSizeId := 4 }
      (by decide) (by decide)).2.trans (by decide)⟩

/-- Witness of C7: the header `04 22 4D 18 64 40 A7` is accepted and gives the id 4. -/
theorem C7_readHeader_validation_witness :
    (zFilelz4.readHeader libRun
      (readerOn [0x04, 0x22, 0x4D, 0x18, 0x64, 0x40, 0xA7, 0, 0, 0, 0])).lasterror
        = .e_SuccessError ∧
    (zFilelz4.readHeader libRun
      (readerOn [0x04, 0x22, 0x4D, 0x18, 0x64, 0x40, 0xA7, 0, 0, 0, 0])).blockSizeId = 4 :=
  ⟨(C7_readHeader_validation libRun
      (readerOn [0x04, 0x22, 0x4D, 0x18, 0x64, 0x40, 0xA7, 0, 0, 0, 0])
      0x04 0x22 0x4D 0x18 0x64 0x40 0xA7 [0, 0, 0, 0]
      (by decide) (by decide) (by decide) (by decide)).1.2 (by decide),
   ((C7_readHeader_validation libRun
      (readerOn [0x04, 0x22, 0x4D, 0x18, 0x64, 0x40, 0xA7, 0, 0, 0, 0])
      0x04 0x22 0x4D 0x18 0x64 0x40 0xA7 [0, 0, 0, 0]
      (by decide) (by decide) (by decide) (by decide)).2.2.1 (by decide)).trans (by decide)⟩

/-- Witness of C8: the 11 bytes `04 22 4D 18 64 40 A7 00 00 00 00` are detected as LZ4;
on the 15 bytes `04 22 4D 18 64 40 A7 50 2A 4D 18 00 00 90 00`, whose last eight bytes
announce a skippable frame of 9 MiB, the array does not fit in the stack and the call
does not return. -/
theorem C8_getFormat_witness :
    (tailFits libRun [0x04, 0x22, 0x4D, 0x18, 0x64, 0x40, 0xA7, 0, 0, 0, 0] ∧
      tailInside [0x04, 0x22, 0x4D, 0x18, 0x64, 0x40, 0xA7, 0, 0, 0, 0]) ∧
    zFile.getFormat libRun (some [0x04, 0x22, 0x4D, 0x18, 0x64, 0x40, 0xA7, 0, 0, 0, 0])
      = some .e_lz4 ∧
    zFile.getFormat libRun
        (some [0x04, 0x22, 0x4D, 0x18, 0x64, 0x40, 0xA7, 0x50, 0x2A, 0x4D, 0x18, 0, 0, 0x90, 0])
      = none :=
  ⟨⟨fun _ h => absurd h (by decide), fun _ h => absurd h (by decide)⟩,
   ((C8_getFormat libRun [0x04, 0x22, 0x4D, 0x18, 0x64, 0x40, 0xA7, 0, 0, 0, 0]).1
      ⟨fun _ h => absurd h (by decide), fun _ h => absurd h (by decide)⟩).1.2
      ⟨⟨by decide, by decide, by decide, by decide⟩, ⟨by decide, fun h => absurd h (by decide)⟩⟩,
   (C8_getFormat libRun
      [0x04, 0x22, 0x4D, 0x18, 0x64, 0x40, 0xA7, 0x50, 0x2A, 0x4D, 0x18, 0, 0, 0x90, 0]).2.1
      (fun h => absurd (h.1 (by decide) (by decide)) (by decide))⟩

/-- Witness of C9: the tail written for the three-entry index (0,7), (4,15), (8,23) ends
with the skippable header `50 2A 4D 18 30 00 00 00` (size 48 = 16 + 8·3 + 8). -/
theorem C9_writeTail_layout_witness :
    (zFilelz4.writeTail libRun
        (writerWith [IndexEntry_t.ctor 0 0 7 0, IndexEntry_t.ctor 4 0 15 0,
          IndexEntry_t.ctor 8 0 23 0])).file_stream.content.drop
      ((zFilelz4.writeTail libRun
        (writerWith [IndexEntry_t.ctor 0 0 7 0, IndexEntry_t.ctor 4 0 15 0,
          IndexEntry_t.ctor 8 0 23 0])).file_stream.content.length - 8)
      = [0x50, 0x2A, 0x4D, 0x18, 0x30, 0, 0, 0] :=
  (C9_writeTail_layout libRun
      (writerWith [IndexEntry_t.ctor 0 0 7 0, IndexEntry_t.ctor 4 0 15 0,
        IndexEntry_t.ctor 8 0 23 0])
      (by decide) (by decide) (by decide)).2.2.1.trans (by decide)

/-- Witness of C10: the three-entry index (0,7), (4,15), (8,23) written by `writeTail` is
read back by `readTail`. -/
theorem C10_index_roundtrip_witness :
    ∃ r2, zFilelz4.readTail libRun (readerOn (zFilelz4.writeTail libRun
        (writerWith [IndexEntry_t.ctor 0 0 7 0, IndexEntry_t.ctor 4 0 15 0,
          IndexEntry_t.ctor 8 0 23 0])).file_stream.content) = some r2 ∧
      r2.lasterror = .e_SuccessError ∧ r2.listindex.length = 3 ∧
      r2.listindex.map (fun e => (e.offset.n, e.offset.z)) = [(0, 7), (4, 15), (8, 23)] :=
  C10_index_roundtrip libRun
    (writerWith [IndexEntry_t.ctor 0 0 7 0, IndexEntry_t.ctor 4 0 15 0,
      IndexEntry_t.ctor 8 0 23 0])
    (readerOn (zFilelz4.writeTail libRun
        (writerWith [IndexEntry_t.ctor 0 0 7 0, IndexEntry_t.ctor 4 0 15 0,
          IndexEntry_t.ctor 8 0 23 0])).file_stream.content)
    (by decide) (by decide) (by decide) (by decide) (by decide) (by decide) (by decide)
    (by decide) (by decide) (by decide)

end Zcp

namespace Zcp

theorem indexOffsets_append (lib : Lib) (func : compressFunc_t) (level C : Nat)
    (a : List (List Byte)) (b : List Byte) (n z : Nat) :
    indexOffsets lib func level C n z (a ++ [b])
      = indexOffsets lib func level C n z a ++
          [((n + sumN a) % 4294967296, (z + sumZ lib func level C a) % 4294967296)] := by
  induction a generalizing n z with
  | nil => simp [indexOffsets, sumN, sumZ]
  | cons x xs ih =>
    show (n % 4294967296, z % 4294967296) ::
        indexOffsets lib func level C (n + x.length)
          (z + ((zFilelz4.compress lib func level x C).1 &&& 0x7fffffff)) (xs ++ [b]) = _
    rw [ih]
    simp only [indexOffsets, sumN, sumZ, List.map_cons, List.sum_cons, Nat.add_assoc,
      List.cons_append]

/-- The offsets of the index after an insertion. -/
theorem setInsert_offsets (e : IndexEntry_t) (idx : List IndexEntry_t) :
    (setInsert e idx).map (fun x => (x.offset.n, x.offset.z))
      = insertOffset (e.offset.n, e.offset.z) (idx.map (fun x => (x.offset.n, x.offset.z))) := by
  induction idx with
  | nil => rfl
  | cons x xs ih =>
    simp only [setInsert, insertOffset, List.map_cons]
    split_ifs
    · rfl
    · rw [List.map_cons, ih]
    · rfl

theorem setOffsets_append (ps : List (Nat × Nat)) (p : Nat × Nat) :
    setOffsets (ps ++ [p]) = insertOffset p (setOffsets ps) := by
  simp only [setOffsets, List.foldl_append, List.foldl_cons, List.foldl_nil]

/-- An offset above all those of the index goes to its end. -/
theorem insertOffset_last (p : Nat × Nat) (l : List (Nat × Nat))
    (h : ∀ x ∈ l, x.1 < p.1) : insertOffset p l = l ++ [p] := by
  induction l with
  | nil => rfl
  | cons x xs ih =>
    have hx : x.1 < p.1 := h x (List.mem_cons_self _ _)
    have hnx : ¬ p.1 < x.1 := by omega
    simp only [insertOffset, hnx, hx, if_true, if_false, List.cons_append]
    rw [ih (fun y hy => h y (List.mem_cons_of_mem _ hy))]

/-- Offsets inserted in strictly increasing order of `uoff` are kept in this order. -/
theorem setOffsets_sorted (ps : List (Nat × Nat)) (h : ps.Pairwise (fun p q => p.1 < q.1)) :
    setOffsets ps = ps := by
  induction ps using List.reverseRecOn with
  | nil => rfl
  | append_singleton l p ih =>
    have hl := List.pairwise_append.1 h
    rw [setOffsets_append, ih hl.1]
    apply insertOffset_last
    intro x hx
    exact hl.2.2 x hx p (List.mem_singleton_self p)

/-- An insertion keeps the offsets that are there, in their order. -/
theorem insertOffset_sublist (p : Nat × Nat) (l : List (Nat × Nat)) :
    l.Sublist (insertOffset p l) := by
  induction l with
  | nil => exact List.nil_sublist _
  | cons x xs ih =>
    simp only [insertOffset]
    split_ifs
    · exact List.sublist_cons_self _ _
    · exact List.Sublist.cons₂ _ ih
    · exact List.Sublist.refl _

theorem insertOffset_mem (p q : Nat × Nat) (l : List (Nat × Nat))
    (h : q ∈ insertOffset p l) : q = p ∨ q ∈ l := by
  induction l with
  | nil =>
    simp only [insertOffset, List.mem_singleton] at h
    exact Or.inl h
  | cons x xs ih =>
    simp only [insertOffset] at h
    split_ifs at h
    · simp only [List.mem_cons] at h ⊢
      tauto
    · simp only [List.mem_cons] at h ⊢
      rcases h with h | h
      · exact Or.inr (Or.inl h)
      · rcases ih h with h2 | h2
        · exact Or.inl h2
        · exact Or.inr (Or.inr h2)
    · exact Or.inr h

/-- The index is ordered by strictly increasing `uoff`, whatever is inserted. -/
theorem insertOffset_pairwise (p : Nat × Nat) (l : List (Nat × Nat))
    (h : l.Pairwise (fun a b => a.1 < b.1)) :
    (insertOffset p l).Pairwise (fun a b => a.1 < b.1) := by
  induction l with
  | nil => simp [insertOffset]
  | cons x xs ih =>
    obtain ⟨hx, hxs⟩ := List.pairwise_cons.1 h
    simp only [insertOffset]
    split_ifs with h1 h2
    · apply List.pairwise_cons.2
      refine ⟨?_, h⟩
      intro y hy
      rcases List.mem_cons.1 hy with rfl | hy
      · exact h1
      · exact Nat.lt_trans h1 (hx y hy)
    · apply List.pairwise_cons.2
      refine ⟨?_, ih hxs⟩
      intro y hy
      rcases insertOffset_mem p y xs hy with rfl | hy
      · exact h2
      · exact hx y hy
    · exact h

theorem setOffsets_pairwise (ps : List (Nat × Nat)) :
    (setOffsets ps).Pairwise (fun a b => a.1 < b.1) := by
  induction ps using List.reverseRecOn with
  | nil => simp [setOffsets]
  | append_singleton l p ih =>
    rw [setOffsets_append]
    exact insertOffset_pairwise p _ ih

theorem insertOffset_ne_nil (p : Nat × Nat) (l : List (Nat × Nat)) : insertOffset p l ≠ [] := by
  cases l with
  | nil => simp [insertOffset]
  | cons x xs =>
    simp only [insertOffset]
    split_ifs <;> simp

theorem setOffsets_ne_nil (ps : List (Nat × Nat)) (h : ps ≠ []) : setOffsets ps ≠ [] := by
  induction ps using List.reverseRecOn with
  | nil => exact absurd rfl h
  | append_singleton l p _ =>
    rw [setOffsets_append]
    exact insertOffset_ne_nil p _

/-- The index holds offsets that were inserted. -/
theorem setOffsets_mem (ps : List (Nat × Nat)) (q : Nat × Nat) (h : q ∈ setOffsets ps) :
    q ∈ ps := by
  induction ps using List.reverseRecOn with
  | nil => simp [setOffsets] at h
  | append_singleton l p ih =>
    rw [setOffsets_append] at h
    rcases insertOffset_mem p q _ h with h2 | h2
    · rw [h2]
      exact List.mem_append_right _ (List.mem_singleton_self p)
    · exact List.mem_append_left _ (ih h2)

theorem sumN_append (a : List (List Byte)) (b : List Byte) : sumN (a ++ [b]) = sumN a + b.length := by
  simp [sumN]

theorem sumZ_append (lib : Lib) (func : compressFunc_t) (level C : Nat)
    (a : List (List Byte)) (b : List Byte) :
    sumZ lib func level C (a ++ [b])
      = sumZ lib func level C a + ((zFilelz4.compress lib func level b C).1 &&& 0x7fffffff) := by
  simp [sumZ]

/-- Joining an in-flight pool leaves it with the result of `compress` on its input. -/
theorem wait_inFlight (lib : Lib) (func : compressFunc_t) (level C : Nat) (p : MemPool)
    (hjoin : lib.pthread_join = 0) (hp : InFlight lib func level C p) :
    (p.wait lib).2 = 0 ∧ (p.wait lib).1.thid = 0 ∧ (p.wait lib).1.job = none ∧
    (p.wait lib).1.inb = p.inb ∧ (p.wait lib).1.mode = .e_ZipPool ∧
    (p.wait lib).1.poolsize = C ∧
    (p.wait lib).1.outsize = (zFilelz4.compress lib func level p.inb C).1 ∧
    (p.wait lib).1.out = (zFilelz4.compress lib func level p.inb C).2.1 := by
  obtain ⟨hm, hc, hj⟩ := hp
  by_cases ht : p.thid = 0
  · rcases hj with ⟨h1, _⟩ | ⟨h1, h2, h3⟩
    · exact absurd ht h1
    · simp [MemPool.wait, ht, h1, h2, h3, hm, hc]
  · rcases hj with ⟨_, h1⟩ | ⟨h1, h2, h3⟩
    · simp [MemPool.wait, ht, hjoin, MemPool.finish, h1, hm, hc]
    · simp [MemPool.wait, ht, hjoin, MemPool.finish, h1, h2, h3, hm, hc]

theorem inFlight_finish (lib : Lib) (func : compressFunc_t) (level C : Nat) (p : MemPool)
    (hp : InFlight lib func level C p) :
    InFlight lib func level C p.finish ∧ p.finish.inb = p.inb := by
  obtain ⟨hm, hc, hj⟩ := hp
  rcases hj with ⟨_, h1⟩ | ⟨h1, h2, h3⟩
  · refine ⟨⟨?_, ?_, Or.inr ?_⟩, ?_⟩ <;> simp [MemPool.finish, h1, hm, hc]
  · have : p.finish = p := by simp [MemPool.finish, h1]
    rw [this]
    exact ⟨⟨hm, hc, Or.inr ⟨h1, h2, h3⟩⟩, rfl⟩

end Zcp

namespace Zcp

theorem MemPool.wait_thid_zero (lib : Lib) (p : MemPool) (h : p.thid = 0) :
    p.wait lib = (p, 0) := by
  simp [MemPool.wait, h]

/-- One `flush` of a stream that satisfies the invariant: the frame of the oldest in-flight
block is appended to the file and its offsets are inserted in the index. -/
theorem flush_inv (lib : Lib) (func : compressFunc_t) (level C : Nat) (hdr : List Byte)
    (s : zFile) (done : List (List Byte)) (p : MemPool) (rest : List MemPool)
    (hjoin : lib.pthread_join = 0)
    (hinv : WInv lib func level C hdr s done) (hu : s.zip_listused = p :: rest) :
    WInv lib func level C hdr (zFile.flush lib s) (done ++ [p.inb]) ∧
    (zFile.flush lib s).zip_listused = rest ∧
    (zFile.flush lib s).zip_curpool = s.zip_curpool ∧
    (zFile.flush lib s).zip_listfree = s.zip_listfree ++ [((p.wait lib).1).reset] ∧
    (zFile.flush lib s).submitted = s.submitted ∧
    (zFile.flush lib s).lasterror = s.lasterror := by
  have hp : InFlight lib func level C p := hinv.used p (by rw [hu]; exact List.mem_cons_self _ _)
  obtain ⟨hw0, hwt, hwj, hwi, hwm, hwc, hwo, hwout⟩ := wait_inFlight lib func level C p hjoin hp
  have hw2 := MemPool.wait_thid_zero lib (p.wait lib).1 hwt
  have hfl : zFile.flush lib s =
      { s with
        xxh32state := XXH32_update s.xxh32state p.inb
        zip_listused := rest
        file_stream := s.file_stream.write ((p.wait lib).1.getOutptr)
        listindex := setInsert (IndexEntry_t.ctor s.zip_noffset 0 s.zip_nzoffset 0) s.listindex
        zip_nzoffset := s.zip_nzoffset + ((p.wait lib).1.getOutsize &&& 0x7fffffff)
        zip_noffset := s.zip_noffset + (p.wait lib).1.getInsize
        zip_listfree := s.zip_listfree ++ [(p.wait lib).1.reset] } := by
    simp only [zFile.flush, hinv.ftype, if_true, zFile.flush_zFilelz4, hu, hw0,
      zFile.flush_zFile, hw2, MemPool.getInptr, ne_eq, not_true_eq_false, if_false]
  rw [hfl]
  refine ⟨?_, rfl, rfl, rfl, rfl, rfl⟩
  have hframe : (p.wait lib).1.getOutptr = blockFrame lib func level p.inb C := by
    simp only [MemPool.getOutptr, hwo, hwout, blockFrame]
  constructor
  · exact hinv.ftype
  · exact hinv.fmode
  · exact hinv.cfunc
  · exact hinv.lvl
  · exact FStream.write_good_good _ _ hinv.good
  · exact hinv.cur
  · intro q hq
    simp only [List.mem_append, List.mem_singleton] at hq
    rcases hq with hq | hq
    · exact hinv.free q hq
    · subst hq
      simp [MemPool.reset, hwm, hwc]
  · intro q hq
    exact hinv.used q (by rw [hu]; exact List.mem_cons_of_mem _ hq)
  · have := hinv.sub
    rw [hu] at this
    simp only [this, List.map_cons, List.append_assoc, List.singleton_append]
  · simp only [FStream.write_good _ _ hinv.good, hinv.content, hframe, List.flatMap_append,
      List.flatMap_cons, List.flatMap_nil, List.append_nil, List.append_assoc]
  · rw [setInsert_offsets, hinv.index, indexOffsets_append, setOffsets_append]
    simp only [IndexEntry_t.ctor, hinv.noff, hinv.nzoff, Nat.zero_add]
  · simp only [hinv.noff, sumN_append, MemPool.getInsize, hwi]
  · simp only [hinv.nzoff, sumZ_append, MemPool.getOutsize, hwo, Nat.add_assoc]

end Zcp

namespace Zcp

theorem WInv.set_cur {lib : Lib} {func : compressFunc_t} {level C : Nat} {hdr : List Byte}
    {s : zFile} {done : List (List Byte)} (h : WInv lib func level C hdr s done)
    (q : MemPool) (hm : q.mode = .e_ZipPool) (hc : q.poolsize = C) :
    WInv lib func level C hdr { s with zip_curpool := some q } done :=
  { ftype := h.ftype, fmode := h.fmode, cfunc := h.cfunc, lvl := h.lvl, good := h.good,
    cur := ⟨q, rfl, hm, hc⟩, free := h.free, used := h.used, sub := h.sub,
    content := h.content, index := h.index, noff := h.noff, nzoff := h.nzoff }

theorem WInv.set_error {lib : Lib} {func : compressFunc_t} {level C : Nat} {hdr : List Byte}
    {s : zFile} {done : List (List Byte)} (h : WInv lib func level C hdr s done)
    (e : zFileError_t) (m : String) :
    WInv lib func level C hdr (s.setError e m) done :=
  { ftype := h.ftype, fmode := h.fmode, cfunc := h.cfunc, lvl := h.lvl, good := h.good,
    cur := h.cur, free := h.free, used := h.used, sub := h.sub,
    content := h.content, index := h.index, noff := h.noff, nzoff := h.nzoff }

/-- A pool of the stream that has just been launched is in flight. -/
theorem run_inFlight (lib : Lib) (func : compressFunc_t) (level C : Nat) (hdr : List Byte)
    (s : zFile) (done : List (List Byte)) (cur : MemPool)
    (hinv : WInv lib func level C hdr s done)
    (hm : cur.mode = .e_ZipPool) (hc : cur.poolsize = C)
    (hr : (cur.run lib (s.threadJob lib cur)).2 = 0) :
    InFlight lib func level C (cur.run lib (s.threadJob lib cur)).1 ∧
    (cur.run lib (s.threadJob lib cur)).1.inb = cur.inb := by
  unfold MemPool.run at hr ⊢
  split_ifs at hr ⊢ with h1 h2 h3
  refine ⟨⟨hm, hc, Or.inl ⟨by simp, ?_⟩⟩, rfl⟩
  simp only [zFile.threadJob, hm, zFile.compressV, hinv.ftype, hinv.cfunc, hinv.lvl, hc,
    if_true]

/-- The step `nextPool` of a stream whose current pool has just been launched. -/
theorem nextPool_inv (lib : Lib) (func : compressFunc_t) (level C : Nat) (hdr : List Byte)
    (s : zFile) (done : List (List Byte)) (cur : MemPool)
    (hjoin : lib.pthread_join = 0)
    (hinv : WInv lib func level C hdr s done) (hcur : s.zip_curpool = some cur)
    (hfl : InFlight lib func level C cur) :
    ∃ done2, WInv lib func level C hdr (zFile.nextPool lib s) done2 := by
  have h1 : WInv lib func level C hdr
      { s with zip_listused := s.zip_listused ++ [cur],
               submitted := s.submitted ++ [cur.inb] } done :=
    { ftype := hinv.ftype, fmode := hinv.fmode, cfunc := hinv.cfunc, lvl := hinv.lvl,
      good := hinv.good, cur := hinv.cur, free := hinv.free,
      used := by
        intro q hq
        simp only [List.mem_append, List.mem_singleton] at hq
        rcases hq with hq | hq
        · exact hinv.used q hq
        · subst hq
          exact hfl
      sub := by simp only [hinv.sub, List.map_append, List.map_cons, List.map_nil,
                  List.append_assoc]
      content := hinv.content, index := hinv.index, noff := hinv.noff, nzoff := hinv.nzoff }
  unfold zFile.nextPool
  split
  · rename_i hnone
    rw [hcur] at hnone
    exact absurd hnone (by simp)
  rename_i cur2 hsome
  have hcc : cur = cur2 := by
    rw [hcur] at hsome
    exact Option.some.inj hsome
  subst hcc
  dsimp only
  by_cases hz : s.zip_listfree.length = 0
  · have hnil : s.zip_listfree = [] := List.length_eq_zero.1 hz
    obtain ⟨p, rest, hpr⟩ : ∃ p rest, s.zip_listused ++ [cur] = p :: rest := by
      cases hl : s.zip_listused with
      | nil => exact ⟨cur, [], rfl⟩
      | cons a as => exact ⟨a, as ++ [cur], rfl⟩
    obtain ⟨hi, -, -, hfree, -, -⟩ := flush_inv lib func level C hdr _ done p rest hjoin h1 hpr
    simp only [hz, if_true]
    have hq := hi.free ((p.wait lib).1.reset) (by
      rw [hfree]
      simp)
    refine ⟨done ++ [p.inb], ?_⟩
    exact
      { ftype := hi.ftype, fmode := hi.fmode, cfunc := hi.cfunc, lvl := hi.lvl,
        good := hi.good,
        cur := ⟨(p.wait lib).1.reset, by
          show (zFile.flush lib _).zip_listfree.head? = _
          rw [hfree]
          show (s.zip_listfree ++ _).head? = _
          rw [hnil]
          rfl, hq.1, hq.2⟩,
        free := by
          intro q hq2
          change q ∈ (zFile.flush lib _).zip_listfree.tail at hq2
          rw [hfree] at hq2
          change q ∈ (s.zip_listfree ++ _).tail at hq2
          rw [hnil] at hq2
          simp at hq2
        used := hi.used, sub := hi.sub, content := hi.content, index := hi.index,
        noff := hi.noff, nzoff := hi.nzoff }
  · simp only [hz, if_false]
    obtain ⟨q, qs, hqs⟩ : ∃ q qs, s.zip_listfree = q :: qs := by
      cases hl : s.zip_listfree with
      | nil => simp [hl] at hz
      | cons a as => exact ⟨a, as, rfl⟩
    have hq := hinv.free q (by rw [hqs]; exact List.mem_cons_self _ _)
    refine ⟨done, ?_⟩
    exact
      { ftype := h1.ftype, fmode := h1.fmode, cfunc := h1.cfunc, lvl := h1.lvl,
        good := h1.good,
        cur := ⟨q, by simp only [hqs, List.head?_cons], hq.1, hq.2⟩,
        free := by
          intro r hr
          simp only [hqs, List.tail_cons] at hr
          exact hinv.free r (by rw [hqs]; exact List.mem_cons_of_mem _ hr)
        used := h1.used, sub := h1.sub, content := h1.content, index := h1.index,
        noff := h1.noff, nzoff := h1.nzoff }

theorem mwriteLoop_inv (lib : Lib) (func : compressFunc_t) (level C : Nat) (hdr : List Byte)
    (hjoin : lib.pthread_join = 0) :
    ∀ (fuel : Nat) (s : zFile) (data : List Byte) (done : List (List Byte)),
      WInv lib func level C hdr s done →
      ∃ done2, WInv lib func level C hdr (zFile.mwriteLoop lib fuel s data).1 done2 := by
  intro fuel
  induction fuel with
  | zero =>
    intro s data done h
    exact ⟨done, h⟩
  | succ fuel ih =>
    intro s data done h
    obtain ⟨cur, hcur, hm, hc⟩ := h.cur
    unfold zFile.mwriteLoop
    by_cases hd : data.length > 0
    · simp only [hd, if_true, hcur]
      by_cases ha : (cur.add data).2 = 0
      · simp only [ha, if_true]
        by_cases hr : (cur.run lib (s.threadJob lib cur)).2 = 0
        · simp only [hr, ne_eq, not_true_eq_false, if_false]
          obtain ⟨hfl, -⟩ := run_inFlight lib func level C hdr s done cur h hm hc hr
          obtain ⟨d2, h2⟩ := nextPool_inv lib func level C hdr _ done _ hjoin
            (h.set_cur _ hfl.1 hfl.2.1) rfl hfl
          exact ih _ _ d2 h2
        · simp only [hr, ne_eq, not_false_eq_true, if_true]
          refine ⟨done, ?_⟩
          split <;> exact h.set_error _ _
      · simp only [ha, if_false]
        have hm2 : (cur.add data).1.mode = .e_ZipPool := by
          simp only [MemPool.add]
          split_ifs <;> simp [hm]
        have hc2 : (cur.add data).1.poolsize = C := by
          simp only [MemPool.add]
          split_ifs <;> simp [hc]
        exact ih _ _ done (h.set_cur _ hm2 hc2)
    · simp only [hd, if_false]
      exact ⟨done, h⟩

theorem flushLoop_inv (lib : Lib) (func : compressFunc_t) (level C : Nat) (hdr : List Byte)
    (hjoin : lib.pthread_join = 0) :
    ∀ (fuel : Nat) (s : zFile) (done : List (List Byte)),
      WInv lib func level C hdr s done →
      ∃ done2, WInv lib func level C hdr (zFile.flushLoop lib fuel s) done2 := by
  intro fuel
  induction fuel with
  | zero =>
    intro s done h
    exact ⟨done, h⟩
  | succ fuel ih =>
    intro s done h
    unfold zFile.flushLoop
    by_cases hz : s.zip_listused.length ≠ 0
    · rw [if_pos hz]
      obtain ⟨p, rest, hpr⟩ : ∃ p rest, s.zip_listused = p :: rest := by
        cases hl : s.zip_listused with
        | nil => simp [hl] at hz
        | cons a as => exact ⟨a, as, rfl⟩
      exact ih _ _ (flush_inv lib func level C hdr s done p rest hjoin h hpr).1
    · rw [if_neg hz]
      exact ⟨done, h⟩

theorem close_inv (lib : Lib) (func : compressFunc_t) (level C : Nat) (hdr : List Byte)
    (hjoin : lib.pthread_join = 0) (s : zFile) (done : List (List Byte))
    (h : WInv lib func level C hdr s done) :
    ∃ done2, WInv lib func level C hdr (zFile.close lib s) done2 := by
  obtain ⟨cur, hcur, hm, hc⟩ := h.cur
  unfold zFile.close
  rw [if_pos h.fmode]
  split
  · exact ⟨done, h⟩
  rename_i cur2 hsome
  have hcc : cur = cur2 := by
    rw [hcur] at hsome
    exact Option.some.inj hsome
  subst hcc
  dsimp only
  by_cases hr : (cur.run lib (s.threadJob lib cur)).2 = 0
  · simp only [hr, if_true]
    obtain ⟨hfl, -⟩ := run_inFlight lib func level C hdr s done cur h hm hc hr
    obtain ⟨d2, h2⟩ := nextPool_inv lib func level C hdr _ done _ hjoin
      (h.set_cur _ hfl.1 hfl.2.1) rfl hfl
    exact flushLoop_inv lib func level C hdr hjoin _ _ d2 h2
  · simp only [hr, if_false]
    exact flushLoop_inv lib func level C hdr hjoin _ _ done h

theorem workerDone_inv (lib : Lib) (func : compressFunc_t) (level C : Nat) (hdr : List Byte)
    (s : zFile) (done : List (List Byte)) (id : Nat)
    (h : WInv lib func level C hdr s done) :
    WInv lib func level C hdr (s.workerDone id) done :=
  { ftype := h.ftype, fmode := h.fmode, cfunc := h.cfunc, lvl := h.lvl, good := h.good,
    cur := h.cur, free := h.free,
    used := by
      intro q hq
      simp only [zFile.workerDone, List.mem_map] at hq
      obtain ⟨p, hp, rfl⟩ := hq
      split_ifs
      · exact (inFlight_finish lib func level C p (h.used p hp)).1
      · exact h.used p hp
    sub := by
      have : (s.workerDone id).zip_listused.map (fun p => p.inb)
          = s.zip_listused.map (fun p => p.inb) := by
        simp only [zFile.workerDone, List.map_map]
        apply List.map_congr_left
        intro p hp
        simp only [Function.comp]
        split_ifs
        · exact (inFlight_finish lib func level C p (h.used p hp)).2
        · rfl
      rw [this]
      exact h.sub
    content := h.content, index := h.index, noff := h.noff, nzoff := h.nzoff }

theorem runEvents_inv (lib : Lib) (func : compressFunc_t) (level C : Nat) (hdr : List Byte)
    (hjoin : lib.pthread_join = 0) :
    ∀ (evs : List WEvent) (s : zFile) (done : List (List Byte)),
      WInv lib func level C hdr s done →
      ∃ done2, WInv lib func level C hdr (runEvents lib evs s) done2 := by
  intro evs
  induction evs with
  | nil =>
    intro s done h
    exact ⟨done, h⟩
  | cons e es ih =>
    intro s done h
    cases e with
    | mwrite data =>
      simp only [runEvents]
      have hmw : (zFile.mwrite lib s data).1
          = (zFile.mwriteLoop lib (2 * data.length + s.zip_listfree.length + 2) s data).1 := by
        simp [zFile.mwrite, h.fmode]
      rw [hmw]
      obtain ⟨d2, h2⟩ := mwriteLoop_inv lib func level C hdr hjoin _ s data done h
      exact ih _ d2 h2
    | close =>
      simp only [runEvents]
      obtain ⟨d2, h2⟩ := close_inv lib func level C hdr hjoin s done h
      exact ih _ d2 h2
    | workerDone id =>
      simp only [runEvents]
      exact ih _ done (workerDone_inv lib func level C hdr s done id h)

end Zcp

namespace Zcp

theorem mkPools_spec (C : Nat) :
    ∀ (k first : Nat) (p : MemPool), p ∈ zFile.mkPools C first k →
      p.mode = .e_ZipPool ∧ p.poolsize = C := by
  intro k
  induction k with
  | zero =>
    intro first p hp
    simp [zFile.mkPools] at hp
  | succ k ih =>
    intro first p hp
    simp only [zFile.mkPools, List.mem_cons] at hp
    rcases hp with hp | hp
    · subst hp
      exact ⟨rfl, rfl⟩
    · exact ih _ _ hp

/-- The write-mode constructor on a file that can be opened gives a stream that satisfies
the invariant with no block flushed; what the file holds then is the frame header. -/
theorem ctor_write_inv (lib : Lib) (file : List Byte) (blocsize level nthread : Nat)
    (hn : 1 ≤ nthread) :
    ∃ s0, zFilelz4.ctor lib (some file) .e_WriteMode blocsize level nthread = some s0 ∧
      s0.submitted = [] ∧
      WInv lib (if level % 256 < min_HClevel then compressFunc_t.compress_fast_extState
                else compressFunc_t.compress_HC_extStateHC) (level % 256)
        (min blocsize LZ4F_MAXBLOC_SIZE) s0.file_stream.content s0 [] := by
  obtain ⟨k, rfl⟩ : ∃ k, nthread = k + 1 := ⟨nthread - 1, by omega⟩
  have hfl : Flag.ctor.blockIndependence = 1 := rfl
  have hmode : (zFilelz4.ctorInit (some file) .e_WriteMode blocsize level (k + 1)).file_mode
      = .e_WriteMode := by
    simp only [zFilelz4.ctorInit, zFile.ctor]
    split_ifs <;> rfl
  unfold zFilelz4.ctor
  dsimp only
  rw [if_pos hmode]
  refine ⟨_, rfl, ?_, ?_⟩
  · simp [zFilelz4.writeHeader, zFilelz4.ctorInit, zFile.ctor, zFile.setError,
      FStream.openFile, FStream.fail, FStream.seekg, FStream.write, FStream.good]
  · constructor
    · simp [zFilelz4.writeHeader, zFilelz4.ctorInit, zFile.ctor, zFile.setError,
        FStream.openFile, FStream.fail, FStream.seekg, FStream.write, FStream.good]
    · simp [zFilelz4.writeHeader, zFilelz4.ctorInit, zFile.ctor, zFile.setError,
        FStream.openFile, FStream.fail, FStream.seekg, FStream.write, FStream.good]
    · simp [zFilelz4.writeHeader, zFilelz4.ctorInit, zFile.ctor, zFile.setError,
        FStream.openFile, FStream.fail, FStream.seekg, FStream.write, FStream.good, hfl]
    · simp [zFilelz4.writeHeader, zFilelz4.ctorInit, zFile.ctor, zFile.setError,
        FStream.openFile, FStream.fail, FStream.seekg, FStream.write, FStream.good]
    · simp [zFilelz4.writeHeader, zFilelz4.ctorInit, zFile.ctor, zFile.setError,
        FStream.openFile, FStream.fail, FStream.seekg, FStream.write, FStream.good]
    · simp [zFilelz4.writeHeader, zFilelz4.ctorInit, zFile.ctor, zFile.setError,
        FStream.openFile, FStream.fail, FStream.seekg, FStream.write, FStream.good,
        zFile.mkPools, MemPool.ctor]
    · intro p hp
      have hp2 : p ∈ zFile.mkPools (min blocsize LZ4F_MAXBLOC_SIZE) 1 k := by
        simpa [zFilelz4.writeHeader, zFilelz4.ctorInit, zFile.ctor, zFile.setError,
          FStream.openFile, FStream.fail, FStream.seekg, FStream.write, FStream.good,
          zFile.mkPools] using hp
      exact mkPools_spec _ _ _ _ hp2
    · intro p hp
      simp [zFilelz4.writeHeader, zFilelz4.ctorInit, zFile.ctor, zFile.setError,
        FStream.openFile, FStream.fail, FStream.seekg, FStream.write, FStream.good] at hp
    · simp [zFilelz4.writeHeader, zFilelz4.ctorInit, zFile.ctor, zFile.setError,
        FStream.openFile, FStream.fail, FStream.seekg, FStream.write, FStream.good]
    · simp
    · simp [zFilelz4.writeHeader, zFilelz4.ctorInit, zFile.ctor, zFile.setError,
        FStream.openFile, FStream.fail, FStream.seekg, FStream.write, FStream.good, indexOffsets,
        setOffsets]
    · simp [zFilelz4.writeHeader, zFilelz4.ctorInit, zFile.ctor, zFile.setError,
        FStream.openFile, FStream.fail, FStream.seekg, FStream.write, FStream.good, sumN]
    · simp [zFilelz4.writeHeader, zFilelz4.ctorInit, zFile.ctor, zFile.setError,
        FStream.openFile, FStream.fail, FStream.seekg, FStream.write, FStream.good, sumZ,
        offsetof_unused]

end Zcp

namespace Zcp

/-- C1 (round trip), the empty input. Writing the empty byte sequence (64 KiB blocks,
level 1, one thread) produces the 47-byte file below, whose index is empty and whose
identification carries the size 0; opening this file in read mode, `readTail` computes the
loop bound `0 / 8 - 1` in `size_t` and reads outside its buffer. -/
theorem C1_roundtrip_empty_input :
    writeSession libRun 65536 1 1 []
      = some [0x04, 0x22, 0x4D, 0x18, 0x64, 0x40, 0xA7, 0, 0, 0, 0, 0x05, 0x5D, 0xCC, 0x02,
              0x50, 0x2A, 0x4D, 0x18, 24, 0, 0, 0, 0xCA, 0xDE, 0xFE, 0xCA, 1, 0, 0, 0,
              0, 0, 0, 0, 0, 0, 0, 0, 0x50, 0x2A, 0x4D, 0x18, 24, 0, 0, 0] ∧
    zFilelz4.ctor libRun
        (some [0x04, 0x22, 0x4D, 0x18, 0x64, 0x40, 0xA7, 0, 0, 0, 0, 0x05, 0x5D, 0xCC, 0x02,
               0x50, 0x2A, 0x4D, 0x18, 24, 0, 0, 0, 0xCA, 0xDE, 0xFE, 0xCA, 1, 0, 0, 0,
               0, 0, 0, 0, 0, 0, 0, 0, 0x50, 0x2A, 0x4D, 0x18, 24, 0, 0, 0])
        .e_ReadMode 65536 1 1 = none := by
  constructor
  · decide
  · decide

end Zcp

namespace Zcp

/-- On an input that starts with a block frame longer than the input itself,
`zFilelz4::uncompress` consumes nothing and reports a short input (`*preturn = 1`). -/
theorem uncompress_oversized (lib : Lib) (f : uncompressFunc_t) (inb : List Byte)
    (outsize : Nat) (h4 : 4 < inb.length)
    (hbig : inb.length < (le32toh inb &&& 0x7fffffff) + 4) :
    zFilelz4.uncompress lib f inb outsize = (0, [], 1, inb.length) := by
  unfold zFilelz4.uncompress
  have h1 : zFilelz4.uncompressLoop lib f inb outsize (inb.length + 1) 0 0 []
      = (0, 0, [], 1) := by
    rw [zFilelz4.uncompressLoop]
    have ha : 0 + 4 < inb.length := by omega
    have hb : 0 + (le32toh (List.drop 0 inb) &&& 0x7fffffff) + 4 > inb.length := by
      rw [List.drop_zero]
      omega
    simp only [ha, if_true, hb]
  rw [h1]
  simp

/-- The worker of an unzip pool whose input starts with a frame longer than the input
stores an empty output and keeps the whole input. -/
theorem threadJob_oversized (lib : Lib) (s : zFile) (rp : MemPool) (f : uncompressFunc_t)
    (htype : s.file_type = .e_lz4) (hf : s.unlz4_uncompressfunc = some f)
    (hmode : rp.mode = .e_UnzipPool) (h4 : 4 < rp.inb.length)
    (hbig : rp.inb.length < (le32toh rp.inb &&& 0x7fffffff) + 4) :
    zFile.threadJob lib s rp = { outsize := 0, out := [], zreturn := 1, inb := rp.inb } := by
  unfold zFile.threadJob
  rw [hmode]
  simp only [zFile.uncompressV, htype, if_true, hf,
    uncompress_oversized lib f rp.inb rp.poolsize h4 hbig, Nat.sub_self, List.drop_zero,
    List.take_length]

/-- One turn of the loop of `read` on a stuck stream leaves it stuck. -/
theorem readLoop_stuck (lib : Lib) (hattr : lib.pthread_attr_init = 0)
    (hcreate : lib.pthread_create = 0) (hjoin : lib.pthread_join = 0) :
    ∀ (fuel : Nat) (s : zFile) (k : Nat) (acc : List Byte), 0 < k → Stuck s →
      zFile.readLoop lib fuel s k acc = none := by
  intro fuel
  induction fuel with
  | zero =>
    intro s k acc _ _
    rfl
  | succ fuel ih =>
    intro s k acc hk hs
    obtain ⟨f, hf⟩ := hs.ufunc
    obtain ⟨rp, hrp, hmode, hfull, h4, hbig, hout, hret⟩ := hs.pool
    have hget : rp.get k = (rp, 0, []) := by
      simp [MemPool.get, hout]
    have hadd : rp.addStream s.file_stream s.blocsize = (rp, s.file_stream, 0) := by
      simp [MemPool.addStream, hfull, sizeSub]
    have hnf : s.file_stream.fail = false := hs.nofail
    have hne : rp.inb.length ≠ 0 := by omega
    have hj : ∀ s2 : zFile, s2.file_type = .e_lz4 → s2.unlz4_uncompressfunc = some f →
        zFile.threadJob lib s2 rp = { outsize := 0, out := [], zreturn := 1, inb := rp.inb } :=
      fun s2 a b => threadJob_oversized lib s2 rp f a b hmode h4 hbig
    rw [zFile.readLoop]
    simp only [gt_iff_lt, hk, if_true, hrp, hget, ne_eq, not_true_eq_false, if_false,
      MemPool.getReturn, hret, not_false_eq_true, hadd, hnf, Bool.false_eq_true, false_and,
      and_false, MemPool.run, hne, hattr, hcreate, MemPool.wait, hjoin,
      Nat.add_one_ne_zero, MemPool.finish, hj, hs.ftype, hf]
    apply ih _ _ _ hk
    exact
      { fmode := hs.fmode, ftype := rfl, ufunc := ⟨f, rfl⟩,
        pool := ⟨_, rfl, hmode, hfull, h4, hbig, rfl, fun h => absurd (show (1 : Nat) = 2 from h) (by decide)⟩,
        nofail := hs.nofail }

end Zcp

namespace Zcp

theorem le32toh_take (l : List Byte) (n : Nat) (hn : 4 ≤ n) :
    le32toh (l.take n) = le32toh l := by
  have h : ∀ i, i < 4 → (l.take n).getD i 0 = l.getD i 0 := by
    intro i hi
    rw [List.getD_eq_getElem?_getD, List.getD_eq_getElem?_getD,
      List.getElem?_take_of_lt (by omega)]
  simp only [le32toh, h 0 (by omega), h 1 (by omega), h 2 (by omega), h 3 (by omega)]

theorem toOff_small (z : Nat) (hz : z < 4294967296) : toOff z = (z : Int) := by
  unfold toOff
  have h1 : z % 18446744073709551616 = z := Nat.mod_eq_of_lt (by omega)
  rw [h1, if_pos (by omega)]

theorem seekg_begin (st : FStream) (z : Nat) (hnf : st.failbit = false) :
    st.seekg (z : Int) .e_SeekBegin = { st with eofbit := false, pos := z } := by
  simp [FStream.seekg, hnf]

/-- The first turn of the loop of `read` after the fresh pool has been positioned on a
frame longer than the pool: the pool is filled and the stream is stuck. -/
theorem readLoop_fill (lib : Lib) (hattr : lib.pthread_attr_init = 0)
    (hcreate : lib.pthread_create = 0) (hjoin : lib.pthread_join = 0)
    (s : zFile) (rp : MemPool) (f : uncompressFunc_t) (k : Nat) (fuel : Nat)
    (hmode : s.file_mode = .e_ReadMode) (htype : s.file_type = .e_lz4)
    (hf : s.unlz4_uncompressfunc = some f)
    (hrp : s.unzip_readpool = some rp) (hrm : rp.mode = .e_UnzipPool)
    (hin : rp.inb = []) (hos : rp.outsize = 0) (hptr : rp.ptr = 0) (hret : rp.zreturn = 0)
    (hps : rp.poolsize = s.blocsize) (h4 : 4 < rp.poolsize)
    (hnf : s.file_stream.failbit = false) (hne : s.file_stream.eofbit = false)
    (hlen : s.file_stream.pos + rp.poolsize ≤ s.file_stream.content.length)
    (hframe : rp.poolsize <
      (le32toh (s.file_stream.content.drop s.file_stream.pos) &&& 0x7fffffff) + 4)
    (hk : 0 < k) :
    zFile.readLoop lib (fuel + 1) s k [] = none := by
  have hget : rp.get k = (rp, 0, []) := by
    simp [MemPool.get, hos, hptr, sizeSub]
  have hgl : ((s.file_stream.content.drop s.file_stream.pos).take rp.poolsize).length
      = rp.poolsize := by
    rw [List.length_take, List.length_drop]
    omega
  have hread : s.file_stream.read rp.poolsize
      = ({ s.file_stream with pos := s.file_stream.pos + rp.poolsize },
         (s.file_stream.content.drop s.file_stream.pos).take rp.poolsize) := by
    simp only [FStream.read, FStream.good, hnf, hne, hgl]
    simp
  have hP : rp.poolsize ≠ 0 := by omega
  have hadd : rp.addStream s.file_stream s.blocsize
      = ({ rp with inb := (s.file_stream.content.drop s.file_stream.pos).take rp.poolsize },
         { s.file_stream with pos := s.file_stream.pos + rp.poolsize }, rp.poolsize) := by
    simp only [MemPool.addStream, hin, List.length_nil, sizeSub, Nat.zero_le, if_true,
      Nat.sub_zero, ← hps, Nat.min_self, hP, if_false, hread, List.nil_append, hgl]
  have hw : le32toh ((s.file_stream.content.drop s.file_stream.pos).take rp.poolsize)
      = le32toh (s.file_stream.content.drop s.file_stream.pos) :=
    le32toh_take _ _ (by omega)
  have hj : ∀ (s2 : zFile) (p : MemPool), s2.file_type = .e_lz4 →
      s2.unlz4_uncompressfunc = some f → p.mode = .e_UnzipPool →
      p.inb = (s.file_stream.content.drop s.file_stream.pos).take rp.poolsize →
      zFile.threadJob lib s2 p
        = { outsize := 0, out := [], zreturn := 1,
            inb := (s.file_stream.content.drop s.file_stream.pos).take rp.poolsize } := by
    intro s2 p a b c d
    have := threadJob_oversized lib s2 p f a b c (by rw [d, hgl]; exact h4)
      (by rw [d, hgl, hw]; exact hframe)
    rw [this, d]
  have h02 : ¬ (0 : Nat) = 2 := by decide
  rw [zFile.readLoop]
  simp only [gt_iff_lt, hk, if_true, hrp, hget, ne_eq, not_true_eq_false, if_false,
    MemPool.getReturn, hret, not_false_eq_true, hadd, FStream.fail, hnf, Bool.false_eq_true,
    false_and, and_false, MemPool.run, hgl, hP, hattr, hcreate, MemPool.wait, hjoin,
    Nat.add_one_ne_zero, MemPool.finish, hj, htype, hf, h02, hrm]
  apply readLoop_stuck lib hattr hcreate hjoin _ _ _ _ hk
  exact
    { fmode := hmode, ftype := rfl, ufunc := ⟨f, rfl⟩,
      pool := ⟨_, rfl, rfl, hgl, by rw [hgl]; exact h4, by rw [hgl, hw]; exact hframe, rfl,
        fun h => absurd (show (1 : Nat) = 2 from h) (by decide)⟩,
      nofail := rfl }

end Zcp

namespace Zcp

/-- A `read` of `k ≥ 1` bytes on a stream whose empty pool is positioned on a frame
longer than the pool gives no result, whatever the number of turns. -/
theorem read_oversized_frame (lib : Lib) (hattr : lib.pthread_attr_init = 0)
    (hcreate : lib.pthread_create = 0) (hjoin : lib.pthread_join = 0)
    (s : zFile) (rp : MemPool) (f : uncompressFunc_t) (k : Nat)
    (hmode : s.file_mode = .e_ReadMode) (htype : s.file_type = .e_lz4)
    (hf : s.unlz4_uncompressfunc = some f)
    (hrp : s.unzip_readpool = some rp) (hrm : rp.mode = .e_UnzipPool)
    (hin : rp.inb = []) (hos : rp.outsize = 0) (hptr : rp.ptr = 0) (hret : rp.zreturn = 0)
    (hps : rp.poolsize = s.blocsize) (h4 : 4 < rp.poolsize)
    (hnf : s.file_stream.failbit = false) (hne : s.file_stream.eofbit = false)
    (hlen : s.file_stream.pos + rp.poolsize ≤ s.file_stream.content.length)
    (hframe : rp.poolsize <
      (le32toh (s.file_stream.content.drop s.file_stream.pos) &&& 0x7fffffff) + 4)
    (hk : 0 < k) (fuel : Nat) :
    zFile.read lib fuel s k = none := by
  have hnw : ¬ (s.file_mode = OpenMode_t.e_WriteMode) := by
    rw [hmode]
    decide
  unfold zFile.read
  rw [if_neg hnw]
  cases fuel with
  | zero => rfl
  | succ n =>
    rw [readLoop_fill lib hattr hcreate hjoin s rp f k n hmode htype hf hrp hrm hin hos hptr
      hret hps h4 hnf hne hlen hframe hk]
    rfl

/-- C3 (seek correctness), a block frame longer than the reader pool. On a read-mode
stream whose index entry `e` points at a block frame that announces more bytes than the
reader pool holds (a raw block of 4 MiB has a frame of 4 MiB + 4 bytes, the pool has
4 MiB), `seekz(e.uoff, e_SeekBegin)` succeeds, and the loop of a following `read` of
`k ≥ 1` bytes never ends: no number of turns gives a result. -/
theorem C3_seek_read_oversized_frame (lib : Lib) (s : zFile) (rp : MemPool)
    (e : IndexEntry_t) (f : uncompressFunc_t) (k : Nat)
    (hattr : lib.pthread_attr_init = 0) (hcreate : lib.pthread_create = 0)
    (hjoin : lib.pthread_join = 0)
    (hmode : s.file_mode = .e_ReadMode) (htype : s.file_type = .e_lz4)
    (hok : s.lasterror = .e_SuccessError) (hf : s.unlz4_uncompressfunc = some f)
    (hrp : s.unzip_readpool = some rp) (hrm : rp.mode = .e_UnzipPool)
    (hps : rp.poolsize = s.blocsize) (h4 : 4 < rp.poolsize)
    (he : zFile.seekEntry s.listindex e.offset.n = some e)
    (hz : e.offset.z < 4294967296)
    (hnf : s.file_stream.failbit = false)
    (hlen : e.offset.z + rp.poolsize ≤ s.file_stream.content.length)
    (hframe : rp.poolsize <
      (le32toh (s.file_stream.content.drop e.offset.z) &&& 0x7fffffff) + 4)
    (hk : 0 < k) :
    ∃ s1, (∀ fuel, zFile.seekz lib (fuel + 1) s e.offset.n = some (s1, true)) ∧
      ∀ fuel, zFile.read lib fuel s1 k = none := by
  have hst : s.file_stream.seekg (toOff e.offset.z) .e_SeekBegin
      = { s.file_stream with eofbit := false, pos := e.offset.z } := by
    rw [toOff_small _ hz, seekg_begin _ _ hnf]
  have hnw : ¬ (OpenMode_t.e_ReadMode = OpenMode_t.e_WriteMode) := by decide
  refine ⟨{ s with file_stream := s.file_stream.seekg (toOff e.offset.z) .e_SeekBegin,
                   unzip_readpool := s.unzip_readpool.map MemPool.reset }, ?_, ?_⟩
  · intro fuel
    unfold zFile.seekz
    rw [he]
    simp only [Nat.sub_self, zFile.read, hmode, hnw, if_false]
    rw [zFile.readLoop]
    simp [zFile.fail, hok]
  · intro fuel
    refine read_oversized_frame lib hattr hcreate hjoin _ rp.reset f k ?_ ?_ ?_ ?_ ?_ ?_ ?_
      ?_ ?_ ?_ ?_ ?_ ?_ ?_ ?_ hk fuel
    · exact hmode
    · exact htype
    · exact hf
    · show s.unzip_readpool.map MemPool.reset = some rp.reset
      rw [hrp]
      rfl
    · exact hrm
    · rfl
    · rfl
    · rfl
    · rfl
    · exact hps
    · exact h4
    · show (s.file_stream.seekg (toOff e.offset.z) .e_SeekBegin).failbit = false
      rw [hst]
      exact hnf
    · show (s.file_stream.seekg (toOff e.offset.z) .e_SeekBegin).eofbit = false
      rw [hst]
    · show (s.file_stream.seekg (toOff e.offset.z) .e_SeekBegin).pos + rp.poolsize
        ≤ (s.file_stream.seekg (toOff e.offset.z) .e_SeekBegin).content.length
      rw [hst]
      exact hlen
    · show rp.poolsize < (le32toh ((s.file_stream.seekg (toOff e.offset.z)
        .e_SeekBegin).content.drop (s.file_stream.seekg (toOff e.offset.z)
        .e_SeekBegin).pos) &&& 0x7fffffff) + 4
      rw [hst]
      exact hframe

end Zcp

namespace Zcp

theorem rawBlockReader_stream :
    rawBlockReader.file_stream
      = { content := rawBlockFile, pos := 0, eofbit := false, failbit := false } :=
  (ctorInit_read rawBlockFile 4194304 1 1).1

theorem rawBlockFile_length : rawBlockFile.length = 4194319 := by
  unfold rawBlockFile
  rw [List.length_append, List.length_append, List.length_append, List.length_replicate]
  rfl

theorem rawBlockFile_drop :
    rawBlockFile.drop 7 = le32 0x80400000 ++ (List.replicate 4194304 0 ++ [0, 0, 0, 0]) := by
  unfold rawBlockFile
  exact List.drop_left' rfl

theorem rawBlockReader_pool :
    rawBlockReader.unzip_readpool = some (MemPool.ctor 0 LZ4F_MAXBLOC_SIZE .e_UnzipPool) := by
  simp [rawBlockReader, zFilelz4.ctorInit, zFile.ctor, FStream.openFile, FStream.fail]

theorem rawBlockReader_facts :
    rawBlockReader.file_mode = .e_ReadMode ∧ rawBlockReader.file_type = .e_lz4 ∧
    rawBlockReader.lasterror = .e_SuccessError ∧
    rawBlockReader.blocsize = LZ4F_MAXBLOC_SIZE := by
  simp [rawBlockReader, zFilelz4.ctorInit, zFile.ctor, FStream.openFile, FStream.fail]

/-- Witness of C3: the reader on a file whose 4 MiB block is stored raw; the entry
`(0, 7)` is found, `seekz(0)` succeeds and a `read` of one byte gives no result. -/
theorem C3_seek_read_oversized_frame_witness :
    ∃ s1, (∀ fuel, zFile.seekz libRun (fuel + 1) rawBlockReader
              (IndexEntry_t.ctor 0 4194304 7 4194308).offset.n = some (s1, true)) ∧
      ∀ fuel, zFile.read libRun fuel s1 1 = none :=
  C3_seek_read_oversized_frame libRun rawBlockReader
    (MemPool.ctor 0 LZ4F_MAXBLOC_SIZE .e_UnzipPool) (IndexEntry_t.ctor 0 4194304 7 4194308)
    .decompress_fast 1 rfl rfl rfl
    rawBlockReader_facts.1 rawBlockReader_facts.2.1 rawBlockReader_facts.2.2.1 rfl
    rawBlockReader_pool rfl rawBlockReader_facts.2.2.2.symm (by decide) (by decide)
    (by decide)
    (by rw [rawBlockReader_stream])
    (by
      rw [rawBlockReader_stream]
      show 7 + 4194304 ≤ rawBlockFile.length
      rw [rawBlockFile_length]
      decide)
    (by
      rw [rawBlockReader_stream]
      show 4194304 < (le32toh (rawBlockFile.drop 7) &&& 0x7fffffff) + 4
      rw [rawBlockFile_drop, le32toh_le32_append]
      decide)
    (by decide)

end Zcp
namespace Zcp

/-- C17 (end of file). On a stream that has a reader pool, `eof()` is true exactly when
the file stream has its end-of-file flag set, the pool holds no input (`in_len = 0`) and
nothing is left to hand out (`out_len - pos = 0`, the subtraction being that of `size_t`,
which is the plain difference whenever `pos ≤ out_len`). When `eof()` is true neither the
pool nor the file has a byte to give: `get` copies nothing and a read of the file
extracts nothing. -/
theorem C17_eof_iff (s : zFile) (rp : MemPool) (h : s.unzip_readpool = some rp) :
    (s.eof = true ↔
      (s.file_stream.eofbit = true ∧ rp.getInsize = 0 ∧ sizeSub rp.getOutsize rp.ptr = 0)) ∧
    (rp.ptr ≤ rp.getOutsize → sizeSub rp.getOutsize rp.ptr = rp.getOutsize - rp.ptr) ∧
    (s.eof = true → ∀ k, rp.get k = (rp, 0, []) ∧ (s.file_stream.read k).2 = []) := by
  have hiff : s.eof = true ↔
      (s.file_stream.eofbit = true ∧ rp.getInsize = 0 ∧ sizeSub rp.getOutsize rp.ptr = 0) := by
    simp [zFile.eof, h, FStream.eof, MemPool.inEmpty, MemPool.outEmpty, MemPool.getInsize,
      MemPool.getOutsize, and_assoc]
  refine ⟨hiff, ?_, ?_⟩
  · intro hle
    simp [sizeSub, hle]
  · intro he k
    obtain ⟨h1, -, h3⟩ := hiff.1 he
    constructor
    · unfold MemPool.get
      simp only [MemPool.getOutsize] at h3
      simp only [h3, Nat.zero_min, if_true]
    · simp [FStream.read, FStream.good, h1]

/-- Witness of C17: the 70-byte file of "hello world" is opened and read. Before any read
`eof()` is false; after a read of 5 bytes the file is at its end (the whole file went into
the pool) but `eof()` is still false, because 6 decoded bytes are left in the pool; after
a read of these 6 bytes `eof()` is true. -/
theorem C17_eof_iff_witness :
    (zFilelz4.ctor libRun (some helloFile) .e_ReadMode 65536 1 1).bind (fun r =>
      (zFile.read libRun 5 r 5).bind (fun r1 =>
        (zFile.read libRun 5 r1.1 6).map (fun r2 =>
          (r.eof, r1.2.2, r1.1.file_stream.eofbit && !r1.1.eof, r2.2.2, r2.1.eof))))
      = some (false, [104, 101, 108, 108, 111], true,
          [32, 119, 111, 114, 108, 100], true) ∧
    ∃ r r1 r2 rp,
      zFilelz4.ctor libRun (some helloFile) .e_ReadMode 65536 1 1 = some r ∧
      zFile.read libRun 5 r 5 = some r1 ∧ zFile.read libRun 5 r1.1 6 = some r2 ∧
      r2.1.unzip_readpool = some rp ∧ r2.1.eof = true ∧
      r2.1.file_stream.eofbit = true ∧ rp.getInsize = 0 ∧
      sizeSub rp.getOutsize rp.ptr = 0 ∧ rp.get 1 = (rp, 0, []) := by
  have hfact : (zFilelz4.ctor libRun (some helloFile) .e_ReadMode 65536 1 1).bind (fun r =>
      (zFile.read libRun 5 r 5).bind (fun r1 =>
        (zFile.read libRun 5 r1.1 6).map (fun r2 =>
          (r.eof, r1.2.2, r1.1.file_stream.eofbit && !r1.1.eof, r2.2.2, r2.1.eof))))
      = some (false, [104, 101, 108, 108, 111], true,
          [32, 119, 111, 114, 108, 100], true) := by decide
  have hpool : (zFilelz4.ctor libRun (some helloFile) .e_ReadMode 65536 1 1).bind (fun r =>
      (zFile.read libRun 5 r 5).bind (fun r1 =>
        (zFile.read libRun 5 r1.1 6).map (fun r2 => r2.1.unzip_readpool.isSome)))
      = some true := by decide
  refine ⟨hfact, ?_⟩
  obtain ⟨r, hr, h1⟩ := Option.bind_eq_some.1 hfact
  obtain ⟨r1, hr1, h2⟩ := Option.bind_eq_some.1 h1
  obtain ⟨r2, hr2, h3⟩ := Option.map_eq_some'.1 h2
  rw [hr, Option.some_bind, hr1, Option.some_bind, hr2, Option.map_some',
    Option.some.injEq] at hpool
  obtain ⟨rp, hrp⟩ := Option.isSome_iff_exists.1 hpool
  have heof : r2.1.eof = true := by
    have := congrArg (fun t => t.2.2.2.2) h3
    exact this
  obtain ⟨q1, q2, q3⟩ := (C17_eof_iff r2.1 rp hrp).1.1 heof
  exact ⟨r, r1, r2, rp, hr, hr1, hr2, hrp, heof, q1, q2, q3,
    ((C17_eof_iff r2.1 rp hrp).2.2 heof 1).1⟩

end Zcp

namespace Zcp

theorem specBlockCap_values :
    specBlockCap 4 = 65536 ∧ specBlockCap 5 = 262144 ∧ specBlockCap 6 = 1048576 ∧
    specBlockCap 7 = 4194304 := by decide

/-- What the write-mode constructor leaves in the fields that depend on the requested
block size. -/
theorem ctor_write_blocsize (lib : Lib) (file : List Byte) (b level nthread : Nat) :
    ∃ s0, zFilelz4.ctor lib (some file) .e_WriteMode b level nthread = some s0 ∧
      s0.blocsize = min b LZ4F_MAXBLOC_SIZE ∧
      s0.zip_curpool = (zFile.mkPools (min b LZ4F_MAXBLOC_SIZE) 0 nthread).head? ∧
      s0.zip_listfree = (zFile.mkPools (min b LZ4F_MAXBLOC_SIZE) 0 nthread).tail ∧
      s0.blockSizeId =
        (if min b LZ4F_MAXBLOC_SIZE ≤ LZ4F_BLOC4_SIZE then 4
         else if min b LZ4F_MAXBLOC_SIZE ≤ LZ4F_BLOC5_SIZE then 5
         else if min b LZ4F_MAXBLOC_SIZE ≤ LZ4F_BLOC6_SIZE then 6
         else 7) := by
  have hmode : (zFilelz4.ctorInit (some file) .e_WriteMode b level nthread).file_mode
      = .e_WriteMode := by
    simp only [zFilelz4.ctorInit, zFile.ctor]
    split_ifs <;> rfl
  unfold zFilelz4.ctor
  dsimp only
  rw [if_pos hmode]
  refine ⟨_, rfl, ?_, ?_, ?_, ?_⟩
  · simp [zFilelz4.writeHeader, zFilelz4.ctorInit, zFile.ctor, zFile.setError,
      FStream.openFile, FStream.fail, FStream.seekg, FStream.write, FStream.good]
  · simp [zFilelz4.writeHeader, zFilelz4.ctorInit, zFile.ctor, zFile.setError,
      FStream.openFile, FStream.fail, FStream.seekg, FStream.write, FStream.good]
  · simp [zFilelz4.writeHeader, zFilelz4.ctorInit, zFile.ctor, zFile.setError,
      FStream.openFile, FStream.fail, FStream.seekg, FStream.write, FStream.good]
  · simp only [zFilelz4.writeHeader, zFilelz4.ctorInit, zFile.ctor, zFile.setError,
      FStream.openFile, FStream.fail, FStream.seekg, FStream.write, FStream.good]
    simp

/-- C18 (block-size id selection). The write-mode constructor called with the block size
`b`: the stream and every pool get the capacity `min(b, 4 MiB)`; for `b ≤ 4 MiB` this is
`b` and the id is the smallest of 4, 5, 6, 7 whose cap (64 KiB, 256 KiB, 1 MiB, 4 MiB) is
at least `b`; for `b > 4 MiB` the capacity is 4 MiB and the id is 7. -/
theorem C18_blockSizeId_selection (lib : Lib) (file : List Byte) (b level nthread : Nat) :
    ∃ s0, zFilelz4.ctor lib (some file) .e_WriteMode b level nthread = some s0 ∧
      (∀ p, (s0.zip_curpool = some p ∨ p ∈ s0.zip_listfree) →
        p.poolsize = s0.blocsize) ∧
      (b ≤ 4194304 →
        s0.blocsize = b ∧ s0.blockSizeId ∈ [4, 5, 6, 7] ∧
        b ≤ specBlockCap s0.blockSizeId ∧
        ∀ j ∈ [4, 5, 6, 7], b ≤ specBlockCap j → s0.blockSizeId ≤ j) ∧
      (4194304 < b → s0.blocsize = 4194304 ∧ s0.blockSizeId = 7) := by
  obtain ⟨s0, hs0, hb, hcur, hfree, hid⟩ := ctor_write_blocsize lib file b level nthread
  obtain ⟨c4, c5, c6, c7⟩ := specBlockCap_values
  refine ⟨s0, hs0, ?_, ?_, ?_⟩
  · intro p hp
    rw [hb]
    have hmem : p ∈ zFile.mkPools (min b LZ4F_MAXBLOC_SIZE) 0 nthread := by
      rcases hp with hp | hp
      · rw [hcur] at hp
        exact List.mem_of_mem_head? hp
      · rw [hfree] at hp
        exact List.mem_of_mem_tail hp
    exact (mkPools_spec _ _ _ _ hmem).2
  · intro hle
    have hmin : min b LZ4F_MAXBLOC_SIZE = b := by
      simp only [LZ4F_MAXBLOC_SIZE, LZ4F_BLOC7_SIZE]
      omega
    rw [hmin] at hb hid
    simp only [LZ4F_BLOC4_SIZE, LZ4F_BLOC5_SIZE, LZ4F_BLOC6_SIZE] at hid
    refine ⟨hb, ?_, ?_, ?_⟩
    · rw [hid]
      split_ifs <;> simp
    · rw [hid]
      split_ifs <;> omega
    · intro j hj hbj
      simp only [List.mem_cons, List.mem_singleton, List.not_mem_nil, or_false] at hj
      rw [hid]
      rcases hj with rfl | rfl | rfl | rfl <;> split_ifs <;> omega
  · intro hgt
    have hmin : min b LZ4F_MAXBLOC_SIZE = 4194304 := by
      simp only [LZ4F_MAXBLOC_SIZE, LZ4F_BLOC7_SIZE]
      omega
    rw [hmin] at hb hid
    exact ⟨hb, by rw [hid]; decide⟩

/-- Witness of C18: the block size 100000 gives the capacity 100000 and the id 5, the
block size 5000000 the capacity 4 MiB and the id 7. -/
theorem C18_blockSizeId_selection_witness :
    (∃ s0, zFilelz4.ctor libRun (some []) .e_WriteMode 100000 1 2 = some s0 ∧
      s0.blocsize = 100000 ∧ s0.blockSizeId = 5) ∧
    (∃ s0, zFilelz4.ctor libRun (some []) .e_WriteMode 5000000 1 2 = some s0 ∧
      s0.blocsize = 4194304 ∧ s0.blockSizeId = 7) := by
  constructor
  · obtain ⟨s0, h0, -, h1, -⟩ := C18_blockSizeId_selection libRun [] 100000 1 2
    obtain ⟨hb, hmem, hcap, hmin⟩ := h1 (by decide)
    obtain ⟨c4, c5, c6, c7⟩ := specBlockCap_values
    refine ⟨s0, h0, hb, ?_⟩
    have h5 := hmin 5 (by simp) (by rw [c5]; decide)
    simp only [List.mem_cons, List.mem_singleton, List.not_mem_nil, or_false] at hmem
    rcases hmem with h | h | h | h
    · rw [h, c4] at hcap
      exact absurd hcap (by decide)
    · exact h
    · omega
    · omega
  · obtain ⟨s0, h0, -, -, h2⟩ := C18_blockSizeId_selection libRun [] 5000000 1 2
    exact ⟨s0, h0, h2 (by decide)⟩

end Zcp
namespace Zcp

theorem errorKept_fail (e : zFileError_t) (m : String) (a b : zFile)
    (h : zFile.errorKept e m a b) (hb : b.fail = true) : a.fail = true ∨ e = .e_SuccessError := by
  rcases h with h | ⟨h, -⟩
  · by_cases he : e = .e_SuccessError
    · exact Or.inr he
    · left
      rw [h]
      simp [zFile.fail, zFile.setError, he]
  · left
    rw [h]
    exact hb

theorem setError_self (s : zFile) : s.setError s.lasterror s.errormsg = s := rfl

/-- An operation that does not test the error state keeps a recorded error or replaces it:
it never clears it. -/
theorem errorKept_keeps {α : Type} (g : zFile → zFile × α)
    (hg : ∀ s e m, zFile.errorKept e m (g (s.setError e m)).1 (g s).1 ∧
      (g (s.setError e m)).2 = (g s).2) (t : zFile) (ht : t.fail = true) :
    (g t).1.fail = true := by
  have h := (hg t t.lasterror t.errormsg).1
  rw [setError_self] at h
  rcases h with h | ⟨-, h⟩
  · rw [h]
    exact ht
  · exact h

theorem errorKept_of {α : Type} (g : zFile → zFile × α)
    (hg : ∀ s e m, zFile.errorKept e m (g (s.setError e m)).1 (g s).1 ∧
      (g (s.setError e m)).2 = (g s).2) (e : zFileError_t) (m : String) (a b : zFile)
    (h : zFile.errorKept e m a b) :
    zFile.errorKept e m (g a).1 (g b).1 ∧ (g a).2 = (g b).2 := by
  rcases h with h | ⟨h, hb⟩
  · rw [h]
    exact hg b e m
  · rw [h]
    exact ⟨Or.inr ⟨rfl, errorKept_keeps g hg b hb⟩, rfl⟩

theorem threadJob_setError (lib : Lib) (s : zFile) (e : zFileError_t) (m : String)
    (p : MemPool) : (s.setError e m).threadJob lib p = s.threadJob lib p := rfl

theorem flush_zFile_err (lib : Lib) (s : zFile) (e : zFileError_t) (m : String) :
    zFile.errorKept e m (zFile.flush_zFile lib (s.setError e m)) (zFile.flush_zFile lib s) := by
  unfold zFile.flush_zFile
  cases h : s.zip_listused with
  | nil =>
    have h2 : (s.setError e m).zip_listused = [] := h
    rw [h2]
    exact Or.inl rfl
  | cons pool rest =>
    have h2 : (s.setError e m).zip_listused = pool :: rest := h
    rw [h2]
    dsimp only
    by_cases hw : (pool.wait lib).2 = 0
    · left
      simp only [hw, ne_eq, not_true_eq_false, if_false]
      rfl
    · right
      simp only [hw, ne_eq, not_false_eq_true, if_true]
      exact ⟨rfl, rfl⟩

theorem errorKept_state (g : zFile → zFile)
    (hg : ∀ s e m, zFile.errorKept e m (g (s.setError e m)) (g s))
    (e : zFileError_t) (m : String) (a b : zFile) (h : zFile.errorKept e m a b) :
    zFile.errorKept e m (g a) (g b) :=
  (errorKept_of (fun s => (g s, ())) (fun s e m => ⟨hg s e m, rfl⟩) e m a b h).1

theorem flush_zFilelz4_err (lib : Lib) (s : zFile) (e : zFileError_t) (m : String) :
    zFile.errorKept e m (zFile.flush_zFilelz4 lib (s.setError e m))
      (zFile.flush_zFilelz4 lib s) := by
  unfold zFile.flush_zFilelz4
  cases h : s.zip_listused with
  | nil =>
    have h2 : (s.setError e m).zip_listused = [] := h
    rw [h2]
    exact Or.inl rfl
  | cons pool rest =>
    have h2 : (s.setError e m).zip_listused = pool :: rest := h
    rw [h2]
    dsimp only
    apply errorKept_state _ (flush_zFile_err lib)
    by_cases hw : (pool.wait lib).2 = 0
    · left
      simp only [hw, ne_eq, not_true_eq_false, if_false]
      rfl
    · right
      simp only [hw, ne_eq, not_false_eq_true, if_true]
      exact ⟨rfl, rfl⟩

theorem flush_err (lib : Lib) (s : zFile) (e : zFileError_t) (m : String) :
    zFile.errorKept e m (zFile.flush lib (s.setError e m)) (zFile.flush lib s) := by
  unfold zFile.flush
  have h2 : (s.setError e m).file_type = s.file_type := rfl
  rw [h2]
  split_ifs
  · exact flush_zFilelz4_err lib s e m
  · exact flush_zFile_err lib s e m

theorem nextPool_err (lib : Lib) (s : zFile) (e : zFileError_t) (m : String) :
    zFile.errorKept e m (zFile.nextPool lib (s.setError e m)) (zFile.nextPool lib s) := by
  unfold zFile.nextPool
  cases h : s.zip_curpool with
  | none =>
    have h2 : (s.setError e m).zip_curpool = none := h
    rw [h2]
    exact Or.inl rfl
  | some cur =>
    have h2 : (s.setError e m).zip_curpool = some cur := h
    rw [h2]
    dsimp only
    have h3 : (s.setError e m).zip_listfree = s.zip_listfree := rfl
    rw [h3]
    split_ifs
    · exact errorKept_state
        (fun s2 => { s2 with zip_curpool := s2.zip_listfree.head?,
                             zip_listfree := s2.zip_listfree.tail })
        (fun _ _ _ => Or.inl rfl) e m _ _
        (flush_err lib
          { s with zip_curpool := some cur, zip_listused := s.zip_listused ++ [cur],
                   submitted := s.submitted ++ [cur.inb] } e m)
    · exact Or.inl rfl

theorem mwriteLoop_err (lib : Lib) :
    ∀ (fuel : Nat) (s : zFile) (data : List Byte) (e : zFileError_t) (m : String),
      zFile.errorKept e m (zFile.mwriteLoop lib fuel (s.setError e m) data).1
        (zFile.mwriteLoop lib fuel s data).1 ∧
      (zFile.mwriteLoop lib fuel (s.setError e m) data).2
        = (zFile.mwriteLoop lib fuel s data).2 := by
  intro fuel
  induction fuel with
  | zero =>
    intro s data e m
    exact ⟨Or.inl rfl, rfl⟩
  | succ fuel ih =>
    intro s data e m
    unfold zFile.mwriteLoop
    split_ifs with h1
    · cases h : s.zip_curpool with
      | none =>
        have h2 : (s.setError e m).zip_curpool = none := h
        rw [h2]
        exact ⟨Or.inl rfl, rfl⟩
      | some cur =>
        have h2 : (s.setError e m).zip_curpool = some cur := h
        rw [h2]
        dsimp only
        rw [threadJob_setError]
        split_ifs with h3 h4
        · refine ⟨Or.inr ⟨?_, ?_⟩, rfl⟩
          · split <;> rfl
          · split <;> rfl
        · exact errorKept_of (fun t => zFile.mwriteLoop lib fuel t data)
            (fun t e2 m2 => ih t data e2 m2) e m _ _
            (errorKept_state (zFile.nextPool lib) (nextPool_err lib) e m _ _ (Or.inl rfl))
        · exact ih { s with zip_curpool := some (cur.add data).1 } _ e m
    · exact ⟨Or.inl rfl, rfl⟩

theorem mwrite_err (lib : Lib) (s : zFile) (data : List Byte) (e : zFileError_t)
    (m : String) :
    zFile.errorKept e m (zFile.mwrite lib (s.setError e m) data).1 (zFile.mwrite lib s data).1 ∧
    (zFile.mwrite lib (s.setError e m) data).2 = (zFile.mwrite lib s data).2 := by
  unfold zFile.mwrite
  have h2 : (s.setError e m).file_mode = s.file_mode := rfl
  have h3 : (s.setError e m).zip_listfree = s.zip_listfree := rfl
  rw [h2, h3]
  split_ifs
  · exact ⟨Or.inr ⟨rfl, rfl⟩, rfl⟩
  · obtain ⟨k1, k2⟩ := mwriteLoop_err lib (2 * data.length + s.zip_listfree.length + 2) s data e m
    exact ⟨k1, by dsimp only; rw [k2]⟩

theorem flushLoop_err (lib : Lib) :
    ∀ (fuel : Nat) (s : zFile) (e : zFileError_t) (m : String),
      zFile.errorKept e m (zFile.flushLoop lib fuel (s.setError e m))
        (zFile.flushLoop lib fuel s) := by
  intro fuel
  induction fuel with
  | zero =>
    intro s e m
    exact Or.inl rfl
  | succ fuel ih =>
    intro s e m
    unfold zFile.flushLoop
    have h2 : (s.setError e m).zip_listused = s.zip_listused := rfl
    rw [h2]
    split_ifs
    · exact errorKept_state (zFile.flushLoop lib fuel) (ih) e m _ _ (flush_err lib s e m)
    · exact Or.inl rfl

theorem close_err (lib : Lib) (s : zFile) (e : zFileError_t) (m : String) :
    zFile.errorKept e m (zFile.close lib (s.setError e m)) (zFile.close lib s) := by
  unfold zFile.close
  have h2 : (s.setError e m).file_mode = s.file_mode := rfl
  rw [h2]
  split_ifs
  · cases h : s.zip_curpool with
    | none =>
      have h3 : (s.setError e m).zip_curpool = none := h
      rw [h3]
      exact Or.inl rfl
    | some cur =>
      have h3 : (s.setError e m).zip_curpool = some cur := h
      rw [h3]
      dsimp only
      rw [threadJob_setError]
      have key : ∀ a b : zFile, zFile.errorKept e m a b →
          zFile.errorKept e m (zFile.flushLoop lib a.zip_listused.length a)
            (zFile.flushLoop lib b.zip_listused.length b) := by
        intro a b hab
        have hl : a.zip_listused = b.zip_listused := by
          rcases hab with h5 | ⟨h5, -⟩
          · rw [h5]
            rfl
          · rw [h5]
        rw [hl]
        exact errorKept_state (zFile.flushLoop lib b.zip_listused.length)
          (flushLoop_err lib _) e m a b hab
      apply key
      split_ifs
      · exact errorKept_state (zFile.nextPool lib) (nextPool_err lib) e m _ _ (Or.inl rfl)
      · exact Or.inl rfl
  · exact Or.inl rfl

theorem seekf_err (s : zFile) (offset : Nat) (way : SeekDirection_t) (e : zFileError_t)
    (m : String) :
    zFile.errorKept e m (zFile.seekf (s.setError e m) offset way).1 (zFile.seekf s offset way).1 ∧
    (zFile.seekf (s.setError e m) offset way).2 = (zFile.seekf s offset way).2 := by
  unfold zFile.seekf
  have h2 : (s.setError e m).file_mode = s.file_mode := rfl
  rw [h2]
  split_ifs
  · exact ⟨Or.inl rfl, rfl⟩
  · exact ⟨Or.inr ⟨rfl, rfl⟩, rfl⟩

theorem readLoop_err (lib : Lib) :
    ∀ (fuel : Nat) (s : zFile) (readsize : Nat) (acc : List Byte) (e : zFileError_t)
      (m : String),
      (zFile.readLoop lib fuel (s.setError e m) readsize acc = none ∧
        zFile.readLoop lib fuel s readsize acc = none) ∨
      ∃ a b, zFile.readLoop lib fuel (s.setError e m) readsize acc = some a ∧
        zFile.readLoop lib fuel s readsize acc = some b ∧
        zFile.errorKept e m a.1 b.1 ∧ a.2 = b.2 := by
  intro fuel
  induction fuel with
  | zero =>
    intro s readsize acc e m
    exact Or.inl ⟨rfl, rfl⟩
  | succ fuel ih =>
    intro s readsize acc e m
    unfold zFile.readLoop
    split_ifs with h1
    · cases h : s.unzip_readpool with
      | none =>
        have h2 : (s.setError e m).unzip_readpool = none := h
        rw [h2]
        exact Or.inr ⟨_, _, rfl, rfl, Or.inl rfl, rfl⟩
      | some rp =>
        have h2 : (s.setError e m).unzip_readpool = some rp := h
        rw [h2]
        have ht : ∀ (p1 : Option MemPool) (f1 : FStream) (p : MemPool),
            zFile.threadJob lib
              { s with lasterror := e, errormsg := m, unzip_readpool := p1, file_stream := f1 } p
            = zFile.threadJob lib { s with unzip_readpool := p1, file_stream := f1 } p :=
          fun _ _ _ => rfl
        simp only [zFile.setError, ht]
        by_cases h5 : (rp.get readsize).2.1 ≠ 0
        · rw [if_pos h5, if_pos h5]
          exact ih { s with unzip_readpool := some (rp.get readsize).1 } _ _ e m
        · rw [if_neg h5, if_neg h5]
          generalize (if rp.getReturn ≠ 2 then rp.addStream s.file_stream s.blocsize
            else (rp, s.file_stream, 0)) = a
          by_cases h6 : rp.getReturn ≠ 2 ∧ a.2.1.fail = true ∧ a.2.2 = 0
          · rw [if_pos h6, if_pos h6]
            exact Or.inr ⟨_, _, rfl, rfl, Or.inr ⟨rfl, rfl⟩, rfl⟩
          · rw [if_neg h6, if_neg h6]
            generalize zFile.threadJob lib
              { s with unzip_readpool := some a.1, file_stream := a.2.1 } a.1 = j
            by_cases h7 : (a.1.run lib j).2 ≠ 0
            · rw [if_pos h7, if_pos h7]
              exact Or.inr ⟨_, _, rfl, rfl, Or.inr ⟨rfl, rfl⟩, rfl⟩
            · rw [if_neg h7, if_neg h7]
              by_cases h8 : ((a.1.run lib j).1.wait lib).2 ≠ 0
              · rw [if_pos h8, if_pos h8]
                exact Or.inr ⟨_, _, rfl, rfl, Or.inr ⟨rfl, rfl⟩, rfl⟩
              · rw [if_neg h8, if_neg h8]
                exact ih { s with unzip_readpool := some ((a.1.run lib j).1.wait lib).1,
                                  file_stream := a.2.1 } _ _ e m
    · exact Or.inr ⟨_, _, rfl, rfl, Or.inl rfl, rfl⟩

theorem read_err (lib : Lib) (fuel : Nat) (s : zFile) (size : Nat) (e : zFileError_t)
    (m : String) :
    (zFile.read lib fuel (s.setError e m) size = none ∧ zFile.read lib fuel s size = none) ∨
    ∃ a b, zFile.read lib fuel (s.setError e m) size = some a ∧
      zFile.read lib fuel s size = some b ∧ zFile.errorKept e m a.1 b.1 ∧ a.2 = b.2 := by
  unfold zFile.read
  have h2 : (s.setError e m).file_mode = s.file_mode := rfl
  rw [h2]
  split_ifs
  · exact Or.inr ⟨_, _, rfl, rfl, Or.inr ⟨rfl, rfl⟩, rfl⟩
  · rcases readLoop_err lib fuel s size [] e m with ⟨k1, k2⟩ | ⟨a, b, k1, k2, k3, k4⟩
    · left
      rw [k1, k2]
      exact ⟨rfl, rfl⟩
    · right
      rw [k1, k2]
      refine ⟨_, _, rfl, rfl, k3, ?_⟩
      dsimp only
      rw [k4]

/-- C14, counterexample: a read-mode stream opened on eight bytes that are not an lz4
header records `e_HeaderError`; a following `mwrite` is not a no-op that keeps this
error: it replaces it by `e_WriteError`. -/
theorem C14_counterexample :
    (zFilelz4.ctor libRun (some [1, 2, 3, 4, 5, 6, 7, 8]) .e_ReadMode 65536 1 1).map
      (fun s => (s.lasterror, s.errormsg,
        (zFile.mwrite libRun s [65]).1.lasterror, (zFile.mwrite libRun s [65]).1.errormsg))
      = some (.e_HeaderError, "Invalid magic number",
              .e_WriteError, "Error writing in a read mode file") := by
  decide

/-- C14 (amended: no operation tests the error state, the last error wins). A stream on
which the error `e`, `m` is recorded goes through `mwrite`, `read`, `seekf`, `flush` and
`close` as the same stream without it: the call does the same work and returns the same
value (`read` ends in one case when it ends in the other), and the state it leaves is the
state of the other run with `e`, `m` stored in it, or, when the call records an error of
its own, the very state of the other run, which holds that error. `setError` stores the
new kind and message over the recorded ones. In particular `mwrite` on a read-mode stream
leaves `e_WriteError` and returns 0, `read` on a write-mode stream leaves `e_ReadError`
and returns 0, `seekf` on a write-mode stream leaves `e_SeekError` and returns false,
whatever error was recorded. -/
theorem C14_last_error_wins (lib : Lib) (s : zFile) (e e2 : zFileError_t) (m m2 : String)
    (data : List Byte) (fuel size offset : Nat) (way : SeekDirection_t) :
    (s.setError e m).setError e2 m2 = s.setError e2 m2 ∧
    (zFile.errorKept e m (zFile.mwrite lib (s.setError e m) data).1
        (zFile.mwrite lib s data).1 ∧
      (zFile.mwrite lib (s.setError e m) data).2 = (zFile.mwrite lib s data).2) ∧
    ((zFile.read lib fuel (s.setError e m) size = none ∧ zFile.read lib fuel s size = none) ∨
      ∃ a b, zFile.read lib fuel (s.setError e m) size = some a ∧
        zFile.read lib fuel s size = some b ∧ zFile.errorKept e m a.1 b.1 ∧ a.2 = b.2) ∧
    (zFile.errorKept e m (zFile.seekf (s.setError e m) offset way).1
        (zFile.seekf s offset way).1 ∧
      (zFile.seekf (s.setError e m) offset way).2 = (zFile.seekf s offset way).2) ∧
    zFile.errorKept e m (zFile.flush lib (s.setError e m)) (zFile.flush lib s) ∧
    zFile.errorKept e m (zFile.close lib (s.setError e m)) (zFile.close lib s) ∧
    (s.file_mode = .e_ReadMode →
      zFile.mwrite lib (s.setError e m) data
        = ({ s with lasterror := .e_WriteError,
                    errormsg := "Error writing in a read mode file" }, 0)) ∧
    (s.file_mode = .e_WriteMode →
      zFile.read lib fuel (s.setError e m) size
        = some ({ s with lasterror := .e_ReadError,
                         errormsg := "Error reading a file openned in write mode" }, 0, []) ∧
      zFile.seekf (s.setError e m) offset way
        = ({ s with lasterror := .e_SeekError,
                    errormsg := "Seek unhandled for write mode files" }, false)) := by
  refine ⟨rfl, mwrite_err lib s data e m, read_err lib fuel s size e m,
    seekf_err s offset way e m, flush_err lib s e m, close_err lib s e m, ?_, ?_⟩
  · intro h
    simp [zFile.mwrite, h, zFile.setError]
  · intro h
    simp [zFile.read, zFile.seekf, h, zFile.setError]

/-- Witness of C14: a write-mode stream that already holds `e_OpenError` takes the three
bytes given to `mwrite`, and `close` writes their block after the 7 bytes of the header
and advances `N` to 3, the recorded error staying in place; `read` and `seekf` on it record their own error. -/
theorem C14_last_error_wins_witness :
    ((zFilelz4.ctor libRun (some []) .e_WriteMode 4 1 1).map (fun s0 =>
      let w := zFile.mwrite libRun (s0.setError .e_OpenError "File open error") [1, 2, 3]
      let c := zFile.close libRun w.1
      (w.2, c.file_stream.content.length, c.zip_noffset, c.lasterror, c.errormsg)))
      = some (3, 14, 3, .e_OpenError, "File open error") ∧
    (writerWith []).file_mode = .e_WriteMode ∧
    (zFile.read libRun 5 ((writerWith []).setError .e_OpenError "File open error") 3).map
        (fun r => (r.1.lasterror, r.2.1))
      = some (.e_ReadError, 0) ∧
    (zFile.seekf ((writerWith []).setError .e_OpenError "File open error") 0
        .e_SeekBegin).1.lasterror = .e_SeekError ∧
    zFile.errorKept .e_OpenError "File open error"
      (zFile.close libRun ((writerWith []).setError .e_OpenError "File open error"))
      (zFile.close libRun (writerWith [])) :=
  ⟨by decide, by decide,
   by rw [((C14_last_error_wins libRun (writerWith []) .e_OpenError .e_OpenError
        "File open error" "" [] 5 3 0 .e_SeekBegin).2.2.2.2.2.2.2 (by decide)).1]
      rfl,
   by rw [((C14_last_error_wins libRun (writerWith []) .e_OpenError .e_OpenError
        "File open error" "" [] 5 3 0 .e_SeekBegin).2.2.2.2.2.2.2 (by decide)).2],
   (C14_last_error_wins libRun (writerWith []) .e_OpenError .e_OpenError
        "File open error" "" [] 5 3 0 .e_SeekBegin).2.2.2.2.2.1⟩

end Zcp

namespace Zcp

/-- C11 (index sizes), the single block "hello world". The writer produces the 70 bytes
`helloFile`; the index parsed from them has one entry, `(uoff, usize, zoff, zsize) =
(0, 31, 7, 31)`: `readTail` gives both sizes of the last entry the value
`lastbloc - zoff`, where `lastbloc = 70 - 32 = 38` is the position of the identification
of the skippable frame. The block has 11 bytes and its frame 15. -/
theorem C11_last_entry_sizes :
    writeSession libRun 65536 1 1 helloWorld = some helloFile ∧
    (zFilelz4.ctor libRun (some helloFile) .e_ReadMode 65536 1 1).map
      (fun z => (z.lasterror,
        z.listindex.map (fun e => (e.offset.n, e.size.n, e.offset.z, e.size.z))))
      = some (.e_SuccessError, [(0, 31, 7, 31)]) := by
  constructor
  · decide
  · decide

end Zcp

namespace Zcp

theorem MemPool.reset_reset (p : MemPool) : p.reset.reset = p.reset := rfl

theorem MemPool.reset_inb (p : MemPool) : p.reset.inb = [] := rfl

/-- On a stream that satisfies the invariant, `flush` is this update. -/
theorem flush_eq (lib : Lib) (func : compressFunc_t) (level C : Nat) (hdr : List Byte)
    (s : zFile) (done : List (List Byte)) (p : MemPool) (rest : List MemPool)
    (hjoin : lib.pthread_join = 0)
    (hinv : WInv lib func level C hdr s done) (hu : s.zip_listused = p :: rest) :
    zFile.flush lib s =
      { s with
        xxh32state := XXH32_update s.xxh32state p.inb
        zip_listused := rest
        file_stream := s.file_stream.write (blockFrame lib func level p.inb C)
        listindex := setInsert (IndexEntry_t.ctor s.zip_noffset 0 s.zip_nzoffset 0) s.listindex
        zip_nzoffset := s.zip_nzoffset
          + ((zFilelz4.compress lib func level p.inb C).1 &&& 0x7fffffff)
        zip_noffset := s.zip_noffset + p.inb.length
        zip_listfree := s.zip_listfree ++ [(p.wait lib).1.reset] } := by
  have hp : InFlight lib func level C p := hinv.used p (by rw [hu]; exact List.mem_cons_self _ _)
  obtain ⟨hw0, hwt, hwj, hwi, hwm, hwc, hwo, hwout⟩ := wait_inFlight lib func level C p hjoin hp
  have hw2 := MemPool.wait_thid_zero lib (p.wait lib).1 hwt
  have hframe : (p.wait lib).1.getOutptr = blockFrame lib func level p.inb C := by
    simp only [MemPool.getOutptr, hwo, hwout, blockFrame]
  simp only [zFile.flush, hinv.ftype, if_true, zFile.flush_zFilelz4, hu, hw0,
    zFile.flush_zFile, hw2, MemPool.getInptr, ne_eq, not_true_eq_false, if_false, hframe,
    MemPool.getOutsize, hwo, MemPool.getInsize, hwi]

theorem flush_sinv (lib : Lib) (func : compressFunc_t) (level C : Nat) (hdr : List Byte)
    (s : zFile) (done : List (List Byte)) (p : MemPool) (rest : List MemPool)
    (hjoin : lib.pthread_join = 0)
    (hinv : SInv lib func level C hdr s done) (hu : s.zip_listused = p :: rest) :
    SInv lib func level C hdr (zFile.flush lib s) (done ++ [p.inb]) := by
  obtain ⟨hb, -, hc, hf, hs, -⟩ := flush_inv lib func level C hdr s done p rest hjoin hinv.base hu
  have he := flush_eq lib func level C hdr s done p rest hjoin hinv.base hu
  refine ⟨hb, ?_, ?_, ?_, ?_⟩
  · rw [he]
    simp only [hinv.xxh, XXH32_update, List.flatten_append, List.flatten_cons,
      List.flatten_nil, List.append_nil]
  · intro q hq
    rw [hf] at hq
    simp only [List.mem_append, List.mem_singleton] at hq
    rcases hq with hq | hq
    · exact hinv.free q hq
    · rw [hq]
      rfl
  · intro c hcur
    rw [hc] at hcur
    exact hinv.cur c hcur
  · intro b hb2
    rw [hs] at hb2
    exact hinv.blocks b hb2

end Zcp

namespace Zcp

theorem MemPool.reset_self (p : MemPool) (h : p.reset = p) :
    { p with inb := [] } = p.reset ∧ p.inb = [] := by
  constructor
  · rw [← h]
    rfl
  · rw [← h]
    rfl

/-- The step `nextPool` of a stream whose non-empty current pool has just been launched:
the pool joins the in-flight queue and the new current pool is empty. -/
theorem nextPool_sinv (lib : Lib) (func : compressFunc_t) (level C : Nat) (hdr : List Byte)
    (s : zFile) (done : List (List Byte)) (c : MemPool)
    (hjoin : lib.pthread_join = 0)
    (hinv : SInv lib func level C hdr s done) (hcur : s.zip_curpool = some c)
    (hfl : InFlight lib func level C c) (hne : c.inb ≠ []) :
    ∃ done2 q, SInv lib func level C hdr (zFile.nextPool lib s) done2 ∧
      (zFile.nextPool lib s).zip_curpool = some q ∧ q.inb = [] ∧
      (zFile.nextPool lib s).submitted = s.submitted ++ [c.inb] ∧
      (zFile.nextPool lib s).lasterror = s.lasterror := by
  have hclen : c.inb.length ≤ C := (hinv.cur c hcur).2
  have hb := hinv.base
  have h1 : SInv lib func level C hdr
      { s with zip_listused := s.zip_listused ++ [c],
               submitted := s.submitted ++ [c.inb] } done :=
    { base :=
        { ftype := hb.ftype, fmode := hb.fmode, cfunc := hb.cfunc, lvl := hb.lvl,
          good := hb.good, cur := hb.cur, free := hb.free,
          used := by
            intro q hq
            simp only [List.mem_append, List.mem_singleton] at hq
            rcases hq with hq | hq
            · exact hb.used q hq
            · subst hq
              exact hfl
          sub := by simp only [hb.sub, List.map_append, List.map_cons, List.map_nil,
                      List.append_assoc]
          content := hb.content, index := hb.index, noff := hb.noff, nzoff := hb.nzoff }
      xxh := hinv.xxh
      free := hinv.free
      cur := hinv.cur
      blocks := by
        intro b hb2
        simp only [List.mem_append, List.mem_singleton] at hb2
        rcases hb2 with hb2 | hb2
        · exact hinv.blocks b hb2
        · subst hb2
          exact ⟨hne, hclen⟩ }
  unfold zFile.nextPool
  split
  · rename_i hnone
    rw [hcur] at hnone
    exact absurd hnone (by simp)
  rename_i cur2 hsome
  have hcc : c = cur2 := by
    rw [hcur] at hsome
    exact Option.some.inj hsome
  subst hcc
  dsimp only
  by_cases hz : s.zip_listfree.length = 0
  · have hnil : s.zip_listfree = [] := List.length_eq_zero.1 hz
    obtain ⟨p, rest, hpr⟩ : ∃ p rest, s.zip_listused ++ [c] = p :: rest := by
      cases hl : s.zip_listused with
      | nil => exact ⟨c, [], rfl⟩
      | cons a as => exact ⟨a, as ++ [c], rfl⟩
    have hi := flush_sinv lib func level C hdr _ done p rest hjoin h1 hpr
    obtain ⟨-, -, -, hfree, hsub, herr⟩ :=
      flush_inv lib func level C hdr _ done p rest hjoin h1.base hpr
    simp only [hz, if_true]
    have hq := hi.base.free ((p.wait lib).1.reset) (by
      rw [hfree]
      simp)
    have hhead : (zFile.flush lib { s with zip_listused := s.zip_listused ++ [c],
                                           submitted := s.submitted ++ [c.inb] }).zip_listfree.head?
        = some (p.wait lib).1.reset := by
      rw [hfree]
      show (s.zip_listfree ++ _).head? = _
      rw [hnil]
      rfl
    have htail : (zFile.flush lib { s with zip_listused := s.zip_listused ++ [c],
                                           submitted := s.submitted ++ [c.inb] }).zip_listfree.tail
        = [] := by
      rw [hfree]
      show (s.zip_listfree ++ _).tail = _
      rw [hnil]
      rfl
    refine ⟨done ++ [p.inb], (p.wait lib).1.reset, ?_, hhead, rfl, hsub, herr⟩
    exact
      { base :=
          { ftype := hi.base.ftype, fmode := hi.base.fmode, cfunc := hi.base.cfunc,
            lvl := hi.base.lvl, good := hi.base.good,
            cur := ⟨(p.wait lib).1.reset, hhead, hq.1, hq.2⟩,
            free := by
              intro q hq2
              change q ∈ (zFile.flush lib _).zip_listfree.tail at hq2
              rw [htail] at hq2
              simp at hq2
            used := hi.base.used, sub := hi.base.sub, content := hi.base.content,
            index := hi.base.index, noff := hi.base.noff, nzoff := hi.base.nzoff }
        xxh := hi.xxh
        free := by
          intro q hq2
          change q ∈ (zFile.flush lib _).zip_listfree.tail at hq2
          rw [htail] at hq2
          simp at hq2
        cur := by
          intro q hq2
          change (zFile.flush lib _).zip_listfree.head? = some q at hq2
          rw [hhead] at hq2
          have := Option.some.inj hq2
          subst this
          exact ⟨rfl, Nat.zero_le _⟩
        blocks := hi.blocks }
  · simp only [hz, if_false]
    obtain ⟨q, qs, hqs⟩ : ∃ q qs, s.zip_listfree = q :: qs := by
      cases hl : s.zip_listfree with
      | nil => simp [hl] at hz
      | cons a as => exact ⟨a, as, rfl⟩
    have hq := hb.free q (by rw [hqs]; exact List.mem_cons_self _ _)
    have hqr := MemPool.reset_self q (hinv.free q (by rw [hqs]; exact List.mem_cons_self _ _))
    refine ⟨done, q, ?_, by simp only [hqs, List.head?_cons], hqr.2, trivial, trivial⟩
    exact
      { base :=
          { ftype := h1.base.ftype, fmode := h1.base.fmode, cfunc := h1.base.cfunc,
            lvl := h1.base.lvl, good := h1.base.good,
            cur := ⟨q, by simp only [hqs, List.head?_cons], hq.1, hq.2⟩,
            free := by
              intro r hr
              simp only [hqs, List.tail_cons] at hr
              exact hb.free r (by rw [hqs]; exact List.mem_cons_of_mem _ hr)
            used := h1.base.used, sub := h1.base.sub, content := h1.base.content,
            index := h1.base.index, noff := h1.base.noff, nzoff := h1.base.nzoff }
        xxh := h1.xxh
        free := by
          intro r hr
          simp only [hqs, List.tail_cons] at hr
          exact hinv.free r (by rw [hqs]; exact List.mem_cons_of_mem _ hr)
        cur := by
          intro r hr
          simp only [hqs, List.head?_cons] at hr
          have := Option.some.inj hr
          subst this
          exact ⟨hqr.1, by rw [hqr.2]; exact Nat.zero_le _⟩
        blocks := h1.blocks }

end Zcp

namespace Zcp

theorem SInv.with_cur {lib : Lib} {func : compressFunc_t} {level C : Nat} {hdr : List Byte}
    {s : zFile} {done : List (List Byte)} (h : SInv lib func level C hdr s done)
    (q : MemPool) (hm : q.mode = .e_ZipPool) (hc : q.poolsize = C)
    (hr : { q with inb := [] } = q.reset) (hl : q.inb.length ≤ C) :
    SInv lib func level C hdr { s with zip_curpool := some q } done :=
  { base := h.base.set_cur q hm hc
    xxh := h.xxh
    free := h.free
    cur := by
      intro c hcq
      have := Option.some.inj hcq
      subst this
      exact ⟨hr, hl⟩
    blocks := h.blocks }

theorem SInv.with_error {lib : Lib} {func : compressFunc_t} {level C : Nat} {hdr : List Byte}
    {s : zFile} {done : List (List Byte)} (h : SInv lib func level C hdr s done)
    (e : zFileError_t) (m : String) :
    SInv lib func level C hdr (s.setError e m) done :=
  { base := h.base.set_error e m
    xxh := h.xxh
    free := h.free
    cur := h.cur
    blocks := h.blocks }

theorem MemPool.run_ok (lib : Lib) (j : Job) (p : MemPool)
    (h : (p.run lib j).2 = 0) :
    p.inb ≠ [] ∧ (p.run lib j).1 = { p with thid := p.id + 1, job := some j } := by
  unfold MemPool.run at h ⊢
  split_ifs at h ⊢ with h1 h2 h3
  exact ⟨fun h0 => h1 (by rw [h0]; rfl), rfl⟩

theorem MemPool.run_succeeds (lib : Lib) (j : Job) (p : MemPool)
    (hattr : lib.pthread_attr_init = 0) (hcreate : lib.pthread_create = 0)
    (hne : p.inb ≠ []) : (p.run lib j).2 = 0 := by
  have : p.inb.length ≠ 0 := fun h => hne (List.length_eq_zero.1 h)
  simp [MemPool.run, this, hattr, hcreate]

theorem MemPool.add_spec (p : MemPool) (data : List Byte) (C : Nat)
    (hc : p.poolsize = C) (hl : p.inb.length ≤ C) :
    (p.add data).2 = min (C - p.inb.length) data.length ∧
    ((p.add data).2 ≠ 0 →
      (p.add data).1 = { p with inb := p.inb ++ data.take (p.add data).2 }) := by
  have hs : sizeSub p.poolsize p.inb.length = C - p.inb.length := by
    simp [sizeSub, hc, hl]
  unfold MemPool.add
  simp only [hs]
  split_ifs with h0
  · exact ⟨h0.symm, fun h => absurd rfl h⟩
  · exact ⟨rfl, fun _ => rfl⟩

end Zcp

namespace Zcp

theorem accepted_set_cur (s : zFile) (q : MemPool) :
    ({ s with zip_curpool := some q } : zFile).accepted = s.submitted.flatten ++ q.inb := rfl

theorem accepted_of_cur (s : zFile) (c : MemPool) (h : s.zip_curpool = some c) :
    s.accepted = s.submitted.flatten ++ c.inb := by
  simp only [zFile.accepted, h]

/-- The loop of `mwrite` on a stream that satisfies the invariant: the invariant holds
afterwards, the bytes taken are appended to the accepted bytes, and with `C ≥ 1`, thread
launches that succeed and two turns per byte (one more when the current pool is full) the
loop takes every byte and records no error. -/
theorem mwriteLoop_sinv (lib : Lib) (func : compressFunc_t) (level C : Nat) (hdr : List Byte)
    (hjoin : lib.pthread_join = 0) :
    ∀ (fuel : Nat) (s : zFile) (data : List Byte) (done : List (List Byte))
      (r : zFile × List Byte),
      SInv lib func level C hdr s done → r = zFile.mwriteLoop lib fuel s data →
      ∃ done2, SInv lib func level C hdr r.1 done2 ∧
        r.1.accepted ++ r.2 = s.accepted ++ data ∧
        (lib.pthread_attr_init = 0 → lib.pthread_create = 0 → 1 ≤ C →
          (∀ c, s.zip_curpool = some c →
            2 * data.length + (if c.inb.length = C then 1 else 0) ≤ fuel) →
          r.2 = [] ∧ r.1.lasterror = s.lasterror) := by
  intro fuel
  induction fuel with
  | zero =>
    intro s data done r h hr
    obtain ⟨c, hcur, -, -⟩ := h.base.cur
    have hr2 : r = (s, data) := hr
    subst hr2
    refine ⟨done, h, rfl, ?_⟩
    intro _ _ _ hf
    have := hf c hcur
    have hd : data.length = 0 := by omega
    exact ⟨List.length_eq_zero.1 hd, rfl⟩
  | succ fuel ih =>
    intro s data done r h hr
    obtain ⟨c, hcur, hm, hc⟩ := h.base.cur
    obtain ⟨hcr, hcl⟩ := h.cur c hcur
    obtain ⟨hadd2, hadd1⟩ := MemPool.add_spec c data C hc hcl
    unfold zFile.mwriteLoop at hr
    by_cases hd : data.length > 0
    · simp only [hd, if_true, hcur] at hr
      by_cases ha : (c.add data).2 = 0
      · simp only [ha, if_true] at hr
        have hfull : c.inb.length = C := by
          rw [ha] at hadd2
          omega
        by_cases hrun : (c.run lib (s.threadJob lib c)).2 = 0
        · simp only [hrun, ne_eq, not_true_eq_false, if_false] at hr
          obtain ⟨hne, hr1⟩ := MemPool.run_ok lib _ c hrun
          obtain ⟨hfl, hinb⟩ := run_inFlight lib func level C hdr s done c h.base hm hc hrun
          have hs1 : SInv lib func level C hdr
              { s with zip_curpool := some (c.run lib (s.threadJob lib c)).1 } done := by
            apply h.with_cur _ hfl.1 hfl.2.1
            · rw [hr1]
              have := hcr
              simp only [MemPool.reset, MemPool.mk.injEq] at this ⊢
              simp only [this, and_self]
            · rw [hinb]
              exact hcl
          obtain ⟨d2, q, h2, hq, hqi, hsub, herr⟩ := nextPool_sinv lib func level C hdr _ done _
            hjoin hs1 rfl hfl (by rw [hinb]; exact hne)
          obtain ⟨d3, h3, hacc, hfuel⟩ := ih _ data d2 r h2 hr
          refine ⟨d3, h3, ?_, ?_⟩
          · rw [hacc, accepted_of_cur _ q hq, hqi, hsub, hinb, accepted_of_cur s c hcur]
            simp
          · intro hattr hcreate hC hf
            have hfc := hf c hcur
            rw [if_pos hfull] at hfc
            obtain ⟨e1, e2⟩ := hfuel hattr hcreate hC (by
              intro c2 hc2
              rw [hq] at hc2
              have := Option.some.inj hc2
              subst this
              rw [hqi]
              have : ¬ (([] : List Byte).length = C) := by
                simp only [List.length_nil]
                omega
              rw [if_neg this]
              omega)
            exact ⟨e1, by rw [e2, herr]⟩
        · simp only [hrun, ne_eq, not_false_eq_true, if_true] at hr
          have hacc : r.1.accepted ++ r.2 = s.accepted ++ data := by
            rw [hr]
            split <;> rfl
          refine ⟨done, ?_, hacc, ?_⟩
          · rw [hr]
            split <;> exact h.with_error _ _
          · intro hattr hcreate hC _
            have hne : c.inb ≠ [] := by
              intro h0
              rw [h0] at hfull
              simp only [List.length_nil] at hfull
              omega
            exact absurd (MemPool.run_succeeds lib _ c hattr hcreate hne) hrun
      · simp only [ha, if_false] at hr
        have hn1 : (c.add data).2 ≤ C - c.inb.length := by
          rw [hadd2]
          exact Nat.min_le_left _ _
        have hn2 : (c.add data).2 ≤ data.length := by
          rw [hadd2]
          exact Nat.min_le_right _ _
        have ha1 := hadd1 ha
        have hs1 : SInv lib func level C hdr { s with zip_curpool := some (c.add data).1 }
            done := by
          apply h.with_cur
          · rw [ha1]
            exact hm
          · rw [ha1]
            exact hc
          · rw [ha1]
            exact hcr
          · rw [ha1]
            simp only [List.length_append, List.length_take]
            omega
        obtain ⟨d3, h3, hacc, hfuel⟩ := ih _ (data.drop (c.add data).2) done r hs1 hr
        refine ⟨d3, h3, ?_, ?_⟩
        · rw [hacc, accepted_set_cur, accepted_of_cur s c hcur, ha1]
          simp only [List.append_assoc, List.take_append_drop]
        · intro hattr hcreate hC hf
          have hfc := hf c hcur
          obtain ⟨e1, e2⟩ := hfuel hattr hcreate hC (by
            intro c2 _
            simp only [List.length_drop]
            split_ifs at hfc ⊢ <;> omega)
          exact ⟨e1, e2⟩
    · simp only [hd, if_false] at hr
      subst hr
      refine ⟨done, h, rfl, ?_⟩
      intro _ _ _ _
      have hd0 : data.length = 0 := by omega
      exact ⟨List.length_eq_zero.1 hd0, rfl⟩

end Zcp

namespace Zcp

theorem flushLoop_sinv (lib : Lib) (func : compressFunc_t) (level C : Nat) (hdr : List Byte)
    (hjoin : lib.pthread_join = 0) :
    ∀ (fuel : Nat) (s : zFile) (done : List (List Byte)),
      SInv lib func level C hdr s done → s.zip_listused.length ≤ fuel →
      ∃ done2, SInv lib func level C hdr (zFile.flushLoop lib fuel s) done2 ∧
        (zFile.flushLoop lib fuel s).zip_listused = [] ∧
        (zFile.flushLoop lib fuel s).zip_curpool = s.zip_curpool ∧
        (zFile.flushLoop lib fuel s).submitted = s.submitted ∧
        (zFile.flushLoop lib fuel s).lasterror = s.lasterror := by
  intro fuel
  induction fuel with
  | zero =>
    intro s done h hl
    have h0 : s.zip_listused = [] := List.length_eq_zero.1 (by omega)
    exact ⟨done, h, h0, rfl, rfl, rfl⟩
  | succ fuel ih =>
    intro s done h hl
    unfold zFile.flushLoop
    by_cases hz : s.zip_listused.length ≠ 0
    · rw [if_pos hz]
      obtain ⟨p, rest, hpr⟩ : ∃ p rest, s.zip_listused = p :: rest := by
        cases hl2 : s.zip_listused with
        | nil => simp [hl2] at hz
        | cons a as => exact ⟨a, as, rfl⟩
      obtain ⟨-, hu, hc, -, hs, he⟩ :=
        flush_inv lib func level C hdr s done p rest hjoin h.base hpr
      obtain ⟨d2, h2, e1, e2, e3, e4⟩ := ih _ _
        (flush_sinv lib func level C hdr s done p rest hjoin h hpr) (by
          rw [hu]
          rw [hpr] at hl
          simp only [List.length_cons] at hl
          omega)
      exact ⟨d2, h2, e1, by rw [e2, hc], by rw [e3, hs], by rw [e4, he]⟩
    · rw [if_neg hz]
      have h0 : s.zip_listused = [] := List.length_eq_zero.1 (by omega)
      exact ⟨done, h, h0, rfl, rfl, rfl⟩

/-- The call `close()` on a stream that satisfies the invariant: afterwards the in-flight
queue is empty and the accepted bytes are the same; when thread launches succeed the
current pool was submitted if and only if it held bytes, the new current pool is empty
and no error is recorded. -/
theorem close_sinv (lib : Lib) (func : compressFunc_t) (level C : Nat) (hdr : List Byte)
    (hjoin : lib.pthread_join = 0) (s : zFile) (done : List (List Byte))
    (h : SInv lib func level C hdr s done) :
    ∃ done2, SInv lib func level C hdr (zFile.close lib s) done2 ∧
      (zFile.close lib s).zip_listused = [] ∧
      (zFile.close lib s).accepted = s.accepted ∧
      (lib.pthread_attr_init = 0 → lib.pthread_create = 0 →
        (∃ q, (zFile.close lib s).zip_curpool = some q ∧ q.inb = []) ∧
        (zFile.close lib s).lasterror = s.lasterror ∧
        ∀ c, s.zip_curpool = some c →
          (zFile.close lib s).submitted
            = if c.inb = [] then s.submitted else s.submitted ++ [c.inb]) := by
  obtain ⟨c, hcur, hm, hc⟩ := h.base.cur
  obtain ⟨hcr, hcl⟩ := h.cur c hcur
  generalize hr : zFile.close lib s = r
  unfold zFile.close at hr
  rw [if_pos h.base.fmode] at hr
  simp only [hcur] at hr
  by_cases hrun : (c.run lib (s.threadJob lib c)).2 = 0
  · simp only [hrun, if_true] at hr
    obtain ⟨hne, hr1⟩ := MemPool.run_ok lib _ c hrun
    obtain ⟨hfl, hinb⟩ := run_inFlight lib func level C hdr s done c h.base hm hc hrun
    have hs1 : SInv lib func level C hdr
        { s with zip_curpool := some (c.run lib (s.threadJob lib c)).1 } done := by
      apply h.with_cur _ hfl.1 hfl.2.1
      · rw [hr1]
        have := hcr
        simp only [MemPool.reset, MemPool.mk.injEq] at this ⊢
        simp only [this, and_self]
      · rw [hinb]
        exact hcl
    obtain ⟨d2, q, h2, hq, hqi, hsub, herr⟩ := nextPool_sinv lib func level C hdr _ done _
      hjoin hs1 rfl hfl (by rw [hinb]; exact hne)
    obtain ⟨d3, h3, e1, e2, e3, e4⟩ := flushLoop_sinv lib func level C hdr hjoin _ _ d2 h2
      (Nat.le_refl _)
    rw [hr] at h3 e1 e2 e3 e4
    refine ⟨d3, h3, e1, ?_, ?_⟩
    · rw [accepted_of_cur r q (by rw [e2, hq]), e3, hsub, hqi, hinb, accepted_of_cur s c hcur]
      simp
    · intro _ _
      refine ⟨⟨q, by rw [e2, hq], hqi⟩, by rw [e4, herr], ?_⟩
      intro c2 hc2
      rw [hcur] at hc2
      have := Option.some.inj hc2
      subst this
      rw [if_neg hne, e3, hsub, hinb]
  · simp only [hrun, if_false] at hr
    obtain ⟨d3, h3, e1, e2, e3, e4⟩ := flushLoop_sinv lib func level C hdr hjoin _ _ done h
      (Nat.le_refl _)
    rw [hr] at h3 e1 e2 e3 e4
    refine ⟨d3, h3, e1, ?_, ?_⟩
    · rw [accepted_of_cur r c (by rw [e2, hcur]), e3, accepted_of_cur s c hcur]
    · intro hattr hcreate
      have hemp : c.inb = [] := by
        by_contra hne
        exact hrun (MemPool.run_succeeds lib _ c hattr hcreate hne)
      refine ⟨⟨c, by rw [e2, hcur], hemp⟩, e4, ?_⟩
      intro c2 hc2
      rw [hcur] at hc2
      have := Option.some.inj hc2
      subst this
      rw [if_pos hemp, e3]

theorem workerDone_sinv (lib : Lib) (func : compressFunc_t) (level C : Nat) (hdr : List Byte)
    (s : zFile) (done : List (List Byte)) (id : Nat)
    (h : SInv lib func level C hdr s done) :
    SInv lib func level C hdr (s.workerDone id) done :=
  { base := workerDone_inv lib func level C hdr s done id h.base
    xxh := h.xxh
    free := h.free
    cur := h.cur
    blocks := h.blocks }

end Zcp

namespace Zcp

theorem mkPools_reset (C : Nat) :
    ∀ (k first : Nat) (p : MemPool), p ∈ zFile.mkPools C first k → p.reset = p := by
  intro k
  induction k with
  | zero =>
    intro first p hp
    simp [zFile.mkPools] at hp
  | succ k ih =>
    intro first p hp
    simp only [zFile.mkPools, List.mem_cons] at hp
    rcases hp with hp | hp
    · subst hp
      rfl
    · exact ih _ _ hp

theorem ctor_write_xxh (lib : Lib) (file : List Byte) (b level nthread : Nat) :
    ∃ s0, zFilelz4.ctor lib (some file) .e_WriteMode b level nthread = some s0 ∧
      s0.xxh32state = { seed := checksum_seed, data := [] } ∧
      s0.lasterror = .e_SuccessError := by
  have hmode : (zFilelz4.ctorInit (some file) .e_WriteMode b level nthread).file_mode
      = .e_WriteMode := by
    simp only [zFilelz4.ctorInit, zFile.ctor]
    split_ifs <;> rfl
  unfold zFilelz4.ctor
  dsimp only
  rw [if_pos hmode]
  refine ⟨_, rfl, ?_, ?_⟩
  · simp [zFilelz4.writeHeader, zFilelz4.ctorInit, zFile.ctor, zFile.setError,
      FStream.openFile, FStream.fail, FStream.seekg, FStream.write, FStream.good,
      XXH32_reset]
  · simp [zFilelz4.writeHeader, zFilelz4.ctorInit, zFile.ctor, zFile.setError,
      FStream.openFile, FStream.fail, FStream.seekg, FStream.write, FStream.good]

/-- The write-mode constructor gives a stream that satisfies the invariant of a session,
with nothing accepted and no error. -/
theorem ctor_sinv (lib : Lib) (file : List Byte) (b level nthread : Nat)
    (hn : 1 ≤ nthread) :
    ∃ s0, zFilelz4.ctor lib (some file) .e_WriteMode b level nthread = some s0 ∧
      s0.accepted = [] ∧ s0.lasterror = .e_SuccessError ∧
      SInv lib (if level % 256 < min_HClevel then compressFunc_t.compress_fast_extState
                else compressFunc_t.compress_HC_extStateHC) (level % 256)
        (min b LZ4F_MAXBLOC_SIZE) s0.file_stream.content s0 [] := by
  obtain ⟨s0, hs0, hsub, hinv⟩ := ctor_write_inv lib file b level nthread hn
  obtain ⟨s1, hs1, -, hcur, hfree, -⟩ := ctor_write_blocsize lib file b level nthread
  obtain ⟨s2, hs2, hx, herr⟩ := ctor_write_xxh lib file b level nthread
  have e1 : s1 = s0 := Option.some.inj (hs1.symm.trans hs0)
  have e2 : s2 = s0 := Option.some.inj (hs2.symm.trans hs0)
  rw [e1] at hcur hfree
  rw [e2] at hx herr
  have hcurp : ∀ c, s0.zip_curpool = some c → c.reset = c := by
    intro c hc
    rw [hcur] at hc
    exact mkPools_reset _ _ _ _ (List.mem_of_mem_head? hc)
  refine ⟨s0, hs0, ?_, herr, ?_⟩
  · obtain ⟨c, hc, -, -⟩ := hinv.cur
    rw [accepted_of_cur s0 c hc, hsub, (MemPool.reset_self c (hcurp c hc)).2]
    rfl
  · exact
      { base := hinv
        xxh := hx
        free := by
          intro p hp
          rw [hfree] at hp
          exact mkPools_reset _ _ _ _ (List.mem_of_mem_tail hp)
        cur := by
          intro c hc
          obtain ⟨r1, r2⟩ := MemPool.reset_self c (hcurp c hc)
          exact ⟨r1, by rw [r2]; exact Nat.zero_le _⟩
        blocks := by
          intro x hx2
          rw [hsub] at hx2
          simp at hx2 }

theorem mwriteLoop_rest_le (lib : Lib) :
    ∀ (fuel : Nat) (s : zFile) (data : List Byte),
      (zFile.mwriteLoop lib fuel s data).2.length ≤ data.length := by
  intro fuel
  induction fuel with
  | zero =>
    intro s data
    exact Nat.le_refl _
  | succ fuel ih =>
    intro s data
    unfold zFile.mwriteLoop
    split_ifs with h1 <;> try exact Nat.le_refl _
    split
    · exact Nat.le_refl _
    · dsimp only
      split_ifs
      · exact Nat.le_refl _
      · exact ih _ _
      · refine Nat.le_trans (ih _ _) ?_
        simp only [List.length_drop]
        omega

/-- The call `mwrite(ptr, size)` on a stream that satisfies the invariant. -/
theorem mwrite_sinv (lib : Lib) (func : compressFunc_t) (level C : Nat) (hdr : List Byte)
    (hjoin : lib.pthread_join = 0) (s : zFile) (data : List Byte) (done : List (List Byte))
    (h : SInv lib func level C hdr s done) :
    ∃ done2, SInv lib func level C hdr (zFile.mwrite lib s data).1 done2 ∧
      ((zFile.mwrite lib s data).2 = data.length →
        (zFile.mwrite lib s data).1.accepted = s.accepted ++ data) ∧
      (lib.pthread_attr_init = 0 → lib.pthread_create = 0 → 1 ≤ C →
        (zFile.mwrite lib s data).2 = data.length ∧
        (zFile.mwrite lib s data).1.lasterror = s.lasterror) := by
  have hmw : zFile.mwrite lib s data
      = ((zFile.mwriteLoop lib (2 * data.length + s.zip_listfree.length + 2) s data).1,
         data.length
          - (zFile.mwriteLoop lib (2 * data.length + s.zip_listfree.length + 2) s data).2.length) := by
    simp [zFile.mwrite, h.base.fmode]
  rw [hmw]
  obtain ⟨d2, h2, hacc, hfuel⟩ := mwriteLoop_sinv lib func level C hdr hjoin _ s data done _ h rfl
  have hle := mwriteLoop_rest_le lib (2 * data.length + s.zip_listfree.length + 2) s data
  refine ⟨d2, h2, ?_, ?_⟩
  · intro hret
    have h0 : (zFile.mwriteLoop lib (2 * data.length + s.zip_listfree.length + 2) s data).2
        = [] := by
      apply List.length_eq_zero.1
      simp only at hret
      by_contra hne
      have hpos : 0 < (zFile.mwriteLoop lib (2 * data.length + s.zip_listfree.length + 2) s
          data).2.length := Nat.pos_of_ne_zero hne
      omega
    rw [h0, List.append_nil] at hacc
    exact hacc
  · intro hattr hcreate hC
    obtain ⟨e1, e2⟩ := hfuel hattr hcreate hC (by
      intro c _
      split_ifs <;> omega)
    exact ⟨by simp only [e1, List.length_nil, Nat.sub_zero], e2⟩

end Zcp

namespace Zcp

/-- A sequence of events on a stream that satisfies the invariant: the invariant holds
afterwards; when every `mwrite` returns its size the accepted bytes grow by the bytes
written; and with `C ≥ 1` and thread launches that succeed every `mwrite` does return its
size and no error is recorded. -/
theorem runEvents_sinv (lib : Lib) (func : compressFunc_t) (level C : Nat) (hdr : List Byte)
    (hjoin : lib.pthread_join = 0) :
    ∀ (evs : List WEvent) (s : zFile) (done : List (List Byte)),
      SInv lib func level C hdr s done →
      ∃ done2, SInv lib func level C hdr (runEvents lib evs s) done2 ∧
        (mwritesComplete lib evs s →
          (runEvents lib evs s).accepted = s.accepted ++ bytesWritten evs) ∧
        (lib.pthread_attr_init = 0 → lib.pthread_create = 0 → 1 ≤ C →
          mwritesComplete lib evs s ∧ (runEvents lib evs s).lasterror = s.lasterror) := by
  intro evs
  induction evs with
  | nil =>
    intro s done h
    exact ⟨done, h, fun _ => by simp [runEvents, bytesWritten],
      fun _ _ _ => ⟨trivial, rfl⟩⟩
  | cons e es ih =>
    intro s done h
    cases e with
    | mwrite data =>
      obtain ⟨d2, h2, hacc, hok⟩ := mwrite_sinv lib func level C hdr hjoin s data done h
      obtain ⟨d3, h3, hacc3, hok3⟩ := ih _ d2 h2
      refine ⟨d3, h3, ?_, ?_⟩
      · intro hc
        obtain ⟨hc1, hc2⟩ := hc
        show (runEvents lib es (zFile.mwrite lib s data).1).accepted = _
        rw [hacc3 hc2, hacc hc1, bytesWritten, List.append_assoc]
      · intro hattr hcreate hC
        obtain ⟨e1, e2⟩ := hok hattr hcreate hC
        obtain ⟨e3, e4⟩ := hok3 hattr hcreate hC
        exact ⟨⟨e1, e3⟩, by
          show (runEvents lib es (zFile.mwrite lib s data).1).lasterror = _
          rw [e4, e2]⟩
    | close =>
      obtain ⟨d2, h2, -, hacc, hok⟩ := close_sinv lib func level C hdr hjoin s done h
      obtain ⟨d3, h3, hacc3, hok3⟩ := ih _ d2 h2
      refine ⟨d3, h3, ?_, ?_⟩
      · intro hc
        show (runEvents lib es (zFile.close lib s)).accepted = _
        rw [hacc3 hc, hacc, bytesWritten]
      · intro hattr hcreate hC
        obtain ⟨-, e2, -⟩ := hok hattr hcreate
        obtain ⟨e3, e4⟩ := hok3 hattr hcreate hC
        exact ⟨e3, by
          show (runEvents lib es (zFile.close lib s)).lasterror = _
          rw [e4, e2]⟩
    | workerDone id =>
      obtain ⟨d3, h3, hacc3, hok3⟩ := ih _ done (workerDone_sinv lib func level C hdr s done id h)
      refine ⟨d3, h3, ?_, ?_⟩
      · intro hc
        show (runEvents lib es (s.workerDone id)).accepted = _
        rw [hacc3 hc, bytesWritten]
        rfl
      · intro hattr hcreate hC
        obtain ⟨e3, e4⟩ := hok3 hattr hcreate hC
        exact ⟨e3, by
          show (runEvents lib es (s.workerDone id)).lasterror = _
          rw [e4]
          rfl⟩

theorem sumN_eq_length (bs : List (List Byte)) : sumN bs = bs.flatten.length := by
  rw [sumN, List.length_flatten]

end Zcp

namespace Zcp

/-- C16 (close drains everything). A write-mode stream with at least one pool, a block
size `b ≥ 1` and thread operations that succeed, after any sequence of events: every
`mwrite` has returned its size; `close()` submits the current pool exactly when it holds
bytes; after it the in-flight queue is empty, the current pool and every free pool are
reset, no error is recorded, and the counter `N` is the number of bytes passed to
`mwrite` since the construction. -/
theorem C16_close_drains (lib : Lib) (file : List Byte) (b level nthread : Nat)
    (evs : List WEvent) (hn : 1 ≤ nthread) (hb : 1 ≤ b)
    (hattr : lib.pthread_attr_init = 0) (hcreate : lib.pthread_create = 0)
    (hjoin : lib.pthread_join = 0) :
    ∃ s0 c, zFilelz4.ctor lib (some file) .e_WriteMode b level nthread = some s0 ∧
      mwritesComplete lib evs s0 ∧
      (runEvents lib evs s0).zip_curpool = some c ∧
      (zFile.close lib (runEvents lib evs s0)).submitted
        = (if c.inb = [] then (runEvents lib evs s0).submitted
           else (runEvents lib evs s0).submitted ++ [c.inb]) ∧
      (zFile.close lib (runEvents lib evs s0)).zip_listused = [] ∧
      (∃ q, (zFile.close lib (runEvents lib evs s0)).zip_curpool = some q ∧ q.reset = q) ∧
      (∀ p ∈ (zFile.close lib (runEvents lib evs s0)).zip_listfree, p.reset = p) ∧
      (zFile.close lib (runEvents lib evs s0)).lasterror = .e_SuccessError ∧
      (zFile.close lib (runEvents lib evs s0)).zip_noffset = (bytesWritten evs).length := by
  obtain ⟨s0, hs0, hacc0, herr0, hinv0⟩ := ctor_sinv lib file b level nthread hn
  have hC : 1 ≤ min b LZ4F_MAXBLOC_SIZE := by
    simp only [LZ4F_MAXBLOC_SIZE, LZ4F_BLOC7_SIZE]
    omega
  obtain ⟨d1, h1, hacc1, hok1⟩ := runEvents_sinv lib _ (level % 256) _ _ hjoin evs s0 [] hinv0
  obtain ⟨hcomp, herr1⟩ := hok1 hattr hcreate hC
  obtain ⟨d2, h2, hused, hacc2, hok2⟩ := close_sinv lib _ (level % 256) _ _ hjoin _ d1 h1
  obtain ⟨⟨q, hq, hqi⟩, herr2, hsub⟩ := hok2 hattr hcreate
  obtain ⟨c, hc, -, -⟩ := h1.base.cur
  refine ⟨s0, c, hs0, hcomp, hc, hsub c hc, hused, ⟨q, hq, ?_⟩, h2.free, ?_, ?_⟩
  · have := (h2.cur q hq).1
    rw [← this]
    cases q
    simp only at hqi
    subst hqi
    rfl
  · rw [herr2, herr1, herr0]
  · have hd : (zFile.close lib (runEvents lib evs s0)).submitted = d2 := by
      have := h2.base.sub
      rw [hused] at this
      simpa using this
    have ha : (zFile.close lib (runEvents lib evs s0)).accepted = d2.flatten := by
      rw [accepted_of_cur _ q hq, hqi, hd, List.append_nil]
    rw [h2.base.noff, sumN_eq_length, ← ha, hacc2, hacc1 hcomp, hacc0, List.nil_append]

/-- Witness of C16: two pools of 4 bytes, nine bytes written in two calls; `close()`
submits the one-byte current pool and leaves `N = 9`. -/
theorem C16_close_drains_witness :
    1 ≤ 2 ∧ 1 ≤ 4 ∧
    (zFilelz4.ctor libRun (some []) .e_WriteMode 4 1 2).map (fun s0 =>
      ((runEvents libRun [.mwrite [1, 1, 1, 1, 2], .workerDone 0, .mwrite [2, 2, 2, 3]]
          s0).submitted,
       (zFile.close libRun (runEvents libRun
          [.mwrite [1, 1, 1, 1, 2], .workerDone 0, .mwrite [2, 2, 2, 3]] s0)).submitted,
       (zFile.close libRun (runEvents libRun
          [.mwrite [1, 1, 1, 1, 2], .workerDone 0, .mwrite [2, 2, 2, 3]] s0)).zip_noffset))
      = some ([[1, 1, 1, 1], [2, 2, 2, 2]], [[1, 1, 1, 1], [2, 2, 2, 2], [3]], 9) ∧
    ∃ s0 c, zFilelz4.ctor libRun (some []) .e_WriteMode 4 1 2 = some s0 ∧
      (runEvents libRun [.mwrite [1, 1, 1, 1, 2], .workerDone 0, .mwrite [2, 2, 2, 3]]
        s0).zip_curpool = some c ∧
      (zFile.close libRun (runEvents libRun
          [.mwrite [1, 1, 1, 1, 2], .workerDone 0, .mwrite [2, 2, 2, 3]] s0)).zip_listused
        = [] ∧
      (zFile.close libRun (runEvents libRun
          [.mwrite [1, 1, 1, 1, 2], .workerDone 0, .mwrite [2, 2, 2, 3]] s0)).zip_noffset
        = (bytesWritten [.mwrite [1, 1, 1, 1, 2], .workerDone 0, .mwrite [2, 2, 2, 3]]).length := by
  refine ⟨by decide, by decide, by decide, ?_⟩
  obtain ⟨s0, c, h0, -, hc, -, hu, -, -, -, hN⟩ := C16_close_drains libRun [] 4 1 2
    [.mwrite [1, 1, 1, 1, 2], .workerDone 0, .mwrite [2, 2, 2, 3]]
    (by decide) (by decide) rfl rfl rfl
  exact ⟨s0, c, h0, hc, hu, hN⟩

end Zcp

namespace Zcp

theorem flush_zFile_flag (lib : Lib) (s : zFile) : (zFile.flush_zFile lib s).flag = s.flag := by
  unfold zFile.flush_zFile
  split
  · rfl
  · dsimp only
    split_ifs <;> rfl

theorem flush_flag (lib : Lib) (s : zFile) : (zFile.flush lib s).flag = s.flag := by
  unfold zFile.flush
  split_ifs
  · unfold zFile.flush_zFilelz4
    split
    · rfl
    · dsimp only
      rw [flush_zFile_flag]
      split_ifs <;> rfl
  · exact flush_zFile_flag lib s

theorem nextPool_flag (lib : Lib) (s : zFile) : (zFile.nextPool lib s).flag = s.flag := by
  unfold zFile.nextPool
  split
  · rfl
  · dsimp only
    split_ifs
    · exact flush_flag lib _
    · rfl

theorem mwriteLoop_flag (lib : Lib) :
    ∀ (fuel : Nat) (s : zFile) (data : List Byte),
      (zFile.mwriteLoop lib fuel s data).1.flag = s.flag := by
  intro fuel
  induction fuel with
  | zero =>
    intro s data
    rfl
  | succ fuel ih =>
    intro s data
    unfold zFile.mwriteLoop
    split_ifs with h1
    · split
      · rfl
      · dsimp only
        split_ifs
        · split <;> rfl
        · rw [ih, nextPool_flag]
        · rw [ih]
    · rfl

theorem flushLoop_flag (lib : Lib) :
    ∀ (fuel : Nat) (s : zFile), (zFile.flushLoop lib fuel s).flag = s.flag := by
  intro fuel
  induction fuel with
  | zero =>
    intro s
    rfl
  | succ fuel ih =>
    intro s
    unfold zFile.flushLoop
    split_ifs
    · rw [ih, flush_flag]
    · rfl

theorem close_flag (lib : Lib) (s : zFile) : (zFile.close lib s).flag = s.flag := by
  unfold zFile.close
  split_ifs
  · split
    · rfl
    · dsimp only
      rw [flushLoop_flag]
      split_ifs
      · exact nextPool_flag lib _
      · rfl
  · rfl

theorem runEvents_flag (lib : Lib) :
    ∀ (evs : List WEvent) (s : zFile), (runEvents lib evs s).flag = s.flag := by
  intro evs
  induction evs with
  | nil =>
    intro s
    rfl
  | cons e es ih =>
    intro s
    cases e with
    | mwrite data =>
      show (runEvents lib es (zFile.mwrite lib s data).1).flag = _
      rw [ih]
      unfold zFile.mwrite
      split_ifs
      · rfl
      · exact mwriteLoop_flag lib _ s data
    | close =>
      show (runEvents lib es (zFile.close lib s)).flag = _
      rw [ih, close_flag]
    | workerDone id =>
      show (runEvents lib es (s.workerDone id)).flag = _
      rw [ih]
      rfl

theorem ctor_write_flag (lib : Lib) (file : List Byte) (b level nthread : Nat) :
    ∃ s0, zFilelz4.ctor lib (some file) .e_WriteMode b level nthread = some s0 ∧
      s0.flag = Flag.ctor := by
  have hmode : (zFilelz4.ctorInit (some file) .e_WriteMode b level nthread).file_mode
      = .e_WriteMode := by
    simp only [zFilelz4.ctorInit, zFile.ctor]
    split_ifs <;> rfl
  unfold zFilelz4.ctor
  dsimp only
  rw [if_pos hmode]
  refine ⟨_, rfl, ?_⟩
  simp [zFilelz4.writeHeader, zFilelz4.ctorInit, zFile.ctor, zFile.setError,
    FStream.openFile, FStream.fail, FStream.seekg, FStream.write, FStream.good]

/-- What `writeTail` leaves untouched. -/
theorem writeTail_frame (lib : Lib) (s : zFile) :
    (zFilelz4.writeTail lib s).zip_curpool = s.zip_curpool ∧
    (zFilelz4.writeTail lib s).zip_listused = s.zip_listused ∧
    (zFilelz4.writeTail lib s).file_mode = s.file_mode := by
  unfold zFilelz4.writeTail
  dsimp only
  split_ifs <;> exact ⟨rfl, rfl, rfl⟩

end Zcp

namespace Zcp

/-- The base-class destructor on a write-mode stream whose in-flight queue and current
pool are empty changes nothing but the type tag. -/
theorem zFile_dtor_idle (lib : Lib) (s : zFile) (q : MemPool)
    (hcur : s.zip_curpool = some q) (hq : q.inb = []) (hu : s.zip_listused = []) :
    (zFile.dtor lib s).file_stream = s.file_stream := by
  unfold zFile.dtor zFile.close
  dsimp only
  split_ifs
  · rw [hcur]
    dsimp only
    have hrun : ∀ j, (q.run lib j).2 = 3 := by
      intro j
      simp [MemPool.run, hq]
    rw [hrun]
    simp only [OfNat.ofNat_ne_zero, if_false, hu, List.length_nil, zFile.flushLoop]
  · rfl

/-- C13 (stream checksum). A write-mode stream with at least one pool, a block size
`b ≥ 1` and thread operations that succeed: after any sequence of events the checksum
state has the seed 0 and has been fed with the inputs of the flushed blocks `done`, once
each, in submission order (`done` is the beginning of the submitted blocks); and the
destructor writes, after the block frames, the end mark and the digest
`XXH32(X, 0)` of the bytes `X` passed to `mwrite`. -/
theorem C13_stream_checksum (lib : Lib) (file : List Byte) (b level nthread : Nat)
    (evs : List WEvent) (hn : 1 ≤ nthread) (hb : 1 ≤ b)
    (hattr : lib.pthread_attr_init = 0) (hcreate : lib.pthread_create = 0)
    (hjoin : lib.pthread_join = 0) :
    ∃ s0 done post, zFilelz4.ctor lib (some file) .e_WriteMode b level nthread = some s0 ∧
      s0.xxh32state = { seed := 0, data := [] } ∧
      (runEvents lib evs s0).xxh32state = { seed := 0, data := done.flatten } ∧
      (runEvents lib evs s0).submitted
        = done ++ (runEvents lib evs s0).zip_listused.map (fun p => p.inb) ∧
      (zFilelz4.dtor lib (runEvents lib evs s0)).file_stream.content
        = (zFile.close lib (runEvents lib evs s0)).file_stream.content ++
            (le32 LZ4S_EOS ++ le32 (lib.XXH32 (bytesWritten evs) 0 % 4294967296) ++ post) := by
  obtain ⟨s0, hs0, hacc0, herr0, hinv0⟩ := ctor_sinv lib file b level nthread hn
  obtain ⟨s1, hs1, hflag0⟩ := ctor_write_flag lib file b level nthread
  have e1 : s1 = s0 := Option.some.inj (hs1.symm.trans hs0)
  rw [e1] at hflag0
  have hC : 1 ≤ min b LZ4F_MAXBLOC_SIZE := by
    simp only [LZ4F_MAXBLOC_SIZE, LZ4F_BLOC7_SIZE]
    omega
  obtain ⟨d1, h1, hacc1, hok1⟩ := runEvents_sinv lib _ (level % 256) _ _ hjoin evs s0 [] hinv0
  obtain ⟨hcomp, herr1⟩ := hok1 hattr hcreate hC
  obtain ⟨d2, h2, hused, hacc2, hok2⟩ := close_sinv lib _ (level % 256) _ _ hjoin _ d1 h1
  obtain ⟨⟨q, hq, hqi⟩, herr2, hsub⟩ := hok2 hattr hcreate
  have hflag : (zFile.close lib (runEvents lib evs s0)).flag = Flag.ctor := by
    rw [close_flag, runEvents_flag, hflag0]
  obtain ⟨hwc, -⟩ := writeTail_content lib _ h2.base.good hflag
  obtain ⟨hw1, hw2, hw3⟩ := writeTail_frame lib (zFile.close lib (runEvents lib evs s0))
  have hd : (zFile.close lib (runEvents lib evs s0)).submitted = d2 := by
    have := h2.base.sub
    rw [hused] at this
    simpa using this
  have ha : d2.flatten = bytesWritten evs := by
    have : (zFile.close lib (runEvents lib evs s0)).accepted = d2.flatten := by
      rw [accepted_of_cur _ q hq, hqi, hd, List.append_nil]
    rw [← this, hacc2, hacc1 hcomp, hacc0, List.nil_append]
  have hdig : XXH32_digest lib (zFile.close lib (runEvents lib evs s0)).xxh32state
      = lib.XXH32 (bytesWritten evs) 0 % 4294967296 := by
    rw [h2.xxh, XXH32_digest, ha]
    rfl
  refine ⟨s0, d1,
    (le32 0x184D2A50 ++
      le32 (16 + (zFile.close lib (runEvents lib evs s0)).listindex.length * 8 + 8)) ++
    (le32 0xCAFEDECA ++ le32 1 ++ le32 0 ++
      le32 ((zFile.close lib (runEvents lib evs s0)).listindex.length * 8)) ++
    (zFile.close lib (runEvents lib evs s0)).listindex.flatMap
      (fun e => le32 e.offset.n ++ le32 e.offset.z) ++
    (le32 0x184D2A50 ++
      le32 (16 + (zFile.close lib (runEvents lib evs s0)).listindex.length * 8 + 8)),
    hs0, hinv0.xxh, h1.xxh, h1.base.sub, ?_⟩
  unfold zFilelz4.dtor
  rw [if_pos h1.base.fmode,
    zFile_dtor_idle lib _ q (by rw [hw1, hq]) hqi (by rw [hw2, hused]), hwc, hdig]
  simp only [LZ4S_EOS, List.append_assoc]

/-- Witness of C13: two pools of 4 bytes and "hello world" written in two calls; the
file ends the block frames with the end mark and `22 66 BB CE`, the digest `0xCEBB6622`
of "hello world". -/
theorem C13_stream_checksum_witness :
    1 ≤ 2 ∧ 1 ≤ 4 ∧
    (zFilelz4.ctor libRun (some []) .e_WriteMode 4 1 2).map (fun s0 =>
      ((zFilelz4.dtor libRun (runEvents libRun
          [.mwrite [104, 101, 108, 108, 111], .workerDone 0,
           .mwrite [32, 119, 111, 114, 108, 100]] s0)).file_stream.content.drop 30).take 8)
      = some [0, 0, 0, 0, 0x22, 0x66, 0xBB, 0xCE] ∧
    ∃ s0, ∃ done : List (List Byte), ∃ post,
      zFilelz4.ctor libRun (some []) .e_WriteMode 4 1 2 = some s0 ∧
      (runEvents libRun
          [.mwrite [104, 101, 108, 108, 111], .workerDone 0,
           .mwrite [32, 119, 111, 114, 108, 100]] s0).xxh32state
        = { seed := 0, data := done.flatten } ∧
      (zFilelz4.dtor libRun (runEvents libRun
          [.mwrite [104, 101, 108, 108, 111], .workerDone 0,
           .mwrite [32, 119, 111, 114, 108, 100]] s0)).file_stream.content
        = (zFile.close libRun (runEvents libRun
            [.mwrite [104, 101, 108, 108, 111], .workerDone 0,
             .mwrite [32, 119, 111, 114, 108, 100]] s0)).file_stream.content ++
          (le32 LZ4S_EOS ++ le32 (libRun.XXH32 (bytesWritten
            [.mwrite [104, 101, 108, 108, 111], .workerDone 0,
             .mwrite [32, 119, 111, 114, 108, 100]]) 0 % 4294967296) ++ post) := by
  refine ⟨by decide, by decide, by decide, ?_⟩
  obtain ⟨s0, done, post, h0, -, hx, -, hc⟩ := C13_stream_checksum libRun [] 4 1 2
    [.mwrite [104, 101, 108, 108, 111], .workerDone 0, .mwrite [32, 119, 111, 114, 108, 100]]
    (by decide) (by decide) rfl rfl rfl
  exact ⟨s0, done, post, h0, hx, hc⟩

end Zcp

namespace Zcp

theorem toInt32_lt (n : Nat) : toInt32 n < 2147483648 := by
  unfold toInt32
  split_ifs <;> omega

/-- The frame of a block `1 .. C` bytes long, for a codec call that returns 0 or a number
of bytes between 1 and the destination size: it holds its four-byte length word, and the
word is not zero. -/
theorem blockFrame_word (lib : Lib) (func : compressFunc_t) (level C : Nat) (inb : List Byte)
    (hC : C ≤ 4194304) (hin : inb.length ≤ C)
    (hr0 : 0 ≤ (lib.compress func inb (toInt32 (sizeSub C 4)) level).1)
    (hr1 : (lib.compress func inb (toInt32 (sizeSub C 4)) level).1 = 0 ∨
           (lib.compress func inb (toInt32 (sizeSub C 4)) level).1 ≤ toInt32 (sizeSub C 4)) :
    4 ≤ (blockFrame lib func level inb C).length ∧
    le32toh (blockFrame lib func level inb C) ≠ 0 := by
  have hdst := toInt32_lt (sizeSub C 4)
  unfold blockFrame zFilelz4.compress
  generalize toInt32 (sizeSub C 4) = dst at *
  generalize lib.compress func inb dst level = res at *
  obtain ⟨r, out⟩ := res
  simp only at hr0 hr1 ⊢
  have hrlt : r < 18446744073709551616 := by omega
  rw [toSizeT_of_nonneg r hr0 hrlt]
  by_cases hz : r.toNat = 0
  · have hinlt : inb.length % 4294967296 = inb.length := by omega
    have hw : ((inb.length % 4294967296) &&& 0x7fffffff) ||| 0x80000000
        = inb.length + 2147483648 := by
      rw [and_7fffffff, or_80000000 _ (Nat.mod_lt _ (by decide))]
      omega
    simp only [hz, if_true]
    rw [hw]
    have hsz : (inb.length + 4) % 18446744073709551616 = inb.length + 4 := by omega
    rw [hsz]
    constructor
    · simp only [List.length_take, List.length_append, le32_length]
      omega
    · rw [le32toh_take _ _ (by omega), le32toh_le32_append]
      omega
  · simp only [hz, if_false]
    have hsz : (r.toNat + 4) % 18446744073709551616 = r.toNat + 4 := by omega
    rw [hsz]
    constructor
    · simp only [List.length_take, List.length_append, le32_length]
      omega
    · rw [le32toh_take _ _ (by omega), le32toh_le32_append]
      omega

/-- C19 (no empty block). `run` on an empty pool returns the code 3 and starts no
worker. In a write session with at least one pool and joins that succeed, after any
sequence of events: no submitted block is empty; the file holds the header followed by
the frames of the flushed blocks; and, for a codec call that returns 0 or a number of
bytes between 1 and the destination size, each of these frames holds its length word and
this word is not zero, so that the zero word `writeTail` appends as end mark is the only
one in the block sequence. -/
theorem C19_no_empty_block (lib : Lib) (file : List Byte) (b level nthread : Nat)
    (evs : List WEvent) (hn : 1 ≤ nthread) (hjoin : lib.pthread_join = 0)
    (hcodec : ∀ inb : List Byte, inb ≠ [] → inb.length ≤ min b LZ4F_MAXBLOC_SIZE →
      0 ≤ (lib.compress
            (if level % 256 < min_HClevel then compressFunc_t.compress_fast_extState
             else compressFunc_t.compress_HC_extStateHC) inb
            (toInt32 (sizeSub (min b LZ4F_MAXBLOC_SIZE) 4)) (level % 256)).1 ∧
      ((lib.compress
            (if level % 256 < min_HClevel then compressFunc_t.compress_fast_extState
             else compressFunc_t.compress_HC_extStateHC) inb
            (toInt32 (sizeSub (min b LZ4F_MAXBLOC_SIZE) 4)) (level % 256)).1 = 0 ∨
       (lib.compress
            (if level % 256 < min_HClevel then compressFunc_t.compress_fast_extState
             else compressFunc_t.compress_HC_extStateHC) inb
            (toInt32 (sizeSub (min b LZ4F_MAXBLOC_SIZE) 4)) (level % 256)).1
          ≤ toInt32 (sizeSub (min b LZ4F_MAXBLOC_SIZE) 4))) :
    (∀ (p : MemPool) (j : Job), p.inb = [] → p.run lib j = (p, 3)) ∧
    ∃ s0, ∃ done : List (List Byte),
      zFilelz4.ctor lib (some file) .e_WriteMode b level nthread = some s0 ∧
      (∀ x ∈ (runEvents lib evs s0).submitted, x ≠ []) ∧
      (runEvents lib evs s0).submitted
        = done ++ (runEvents lib evs s0).zip_listused.map (fun p => p.inb) ∧
      (runEvents lib evs s0).file_stream.content
        = s0.file_stream.content ++ done.flatMap (fun x =>
            blockFrame lib
              (if level % 256 < min_HClevel then compressFunc_t.compress_fast_extState
               else compressFunc_t.compress_HC_extStateHC)
              (level % 256) x (min b LZ4F_MAXBLOC_SIZE)) ∧
      ∀ x ∈ done,
        4 ≤ (blockFrame lib
              (if level % 256 < min_HClevel then compressFunc_t.compress_fast_extState
               else compressFunc_t.compress_HC_extStateHC)
              (level % 256) x (min b LZ4F_MAXBLOC_SIZE)).length ∧
        le32toh (blockFrame lib
              (if level % 256 < min_HClevel then compressFunc_t.compress_fast_extState
               else compressFunc_t.compress_HC_extStateHC)
              (level % 256) x (min b LZ4F_MAXBLOC_SIZE)) ≠ 0 := by
  constructor
  · intro p j hp
    simp [MemPool.run, hp]
  · obtain ⟨s0, hs0, -, -, hinv0⟩ := ctor_sinv lib file b level nthread hn
    obtain ⟨d1, h1, -, -⟩ := runEvents_sinv lib _ (level % 256) _ _ hjoin evs s0 [] hinv0
    have hC : min b LZ4F_MAXBLOC_SIZE ≤ 4194304 := by
      simp [LZ4F_MAXBLOC_SIZE, LZ4F_BLOC7_SIZE]
    refine ⟨s0, d1, hs0, fun x hx => (h1.blocks x hx).1, h1.base.sub, h1.base.content, ?_⟩
    intro x hx
    have hxs : x ∈ (runEvents lib evs s0).submitted := by
      rw [h1.base.sub]
      exact List.mem_append_left _ hx
    obtain ⟨hne, hle⟩ := h1.blocks x hxs
    obtain ⟨c0, c1⟩ := hcodec x hne hle
    exact blockFrame_word lib _ (level % 256) _ x hC hle c0 c1

theorem libRun_codec (f : compressFunc_t) (inb : List Byte) (dst : Int) (level : Nat) :
    0 ≤ (libRun.compress f inb dst level).1 ∧
    ((libRun.compress f inb dst level).1 = 0 ∨ (libRun.compress f inb dst level).1 ≤ dst) := by
  cases inb with
  | nil => exact ⟨Int.le_refl 0, Or.inl rfl⟩
  | cons x xs =>
    simp only [libRun]
    split_ifs with h
    · exact ⟨show (0 : Int) ≤ 2 by decide, Or.inr h.2.2.2⟩
    · exact ⟨Int.le_refl 0, Or.inl rfl⟩

/-- Witness of C19: two pools of 4 bytes, nine bytes written, then `close`. -/
theorem C19_no_empty_block_witness :
    1 ≤ 2 ∧ libRun.pthread_join = 0 ∧
    ∃ s0, ∃ done : List (List Byte),
      zFilelz4.ctor libRun (some []) .e_WriteMode 4 1 2 = some s0 ∧
      (∀ x ∈ (runEvents libRun [.mwrite [1, 1, 1, 1, 2, 2, 2, 2, 3], .close] s0).submitted,
        x ≠ []) ∧
      ∀ x ∈ done,
        4 ≤ (blockFrame libRun
              (if 1 < min_HClevel then compressFunc_t.compress_fast_extState
               else compressFunc_t.compress_HC_extStateHC)
              1 x (min 4 LZ4F_MAXBLOC_SIZE)).length ∧
        le32toh (blockFrame libRun
              (if 1 < min_HClevel then compressFunc_t.compress_fast_extState
               else compressFunc_t.compress_HC_extStateHC)
              1 x (min 4 LZ4F_MAXBLOC_SIZE)) ≠ 0 := by
  refine ⟨by decide, rfl, ?_⟩
  obtain ⟨-, s0, done, h0, h1, -, -, h2⟩ := C19_no_empty_block libRun [] 4 1 2
    [.mwrite [1, 1, 1, 1, 2, 2, 2, 2, 3], .close] (by decide) rfl
    (fun inb _ _ => libRun_codec _ inb _ 1)
  exact ⟨s0, done, h0, h1, h2⟩

end Zcp

namespace Zcp

theorem flush_zFile_frame (lib : Lib) (s : zFile) :
    (zFile.flush_zFile lib s).file_mode = s.file_mode ∧
    (zFile.flush_zFile lib s).zip_curpool = s.zip_curpool ∧
    (zFile.flush_zFile lib s).zip_listused = s.zip_listused.tail ∧
    (∀ p ∈ (zFile.flush_zFile lib s).zip_listfree, p ∈ s.zip_listfree ∨ p.inb = []) ∧
    (s.zip_listused ≠ [] → (zFile.flush_zFile lib s).zip_listfree ≠ []) := by
  unfold zFile.flush_zFile
  split
  · rename_i h
    rw [h]
    exact ⟨rfl, rfl, rfl, fun p hp => Or.inl hp, fun h0 => absurd rfl h0⟩
  · rename_i pool rest h
    rw [h]
    dsimp only
    refine ⟨?_, ?_, rfl, ?_, ?_⟩
    · split_ifs <;> rfl
    · split_ifs <;> rfl
    · intro p hp
      simp only [List.mem_append, List.mem_singleton] at hp
      rcases hp with hp | hp
      · left
        split_ifs at hp <;> exact hp
      · right
        rw [hp]
        rfl
    · intro _
      simp

/-- What a call of `flush()` leaves untouched, and what it does to the queues. -/
theorem flush_frame (lib : Lib) (s : zFile) :
    (zFile.flush lib s).file_mode = s.file_mode ∧
    (zFile.flush lib s).zip_curpool = s.zip_curpool ∧
    (zFile.flush lib s).zip_listused = s.zip_listused.tail ∧
    (∀ p ∈ (zFile.flush lib s).zip_listfree, p ∈ s.zip_listfree ∨ p.inb = []) ∧
    (s.zip_listused ≠ [] → (zFile.flush lib s).zip_listfree ≠ []) := by
  unfold zFile.flush
  split_ifs
  · unfold zFile.flush_zFilelz4
    split
    · rename_i h
      rw [h]
      exact ⟨rfl, rfl, rfl, fun p hp => Or.inl hp, fun h0 => absurd rfl h0⟩
    · rename_i pool rest h
      rw [h]
      have key : ∀ t : zFile, t.file_mode = s.file_mode → t.zip_curpool = s.zip_curpool →
          t.zip_listused = (pool.wait lib).1 :: rest → t.zip_listfree = s.zip_listfree →
          (zFile.flush_zFile lib t).file_mode = s.file_mode ∧
          (zFile.flush_zFile lib t).zip_curpool = s.zip_curpool ∧
          (zFile.flush_zFile lib t).zip_listused = (pool :: rest).tail ∧
          (∀ p ∈ (zFile.flush_zFile lib t).zip_listfree, p ∈ s.zip_listfree ∨ p.inb = []) ∧
          (pool :: rest ≠ [] → (zFile.flush_zFile lib t).zip_listfree ≠ []) := by
        intro t t1 t2 t3 t4
        obtain ⟨f1, f2, f3, f4, f5⟩ := flush_zFile_frame lib t
        refine ⟨by rw [f1, t1], by rw [f2, t2], by rw [f3, t3]; rfl, ?_, ?_⟩
        · intro p hp
          rcases f4 p hp with h1 | h1
          · left
            rw [← t4]
            exact h1
          · exact Or.inr h1
        · intro _
          exact f5 (by rw [t3]; simp)
      dsimp only
      refine key _ ?_ ?_ rfl ?_
      · split_ifs <;> rfl
      · split_ifs <;> rfl
      · split_ifs <;> rfl
  · exact flush_zFile_frame lib s

theorem flushLoop_frame (lib : Lib) :
    ∀ (fuel : Nat) (s : zFile),
      (zFile.flushLoop lib fuel s).file_mode = s.file_mode ∧
      (zFile.flushLoop lib fuel s).zip_curpool = s.zip_curpool ∧
      (s.zip_listused.length ≤ fuel → (zFile.flushLoop lib fuel s).zip_listused = []) ∧
      (∀ p ∈ (zFile.flushLoop lib fuel s).zip_listfree, p ∈ s.zip_listfree ∨ p.inb = []) := by
  intro fuel
  induction fuel with
  | zero =>
    intro s
    refine ⟨rfl, rfl, ?_, fun p hp => Or.inl hp⟩
    intro h
    have h0 : s.zip_listused = [] := List.length_eq_zero.1 (by omega)
    exact h0
  | succ fuel ih =>
    intro s
    unfold zFile.flushLoop
    split_ifs with hz
    · obtain ⟨f1, f2, f3, f4, -⟩ := flush_frame lib s
      obtain ⟨i1, i2, i3, i4⟩ := ih (zFile.flush lib s)
      refine ⟨by rw [i1, f1], by rw [i2, f2], ?_, ?_⟩
      · intro hl
        apply i3
        rw [f3, List.length_tail]
        omega
      · intro p hp
        rcases i4 p hp with h1 | h1
        · exact f4 p h1
        · exact Or.inr h1
    · refine ⟨rfl, rfl, ?_, fun p hp => Or.inl hp⟩
      intro _
      have h0 : s.zip_listused = [] := List.length_eq_zero.1 (by omega)
      exact h0

theorem nextPool_frame (lib : Lib) (s : zFile) (c : MemPool) (hcur : s.zip_curpool = some c) :
    (zFile.nextPool lib s).file_mode = s.file_mode ∧
    (∀ p ∈ (zFile.nextPool lib s).zip_listfree, p ∈ s.zip_listfree ∨ p.inb = []) ∧
    ∃ q, (zFile.nextPool lib s).zip_curpool = some q ∧ (q ∈ s.zip_listfree ∨ q.inb = []) := by
  unfold zFile.nextPool
  split
  · rename_i hnone
    rw [hcur] at hnone
    exact absurd hnone (by simp)
  rename_i cur2 hsome
  have hcc : c = cur2 := by
    rw [hcur] at hsome
    exact Option.some.inj hsome
  subst hcc
  dsimp only
  split_ifs with hz
  · obtain ⟨f1, -, -, f4, f5⟩ := flush_frame lib
      { s with zip_listused := s.zip_listused ++ [c], submitted := s.submitted ++ [c.inb] }
    have hne := f5 (by simp)
    obtain ⟨q, qs, hq⟩ : ∃ q qs, (zFile.flush lib
        { s with zip_listused := s.zip_listused ++ [c],
                 submitted := s.submitted ++ [c.inb] }).zip_listfree = q :: qs := by
      cases hl : (zFile.flush lib
        { s with zip_listused := s.zip_listused ++ [c],
                 submitted := s.submitted ++ [c.inb] }).zip_listfree with
      | nil => exact absurd hl hne
      | cons a as => exact ⟨a, as, rfl⟩
    refine ⟨f1, ?_, q, ?_, ?_⟩
    · intro p hp
      exact f4 p (List.mem_of_mem_tail hp)
    · show (zFile.flush lib _).zip_listfree.head? = some q
      rw [hq]
      rfl
    · exact f4 q (by rw [hq]; exact List.mem_cons_self _ _)
  · obtain ⟨q, qs, hq⟩ : ∃ q qs, s.zip_listfree = q :: qs := by
      cases hl : s.zip_listfree with
      | nil => simp [hl] at hz
      | cons a as => exact ⟨a, as, rfl⟩
    refine ⟨rfl, ?_, q, ?_, ?_⟩
    · intro p hp
      exact Or.inl (List.mem_of_mem_tail hp)
    · show s.zip_listfree.head? = some q
      rw [hq]
      rfl
    · left
      rw [hq]
      exact List.mem_cons_self _ _

end Zcp

namespace Zcp

theorem MemPool.run_code (lib : Lib) (p : MemPool) (j j2 : Job) :
    (p.run lib j).2 = (p.run lib j2).2 := by
  unfold MemPool.run
  split_ifs <;> rfl

theorem mwriteLoop_free (lib : Lib) :
    ∀ (fuel : Nat) (s : zFile) (data : List Byte),
      (∀ p ∈ s.zip_listfree, p.inb = []) →
      ∀ p ∈ (zFile.mwriteLoop lib fuel s data).1.zip_listfree, p.inb = [] := by
  intro fuel
  induction fuel with
  | zero =>
    intro s data h
    exact h
  | succ fuel ih =>
    intro s data h
    unfold zFile.mwriteLoop
    split_ifs with h1
    · split
      · exact h
      · rename_i c hc
        dsimp only
        split_ifs
        · split <;> exact h
        · apply ih
          intro p hp
          obtain ⟨-, f2, -⟩ := nextPool_frame lib
            { s with zip_curpool := some (c.run lib (s.threadJob lib c)).1 } _ rfl
          rcases f2 p hp with h2 | h2
          · exact h p h2
          · exact h2
        · apply ih
          exact h
    · exact h

/-- The state `close()` leaves on a write-mode stream whose free pools are empty: no pool
in flight, free pools empty, and a current pool that `run` does not launch. -/
theorem close_result (lib : Lib) (s : zFile) (c : MemPool)
    (hfree : ∀ p ∈ s.zip_listfree, p.inb = [])
    (hmode : s.file_mode = .e_WriteMode) (hcur : s.zip_curpool = some c) :
    (zFile.close lib s).file_mode = .e_WriteMode ∧
    (zFile.close lib s).zip_listused = [] ∧
    (∀ p ∈ (zFile.close lib s).zip_listfree, p.inb = []) ∧
    ∃ q, (zFile.close lib s).zip_curpool = some q ∧ ∀ j, (q.run lib j).2 ≠ 0 := by
  unfold zFile.close
  rw [if_pos hmode]
  split
  · rename_i hnone
    rw [hcur] at hnone
    exact absurd hnone (by simp)
  rename_i cur2 hsome
  have hcc : c = cur2 := by
    rw [hcur] at hsome
    exact Option.some.inj hsome
  subst hcc
  dsimp only
  split_ifs with hrun
  · obtain ⟨n1, n2, q, n3, n4⟩ := nextPool_frame lib
      { s with zip_curpool := some (c.run lib (s.threadJob lib c)).1 } _ rfl
    obtain ⟨f1, f2, f3, f4⟩ := flushLoop_frame lib
      (zFile.nextPool lib
        { s with zip_curpool := some (c.run lib (s.threadJob lib c)).1 }).zip_listused.length
      (zFile.nextPool lib { s with zip_curpool := some (c.run lib (s.threadJob lib c)).1 })
    have hfree2 : ∀ p ∈ (zFile.nextPool lib
        { s with zip_curpool := some (c.run lib (s.threadJob lib c)).1 }).zip_listfree,
        p.inb = [] := by
      intro p hp
      rcases n2 p hp with h2 | h2
      · exact hfree p h2
      · exact h2
    refine ⟨by rw [f1, n1]; exact hmode, f3 (Nat.le_refl _), ?_, q, by rw [f2, n3], ?_⟩
    · intro p hp
      rcases f4 p hp with h2 | h2
      · exact hfree2 p h2
      · exact h2
    · intro j
      have hq : q.inb = [] := by
        rcases n4 with h2 | h2
        · exact hfree q h2
        · exact h2
      simp [MemPool.run, hq]
  · obtain ⟨f1, f2, f3, f4⟩ := flushLoop_frame lib s.zip_listused.length s
    refine ⟨by rw [f1]; exact hmode, f3 (Nat.le_refl _), ?_, c, by rw [f2, hcur], ?_⟩
    · intro p hp
      rcases f4 p hp with h2 | h2
      · exact hfree p h2
      · exact h2
    · intro j
      rw [MemPool.run_code lib c j (s.threadJob lib c)]
      exact hrun

/-- A second `close()` changes nothing. -/
theorem close_close (lib : Lib) (s : zFile) (hfree : ∀ p ∈ s.zip_listfree, p.inb = []) :
    zFile.close lib (zFile.close lib s) = zFile.close lib s := by
  by_cases hmode : s.file_mode = .e_WriteMode
  · cases hcur : s.zip_curpool with
    | none =>
      have h1 : zFile.close lib s = s := by
        unfold zFile.close
        rw [if_pos hmode, hcur]
      rw [h1, h1]
    | some c =>
      obtain ⟨r1, r2, -, q, r4, r5⟩ := close_result lib s c hfree hmode hcur
      generalize zFile.close lib s = r at *
      unfold zFile.close
      rw [if_pos r1]
      split
      · rfl
      · rename_i c2 hc2
        have : q = c2 := by
          rw [r4] at hc2
          exact Option.some.inj hc2
        subst this
        dsimp only
        rw [if_neg (r5 _), r2]
        rfl
  · have h1 : zFile.close lib s = s := by
      unfold zFile.close
      rw [if_neg hmode]
    rw [h1, h1]

theorem runEvents_free (lib : Lib) :
    ∀ (evs : List WEvent) (s : zFile), (∀ p ∈ s.zip_listfree, p.inb = []) →
      ∀ p ∈ (runEvents lib evs s).zip_listfree, p.inb = [] := by
  intro evs
  induction evs with
  | nil =>
    intro s h
    exact h
  | cons e es ih =>
    intro s h
    cases e with
    | mwrite data =>
      apply ih
      unfold zFile.mwrite
      split_ifs
      · exact h
      · exact mwriteLoop_free lib _ s data h
    | close =>
      apply ih
      by_cases hmode : s.file_mode = .e_WriteMode
      · cases hcur : s.zip_curpool with
        | none =>
          have h1 : zFile.close lib s = s := by
            unfold zFile.close
            rw [if_pos hmode, hcur]
          rw [h1]
          exact h
        | some c => exact (close_result lib s c h hmode hcur).2.2.1
      · have h1 : zFile.close lib s = s := by
          unfold zFile.close
          rw [if_neg hmode]
        rw [h1]
        exact h
    | workerDone id =>
      apply ih
      exact h

end Zcp

namespace Zcp

theorem Frame.bytes_length (f : Frame) : f.bytes.length = 4 + f.payload.length := by
  simp [Frame.bytes, le32_length]

theorem framesBytes_cons (f : Frame) (fs : List Frame) :
    framesBytes (f :: fs) = f.bytes ++ framesBytes fs := rfl

theorem framesPlain_cons (f : Frame) (fs : List Frame) :
    framesPlain (f :: fs) = f.plain ++ framesPlain fs := rfl

theorem toInt32_small (n : Nat) (h : n < 2147483648) : toInt32 n = (n : Int) := by
  unfold toInt32
  have h1 : n % 4294967296 = n := Nat.mod_eq_of_lt (by omega)
  rw [h1, if_pos h]

/-- The loop of `zFilelz4::uncompress` positioned at the start of a sequence of
well-formed frames that ends the input: it decodes them all. -/
theorem uncompressLoop_frames (lib : Lib) (func : uncompressFunc_t) (outsize : Nat)
    (hout : outsize < 2147483648) :
    ∀ (fs : List Frame) (pre acc : List Byte) (fuel : Nat),
      (∀ f ∈ fs, f.ok lib func) →
      acc.length + (framesPlain fs).length ≤ outsize →
      fs.length ≤ fuel →
      zFilelz4.uncompressLoop lib func (pre ++ framesBytes fs) outsize fuel pre.length
          acc.length acc
        = ((pre ++ framesBytes fs).length, acc.length + (framesPlain fs).length,
           acc ++ framesPlain fs, 0) := by
  intro fs
  induction fs with
  | nil =>
    intro pre acc fuel _ _ _
    have hb : framesBytes [] = [] := rfl
    have hp : framesPlain [] = [] := rfl
    rw [hb, hp, List.append_nil, List.append_nil, List.length_nil, Nat.add_zero]
    cases fuel with
    | zero => rfl
    | succ n =>
      rw [zFilelz4.uncompressLoop]
      have : ¬ (pre.length + 4 < pre.length) := by omega
      rw [if_neg this]
  | cons f fs ih =>
    intro pre acc fuel hok hsz hfuel
    obtain ⟨hp1, hp2, hraw, hzip⟩ := hok f (List.mem_cons_self _ _)
    obtain ⟨n, rfl⟩ : ∃ n, fuel = n + 1 := ⟨fuel - 1, by
      simp only [List.length_cons] at hfuel
      omega⟩
    have hfuel2 : fs.length ≤ n := by
      simp only [List.length_cons] at hfuel
      omega
    rw [framesPlain_cons, List.length_append] at hsz
    have hinb : pre ++ framesBytes (f :: fs) = (pre ++ f.bytes) ++ framesBytes fs := by
      rw [framesBytes_cons, List.append_assoc]
    have hlen : (pre ++ framesBytes (f :: fs)).length
        = pre.length + (4 + f.payload.length) + (framesBytes fs).length := by
      rw [hinb, List.length_append, List.length_append, Frame.bytes_length]
    have hdrop : (pre ++ framesBytes (f :: fs)).drop pre.length
        = f.bytes ++ framesBytes fs := by
      rw [framesBytes_cons]
      exact List.drop_left' rfl
    have hdrop4 : (pre ++ framesBytes (f :: fs)).drop (pre.length + 4)
        = f.payload ++ framesBytes fs := by
      rw [← List.drop_drop, hdrop, Frame.bytes, List.append_assoc]
      exact List.drop_left' (le32_length _)
    have hpay : ((pre ++ framesBytes (f :: fs)).drop (pre.length + 4)).take f.payload.length
        = f.payload := by
      rw [hdrop4]
      exact List.take_left' rfl
    have hword : le32toh ((pre ++ framesBytes (f :: fs)).drop pre.length)
        = (if f.raw then f.payload.length + 2147483648 else f.payload.length) := by
      rw [hdrop, Frame.bytes, List.append_assoc, le32toh_le32_append]
      split_ifs <;> omega
    have hzb : (le32toh ((pre ++ framesBytes (f :: fs)).drop pre.length)) &&& 0x7fffffff
        = f.payload.length := by
      rw [hword, and_7fffffff]
      split_ifs <;> omega
    have hflag : decide (2147483648 ≤ le32toh ((pre ++ framesBytes (f :: fs)).drop pre.length))
        = f.raw := by
      rw [hword]
      cases hr : f.raw
      · simp only [Bool.false_eq_true, if_false, decide_eq_false_iff_not]
        omega
      · simp only [if_true, decide_eq_true_eq]
        omega
    have hpre2 : pre.length + f.payload.length + 4 = (pre ++ f.bytes).length := by
      rw [List.length_append, Frame.bytes_length]
      omega
    rw [zFilelz4.uncompressLoop]
    have c1 : pre.length + 4 < (pre ++ framesBytes (f :: fs)).length := by
      rw [hlen]
      omega
    have c2 : ¬ (pre.length + f.payload.length + 4 > (pre ++ framesBytes (f :: fs)).length) := by
      rw [hlen]
      omega
    have c3 : ¬ (f.payload.length = LZ4S_EOS) := by
      simp only [LZ4S_EOS]
      omega
    simp only [c1, if_true, hzb, c2, if_false, c3, hflag, hpay]
    cases hr : f.raw
    · obtain ⟨hl1, hdec⟩ := hzip hr
      have hcap : toInt32 (sizeSub outsize acc.length) = ((outsize - acc.length : Nat) : Int) := by
        have : sizeSub outsize acc.length = outsize - acc.length := by
          simp only [sizeSub]
          rw [if_pos (by omega)]
        rw [this, toInt32_small _ (by omega)]
      obtain ⟨d1, d2⟩ := hdec (toInt32 (sizeSub outsize acc.length)) (by
        rw [hcap]
        omega)
      have c4 : ¬ ((f.plain.length : Int) ≤ 0) := by omega
      simp only [Bool.false_eq_true, if_false, d1, c4, Int.toNat_ofNat, d2]
      rw [hpre2, hinb]
      have hacc : acc.length + f.plain.length = (acc ++ f.plain).length := by
        rw [List.length_append]
      rw [hacc, ih (pre ++ f.bytes) (acc ++ f.plain) n
        (fun g hg => hok g (List.mem_cons_of_mem _ hg))
        (by rw [List.length_append]; omega) hfuel2]
      simp only [framesPlain_cons, List.length_append, List.append_assoc, Nat.add_assoc]
    · have hpl := hraw hr
      rw [hpl] at hsz
      have c4 : ¬ (acc.length + f.payload.length > outsize) := by omega
      simp only [if_true, c4, if_false]
      rw [hpre2, hinb]
      have hacc : acc.length + f.payload.length = (acc ++ f.payload).length := by
        rw [List.length_append]
      rw [hacc, ih (pre ++ f.bytes) (acc ++ f.payload) n
        (fun g hg => hok g (List.mem_cons_of_mem _ hg))
        (by rw [List.length_append]; omega) hfuel2]
      simp only [framesPlain_cons, hpl, List.length_append, List.append_assoc, Nat.add_assoc]

end Zcp

namespace Zcp

theorem framesBytes_length_ge (fs : List Frame) : fs.length ≤ (framesBytes fs).length := by
  induction fs with
  | nil => exact Nat.le_refl _
  | cons f fs ih =>
    rw [framesBytes_cons, List.length_append, Frame.bytes_length, List.length_cons]
    omega

/-- C20 (decoding whole frames). For an input that is the concatenation of well-formed
data frames (raw, or compressed and accepted by the block decoder) whose plaintexts fit
the output capacity `C < 2^31` together, one call of `zFilelz4::uncompress` returns the
concatenation of the plaintexts in order, the return code 0 and 0 remaining input bytes;
the worker of an unzip pool that holds this input stores this output and leaves the
input empty. -/
theorem C20_decode_whole_frames (lib : Lib) (func : uncompressFunc_t) (fs : List Frame)
    (C : Nat) (hok : ∀ f ∈ fs, f.ok lib func)
    (hsz : (framesPlain fs).length ≤ C) (hC : C < 2147483648) :
    zFilelz4.uncompress lib func (framesBytes fs) C
      = ((framesPlain fs).length, framesPlain fs, 0, 0) ∧
    ∀ (s : zFile) (p : MemPool), s.file_type = .e_lz4 →
      s.unlz4_uncompressfunc = some func → p.mode = .e_UnzipPool →
      p.inb = framesBytes fs → p.poolsize = C →
      zFile.threadJob lib s p
        = { outsize := (framesPlain fs).length, out := framesPlain fs, zreturn := 0,
            inb := [] } := by
  have h := uncompressLoop_frames lib func C hC fs [] [] ((framesBytes fs).length + 1) hok
    (by simpa using hsz) (Nat.le_succ_of_le (framesBytes_length_ge fs))
  simp only [List.nil_append, List.length_nil, Nat.zero_add] at h
  have hu : zFilelz4.uncompress lib func (framesBytes fs) C
      = ((framesPlain fs).length, framesPlain fs, 0, 0) := by
    unfold zFilelz4.uncompress
    rw [h]
    simp
  refine ⟨hu, ?_⟩
  intro s p ht hf hm hi hp
  unfold zFile.threadJob
  rw [hm]
  simp only [zFile.uncompressV, ht, if_true, hf, hi, hp, hu, Nat.sub_zero, List.take_zero]

theorem libRun_frame_ok (f : uncompressFunc_t) (n b : Byte) (hn : 1 ≤ n.val) :
    Frame.ok libRun f { raw := false, payload := [n, b], plain := List.replicate n.val b } := by
  refine ⟨show 1 ≤ 2 by decide, show 2 < 2147483648 by decide,
    fun h => absurd (show false = true from h) (by decide), fun _ => ?_⟩
  refine ⟨by simpa using hn, ?_⟩
  intro cap hcap
  simp only [List.length_replicate] at hcap
  simp [libRun, hcap]

/-- Witness of C20: the compressed frame `02 00 00 00 04 41` (four bytes `A`) followed by
the raw frame `03 00 00 80 01 02 03` decodes to `41 41 41 41 01 02 03`. -/
theorem C20_decode_whole_frames_witness :
    zFilelz4.uncompress libRun .decompress_fast
        [2, 0, 0, 0, 4, 65, 3, 0, 0, 0x80, 1, 2, 3] 65536
      = (7, [65, 65, 65, 65, 1, 2, 3], 0, 0) := by
  have h := (C20_decode_whole_frames libRun .decompress_fast
    [{ raw := false, payload := [4, 65], plain := List.replicate (4 : Byte).val 65 },
     { raw := true, payload := [1, 2, 3], plain := [1, 2, 3] }] 65536
    (by
      intro f hf
      simp only [List.mem_cons, List.mem_singleton, List.not_mem_nil, or_false] at hf
      rcases hf with rfl | rfl
      · exact libRun_frame_ok _ 4 65 (by decide)
      · exact ⟨by decide, by decide, fun _ => rfl, fun h => absurd h (by decide)⟩)
    (by decide) (by decide)).1
  exact h

end Zcp

namespace Zcp

theorem pairEntries_offset_mem (es : List IndexEntry_t)
    (hlt : ∀ e ∈ es, e.offset.n < 4294967296 ∧ e.offset.z < 4294967296) :
    ∀ x ∈ pairEntries es, ∃ e ∈ es.dropLast, x.offset = e.offset := by
  induction es with
  | nil =>
    intro x hx
    simp [pairEntries] at hx
  | cons a rest ih =>
    cases rest with
    | nil =>
      intro x hx
      simp [pairEntries] at hx
    | cons b rest2 =>
      intro x hx
      simp only [pairEntries, List.mem_cons] at hx
      rcases hx with hx | hx
      · refine ⟨a, by simp [List.dropLast], ?_⟩
        obtain ⟨h1, h2⟩ := hlt a (List.mem_cons_self _ _)
        rw [hx]
        simp only [IndexEntry_t.ctor]
        cases a with
        | mk off sz =>
          cases off
          simp only at h1 h2 ⊢
          congr 1 <;> omega
      · obtain ⟨e, he, hxe⟩ := ih (fun e he => hlt e (List.mem_cons_of_mem _ he)) x hx
        exact ⟨e, by simp only [List.dropLast_cons₂]; exact List.mem_cons_of_mem _ he, hxe⟩

/-- The loop of `readTail` over `k` stored offsets that each have a successor: it appends
the entries `pairEntries` of the first `k + 1` offsets. -/
theorem readTailLoop_parsed (ptr : List Byte) (post : List Byte) :
    ∀ (k : Nat) (es : List IndexEntry_t) (pptr : Nat) (acc : List IndexEntry_t),
      ptr.drop pptr = es.flatMap (fun e => le32 e.offset.n ++ le32 e.offset.z) ++ post →
      k < es.length →
      (∀ e ∈ es, e.offset.n < 4294967296 ∧ e.offset.z < 4294967296) →
      es.Pairwise (fun a b => a.offset.n < b.offset.n) →
      (∀ x ∈ acc, ∀ e ∈ es, x.offset.n < e.offset.n) →
      zFilelz4.readTailLoop ptr k pptr acc
        = (pptr + 8 * k, acc ++ pairEntries (es.take (k + 1))) := by
  intro k
  induction k with
  | zero =>
    intro es pptr acc _ hk _ _ _
    cases es with
    | nil => simp at hk
    | cons e es2 =>
      simp [zFilelz4.readTailLoop, pairEntries]
  | succ k ih =>
    intro es pptr acc hdrop hk hlt hsorted hacc
    match es, hk, hdrop, hlt, hsorted, hacc with
    | e :: e2 :: es3, hk, hdrop, hlt, hsorted, hacc =>
      have hk2 : k < (e2 :: es3).length := by simpa using hk
      obtain ⟨hen, hez⟩ := hlt e (List.mem_cons_self _ _)
      obtain ⟨he2n, he2z⟩ := hlt e2 (List.mem_cons_of_mem _ (List.mem_cons_self _ _))
      have hd0 : ptr.drop pptr = (le32 e.offset.n ++ le32 e.offset.z) ++
          ((e2 :: es3).flatMap (fun e => le32 e.offset.n ++ le32 e.offset.z) ++ post) := by
        rw [hdrop, List.flatMap_cons, List.append_assoc]
      have hd8 : ptr.drop (pptr + 8)
          = (e2 :: es3).flatMap (fun e => le32 e.offset.n ++ le32 e.offset.z) ++ post := by
        rw [← List.drop_drop, hd0]
        exact List.drop_left' (by simp [le32_length])
      have hd8b : ptr.drop (pptr + 8) = (le32 e2.offset.n ++ le32 e2.offset.z) ++
          (es3.flatMap (fun e => le32 e.offset.n ++ le32 e.offset.z) ++ post) := by
        rw [hd8, List.flatMap_cons, List.append_assoc]
      have hn : le32toh (ptr.drop pptr) = e.offset.n := by
        rw [hd0, (le32toh_entry _ _ _).1]
        omega
      have hz : le32toh (ptr.drop (pptr + 4)) = e.offset.z := by
        rw [← List.drop_drop, hd0, (le32toh_entry _ _ _).2]
        omega
      have hnn : le32toh (ptr.drop (pptr + 8)) = e2.offset.n := by
        rw [hd8b, (le32toh_entry _ _ _).1]
        omega
      have hnz : le32toh (ptr.drop (pptr + 8 + 4)) = e2.offset.z := by
        rw [← List.drop_drop, hd8b, (le32toh_entry _ _ _).2]
        omega
      simp only [zFilelz4.readTailLoop, indexsize, hn, hz, hnn, hnz]
      have hins : setInsert (IndexEntry_t.ctor e.offset.n (u32Sub e2.offset.n e.offset.n)
            e.offset.z (u32Sub e2.offset.z e.offset.z)) acc
          = acc ++ [IndexEntry_t.ctor e.offset.n (u32Sub e2.offset.n e.offset.n)
            e.offset.z (u32Sub e2.offset.z e.offset.z)] := by
        apply setInsert_append
        intro x hx
        have := hacc x hx e (List.mem_cons_self _ _)
        simp only [IndexEntry_t.ctor]
        omega
      rw [hins]
      have hsorted2 := (List.pairwise_cons.1 hsorted)
      rw [ih (e2 :: es3) (pptr + 8) _ hd8 hk2
        (fun x hx => hlt x (List.mem_cons_of_mem _ hx)) hsorted2.2
        (by
          intro x hx y hy
          rcases List.mem_append.1 hx with hx | hx
          · exact hacc x hx y (List.mem_cons_of_mem _ hy)
          · simp only [List.mem_singleton] at hx
            subst hx
            have := hsorted2.1 y hy
            simp only [IndexEntry_t.ctor]
            omega)]
      simp only [List.take_succ_cons, pairEntries, List.append_assoc, List.singleton_append,
        Prod.mk.injEq, and_true]
      omega

end Zcp

namespace Zcp

/-- The parse of a payload written by `writeTail` for `n ≥ 1` offsets below `2^32`
ordered by `uoff`: the index is `parsedIndex`. -/
theorem parseMeta_parsed (es : List IndexEntry_t) (post : List Byte) (lastbloc : Nat)
    (hne : es ≠ [])
    (hlt : ∀ e ∈ es, e.offset.n < 4294967296 ∧ e.offset.z < 4294967296)
    (hsorted : es.Pairwise (fun a b => a.offset.n < b.offset.n))
    (hsize : es.length * 8 < 4294967296) :
    zFilelz4.parseMeta
        ((le32 0xCAFEDECA ++ le32 1 ++ le32 0 ++ le32 (es.length * 8)) ++
          es.flatMap (fun e => le32 e.offset.n ++ le32 e.offset.z) ++ post) lastbloc []
      = some (parsedIndex lastbloc es) := by
  have hn : 1 ≤ es.length := by
    cases es with
    | nil => exact absurd rfl hne
    | cons _ _ => simp
  generalize hptr : (le32 0xCAFEDECA ++ le32 1 ++ le32 0 ++ le32 (es.length * 8)) ++
          es.flatMap (fun e => le32 e.offset.n ++ le32 e.offset.z) ++ post = ptr
  have hlen : ptr.length = 16 + 8 * es.length + post.length := by
    rw [← hptr]
    simp only [List.length_append, le32_length, flatMap_entries_length]
  have hm : le32toh ptr = METADATA_MAGIC_NUMBER_0 := by
    rw [← hptr]
    simp only [List.append_assoc]
    rw [le32toh_le32_append]
    rfl
  have hv : le32toh (ptr.drop 4) = 1 := by
    rw [← hptr]
    simp only [List.append_assoc]
    rw [List.drop_left' (le32_length _), le32toh_le32_append]
  have ht : le32toh (ptr.drop 8) = 0 := by
    rw [← hptr]
    simp only [List.append_assoc]
    rw [← List.append_assoc (le32 0xCAFEDECA), List.drop_left' (by simp [le32_length]),
      le32toh_le32_append]
  have hs : le32toh (ptr.drop 12) = es.length * 8 := by
    rw [← hptr]
    simp only [List.append_assoc]
    rw [← List.append_assoc (le32 1), ← List.append_assoc (le32 0xCAFEDECA),
      List.drop_left' (by simp [le32_length]), le32toh_le32_append]
    omega
  have hd16 : ptr.drop 16 = es.flatMap (fun e => le32 e.offset.n ++ le32 e.offset.z) ++ post := by
    rw [← hptr]
    rw [List.append_assoc]
    exact List.drop_left' (by simp [le32_length])
  have hcnt : sizeSub (es.length * 8 / indexsize) 1 = es.length - 1 := by
    have : es.length * 8 / indexsize = es.length := by
      simp [indexsize]
    rw [this]
    unfold sizeSub
    simp [hn]
  have hfit : sizeof_MetaIdentification_t + (es.length - 1 + 1) * indexsize ≤ ptr.length := by
    simp only [sizeof_MetaIdentification_t, indexsize, hlen]
    omega
  have hloop := readTailLoop_parsed ptr post (es.length - 1) es 16 [] hd16
    (by omega) hlt hsorted (by simp)
  have htake : es.take (es.length - 1 + 1) = es := by
    apply List.take_of_length_le
    omega
  rw [htake, List.nil_append] at hloop
  obtain ⟨last, hlast⟩ : ∃ last, es.drop (es.length - 1) = [last] := by
    have hl : (es.drop (es.length - 1)).length = 1 := by
      rw [List.length_drop]
      omega
    match es.drop (es.length - 1), hl with
    | [x], _ => exact ⟨x, rfl⟩
  have hes : es = es.take (es.length - 1) ++ [last] := by
    rw [← hlast, List.take_append_drop]
  have hgl : es.getLast? = some last := by
    rw [hes]
    simp
  have hdl2 : es.dropLast = es.take (es.length - 1) := List.dropLast_eq_take es
  have hlastmem : last ∈ es := by
    rw [hes]
    simp
  obtain ⟨hln, hlz⟩ := hlt last hlastmem
  have hdl : ptr.drop (16 + 8 * (es.length - 1))
      = (le32 last.offset.n ++ le32 last.offset.z) ++ post := by
    rw [← List.drop_drop, hd16, List.drop_append_of_le_length (by
      rw [flatMap_entries_length]; omega), flatMap_entries_drop, hlast]
    simp
  have hnl : le32toh (ptr.drop (16 + 8 * (es.length - 1))) = last.offset.n := by
    rw [hdl, (le32toh_entry _ _ _).1]
    omega
  have hzl : le32toh (ptr.drop (16 + 8 * (es.length - 1) + 4)) = last.offset.z := by
    rw [← List.drop_drop, hdl, (le32toh_entry _ _ _).2]
    omega
  have hnlen : ¬ ptr.length < sizeof_MetaIdentification_t := by
    simp only [sizeof_MetaIdentification_t, hlen]
    omega
  have hins : setInsert (lastEntry lastbloc last) (pairEntries es)
      = pairEntries es ++ [lastEntry lastbloc last] := by
    apply setInsert_append
    intro x hx
    obtain ⟨e, he, hxe⟩ := pairEntries_offset_mem es hlt x hx
    rw [hdl2] at he
    have hsorted2 := hsorted
    rw [hes] at hsorted2
    have := (List.pairwise_append.1 hsorted2).2.2 e he last (by simp)
    rw [hxe]
    simp only [lastEntry, IndexEntry_t.ctor]
    omega
  unfold zFilelz4.parseMeta
  simp only [hnlen, if_false, hm, hv, ht, hs, and_self, if_true, hcnt, hfit,
    sizeof_MetaIdentification_t, hloop, hnl, hzl]
  simp only [sizeof_MetaIdentification_t] at hnlen hfit
  simp only [hnlen, hfit, if_false, if_true]
  rw [parsedIndex, hgl]
  exact congrArg some hins

end Zcp

namespace Zcp

/-- The parse by `readTail` of a file that ends with the output of `writeTail`, for a
non-empty index ordered by `uoff` with offsets below `2^32` whose serialised size fits 32
bits and the stack: the index is `parsedIndex`, with `lastbloc` 16 bytes after the place where
`writeTail` started. -/
theorem readTail_parsed (lib : Lib) (w r : zFile)
    (hw : w.file_stream.good = true) (hwf : w.flag = Flag.ctor)
    (hne : w.listindex ≠ [])
    (hlt : ∀ e ∈ w.listindex, e.offset.n < 4294967296 ∧ e.offset.z < 4294967296)
    (hsorted : w.listindex.Pairwise (fun a b => a.offset.n < b.offset.n))
    (hsize : 16 + w.listindex.length * 8 + 8 < 4294967296)
    (hstack : 16 + w.listindex.length * 8 + 8 ≤ lib.stack)
    (hr : r.file_stream.good = true)
    (hrc : r.file_stream.content = (zFilelz4.writeTail lib w).file_stream.content)
    (hri : r.listindex = []) :
    zFilelz4.readTail lib r
      = some { r with
          listindex := parsedIndex (w.file_stream.content.length + 16) w.listindex,
          file_stream := { r.file_stream with pos := offsetof_unused } } := by
  have hc := (writeTail_content lib w hw hwf).1
  rw [← hrc] at hc
  generalize hS : 16 + w.listindex.length * 8 + 8 = S at *
  generalize hE : w.listindex.flatMap (fun e => le32 e.offset.n ++ le32 e.offset.z) = E at *
  have hElen : E.length = 8 * w.listindex.length := by rw [← hE, flatMap_entries_length]
  have hd8 : r.file_stream.content.drop (r.file_stream.content.length - 8)
      = le32 0x184D2A50 ++ le32 S := by
    rw [hc, ← List.append_assoc]
    exact drop_length_sub _ _ 8 (by simp [le32_length])
  have hd4 : r.file_stream.content.drop (r.file_stream.content.length - 4) = le32 S := by
    rw [hc, ← List.append_assoc, ← List.append_assoc]
    exact drop_length_sub _ _ 4 (le32_length _)
  have hdS : r.file_stream.content.drop (r.file_stream.content.length - S)
      = (le32 0xCAFEDECA ++ le32 1 ++ le32 0 ++ le32 (w.listindex.length * 8)) ++ E ++
          (le32 0x184D2A50 ++ le32 S) := by
    rw [hc]
    have : w.file_stream.content ++
        (le32 0 ++ le32 (XXH32_digest lib w.xxh32state) ++ (le32 0x184D2A50 ++ le32 S) ++
          (le32 0xCAFEDECA ++ le32 1 ++ le32 0 ++ le32 (w.listindex.length * 8)) ++ E ++
          (le32 0x184D2A50 ++ le32 S))
        = (w.file_stream.content ++
            (le32 0 ++ le32 (XXH32_digest lib w.xxh32state) ++ (le32 0x184D2A50 ++ le32 S))) ++
          ((le32 0xCAFEDECA ++ le32 1 ++ le32 0 ++ le32 (w.listindex.length * 8)) ++ E ++
            (le32 0x184D2A50 ++ le32 S)) := by
      simp only [List.append_assoc]
    rw [this]
    apply drop_length_sub
    simp only [List.length_append, le32_length, hElen]
    omega
  have hlen : r.file_stream.content.length
      = w.file_stream.content.length + 16 + S := by
    rw [hc]
    simp only [List.length_append, le32_length, hElen]
    omega
  have hlb : r.file_stream.content.length - S = w.file_stream.content.length + 16 := by
    omega
  have hread := readTail_good lib r hr (by omega)
  have hmagic : le32toh (le32 0x184D2A50 ++ le32 S) = SKIPPABLE_MAGIC_NUMBER_0 := by
    rw [le32toh_le32_append]
    rfl
  have hsz : le32toh (le32 S) = S := by
    rw [le32toh_le32]
    omega
  have hnlt : ¬ (r.file_stream.content.length < S) := by omega
  have hnstk : ¬ (lib.stack < S) := by omega
  have hidx := parseMeta_parsed w.listindex (le32 0x184D2A50 ++ le32 S)
    (r.file_stream.content.length - S) hne hlt hsorted (by omega)
  rw [hE] at hidx
  simp only [hd8, hd4, hmagic, hsz, hnstk, hnlt, hdS, hri, hidx, if_true, if_false] at hread
  rw [hlb] at hread
  exact hread

end Zcp
namespace Zcp

/-- The length `out_len & 0x7FFFFFFF` by which `flush` advances `zoffset`, for a block of
at most `C` bytes and a codec call that returns 0 or a number of bytes between 1 and the
destination size: it is at least 1. -/
theorem compress_len_pos (lib : Lib) (func : compressFunc_t) (level C : Nat) (inb : List Byte)
    (hC : C ≤ 4194304) (hin : inb.length ≤ C)
    (hr0 : 0 ≤ (lib.compress func inb (toInt32 (sizeSub C 4)) level).1)
    (hr1 : (lib.compress func inb (toInt32 (sizeSub C 4)) level).1 = 0 ∨
           (lib.compress func inb (toInt32 (sizeSub C 4)) level).1 ≤ toInt32 (sizeSub C 4)) :
    1 ≤ (zFilelz4.compress lib func level inb C).1 &&& 0x7fffffff := by
  have hdst := toInt32_lt (sizeSub C 4)
  have hdst2 : toInt32 (sizeSub C 4) ≤ 4194304 := by
    rw [toInt32_sizeSub_le C hC]
    omega
  unfold zFilelz4.compress
  generalize toInt32 (sizeSub C 4) = dst at *
  generalize lib.compress func inb dst level = res at *
  obtain ⟨r, out⟩ := res
  simp only at hr0 hr1 ⊢
  have hrlt : r < 18446744073709551616 := by omega
  rw [toSizeT_of_nonneg r hr0 hrlt]
  by_cases hz : r.toNat = 0
  · simp only [hz, if_true]
    rw [and_7fffffff]
    omega
  · simp only [hz, if_false]
    rw [and_7fffffff]
    omega

theorem indexOffsets_length (lib : Lib) (func : compressFunc_t) (level C : Nat) :
    ∀ (bs : List (List Byte)) (n z : Nat),
      (indexOffsets lib func level C n z bs).length = bs.length := by
  intro bs
  induction bs with
  | nil => intro n z; rfl
  | cons b bs ih =>
    intro n z
    simp only [indexOffsets, List.length_cons, ih]

/-- The offsets `flush` records are 32-bit values. -/
theorem indexOffsets_lt (lib : Lib) (func : compressFunc_t) (level C : Nat) :
    ∀ (bs : List (List Byte)) (n z : Nat),
      ∀ p ∈ indexOffsets lib func level C n z bs, p.1 < 4294967296 ∧ p.2 < 4294967296 := by
  intro bs
  induction bs with
  | nil => intro n z p hp; simp [indexOffsets] at hp
  | cons b bs ih =>
    intro n z p hp
    simp only [indexOffsets, List.mem_cons] at hp
    rcases hp with rfl | hp
    · exact ⟨Nat.mod_lt _ (by decide), Nat.mod_lt _ (by decide)⟩
    · exact ih _ _ p hp

/-- Without wrap of the counter `N`, the recorded uncompressed offsets are at least the
starting value. -/
theorem indexOffsets_fst_ge (lib : Lib) (func : compressFunc_t) (level C : Nat) :
    ∀ (bs : List (List Byte)) (n z : Nat),
      (∀ b ∈ bs, b ≠ []) → n + sumN bs ≤ 4294967296 →
      ∀ p ∈ indexOffsets lib func level C n z bs, n ≤ p.1 := by
  intro bs
  induction bs with
  | nil => intro n z _ _ p hp; simp [indexOffsets] at hp
  | cons b bs ih =>
    intro n z hne hsum p hp
    have hb : 1 ≤ b.length := by
      have := hne b (List.mem_cons_self _ _)
      exact Nat.one_le_iff_ne_zero.2 (fun h => this (List.length_eq_zero.1 h))
    have hs : sumN (b :: bs) = b.length + sumN bs := by simp [sumN]
    rw [hs] at hsum
    simp only [indexOffsets, List.mem_cons] at hp
    rcases hp with rfl | hp
    · simp only
      rw [Nat.mod_eq_of_lt (by omega)]
    · have := ih (n + b.length) _ (fun x hx => hne x (List.mem_cons_of_mem _ hx))
        (by omega) p hp
      omega

/-- Without wrap of the counter `N`, the recorded uncompressed offsets are strictly
increasing. -/
theorem indexOffsets_fst_sorted (lib : Lib) (func : compressFunc_t) (level C : Nat) :
    ∀ (bs : List (List Byte)) (n z : Nat),
      (∀ b ∈ bs, b ≠ []) → n + sumN bs ≤ 4294967296 →
      (indexOffsets lib func level C n z bs).Pairwise (fun p q => p.1 < q.1) := by
  intro bs
  induction bs with
  | nil => intro n z _ _; simp [indexOffsets]
  | cons b bs ih =>
    intro n z hne hsum
    have hb : 1 ≤ b.length := by
      have := hne b (List.mem_cons_self _ _)
      exact Nat.one_le_iff_ne_zero.2 (fun h => this (List.length_eq_zero.1 h))
    have hs : sumN (b :: bs) = b.length + sumN bs := by simp [sumN]
    rw [hs] at hsum
    have hne2 : ∀ x ∈ bs, x ≠ [] := fun x hx => hne x (List.mem_cons_of_mem _ hx)
    simp only [indexOffsets, List.pairwise_cons]
    refine ⟨?_, ih _ _ hne2 (by omega)⟩
    intro q hq
    have := indexOffsets_fst_ge lib func level C bs (n + b.length) _ hne2 (by omega) q hq
    have hlt : n % 4294967296 ≤ n := Nat.mod_le _ _
    omega

/-- Without wrap of the counter `Z`, the recorded compressed offsets are at least the
starting value. -/
theorem indexOffsets_snd_ge (lib : Lib) (func : compressFunc_t) (level C : Nat) :
    ∀ (bs : List (List Byte)) (n z : Nat),
      (∀ b ∈ bs, 1 ≤ (zFilelz4.compress lib func level b C).1 &&& 0x7fffffff) →
      z + sumZ lib func level C bs ≤ 4294967296 →
      ∀ p ∈ indexOffsets lib func level C n z bs, z ≤ p.2 := by
  intro bs
  induction bs with
  | nil => intro n z _ _ p hp; simp [indexOffsets] at hp
  | cons b bs ih =>
    intro n z hne hsum p hp
    have hb := hne b (List.mem_cons_self _ _)
    have hs : sumZ lib func level C (b :: bs)
        = ((zFilelz4.compress lib func level b C).1 &&& 0x7fffffff)
            + sumZ lib func level C bs := by simp [sumZ]
    rw [hs] at hsum
    simp only [indexOffsets, List.mem_cons] at hp
    rcases hp with rfl | hp
    · simp only
      rw [Nat.mod_eq_of_lt (by omega)]
    · have := ih _ (z + ((zFilelz4.compress lib func level b C).1 &&& 0x7fffffff))
        (fun x hx => hne x (List.mem_cons_of_mem _ hx)) (by omega) p hp
      omega

/-- Without wrap of the counter `Z`, the recorded compressed offsets are strictly
increasing. -/
theorem indexOffsets_snd_sorted (lib : Lib) (func : compressFunc_t) (level C : Nat) :
    ∀ (bs : List (List Byte)) (n z : Nat),
      (∀ b ∈ bs, 1 ≤ (zFilelz4.compress lib func level b C).1 &&& 0x7fffffff) →
      z + sumZ lib func level C bs ≤ 4294967296 →
      (indexOffsets lib func level C n z bs).Pairwise (fun p q => p.2 < q.2) := by
  intro bs
  induction bs with
  | nil => intro n z _ _; simp [indexOffsets]
  | cons b bs ih =>
    intro n z hne hsum
    have hb := hne b (List.mem_cons_self _ _)
    have hs : sumZ lib func level C (b :: bs)
        = ((zFilelz4.compress lib func level b C).1 &&& 0x7fffffff)
            + sumZ lib func level C bs := by simp [sumZ]
    rw [hs] at hsum
    have hne2 : ∀ x ∈ bs, 1 ≤ (zFilelz4.compress lib func level x C).1 &&& 0x7fffffff :=
      fun x hx => hne x (List.mem_cons_of_mem _ hx)
    simp only [indexOffsets, List.pairwise_cons]
    refine ⟨?_, ih _ _ hne2 (by omega)⟩
    intro q hq
    have := indexOffsets_snd_ge lib func level C bs _ _ hne2 (by omega) q hq
    have hlt : z % 4294967296 ≤ z := Nat.mod_le _ _
    omega

/-- Without wrap of the counter `N`, the recorded uncompressed offsets are below the
final value of the counter. -/
theorem indexOffsets_fst_lt (lib : Lib) (func : compressFunc_t) (level C : Nat) :
    ∀ (bs : List (List Byte)) (n z : Nat),
      (∀ b ∈ bs, b ≠ []) → n + sumN bs ≤ 4294967296 →
      ∀ p ∈ indexOffsets lib func level C n z bs, p.1 < n + sumN bs := by
  intro bs
  induction bs with
  | nil => intro n z _ _ p hp; simp [indexOffsets] at hp
  | cons b bs ih =>
    intro n z hne hsum p hp
    have hb : 1 ≤ b.length := by
      have := hne b (List.mem_cons_self _ _)
      exact Nat.one_le_iff_ne_zero.2 (fun h => this (List.length_eq_zero.1 h))
    have hs : sumN (b :: bs) = b.length + sumN bs := by simp [sumN]
    rw [hs] at hsum ⊢
    simp only [indexOffsets, List.mem_cons] at hp
    rcases hp with rfl | hp
    · show n % 4294967296 < _
      rw [Nat.mod_eq_of_lt (by omega)]
      omega
    · have := ih (n + b.length) _ (fun x hx => hne x (List.mem_cons_of_mem _ hx))
        (by omega) p hp
      omega

/-- Without wrap of the counter `N`, the index holds the recorded offsets in the order of
the flushes. -/
theorem indexOffsets_set (lib : Lib) (func : compressFunc_t) (level C : Nat)
    (bs : List (List Byte)) (n z : Nat) (hne : ∀ b ∈ bs, b ≠ [])
    (hsum : n + sumN bs ≤ 4294967296) :
    setOffsets (indexOffsets lib func level C n z bs) = indexOffsets lib func level C n z bs :=
  setOffsets_sorted _ (indexOffsets_fst_sorted lib func level C bs n z hne hsum)

end Zcp
namespace Zcp

theorem parsedIndex_cons_cons (lastbloc : Nat) (a b : IndexEntry_t)
    (rest : List IndexEntry_t) :
    parsedIndex lastbloc (a :: b :: rest)
      = IndexEntry_t.ctor a.offset.n (u32Sub b.offset.n a.offset.n) a.offset.z
          (u32Sub b.offset.z a.offset.z) :: parsedIndex lastbloc (b :: rest) := by
  simp only [parsedIndex, pairEntries, List.getLast?_cons_cons, List.cons_append]

theorem parsedIndex_head (lastbloc : Nat) (b : IndexEntry_t) (rest : List IndexEntry_t) :
    ∃ y ys, parsedIndex lastbloc (b :: rest) = y :: ys ∧
      y.offset.n = b.offset.n % 4294967296 ∧ y.offset.z = b.offset.z % 4294967296 := by
  cases rest with
  | nil => exact ⟨lastEntry lastbloc b, [], rfl, rfl, rfl⟩
  | cons c rest => exact ⟨_, _, parsedIndex_cons_cons lastbloc b c rest, rfl, rfl⟩

/-- The rebuilt index has the stored offsets, in the stored order. -/
theorem parsedIndex_offsets (lastbloc : Nat) :
    ∀ es : List IndexEntry_t,
      (parsedIndex lastbloc es).map (fun e => (e.offset.n, e.offset.z))
        = es.map (fun e => (e.offset.n % 4294967296, e.offset.z % 4294967296)) := by
  intro es
  induction es with
  | nil => rfl
  | cons a t ih =>
    cases t with
    | nil => rfl
    | cons b rest =>
      rw [parsedIndex_cons_cons, List.map_cons, ih]
      rfl

/-- The index rebuilt from stored offsets that increase strictly in both components is
monotone. -/
theorem parsedIndex_monotone (lastbloc : Nat) :
    ∀ es : List IndexEntry_t,
      es.Pairwise (fun a b => a.offset.n < b.offset.n) →
      es.Pairwise (fun a b => a.offset.z < b.offset.z) →
      (∀ e ∈ es, e.offset.n < 4294967296 ∧ e.offset.z < 4294967296) →
      indexMonotone (parsedIndex lastbloc es) = true := by
  intro es
  induction es with
  | nil => intro _ _ _; rfl
  | cons a t ih =>
    intro hn hz hlt
    cases t with
    | nil => rfl
    | cons b rest =>
      obtain ⟨y, ys, hy, hyn, hyz⟩ := parsedIndex_head lastbloc b rest
      have ih2 := ih (List.Pairwise.of_cons hn) (List.Pairwise.of_cons hz)
        (fun e he => hlt e (List.mem_cons_of_mem _ he))
      rw [hy] at ih2
      rw [parsedIndex_cons_cons, hy]
      have han := (List.pairwise_cons.1 hn).1 b (List.mem_cons_self _ _)
      have haz := (List.pairwise_cons.1 hz).1 b (List.mem_cons_self _ _)
      obtain ⟨ha1, ha2⟩ := hlt a (List.mem_cons_self _ _)
      obtain ⟨hb1, hb2⟩ := hlt b (List.mem_cons_of_mem _ (List.mem_cons_self _ _))
      simp only [indexMonotone, ih2, Bool.and_true, Bool.and_eq_true, decide_eq_true_eq,
        IndexEntry_t.ctor, hyn, hyz, u32Sub]
      omega

/-- In a monotone index the compressed offsets of adjacent entries increase. -/
theorem indexMonotone_get :
    ∀ (l : List IndexEntry_t) (i : Nat) (a b : IndexEntry_t),
      indexMonotone l = true → l[i]? = some a → l[i + 1]? = some b →
      a.offset.z < b.offset.z := by
  intro l
  induction l with
  | nil => intro i a b _ h; simp at h
  | cons x t ih =>
    intro i a b hm ha hb
    cases t with
    | nil => simp at hb
    | cons y rest =>
      simp only [indexMonotone, Bool.and_eq_true, decide_eq_true_eq] at hm
      cases i with
      | zero =>
        simp only [List.getElem?_cons_zero, Option.some.injEq, zero_add,
          List.getElem?_cons_succ] at ha hb
        subst ha hb
        exact hm.1.1.2
      | succ i =>
        simp only [List.getElem?_cons_succ] at ha hb
        exact ih i a b hm.2 ha (by simpa using hb)

end Zcp
namespace Zcp

/-- The end of a write session with at least one pool, a block size `b ≥ 1` and thread
operations that succeed: `close()` leaves the invariant with every submitted block
flushed, these blocks hold the bytes passed to `mwrite`, and the file the destructor
leaves is the one `writeTail` produces after `close()`. -/
theorem session_final (lib : Lib) (file : List Byte) (b level nthread : Nat)
    (evs : List WEvent) (s0 : zFile)
    (hs0 : zFilelz4.ctor lib (some file) .e_WriteMode b level nthread = some s0)
    (hn : 1 ≤ nthread) (hb : 1 ≤ b)
    (hattr : lib.pthread_attr_init = 0) (hcreate : lib.pthread_create = 0)
    (hjoin : lib.pthread_join = 0) :
    ∃ d2 : List (List Byte),
      SInv lib (if level % 256 < min_HClevel then compressFunc_t.compress_fast_extState
                else compressFunc_t.compress_HC_extStateHC) (level % 256)
        (min b LZ4F_MAXBLOC_SIZE) s0.file_stream.content
        (zFile.close lib (runEvents lib evs s0)) d2 ∧
      (zFile.close lib (runEvents lib evs s0)).flag = Flag.ctor ∧
      (zFile.close lib (runEvents lib evs s0)).submitted = d2 ∧
      d2.flatten = bytesWritten evs ∧
      (zFilelz4.dtor lib (runEvents lib evs s0)).file_stream.content
        = (zFilelz4.writeTail lib (zFile.close lib (runEvents lib evs s0))).file_stream.content := by
  obtain ⟨s1, hs1, hacc0, herr0, hinv0⟩ := ctor_sinv lib file b level nthread hn
  obtain ⟨s2, hs2, hflag0⟩ := ctor_write_flag lib file b level nthread
  have e1 : s1 = s0 := Option.some.inj (hs1.symm.trans hs0)
  have e2 : s2 = s0 := Option.some.inj (hs2.symm.trans hs0)
  rw [e1] at hacc0 herr0 hinv0
  rw [e2] at hflag0
  have hC : 1 ≤ min b LZ4F_MAXBLOC_SIZE := by
    simp only [LZ4F_MAXBLOC_SIZE, LZ4F_BLOC7_SIZE]
    omega
  obtain ⟨d1, h1, hacc1, hok1⟩ := runEvents_sinv lib _ (level % 256) _ _ hjoin evs s0 [] hinv0
  obtain ⟨hcomp, herr1⟩ := hok1 hattr hcreate hC
  obtain ⟨d2, h2, hused, hacc2, hok2⟩ := close_sinv lib _ (level % 256) _ _ hjoin _ d1 h1
  obtain ⟨⟨q, hq, hqi⟩, herr2, hsub⟩ := hok2 hattr hcreate
  have hflag : (zFile.close lib (runEvents lib evs s0)).flag = Flag.ctor := by
    rw [close_flag, runEvents_flag, hflag0]
  obtain ⟨hw1, hw2, hw3⟩ := writeTail_frame lib (zFile.close lib (runEvents lib evs s0))
  have hd : (zFile.close lib (runEvents lib evs s0)).submitted = d2 := by
    have := h2.base.sub
    rw [hused] at this
    simpa using this
  have ha : d2.flatten = bytesWritten evs := by
    have : (zFile.close lib (runEvents lib evs s0)).accepted = d2.flatten := by
      rw [accepted_of_cur _ q hq, hqi, hd, List.append_nil]
    rw [← this, hacc2, hacc1 hcomp, hacc0, List.nil_append]
  refine ⟨d2, h2, hflag, hd, ha, ?_⟩
  unfold zFilelz4.dtor
  rw [if_pos h1.base.fmode,
    zFile_dtor_idle lib _ q (by rw [hw1, hq]) hqi (by rw [hw2, hused])]

/-- Opening for reading the file `writeTail` leaves, for a stored index that is not empty,
has strictly increasing 32-bit offsets and a serialised size below `2^32` that fits the
stack: the constructor
returns and the index of the stream is the one rebuilt from the stored offsets. -/
theorem ctor_read_written (lib : Lib) (w : zFile) (b level nthread : Nat)
    (hw : w.file_stream.good = true) (hwf : w.flag = Flag.ctor)
    (hne : w.listindex ≠ [])
    (hlt : ∀ e ∈ w.listindex, e.offset.n < 4294967296 ∧ e.offset.z < 4294967296)
    (hsorted : w.listindex.Pairwise (fun a b => a.offset.n < b.offset.n))
    (hsize : 16 + w.listindex.length * 8 + 8 < 4294967296)
    (hstack : 16 + w.listindex.length * 8 + 8 ≤ lib.stack) :
    ∃ r, zFilelz4.ctor lib (some (zFilelz4.writeTail lib w).file_stream.content)
            .e_ReadMode b level nthread = some r ∧
      r.listindex = parsedIndex (w.file_stream.content.length + 16) w.listindex := by
  obtain ⟨hwc, -⟩ := writeTail_content lib w hw hwf
  have hlen : 7 ≤ (zFilelz4.writeTail lib w).file_stream.content.length := by
    rw [hwc]
    simp only [List.length_append, le32_length]
    omega
  obtain ⟨hst, -, hidx⟩ := readHeader_init lib _ b level nthread hlen
  obtain ⟨-, -, -, -, hmode⟩ := ctorInit_read (zFilelz4.writeTail lib w).file_stream.content
    b level nthread
  have hrt := readTail_parsed lib w
    (zFilelz4.readHeader lib (zFilelz4.ctorInit
      (some (zFilelz4.writeTail lib w).file_stream.content) .e_ReadMode b level nthread))
    hw hwf hne hlt hsorted hsize hstack (by rw [hst]; rfl) (by rw [hst]) hidx
  simp only [zFilelz4.ctor, hmode, hrt]
  exact ⟨_, rfl, rfl⟩

end Zcp
namespace Zcp

/-- Reading back a written file: for a write-mode stream `w` in which every submitted
block is flushed (`d2`, not empty) and whose index is smaller than `2^32` bytes and fits
the stack, the read-mode constructor on the file `writeTail` leaves returns a stream whose
index is rebuilt from the stored offsets and has the offsets of the index of `w`. -/
theorem written_reader (lib : Lib) (func : compressFunc_t) (level C : Nat) (hdr : List Byte)
    (w : zFile) (d2 : List (List Byte)) (h2 : SInv lib func level C hdr w d2)
    (hflag : w.flag = Flag.ctor) (hne : d2 ≠ [])
    (hS : 16 + w.listindex.length * 8 + 8 < 4294967296)
    (hstack : 16 + w.listindex.length * 8 + 8 ≤ lib.stack)
    (b2 l2 n2 : Nat) :
    ∃ r, zFilelz4.ctor lib (some (zFilelz4.writeTail lib w).file_stream.content)
            .e_ReadMode b2 l2 n2 = some r ∧
      r.listindex = parsedIndex (w.file_stream.content.length + 16) w.listindex ∧
      r.listindex.map (fun e => (e.offset.n, e.offset.z))
        = w.listindex.map (fun e => (e.offset.n, e.offset.z)) ∧
      w.listindex.Pairwise (fun a b => a.offset.n < b.offset.n) ∧
      (∀ e ∈ w.listindex, e.offset.n < 4294967296 ∧ e.offset.z < 4294967296) := by
  have hidx := h2.base.index
  have hlt : ∀ e ∈ w.listindex, e.offset.n < 4294967296 ∧ e.offset.z < 4294967296 := by
    intro e he
    have hm : (e.offset.n, e.offset.z) ∈ setOffsets (indexOffsets lib func level C 0 7 d2) := by
      rw [← hidx]
      exact List.mem_map.2 ⟨e, he, rfl⟩
    exact indexOffsets_lt lib func level C d2 0 7 _ (setOffsets_mem _ _ hm)
  have hsn : w.listindex.Pairwise (fun a b => a.offset.n < b.offset.n) := by
    have := setOffsets_pairwise (indexOffsets lib func level C 0 7 d2)
    rw [← hidx, List.pairwise_map] at this
    exact this
  have hne2 : w.listindex ≠ [] := by
    intro h0
    rw [h0] at hidx
    have hi : indexOffsets lib func level C 0 7 d2 ≠ [] := by
      intro h1
      have := congrArg List.length h1
      rw [indexOffsets_length] at this
      exact hne (List.length_eq_zero.1 this)
    exact setOffsets_ne_nil _ hi hidx.symm
  obtain ⟨r, hr, hri⟩ := ctor_read_written lib w b2 l2 n2 h2.base.good hflag hne2 hlt hsn
    hS hstack
  refine ⟨r, hr, hri, ?_, hsn, hlt⟩
  rw [hri, parsedIndex_offsets]
  apply List.map_congr_left
  intro e he
  obtain ⟨e1, e2⟩ := hlt e he
  rw [Nat.mod_eq_of_lt e1, Nat.mod_eq_of_lt e2]

end Zcp
namespace Zcp

/-- C12 (index monotonicity, amended). A write session with at least one pool, a block
size `b ≥ 1`, thread operations that succeed and a codec that returns 0 or a number of
bytes between 1 and the destination size, in which a non-empty input is written, the
counters `N` and `Z` stay within `2^32`, and the serialised index stays below `2^32`
bytes and fits the room the stack has left for the array of `readTail`: opening the
produced file for reading succeeds, the parsed index is not empty, holds the offsets the
writer recorded, and has strictly increasing `uoff`, strictly increasing `zoff` and
adjacent entries with `e[i+1].uoff = e[i].uoff + e[i].usize`. -/
theorem C12_index_monotone (lib : Lib) (file : List Byte) (b level nthread : Nat)
    (evs : List WEvent) (s0 : zFile) (b2 l2 n2 : Nat)
    (hs0 : zFilelz4.ctor lib (some file) .e_WriteMode b level nthread = some s0)
    (hn : 1 ≤ nthread) (hb : 1 ≤ b)
    (hattr : lib.pthread_attr_init = 0) (hcreate : lib.pthread_create = 0)
    (hjoin : lib.pthread_join = 0)
    (hcodec : ∀ inb : List Byte, inb ≠ [] → inb.length ≤ min b LZ4F_MAXBLOC_SIZE →
      0 ≤ (lib.compress
            (if level % 256 < min_HClevel then compressFunc_t.compress_fast_extState
             else compressFunc_t.compress_HC_extStateHC) inb
            (toInt32 (sizeSub (min b LZ4F_MAXBLOC_SIZE) 4)) (level % 256)).1 ∧
      ((lib.compress
            (if level % 256 < min_HClevel then compressFunc_t.compress_fast_extState
             else compressFunc_t.compress_HC_extStateHC) inb
            (toInt32 (sizeSub (min b LZ4F_MAXBLOC_SIZE) 4)) (level % 256)).1 = 0 ∨
       (lib.compress
            (if level % 256 < min_HClevel then compressFunc_t.compress_fast_extState
             else compressFunc_t.compress_HC_extStateHC) inb
            (toInt32 (sizeSub (min b LZ4F_MAXBLOC_SIZE) 4)) (level % 256)).1
          ≤ toInt32 (sizeSub (min b LZ4F_MAXBLOC_SIZE) 4)))
    (hX : bytesWritten evs ≠ [])
    (hN : (zFile.close lib (runEvents lib evs s0)).zip_noffset ≤ 4294967296)
    (hZ : (zFile.close lib (runEvents lib evs s0)).zip_nzoffset ≤ 4294967296)
    (hS : 16 + (zFile.close lib (runEvents lib evs s0)).listindex.length * 8 + 8
            < 4294967296)
    (hstack : 16 + (zFile.close lib (runEvents lib evs s0)).listindex.length * 8 + 8
            ≤ lib.stack) :
    ∃ r, zFilelz4.ctor lib
            (some (zFilelz4.dtor lib (runEvents lib evs s0)).file_stream.content)
            .e_ReadMode b2 l2 n2 = some r ∧
      r.listindex ≠ [] ∧
      r.listindex.map (fun e => (e.offset.n, e.offset.z))
        = (zFile.close lib (runEvents lib evs s0)).listindex.map
            (fun e => (e.offset.n, e.offset.z)) ∧
      indexMonotone r.listindex = true := by
  obtain ⟨d2, h2, hflag, hd, ha, hfile⟩ :=
    session_final lib file b level nthread evs s0 hs0 hn hb hattr hcreate hjoin
  have hC : min b LZ4F_MAXBLOC_SIZE ≤ 4194304 := by
    simp only [LZ4F_MAXBLOC_SIZE, LZ4F_BLOC7_SIZE]
    omega
  have hne : d2 ≠ [] := by
    intro h0
    rw [h0] at ha
    exact hX ha.symm
  have hblocks : ∀ x ∈ d2, x ≠ [] := by
    intro x hx
    rw [← hd] at hx
    exact (h2.blocks x hx).1
  have hidx := h2.base.index
  rw [indexOffsets_set lib _ (level % 256) _ d2 0 7 hblocks
    (by rw [Nat.zero_add, ← h2.base.noff]; exact hN)] at hidx
  obtain ⟨r, hr, hri, hoff, hsn, hlt⟩ := written_reader lib _ (level % 256) _ _ _ d2 h2 hflag
    hne hS hstack b2 l2 n2
  have hfz : ∀ x ∈ d2, 1 ≤ (zFilelz4.compress lib
      (if level % 256 < min_HClevel then compressFunc_t.compress_fast_extState
       else compressFunc_t.compress_HC_extStateHC) (level % 256) x (min b LZ4F_MAXBLOC_SIZE)).1
        &&& 0x7fffffff := by
    intro x hx
    rw [← hd] at hx
    obtain ⟨hx1, hx2⟩ := h2.blocks x hx
    obtain ⟨c0, c1⟩ := hcodec x hx1 hx2
    exact compress_len_pos lib _ (level % 256) _ x hC hx2 c0 c1
  have hsz : (zFile.close lib (runEvents lib evs s0)).listindex.Pairwise
      (fun a b => a.offset.z < b.offset.z) := by
    have := indexOffsets_snd_sorted lib _ (level % 256) _ d2 0 7 hfz
      (by rw [← h2.base.nzoff]; exact hZ)
    rw [← hidx, List.pairwise_map] at this
    exact this
  rw [hfile]
  refine ⟨r, hr, ?_, ?_, ?_⟩
  · intro h0
    rw [h0, hidx] at hoff
    have := congrArg List.length hoff
    rw [indexOffsets_length] at this
    exact hne (List.length_eq_zero.1 this.symm)
  · exact hoff
  · rw [hri]
    exact parsedIndex_monotone _ _ hsn hsz hlt

/-- Witness of C12: two pools of 4 bytes and "hello world" written in two calls give the
blocks "hell", "o wo" and "rld", stored raw; the parsed index is
`(0, 4, 7, 8), (4, 4, 15, 8), (8, 23, 23, 23)`. -/
theorem C12_index_monotone_witness :
    (zFilelz4.ctor libRun (some []) .e_WriteMode 4 1 2).bind (fun s0 =>
      (zFilelz4.ctor libRun
        (some (zFilelz4.dtor libRun (runEvents libRun
          [.mwrite [104, 101, 108, 108, 111], .workerDone 0,
           .mwrite [32, 119, 111, 114, 108, 100]] s0)).file_stream.content)
        .e_ReadMode 65536 1 1).map (fun r =>
          r.listindex.map (fun e => (e.offset.n, e.size.n, e.offset.z, e.size.z))))
      = some [(0, 4, 7, 8), (4, 4, 15, 8), (8, 23, 23, 23)] ∧
    ∃ s0 r, zFilelz4.ctor libRun (some []) .e_WriteMode 4 1 2 = some s0 ∧
      zFilelz4.ctor libRun
        (some (zFilelz4.dtor libRun (runEvents libRun
          [.mwrite [104, 101, 108, 108, 111], .workerDone 0,
           .mwrite [32, 119, 111, 114, 108, 100]] s0)).file_stream.content)
        .e_ReadMode 65536 1 1 = some r ∧
      r.listindex ≠ [] ∧ indexMonotone r.listindex = true := by
  refine ⟨by decide, ?_⟩
  obtain ⟨s0, hs0, -⟩ := ctor_sinv libRun [] 4 1 2 (by decide)
  have hc : (zFilelz4.ctor libRun (some []) .e_WriteMode 4 1 2).map (fun s0 =>
      decide ((zFile.close libRun (runEvents libRun
          [.mwrite [104, 101, 108, 108, 111], .workerDone 0,
           .mwrite [32, 119, 111, 114, 108, 100]] s0)).zip_noffset ≤ 4294967296) &&
      decide ((zFile.close libRun (runEvents libRun
          [.mwrite [104, 101, 108, 108, 111], .workerDone 0,
           .mwrite [32, 119, 111, 114, 108, 100]] s0)).zip_nzoffset ≤ 4294967296) &&
      decide (16 + (zFile.close libRun (runEvents libRun
          [.mwrite [104, 101, 108, 108, 111], .workerDone 0,
           .mwrite [32, 119, 111, 114, 108, 100]] s0)).listindex.length * 8 + 8
            < 4294967296) &&
      decide (16 + (zFile.close libRun (runEvents libRun
          [.mwrite [104, 101, 108, 108, 111], .workerDone 0,
           .mwrite [32, 119, 111, 114, 108, 100]] s0)).listindex.length * 8 + 8
            ≤ libRun.stack)) = some true := by decide
  rw [hs0] at hc
  simp only [Option.map_some', Option.some.injEq, Bool.and_eq_true, decide_eq_true_eq] at hc
  obtain ⟨r, hr, hne, -, hm⟩ := C12_index_monotone libRun [] 4 1 2
    [.mwrite [104, 101, 108, 108, 111], .workerDone 0, .mwrite [32, 119, 111, 114, 108, 100]]
    s0 65536 1 1 hs0 (by decide) (by decide) rfl rfl rfl
    (fun inb _ _ => libRun_codec _ inb _ _) (by decide) hc.1.1.1 hc.1.1.2 hc.1.2 hc.2
  exact ⟨s0, r, hs0, hr, hne, hm⟩

end Zcp
namespace Zcp

/-- The loop of `mwrite` submits full pools only: when every block submitted before has
`C` bytes, so has every block submitted afterwards. -/
theorem mwriteLoop_full (lib : Lib) (func : compressFunc_t) (level C : Nat) (hdr : List Byte)
    (hjoin : lib.pthread_join = 0) :
    ∀ (fuel : Nat) (s : zFile) (data : List Byte) (done : List (List Byte))
      (r : zFile × List Byte),
      SInv lib func level C hdr s done → r = zFile.mwriteLoop lib fuel s data →
      (∀ x ∈ s.submitted, x.length = C) → ∀ x ∈ r.1.submitted, x.length = C := by
  intro fuel
  induction fuel with
  | zero =>
    intro s data done r h hr hf
    have hr2 : r = (s, data) := hr
    subst hr2
    exact hf
  | succ fuel ih =>
    intro s data done r h hr hf
    obtain ⟨c, hcur, hm, hc⟩ := h.base.cur
    obtain ⟨hcr, hcl⟩ := h.cur c hcur
    obtain ⟨hadd2, hadd1⟩ := MemPool.add_spec c data C hc hcl
    unfold zFile.mwriteLoop at hr
    by_cases hd : data.length > 0
    · simp only [hd, if_true, hcur] at hr
      by_cases ha : (c.add data).2 = 0
      · simp only [ha, if_true] at hr
        have hfull : c.inb.length = C := by
          rw [ha] at hadd2
          omega
        by_cases hrun : (c.run lib (s.threadJob lib c)).2 = 0
        · simp only [hrun, ne_eq, not_true_eq_false, if_false] at hr
          obtain ⟨hne, hr1⟩ := MemPool.run_ok lib _ c hrun
          obtain ⟨hfl, hinb⟩ := run_inFlight lib func level C hdr s done c h.base hm hc hrun
          have hs1 : SInv lib func level C hdr
              { s with zip_curpool := some (c.run lib (s.threadJob lib c)).1 } done := by
            apply h.with_cur _ hfl.1 hfl.2.1
            · rw [hr1]
              have := hcr
              simp only [MemPool.reset, MemPool.mk.injEq] at this ⊢
              simp only [this, and_self]
            · rw [hinb]
              exact hcl
          obtain ⟨d2, q, h2, hq, hqi, hsub, herr⟩ := nextPool_sinv lib func level C hdr _ done _
            hjoin hs1 rfl hfl (by rw [hinb]; exact hne)
          apply ih _ data d2 r h2 hr
          intro x hx
          rw [hsub, hinb] at hx
          rcases List.mem_append.1 hx with hx | hx
          · exact hf x hx
          · rw [List.mem_singleton.1 hx]
            exact hfull
        · simp only [hrun, ne_eq, not_false_eq_true, if_true] at hr
          rw [hr]
          split <;> exact hf
      · simp only [ha, if_false] at hr
        have ha1 := hadd1 ha
        have hn1 : (c.add data).2 ≤ C - c.inb.length := by
          rw [hadd2]
          exact Nat.min_le_left _ _
        have hs1 : SInv lib func level C hdr { s with zip_curpool := some (c.add data).1 }
            done := by
          apply h.with_cur
          · rw [ha1]
            exact hm
          · rw [ha1]
            exact hc
          · rw [ha1]
            exact hcr
          · rw [ha1]
            simp only [List.length_append, List.length_take]
            omega
        exact ih _ (data.drop (c.add data).2) done r hs1 hr hf
    · simp only [hd, if_false] at hr
      subst hr
      exact hf

theorem flatten_length_full (C : Nat) :
    ∀ d : List (List Byte), (∀ x ∈ d, x.length = C) → d.flatten.length = d.length * C := by
  intro d
  induction d with
  | nil => intro _; simp
  | cons x t ih =>
    intro h
    rw [List.flatten_cons, List.length_append, ih (fun y hy => h y (List.mem_cons_of_mem _ hy)),
      h x (List.mem_cons_self _ _), List.length_cons, Nat.succ_mul]
    omega

/-- Blocks of `C ≥ 1` bytes each whose concatenation is `K * C` times the byte `v` are
`K` blocks of `C` times `v`. -/
theorem blocks_of_replicate (C K : Nat) (v : Byte) (hC : 1 ≤ C) (d : List (List Byte))
    (hfull : ∀ x ∈ d, x.length = C) (hflat : d.flatten = List.replicate (K * C) v) :
    d = List.replicate K (List.replicate C v) := by
  have hlen : d.length = K := by
    have := flatten_length_full C d hfull
    rw [hflat, List.length_replicate] at this
    exact (Nat.eq_of_mul_eq_mul_right hC this).symm
  rw [List.eq_replicate_iff]
  refine ⟨hlen, ?_⟩
  intro x hx
  rw [List.eq_replicate_iff]
  refine ⟨hfull x hx, ?_⟩
  intro y hy
  have : y ∈ d.flatten := List.mem_flatten.2 ⟨x, hx, hy⟩
  rw [hflat] at this
  exact (List.mem_replicate.1 this).2

/-- The offsets `flush` records for `K` equal blocks. -/
theorem indexOffsets_replicate_get (lib : Lib) (func : compressFunc_t) (level C : Nat)
    (blk : List Byte) :
    ∀ (K n z i : Nat), i < K →
      (indexOffsets lib func level C n z (List.replicate K blk))[i]?
        = some ((n + i * blk.length) % 4294967296,
                (z + i * ((zFilelz4.compress lib func level blk C).1 &&& 0x7fffffff))
                  % 4294967296) := by
  intro K
  induction K with
  | zero => intro n z i hi; omega
  | succ K ih =>
    intro n z i hi
    rw [List.replicate_succ]
    cases i with
    | zero => simp [indexOffsets]
    | succ i =>
      simp only [indexOffsets, List.getElem?_cons_succ]
      rw [ih _ _ i (by omega)]
      congr 3
      · rw [Nat.succ_mul]
        omega
      · rw [Nat.succ_mul]
        omega

/-- The stand-in codec reports 0 on a block longer than 255 bytes, so that the block is
stored raw and its frame has four bytes more than the block. -/
theorem libRun_long (f : compressFunc_t) (level C : Nat) (inb : List Byte)
    (h1 : 256 ≤ inb.length) (h2 : inb.length + 4 < 2147483648) :
    (zFilelz4.compress libRun f level inb C).1 &&& 0x7fffffff = inb.length + 4 := by
  have hr : (libRun.compress f inb (toInt32 (sizeSub C 4)) level).1 = 0 := by
    cases inb with
    | nil => rfl
    | cons x xs =>
      simp only [libRun]
      rw [if_neg]
      intro h
      omega
  have hs : toSizeT (0 : Int) = 0 := rfl
  unfold zFilelz4.compress
  simp only [hr, hs, if_true]
  rw [and_7fffffff]
  omega

end Zcp
namespace Zcp

theorem full_tail_length (m K C l : Nat) (h : m * C + l = K * C) (h1 : 1 ≤ l) (h2 : l ≤ C) :
    l = C := by
  rcases Nat.lt_or_ge m K with hlt | hge
  · have := Nat.mul_le_mul_right C (Nat.succ_le_of_lt hlt)
    rw [Nat.succ_mul] at this
    omega
  · have := Nat.mul_le_mul_right C hge
    omega

/-- A write session in which one call of `mwrite` passes `K * C` times the byte `v`, for
the pool capacity `C`: the blocks flushed until the end of `close()` are `K` blocks of `C`
times `v`. -/
theorem full_blocks_session (lib : Lib) (file : List Byte) (b level nthread : Nat)
    (s0 : zFile)
    (hs0 : zFilelz4.ctor lib (some file) .e_WriteMode b level nthread = some s0)
    (hn : 1 ≤ nthread) (hb : 1 ≤ b)
    (hattr : lib.pthread_attr_init = 0) (hcreate : lib.pthread_create = 0)
    (hjoin : lib.pthread_join = 0) (K : Nat) (v : Byte) (X : List Byte)
    (hX : X = List.replicate (K * min b LZ4F_MAXBLOC_SIZE) v) :
    SInv lib (if level % 256 < min_HClevel then compressFunc_t.compress_fast_extState
              else compressFunc_t.compress_HC_extStateHC) (level % 256)
      (min b LZ4F_MAXBLOC_SIZE) s0.file_stream.content
      (zFile.close lib (runEvents lib [.mwrite X] s0))
      (List.replicate K (List.replicate (min b LZ4F_MAXBLOC_SIZE) v)) ∧
    (zFile.close lib (runEvents lib [.mwrite X] s0)).flag = Flag.ctor ∧
    (zFile.close lib (runEvents lib [.mwrite X] s0)).submitted
      = List.replicate K (List.replicate (min b LZ4F_MAXBLOC_SIZE) v) ∧
    (zFilelz4.dtor lib (runEvents lib [.mwrite X] s0)).file_stream.content
      = (zFilelz4.writeTail lib
          (zFile.close lib (runEvents lib [.mwrite X] s0))).file_stream.content := by
  obtain ⟨d2, h2, hflag, hd, ha, hfile⟩ :=
    session_final lib file b level nthread [.mwrite X] s0 hs0 hn hb hattr hcreate hjoin
  have hbw : bytesWritten [.mwrite X] = X := by simp [bytesWritten]
  rw [hbw] at ha
  obtain ⟨s1, hs1, hsub0, -⟩ := ctor_write_inv lib file b level nthread hn
  obtain ⟨s2, hs2, -, -, hinv0⟩ := ctor_sinv lib file b level nthread hn
  have e1 : s1 = s0 := Option.some.inj (hs1.symm.trans hs0)
  have e2 : s2 = s0 := Option.some.inj (hs2.symm.trans hs0)
  rw [e1] at hsub0
  rw [e2] at hinv0
  have hC : 1 ≤ min b LZ4F_MAXBLOC_SIZE := by
    simp only [LZ4F_MAXBLOC_SIZE, LZ4F_BLOC7_SIZE]
    omega
  generalize min b LZ4F_MAXBLOC_SIZE = C at *
  have hrun : runEvents lib [.mwrite X] s0 = (zFile.mwrite lib s0 X).1 := rfl
  have hmw : (zFile.mwrite lib s0 X).1
      = (zFile.mwriteLoop lib (2 * X.length + s0.zip_listfree.length + 2) s0 X).1 := by
    simp [zFile.mwrite, hinv0.base.fmode]
  have hfull1 : ∀ x ∈ (runEvents lib [.mwrite X] s0).submitted, x.length = C := by
    rw [hrun, hmw]
    exact mwriteLoop_full lib _ (level % 256) C _ hjoin _ s0 X [] _ hinv0 rfl
      (by rw [hsub0]; intro x hx; simp at hx)
  obtain ⟨d1, h1, -, -⟩ := runEvents_sinv lib _ (level % 256) _ _ hjoin [.mwrite X] s0 [] hinv0
  obtain ⟨d3, -, -, -, hok2⟩ := close_sinv lib _ (level % 256) _ _ hjoin _ d1 h1
  obtain ⟨-, -, hsubc⟩ := hok2 hattr hcreate
  obtain ⟨c, hc, -, -⟩ := h1.base.cur
  have hsc := hsubc c hc
  have hcl := (h1.cur c hc).2
  rw [hd] at hsc
  have hfull2 : ∀ x ∈ d2, x.length = C := by
    by_cases hci : c.inb = []
    · rw [if_pos hci] at hsc
      rw [hsc]
      exact hfull1
    · rw [if_neg hci] at hsc
      have hlen := congrArg List.length (congrArg List.flatten hsc)
      have hXl : X.length = K * C := by rw [hX, List.length_replicate]
      rw [ha, hXl, List.flatten_append, List.length_append,
        flatten_length_full C _ hfull1] at hlen
      simp only [List.flatten_cons, List.flatten_nil, List.append_nil] at hlen
      have hpos : 1 ≤ c.inb.length :=
        Nat.one_le_iff_ne_zero.2 (fun h => hci (List.length_eq_zero.1 h))
      have hcC := full_tail_length _ K C _ hlen.symm hpos hcl
      intro x hx
      rw [hsc] at hx
      rcases List.mem_append.1 hx with hx | hx
      · exact hfull1 x hx
      · rw [List.mem_singleton.1 hx]
        exact hcC
  have hrep := blocks_of_replicate C K v hC d2 hfull2 (by rw [ha, hX])
  rw [hrep] at h2 hd
  exact ⟨h2, hflag, hd, hfile⟩

end Zcp
namespace Zcp

theorem sumN_replicate (K : Nat) (blk : List Byte) :
    sumN (List.replicate K blk) = K * blk.length := by
  simp [sumN, List.map_replicate, List.sum_replicate]

theorem sumZ_replicate (lib : Lib) (func : compressFunc_t) (level C K : Nat)
    (blk : List Byte) :
    sumZ lib func level C (List.replicate K blk)
      = K * ((zFilelz4.compress lib func level blk C).1 &&& 0x7fffffff) := by
  simp [sumZ, List.map_replicate, List.sum_replicate]

theorem indexOffsets_cons_cons (lib : Lib) (func : compressFunc_t) (level C : Nat)
    (a b : List Byte) (t : List (List Byte)) (n z : Nat) :
    indexOffsets lib func level C n z (a :: b :: t)
      = (n % 4294967296, z % 4294967296) ::
        ((n + a.length) % 4294967296,
          (z + ((zFilelz4.compress lib func level a C).1 &&& 0x7fffffff)) % 4294967296) ::
        indexOffsets lib func level C (n + a.length + b.length)
          (z + ((zFilelz4.compress lib func level a C).1 &&& 0x7fffffff)
            + ((zFilelz4.compress lib func level b C).1 &&& 0x7fffffff)) t := rfl

/-- An offset between those of the first two entries is stored between them. -/
theorem insertOffset_second (p x0 x1 : Nat × Nat) (l : List (Nat × Nat))
    (h0 : x0.1 < p.1) (h1 : p.1 < x1.1) :
    insertOffset p (x0 :: x1 :: l) = x0 :: p :: x1 :: l := by
  have h2 : ¬ p.1 < x0.1 := by omega
  simp only [insertOffset, h0, h1, h2, if_true, if_false]

/-- The index of 1026 blocks of 4 MiB - 1 bytes: the counter `N` is `i * 4194303` before
block `i`, which is `2^32 - 1024` for block 1024 and `2^32 + 4193279` for block 1025. The
entry of block 1025 is stored with `uoff = 4193279` and the set, ordered by `uoff`, holds
it between the entries of block 0 and block 1. -/
theorem wrap_offsets (lib : Lib) (func : compressFunc_t) (level C : Nat) (blk : List Byte)
    (hbl : blk.length = 4194303) :
    ∃ rest, setOffsets (indexOffsets lib func level C 0 7 (List.replicate 1026 blk))
        = (0, 7) ::
          (4193279,
            (7 + 1025 * ((zFilelz4.compress lib func level blk C).1 &&& 0x7fffffff))
              % 4294967296) ::
          (4194303,
            (7 + ((zFilelz4.compress lib func level blk C).1 &&& 0x7fffffff))
              % 4294967296) :: rest ∧
      rest.length = 1023 := by
  have hne : blk ≠ [] := by
    intro h
    rw [h] at hbl
    exact absurd hbl (by decide)
  have r1 : List.replicate 1026 blk = (List.replicate 1024 blk ++ [blk]) ++ [blk] := by
    rw [← List.replicate_succ', ← List.replicate_succ']
  have r2 : List.replicate 1024 blk = blk :: blk :: List.replicate 1022 blk := by
    rw [← List.replicate_succ, ← List.replicate_succ]
  have hs24 : sumN (List.replicate 1024 blk) = 4294966272 := by
    rw [sumN_replicate, hbl]
  have hs25 : sumN (List.replicate 1024 blk ++ [blk]) = 4299160575 := by
    rw [sumN_append, hs24, hbl]
  have hall : ∀ b ∈ List.replicate 1024 blk, b ≠ [] := by
    intro b hb
    rw [(List.mem_replicate.1 hb).2]
    exact hne
  have hle : 0 + sumN (List.replicate 1024 blk) ≤ 4294967296 := by
    rw [hs24]
    omega
  generalize hf : (zFilelz4.compress lib func level blk C).1 &&& 0x7fffffff = f
  have hz25 : sumZ lib func level C (List.replicate 1024 blk ++ [blk]) = 1025 * f := by
    rw [sumZ_append, sumZ_replicate, hf]
    omega
  have hlast : ∀ x ∈ indexOffsets lib func level C 0 7 (List.replicate 1024 blk),
      x.1 < ((0 + sumN (List.replicate 1024 blk)) % 4294967296,
        (7 + sumZ lib func level C (List.replicate 1024 blk)) % 4294967296).1 := by
    intro x hx
    have := indexOffsets_fst_lt lib func level C _ 0 7 hall hle x hx
    rw [hs24] at this ⊢
    exact this
  have hT : (List.replicate 1022 blk).length = 1022 := List.length_replicate _ _
  rw [r1, indexOffsets_append, setOffsets_append, indexOffsets_append, setOffsets_append,
    indexOffsets_set lib func level C _ 0 7 hall hle, insertOffset_last _ _ hlast,
    hs25, hz25, hs24, r2]
  generalize List.replicate 1022 blk = T at hT ⊢
  rw [indexOffsets_cons_cons, hf, hbl, List.cons_append, List.cons_append,
    insertOffset_second _ _ _ _ (by norm_num) (by norm_num)]
  refine ⟨indexOffsets lib func level C (0 + 4194303 + 4194303) (7 + f + f) T ++
      [((0 + 4294966272) % 4294967296,
        (7 + sumZ lib func level C (blk :: blk :: T)) % 4294967296)], ?_, ?_⟩
  · norm_num
  · rw [List.length_append, indexOffsets_length, hT]
    rfl

/-- The session that writes `wrapInput` through one pool of 4 MiB - 1 bytes with the
stand-in codec, which stores these blocks raw in frames of 4194307 bytes: 1026 blocks are
submitted and flushed, and the index holds the entry of the last of them in the second
place. -/
theorem wrap_session :
    ∃ s0 rest, zFilelz4.ctor libRun (some []) .e_WriteMode 4194303 1 1 = some s0 ∧
      SInv libRun (if 1 % 256 < min_HClevel then compressFunc_t.compress_fast_extState
                else compressFunc_t.compress_HC_extStateHC) (1 % 256) 4194303
        s0.file_stream.content
        (zFile.close libRun (runEvents libRun [.mwrite wrapInput] s0))
        (List.replicate 1026 (List.replicate 4194303 0)) ∧
      (zFile.close libRun (runEvents libRun [.mwrite wrapInput] s0)).flag = Flag.ctor ∧
      (zFile.close libRun (runEvents libRun [.mwrite wrapInput] s0)).submitted
        = List.replicate 1026 (List.replicate 4194303 0) ∧
      (zFilelz4.dtor libRun (runEvents libRun [.mwrite wrapInput] s0)).file_stream.content
        = (zFilelz4.writeTail libRun
            (zFile.close libRun (runEvents libRun [.mwrite wrapInput] s0))).file_stream.content ∧
      (zFile.close libRun (runEvents libRun [.mwrite wrapInput] s0)).listindex.map
          (fun e => (e.offset.n, e.offset.z))
        = (0, 7) :: (4193279, 4197386) :: (4194303, 4194314) :: rest ∧
      rest.length = 1023 := by
  obtain ⟨s0, hs0, -⟩ := ctor_sinv libRun [] 4194303 1 1 (by decide)
  have hC : min 4194303 LZ4F_MAXBLOC_SIZE = 4194303 := by decide
  have hX : wrapInput = List.replicate (1026 * min 4194303 LZ4F_MAXBLOC_SIZE) 0 := by
    rw [hC]
    rfl
  obtain ⟨h2, hflag, hsub, hfile⟩ := full_blocks_session libRun [] 4194303 1 1 s0 hs0
    (by decide) (by decide) rfl rfl rfl 1026 0 wrapInput hX
  rw [hC] at h2 hsub
  have hidx := h2.base.index
  generalize hblk : List.replicate 4194303 (0 : Byte) = blk at h2 hsub hidx
  have hbl : blk.length = 4194303 := by rw [← hblk, List.length_replicate]
  obtain ⟨rest, hw, hrl⟩ := wrap_offsets libRun
    (if 1 % 256 < min_HClevel then compressFunc_t.compress_fast_extState
     else compressFunc_t.compress_HC_extStateHC) (1 % 256) 4194303 blk hbl
  rw [libRun_long _ _ _ blk (by rw [hbl]; decide) (by rw [hbl]; decide), hbl] at hw
  rw [hw] at hidx
  exact ⟨s0, rest, hs0, h2, hflag, hsub, hfile, hidx, hrl⟩

end Zcp
namespace Zcp

/-- C12, counterexample. One pool of 4 MiB - 1 bytes and one call of `mwrite` with 1026
blocks of zero bytes (4 303 354 878 bytes, more than `2^32`): the counter `N` is
`2^32 + 4193279` before the last block, whose entry is stored with `uoff = 4193279` and
sorted between the entries of block 0 and block 1. The read-mode constructor on the
produced file returns an index whose second entry is the one of the last block, which
lies behind every other block in the file, so its `zoff` is above the `zoff` of the third
entry (here 4197386 against 4194314, the frames of the stand-in codec having 4194307
bytes): the index is not monotone. -/
theorem C12_counterexample :
    ∃ s0 r, zFilelz4.ctor libRun (some []) .e_WriteMode 4194303 1 1 = some s0 ∧
      zFilelz4.ctor libRun
        (some (zFilelz4.dtor libRun (runEvents libRun [.mwrite wrapInput] s0)).file_stream.content)
        .e_ReadMode 4194303 1 1 = some r ∧
      (r.listindex.map (fun e => (e.offset.n, e.offset.z))).take 3
        = [(0, 7), (4193279, 4197386), (4194303, 4194314)] ∧
      indexMonotone r.listindex = false := by
  obtain ⟨s0, rest, hs0, h2, hflag, -, hfile, hidx, hrl⟩ := wrap_session
  have hlen : (zFile.close libRun (runEvents libRun [.mwrite wrapInput] s0)).listindex.length
      = 1026 := by
    have := congrArg List.length hidx
    rw [List.length_map] at this
    rw [this]
    simp only [List.length_cons, hrl]
  have hstk : libRun.stack = 8323072 := rfl
  obtain ⟨r, hr, -, hoff, -, -⟩ := written_reader libRun _ (1 % 256) 4194303 _ _ _ h2 hflag
    (by
      intro h0
      exact absurd (congrArg List.length h0) (by rw [List.length_replicate]; decide))
    (by rw [hlen]; decide) (by rw [hlen, hstk]; decide) 4194303 1 1
  rw [← hfile] at hr
  rw [hidx] at hoff
  refine ⟨s0, r, hs0, hr, by rw [hoff]; rfl, ?_⟩
  cases hm : indexMonotone r.listindex with
  | false => rfl
  | true =>
    have g1 : (r.listindex.map (fun e => (e.offset.n, e.offset.z)))[1]?
        = some (4193279, 4197386) := by rw [hoff]; simp
    have g2 : (r.listindex.map (fun e => (e.offset.n, e.offset.z)))[2]?
        = some (4194303, 4194314) := by rw [hoff]; simp
    rw [List.getElem?_map] at g1 g2
    obtain ⟨a, ha, haz⟩ := Option.map_eq_some'.1 g1
    obtain ⟨b, hb, hbz⟩ := Option.map_eq_some'.1 g2
    have := indexMonotone_get r.listindex 1 a b hm ha hb
    have e1 : a.offset.z = 4197386 := congrArg Prod.snd haz
    have e2 : b.offset.z = 4194314 := congrArg Prod.snd hbz
    rw [e1, e2] at this
    exact absurd this (by decide)

end Zcp
namespace Zcp

/-- C2, counterexample. One pool of 4 MiB - 1 bytes and one call of `mwrite` with 1026
blocks of zero bytes (4 303 354 878 bytes), then `close()`: the 1026 blocks are submitted
in order, the counter `N` is `2^32 + 4193279` before the last of them, its entry is stored
with `uoff = 4193279`, and the index, a set ordered by `uoff`, holds this entry in the
second place, before the entry of the block submitted second (`uoff = 4194303`). -/
theorem C2_counterexample :
    ∃ s0, zFilelz4.ctor libRun (some []) .e_WriteMode 4194303 1 1 = some s0 ∧
      (zFile.close libRun (runEvents libRun [.mwrite wrapInput] s0)).submitted
        = List.replicate 1026 (List.replicate 4194303 0) ∧
      (zFile.close libRun (runEvents libRun [.mwrite wrapInput] s0)).listindex.length = 1026 ∧
      ((zFile.close libRun (runEvents libRun [.mwrite wrapInput] s0)).listindex.map
          (fun e => e.offset.n)).take 3 = [0, 4193279, 4194303] := by
  obtain ⟨s0, rest, hs0, -, -, hsub, -, hidx, hrl⟩ := wrap_session
  refine ⟨s0, hs0, hsub, ?_, ?_⟩
  · have := congrArg List.length hidx
    rw [List.length_map] at this
    rw [this]
    simp only [List.length_cons, hrl]
  · have h2 : (zFile.close libRun (runEvents libRun [.mwrite wrapInput] s0)).listindex.map
        (fun e => e.offset.n)
        = ((zFile.close libRun (runEvents libRun [.mwrite wrapInput] s0)).listindex.map
            (fun e => (e.offset.n, e.offset.z))).map Prod.fst := by
      rw [List.map_map]
      rfl
    rw [h2, hidx]
    rfl

/-- C2 (order preservation, amended). A write-mode stream with `nthread ≥ 1` pools whose
joins succeed, after any sequence of `mwrite` calls, `close` calls and worker completions
in any order: the blocks handed to the workers so far (`submitted`, in submission order)
are the flushed blocks `done` followed by the inputs of the pools still in flight, the
file holds the header followed by the frames of `done` in that order, and the index is
the set, ordered by the 32-bit `uoff`, of the offsets of `done`; as long as the counter
`N` is at most `2^32` the index holds these offsets in the order of `done`. With a block
size of at least 1 and thread launches that succeed, the bytes accepted so far are the
bytes passed to `mwrite`, in order, and after `close()` no block is in flight, the
submitted blocks hold exactly the bytes passed to `mwrite`, the file holds the header and
their frames in submission order, and the index holds their offsets, in submission order
when at most `2^32` bytes were written. -/
theorem C2_order_preservation (lib : Lib) (file : List Byte) (blocsize level nthread : Nat)
    (evs : List WEvent) (hn : 1 ≤ nthread) (hjoin : lib.pthread_join = 0) :
    ∃ s0 done,
      zFilelz4.ctor lib (some file) .e_WriteMode blocsize level nthread = some s0 ∧
      s0.submitted = [] ∧
      (runEvents lib evs s0).submitted
        = done ++ (runEvents lib evs s0).zip_listused.map (fun p => p.inb) ∧
      (runEvents lib evs s0).file_stream.content
        = s0.file_stream.content ++ done.flatMap (fun b =>
            blockFrame lib
              (if level % 256 < min_HClevel then compressFunc_t.compress_fast_extState
               else compressFunc_t.compress_HC_extStateHC)
              (level % 256) b (min blocsize LZ4F_MAXBLOC_SIZE)) ∧
      (runEvents lib evs s0).listindex.map (fun e => (e.offset.n, e.offset.z))
        = setOffsets (indexOffsets lib
            (if level % 256 < min_HClevel then compressFunc_t.compress_fast_extState
             else compressFunc_t.compress_HC_extStateHC)
            (level % 256) (min blocsize LZ4F_MAXBLOC_SIZE) 0 7 done) ∧
      ((runEvents lib evs s0).zip_noffset ≤ 4294967296 →
        (runEvents lib evs s0).listindex.map (fun e => (e.offset.n, e.offset.z))
          = indexOffsets lib
              (if level % 256 < min_HClevel then compressFunc_t.compress_fast_extState
               else compressFunc_t.compress_HC_extStateHC)
              (level % 256) (min blocsize LZ4F_MAXBLOC_SIZE) 0 7 done) ∧
      (lib.pthread_attr_init = 0 → lib.pthread_create = 0 → 1 ≤ blocsize →
        (runEvents lib evs s0).accepted = bytesWritten evs ∧
        (zFile.close lib (runEvents lib evs s0)).zip_listused = [] ∧
        (zFile.close lib (runEvents lib evs s0)).submitted.flatten = bytesWritten evs ∧
        (zFile.close lib (runEvents lib evs s0)).file_stream.content
          = s0.file_stream.content ++
              (zFile.close lib (runEvents lib evs s0)).submitted.flatMap (fun b =>
                blockFrame lib
                  (if level % 256 < min_HClevel then compressFunc_t.compress_fast_extState
                   else compressFunc_t.compress_HC_extStateHC)
                  (level % 256) b (min blocsize LZ4F_MAXBLOC_SIZE)) ∧
        (zFile.close lib (runEvents lib evs s0)).listindex.map
            (fun e => (e.offset.n, e.offset.z))
          = setOffsets (indexOffsets lib
              (if level % 256 < min_HClevel then compressFunc_t.compress_fast_extState
               else compressFunc_t.compress_HC_extStateHC)
              (level % 256) (min blocsize LZ4F_MAXBLOC_SIZE) 0 7
              (zFile.close lib (runEvents lib evs s0)).submitted) ∧
        ((bytesWritten evs).length ≤ 4294967296 →
          (zFile.close lib (runEvents lib evs s0)).listindex.map
              (fun e => (e.offset.n, e.offset.z))
            = indexOffsets lib
                (if level % 256 < min_HClevel then compressFunc_t.compress_fast_extState
                 else compressFunc_t.compress_HC_extStateHC)
                (level % 256) (min blocsize LZ4F_MAXBLOC_SIZE) 0 7
                (zFile.close lib (runEvents lib evs s0)).submitted)) := by
  obtain ⟨s0, hs0, hacc0, -, hinv0⟩ := ctor_sinv lib file blocsize level nthread hn
  obtain ⟨s1, hs1, hsub0, -⟩ := ctor_write_inv lib file blocsize level nthread hn
  have e1 : s1 = s0 := Option.some.inj (hs1.symm.trans hs0)
  rw [e1] at hsub0
  obtain ⟨done, h, hacc1, hok1⟩ :=
    runEvents_sinv lib _ (level % 256) _ _ hjoin evs s0 [] hinv0
  have hblocks : ∀ x ∈ done, x ≠ [] := by
    intro x hx
    apply (h.blocks x _).1
    rw [h.base.sub]
    exact List.mem_append_left _ hx
  refine ⟨s0, done, hs0, hsub0, h.base.sub, h.base.content, h.base.index, ?_, ?_⟩
  · intro hN
    rw [h.base.index]
    apply indexOffsets_set lib _ (level % 256) _ done 0 7 hblocks
    rw [Nat.zero_add, ← h.base.noff]
    exact hN
  · intro hattr hcreate hb
    have hC : 1 ≤ min blocsize LZ4F_MAXBLOC_SIZE := by
      simp only [LZ4F_MAXBLOC_SIZE, LZ4F_BLOC7_SIZE]
      omega
    obtain ⟨hcomp, -⟩ := hok1 hattr hcreate hC
    obtain ⟨d2, h2, -, hd, ha, -⟩ :=
      session_final lib file blocsize level nthread evs s0 hs0 hn hb hattr hcreate hjoin
    obtain ⟨d3, -, hused, -, -⟩ := close_sinv lib _ (level % 256) _ _ hjoin _ done h
    have hblocks2 : ∀ x ∈ d2, x ≠ [] := by
      intro x hx
      apply (h2.blocks x _).1
      rw [hd]
      exact hx
    refine ⟨?_, hused, by rw [hd]; exact ha, ?_, ?_, ?_⟩
    · rw [hacc1 hcomp, hacc0, List.nil_append]
    · rw [hd]
      exact h2.base.content
    · rw [hd]
      exact h2.base.index
    · intro hlen
      rw [hd, h2.base.index]
      apply indexOffsets_set lib _ (level % 256) _ d2 0 7 hblocks2
      rw [Nat.zero_add, sumN_eq_length, ha]
      exact hlen

/-- Witness of C2: three pools of 4 bytes, nine bytes written, the worker of the second
pool ending before the worker of the first, then `close()`: the file holds the header and
the frames of `[1,1,1,1]`, `[2,2,2,2]`, `[3]` in this order, and the index their offsets. -/
theorem C2_order_preservation_witness :
    (zFilelz4.ctor libRun (some []) .e_WriteMode 4 1 3).map (fun s0 =>
        ((runEvents libRun orderEvents s0).submitted,
         (runEvents libRun orderEvents s0).zip_listused.length,
         (runEvents libRun orderEvents s0).file_stream.content,
         (runEvents libRun orderEvents s0).listindex.map (fun e => (e.offset.n, e.offset.z))))
      = some ([[1, 1, 1, 1], [2, 2, 2, 2], [3]], 0,
          [4, 34, 77, 24, 100, 64, 167, 4, 0, 0, 128, 1, 1, 1, 1, 4, 0, 0, 128, 2, 2, 2, 2,
            1, 0, 0, 128, 3],
          [(0, 7), (4, 15), (8, 23)]) ∧
    1 ≤ 3 ∧ libRun.pthread_join = 0 ∧
    ∃ s0 done,
      zFilelz4.ctor libRun (some []) .e_WriteMode 4 1 3 = some s0 ∧
      (runEvents libRun orderEvents s0).submitted
        = done ++ (runEvents libRun orderEvents s0).zip_listused.map (fun p => p.inb) ∧
      (runEvents libRun orderEvents s0).file_stream.content
        = s0.file_stream.content ++ done.flatMap (fun b =>
            blockFrame libRun
              (if 1 % 256 < min_HClevel then compressFunc_t.compress_fast_extState
               else compressFunc_t.compress_HC_extStateHC)
              (1 % 256) b (min 4 LZ4F_MAXBLOC_SIZE)) ∧
      (zFile.close libRun (runEvents libRun orderEvents s0)).submitted.flatten
        = bytesWritten orderEvents ∧
      (zFile.close libRun (runEvents libRun orderEvents s0)).listindex.map
          (fun e => (e.offset.n, e.offset.z))
        = indexOffsets libRun
            (if 1 % 256 < min_HClevel then compressFunc_t.compress_fast_extState
             else compressFunc_t.compress_HC_extStateHC)
            (1 % 256) (min 4 LZ4F_MAXBLOC_SIZE) 0 7
            (zFile.close libRun (runEvents libRun orderEvents s0)).submitted :=
  ⟨by decide, by decide, rfl,
   (C2_order_preservation libRun [] 4 1 3 orderEvents (by decide) rfl).imp fun _ h1 =>
     h1.imp fun _ h => ⟨h.1, h.2.2.1, h.2.2.2.1,
       (h.2.2.2.2.2.2 rfl rfl (by decide)).2.2.1,
       (h.2.2.2.2.2.2 rfl rfl (by decide)).2.2.2.2.2 (by decide)⟩⟩

end Zcp
namespace Zcp

/-- C28 (buffer add). For a pool with `in_len ≤ C` and every `data` of `n` bytes,
`add(data, n)` returns `k = min(n, C - in_len)`; the pool afterwards differs only in its
input, which is the former input followed by the first `k` bytes of `data` (so `in_len`
grows by `k` and the output side is unchanged); and the result is 0 exactly when the pool
is full or `n = 0`. -/
theorem C28_buffer_add (p : MemPool) (data : List Byte) (hl : p.inb.length ≤ p.poolsize) :
    (p.add data).2 = min data.length (p.poolsize - p.inb.length) ∧
    (p.add data).1 = { p with inb := p.inb ++ data.take (p.add data).2 } ∧
    (data.take (p.add data).2).length = (p.add data).2 ∧
    (p.add data).1.inb.length = p.inb.length + (p.add data).2 ∧
    (p.add data).1.inb.take p.inb.length = p.inb ∧
    (p.add data).1.inb.drop p.inb.length = data.take (p.add data).2 ∧
    ((p.add data).2 = 0 ↔ (p.inb.length = p.poolsize ∨ data.length = 0)) := by
  obtain ⟨h2, h1⟩ := MemPool.add_spec p data p.poolsize rfl hl
  have hk : (p.add data).2 = min data.length (p.poolsize - p.inb.length) := by
    rw [h2, Nat.min_comm]
  have hp : (p.add data).1 = { p with inb := p.inb ++ data.take (p.add data).2 } := by
    by_cases h0 : (p.add data).2 = 0
    · have hpp : (p.add data).1 = p := by
        unfold MemPool.add at h0 ⊢
        dsimp only at h0 ⊢
        split_ifs at h0 ⊢ with hn
        · rfl
        · exact absurd h0 hn
      rw [h0, hpp, List.take_zero, List.append_nil]
    · exact h1 h0
  have ht : (data.take (p.add data).2).length = (p.add data).2 := by
    rw [List.length_take, hk]
    omega
  refine ⟨hk, hp, ht, ?_, ?_, ?_, ?_⟩
  · rw [hp]
    simp only [List.length_append, ht]
  · rw [hp]
    simp only [List.take_left']
  · rw [hp]
    simp only [List.drop_left']
  · rw [hk]
    omega

/-- Witness of C28: a pool of capacity 4 that holds 2 bytes takes 2 of 3 offered bytes. -/
theorem C28_buffer_add_witness :
    ((({ MemPool.ctor 0 4 .e_ZipPool with inb := [1, 2] } : MemPool).add [3, 4, 5]).2 = 2 ∧
     (({ MemPool.ctor 0 4 .e_ZipPool with inb := [1, 2] } : MemPool).add [3, 4, 5]).1.inb
       = [1, 2, 3, 4]) ∧
    (({ MemPool.ctor 0 4 .e_ZipPool with inb := [1, 2] } : MemPool).add [3, 4, 5]).2
      = min [3, 4, 5].length (4 - 2) := by
  refine ⟨by decide, ?_⟩
  exact (C28_buffer_add { MemPool.ctor 0 4 .e_ZipPool with inb := [1, 2] } [3, 4, 5]
    (by decide)).1

end Zcp
namespace Zcp

/-- One call of `get` on a pool with `pos ≤ out_len`. -/
theorem MemPool.get_spec (p : MemPool) (n : Nat) (hp : p.ptr ≤ p.outsize) :
    (p.get n).2.1 = min n (p.outsize - p.ptr) ∧
    (p.get n).2.2 = (p.out.drop p.ptr).take (min n (p.outsize - p.ptr)) ∧
    (p.get n).1 = { p with ptr := p.ptr + min n (p.outsize - p.ptr) } := by
  have hs : sizeSub p.outsize p.ptr = p.outsize - p.ptr := by
    simp [sizeSub, hp]
  unfold MemPool.get
  simp only [hs]
  rw [Nat.min_comm]
  split_ifs with h0
  · rw [h0]
    exact ⟨rfl, by simp, rfl⟩
  · exact ⟨rfl, rfl, rfl⟩

/-- Successive calls of `get` return consecutive slices of the output. -/
theorem MemPool.gets_spec :
    ∀ (ns : List Nat) (p : MemPool), p.ptr ≤ p.outsize → p.outsize ≤ p.out.length →
      (p.gets ns).1.ptr ≤ p.outsize ∧
      (p.gets ns).1.ptr = p.ptr + (p.gets ns).2.length ∧
      (p.gets ns).2 = (p.out.drop p.ptr).take ((p.gets ns).1.ptr - p.ptr) := by
  intro ns
  induction ns with
  | nil =>
    intro p hp _
    simp [MemPool.gets, hp]
  | cons n ns ih =>
    intro p hp hout
    obtain ⟨-, h2, h3⟩ := MemPool.get_spec p n hp
    have hq : (p.get n).1.ptr = p.ptr + min n (p.outsize - p.ptr) := by rw [h3]
    have hqo : (p.get n).1.outsize = p.outsize := by rw [h3]
    have hqb : (p.get n).1.out = p.out := by rw [h3]
    obtain ⟨i1, i2, i3⟩ := ih (p.get n).1 (by rw [hq, hqo]; omega) (by rw [hqo, hqb]; exact hout)
    rw [hqo] at i1
    rw [hqb] at i3
    have hlen : (p.get n).2.2.length = min n (p.outsize - p.ptr) := by
      rw [h2, List.length_take, List.length_drop]
      omega
    simp only [MemPool.gets]
    refine ⟨i1, ?_, ?_⟩
    · rw [i2, List.length_append, hlen, hq]
      omega
    · rw [i3, h2]
      generalize hk : min n (p.outsize - p.ptr) = k at *
      generalize hm : (MemPool.gets (p.get n).1 ns).1.ptr = m at *
      rw [hq]
      have hkm : m - p.ptr = k + (m - (p.ptr + k)) := by omega
      rw [hkm, List.take_add, List.drop_drop]

/-- C29 (buffer drain). For a pool with `pos ≤ out_len` (and `out_len` bytes of output),
`get(dst, n)` returns `k = min(n, out_len - pos)`, copies the `k` bytes `out[pos .. pos+k)`
and advances `pos` by `k`, changing nothing else; it returns 0 exactly when `n = 0` or
`pos = out_len`; and successive calls return consecutive slices: their concatenation is
`out[pos .. pos')` for the final position `pos' ≤ out_len`, a prefix of `out[0 .. out_len)`
when `pos = 0`. -/
theorem C29_buffer_drain (p : MemPool) (n : Nat) (ns : List Nat) (hp : p.ptr ≤ p.outsize)
    (hout : p.outsize ≤ p.out.length) :
    (p.get n).2.1 = min n (p.outsize - p.ptr) ∧
    (p.get n).2.2 = (p.out.drop p.ptr).take (min n (p.outsize - p.ptr)) ∧
    (p.get n).2.2.length = min n (p.outsize - p.ptr) ∧
    (p.get n).1 = { p with ptr := p.ptr + min n (p.outsize - p.ptr) } ∧
    ((p.get n).2.1 = 0 ↔ (n = 0 ∨ p.ptr = p.outsize)) ∧
    (p.gets ns).1.ptr ≤ p.outsize ∧
    (p.gets ns).1.ptr = p.ptr + (p.gets ns).2.length ∧
    (p.gets ns).2 = (p.out.drop p.ptr).take ((p.gets ns).1.ptr - p.ptr) ∧
    (p.ptr = 0 → (p.gets ns).2 <+: p.getOutptr) := by
  obtain ⟨h1, h2, h3⟩ := MemPool.get_spec p n hp
  obtain ⟨g1, g2, g3⟩ := MemPool.gets_spec ns p hp hout
  refine ⟨h1, h2, ?_, h3, ?_, g1, g2, g3, ?_⟩
  · rw [h2, List.length_take, List.length_drop]
    omega
  · rw [h1]
    omega
  · intro h0
    rw [g3, h0, List.drop_zero, Nat.sub_zero, MemPool.getOutptr]
    have ht : p.out.take (p.gets ns).1.ptr
        = (p.out.take p.outsize).take (p.gets ns).1.ptr := by
      rw [List.take_take, Nat.min_eq_left g1]
    rw [ht]
    exact List.take_prefix _ _

/-- Witness of C29: a pool with the output `1 2 3 4 5` read from position 1 by calls for
2, 0 and 9 bytes. -/
theorem C29_buffer_drain_witness :
    (({ MemPool.ctor 0 8 .e_UnzipPool with outsize := 5, out := [1, 2, 3, 4, 5], ptr := 1 }
        : MemPool).gets [2, 0, 9]).2 = [2, 3, 4, 5] ∧
    (({ MemPool.ctor 0 8 .e_UnzipPool with outsize := 5, out := [1, 2, 3, 4, 5], ptr := 1 }
        : MemPool).get 2).2.2 = [2, 3] ∧
    (({ MemPool.ctor 0 8 .e_UnzipPool with outsize := 5, out := [1, 2, 3, 4, 5], ptr := 1 }
        : MemPool).get 2).2.1 = min 2 (5 - 1) := by
  refine ⟨by decide, by decide, ?_⟩
  exact (C29_buffer_drain
    { MemPool.ctor 0 8 .e_UnzipPool with outsize := 5, out := [1, 2, 3, 4, 5], ptr := 1 }
    2 [2, 0, 9] (by decide) (by decide)).1

end Zcp
namespace Zcp

theorem toInt32_le (n : Nat) : toInt32 n ≤ (n : Int) := by
  unfold toInt32
  have := Nat.mod_le n 4294967296
  split_ifs <;> omega

/-- The size `zFilelz4::compress` returns for a block of at most `C` bytes and a codec
that respects its destination bound is at most `C + 4`. -/
theorem compress_size_le (lib : Lib) (hc : lib.compressBounded) (func : compressFunc_t)
    (level C : Nat) (inb : List Byte) (hin : inb.length ≤ C) :
    (zFilelz4.compress lib func level inb C).1 ≤ C + 4 := by
  obtain ⟨hr0, hr1⟩ := hc func inb (toInt32 (sizeSub C 4)) level
  have hdst : toInt32 (sizeSub C 4) ≤ (C : Int) - 4 := by
    by_cases h4 : 4 ≤ C
    · have : sizeSub C 4 = C - 4 := by simp [sizeSub, h4]
      rw [this]
      have := toInt32_le (C - 4)
      omega
    · have hs : sizeSub C 4 = C + 18446744073709551616 - 4 := by simp [sizeSub, h4]
      rw [hs]
      unfold toInt32
      split_ifs <;> omega
  have hlt := toInt32_lt (sizeSub C 4)
  unfold zFilelz4.compress
  generalize toInt32 (sizeSub C 4) = dst at *
  generalize lib.compress func inb dst level = res at *
  obtain ⟨r, out⟩ := res
  simp only at hr0 hr1 ⊢
  have hrlt : r < 18446744073709551616 := by omega
  rw [toSizeT_of_nonneg r hr0 hrlt]
  by_cases hz : r.toNat = 0
  · simp only [hz, if_true]
    exact Nat.le_trans (Nat.mod_le _ _) (by omega)
  · simp only [hz, if_false]
    exact Nat.le_trans (Nat.mod_le _ _) (by omega)

/-- The loop of `zFilelz4::uncompress` with a block decoder that respects its destination
bound never passes the output capacity. -/
theorem uncompressLoop_out_le (lib : Lib) (hd : lib.decompressBounded)
    (func : uncompressFunc_t) (inb : List Byte) (outsize : Nat) :
    ∀ (fuel inptrsz outptrsz : Nat) (out : List Byte), outptrsz ≤ outsize →
      (zFilelz4.uncompressLoop lib func inb outsize fuel inptrsz outptrsz out).2.1
        ≤ outsize := by
  intro fuel
  induction fuel with
  | zero => intro _ _ _ h; exact h
  | succ fuel ih =>
    intro inptrsz outptrsz out h
    rw [zFilelz4.uncompressLoop]
    dsimp only
    split_ifs with c1 c2 c3 c4 c5 c6
    · exact h
    · exact h
    · exact h
    · exact ih _ _ _ (by omega)
    · exact h
    · apply ih
      have hb := hd func
        ((inb.drop (inptrsz + 4)).take (le32toh (inb.drop inptrsz) &&& 0x7fffffff))
        (toInt32 (sizeSub outsize outptrsz))
      have hle : toInt32 (sizeSub outsize outptrsz) ≤ ((outsize - outptrsz : Nat) : Int) := by
        have hs : sizeSub outsize outptrsz = outsize - outptrsz := by simp [sizeSub, h]
        rw [hs]
        exact toInt32_le _
      omega
    · exact h

/-- C30 (buffer invariant). `in_len ≤ C`, `out_len ≤ C + 4` and `pos ≤ out_len` hold for
a new pool and are preserved by `add`, by `add` from a stream, by `get`, by `reset`, and by
the task of the worker thread (compression for a zip pool, decompression for an unzip
pool) of any stream, when the block compressor and the block decompressor respect the
destination bound they are given. -/
theorem C30_buffer_invariant (lib : Lib) (hc : lib.compressBounded)
    (hd : lib.decompressBounded) :
    (∀ (id C : Nat) (mode : PoolRunMode_t), (MemPool.ctor id C mode).inv) ∧
    ∀ p : MemPool, p.inv →
      (∀ data : List Byte, (p.add data).1.inv) ∧
      (∀ (fs : FStream) (n : Nat), (p.addStream fs n).1.inv) ∧
      (∀ n : Nat, (p.get n).1.inv) ∧
      p.reset.inv ∧
      ∀ s : zFile, ({ p with job := some (s.threadJob lib p) } : MemPool).finish.inv := by
  refine ⟨?_, ?_⟩
  · intro id C mode
    simp [MemPool.inv, MemPool.ctor]
  intro p hp
  obtain ⟨h1, h2, h3⟩ := hp
  have hs : sizeSub p.poolsize p.inb.length = p.poolsize - p.inb.length := by
    simp [sizeSub, h1]
  refine ⟨?_, ?_, ?_, ?_, ?_⟩
  · intro data
    unfold MemPool.add
    simp only [hs]
    split_ifs
    · exact ⟨h1, h2, h3⟩
    · refine ⟨?_, h2, h3⟩
      simp only [List.length_append, List.length_take]
      omega
  · intro fs n
    unfold MemPool.addStream
    simp only [hs]
    split_ifs
    · exact ⟨h1, h2, h3⟩
    · refine ⟨?_, h2, h3⟩
      have hr : (fs.read (min (p.poolsize - p.inb.length) n)).2.length
          ≤ min (p.poolsize - p.inb.length) n := by
        generalize min (p.poolsize - p.inb.length) n = m
        unfold FStream.read
        dsimp only
        split_ifs
        · exact List.length_take_le _ _
        · exact List.length_take_le _ _
        · exact Nat.zero_le _
      simp only [List.length_append]
      omega
  · intro n
    obtain ⟨-, -, hg⟩ := MemPool.get_spec p n h3
    rw [hg]
    refine ⟨h1, h2, ?_⟩
    show p.ptr + min n (p.outsize - p.ptr) ≤ p.outsize
    omega
  · simp [MemPool.inv, MemPool.reset]
  · intro s
    simp only [MemPool.finish, MemPool.inv]
    unfold zFile.threadJob
    cases hm : p.mode with
    | e_ZipPool =>
      simp only
      refine ⟨h1, ?_, Nat.zero_le _⟩
      unfold zFile.compressV
      split_ifs
      · split
        · exact compress_size_le lib hc _ _ _ _ h1
        · simp only [zFile.compress]
          omega
      · simp only [zFile.compress]
        omega
    | e_UnzipPool =>
      simp only
      refine ⟨?_, ?_, Nat.zero_le _⟩
      · simp only [List.length_take, List.length_drop]
        omega
      · unfold zFile.uncompressV
        split_ifs
        · split
          · unfold zFilelz4.uncompress
            exact Nat.le_trans
              (uncompressLoop_out_le lib hd _ _ _ _ 0 0 [] (Nat.zero_le _)) (by omega)
          · simp only [zFile.uncompress]
            omega
        · simp only [zFile.uncompress]
          omega

theorem libRun_compressBounded : libRun.compressBounded :=
  fun f src dst level => libRun_codec f src dst level

theorem libRun_decompressBounded : libRun.decompressBounded := by
  intro f src cap
  simp only [libRun]
  split
  · split_ifs with h
    · exact fun _ => h
    · intro h0
      omega
  · intro h0
    omega

/-- Witness of C30: the stand-in codec respects its bounds; a new pool of capacity 4
satisfies the invariant, and so does the pool after `add` of five bytes (four are
taken). -/
theorem C30_buffer_invariant_witness :
    libRun.compressBounded ∧ libRun.decompressBounded ∧
    ((MemPool.ctor 0 4 .e_ZipPool).add [1, 2, 3, 4, 5]).1.inb = [1, 2, 3, 4] ∧
    (MemPool.ctor 0 4 .e_ZipPool).inv ∧
    ((MemPool.ctor 0 4 .e_ZipPool).add [1, 2, 3, 4, 5]).1.inv :=
  ⟨libRun_compressBounded, libRun_decompressBounded, by decide,
   (C30_buffer_invariant libRun libRun_compressBounded libRun_decompressBounded).1 0 4
     .e_ZipPool,
   ((C30_buffer_invariant libRun libRun_compressBounded libRun_decompressBounded).2
     (MemPool.ctor 0 4 .e_ZipPool) (by decide)).1 [1, 2, 3, 4, 5]⟩

end Zcp
namespace Zcp

theorem MemPool.wait_id (lib : Lib) (p : MemPool) : (p.wait lib).1.id = p.id := by
  unfold MemPool.wait MemPool.finish
  split_ifs
  · rfl
  · rfl
  · cases p.job <;> rfl

theorem MemPool.run_id (lib : Lib) (j : Job) (p : MemPool) : (p.run lib j).1.id = p.id := by
  unfold MemPool.run
  split_ifs <;> rfl

theorem MemPool.add_id (p : MemPool) (data : List Byte) : (p.add data).1.id = p.id := by
  unfold MemPool.add
  dsimp only
  split_ifs <;> rfl

theorem MemPool.finish_id (p : MemPool) : p.finish.id = p.id := by
  unfold MemPool.finish
  cases p.job <;> rfl

/-- The identifiers of the free queue followed by those of the in-flight queue. -/
theorem flush_zFile_ids (lib : Lib) (s : zFile) :
    (zFile.flush_zFile lib s).zip_curpool = s.zip_curpool ∧
    (zFile.flush_zFile lib s).zip_listfree.map (fun p => p.id)
        ++ (zFile.flush_zFile lib s).zip_listused.map (fun p => p.id)
      = s.zip_listfree.map (fun p => p.id) ++ s.zip_listused.map (fun p => p.id) := by
  unfold zFile.flush_zFile
  split
  · exact ⟨rfl, rfl⟩
  · rename_i pool rest h
    rw [h]
    dsimp only
    refine ⟨?_, ?_⟩
    · split_ifs <;> rfl
    · have hf : (if (pool.wait lib).2 ≠ 0
          then s.setError .e_JobWaitError "Error joining write thread" else s).zip_listfree
          = s.zip_listfree := by
        split_ifs <;> rfl
      rw [hf]
      simp only [List.map_append, List.map_cons, List.map_nil, List.append_assoc,
        List.singleton_append, MemPool.reset, MemPool.wait_id]

/-- A call of `flush()` keeps the current pool and moves the oldest in-flight pool to the
end of the free queue: the identifiers of the free queue followed by those of the
in-flight queue are the same list. -/
theorem flush_ids (lib : Lib) (s : zFile) :
    (zFile.flush lib s).zip_curpool = s.zip_curpool ∧
    (zFile.flush lib s).zip_listfree.map (fun p => p.id)
        ++ (zFile.flush lib s).zip_listused.map (fun p => p.id)
      = s.zip_listfree.map (fun p => p.id) ++ s.zip_listused.map (fun p => p.id) := by
  unfold zFile.flush
  split_ifs
  · unfold zFile.flush_zFilelz4
    split
    · exact ⟨rfl, rfl⟩
    · rename_i pool rest h
      rw [h]
      have key : ∀ t : zFile, t.zip_curpool = s.zip_curpool →
          t.zip_listused = (pool.wait lib).1 :: rest → t.zip_listfree = s.zip_listfree →
          (zFile.flush_zFile lib t).zip_curpool = s.zip_curpool ∧
          (zFile.flush_zFile lib t).zip_listfree.map (fun p => p.id)
              ++ (zFile.flush_zFile lib t).zip_listused.map (fun p => p.id)
            = s.zip_listfree.map (fun p => p.id) ++ (pool :: rest).map (fun p => p.id) := by
        intro t t1 t2 t3
        obtain ⟨f1, f2⟩ := flush_zFile_ids lib t
        refine ⟨by rw [f1, t1], ?_⟩
        rw [f2, t2, t3]
        simp only [List.map_cons, MemPool.wait_id]
      dsimp only
      refine key _ ?_ rfl ?_
      · split_ifs <;> rfl
      · split_ifs <;> rfl
  · exact flush_zFile_ids lib s

theorem pools_ids (s : zFile) :
    s.pools.map (fun p => p.id)
      = s.zip_curpool.toList.map (fun p => p.id)
          ++ (s.zip_listfree.map (fun p => p.id) ++ s.zip_listused.map (fun p => p.id)) := by
  simp only [zFile.pools, List.map_append, List.append_assoc]

theorem flush_part (lib : Lib) (n : Nat) (s : zFile) (h : PoolPartition n s) :
    PoolPartition n (zFile.flush lib s) := by
  obtain ⟨f1, f2⟩ := flush_ids lib s
  obtain ⟨h1, h2⟩ := h
  refine ⟨by rw [f1]; exact h1, ?_⟩
  rw [pools_ids, f1, f2, ← pools_ids]
  exact h2

theorem nextPool_part (lib : Lib) (n : Nat) (s : zFile) (h : PoolPartition n s) :
    PoolPartition n (zFile.nextPool lib s) := by
  obtain ⟨h1, h2⟩ := h
  unfold zFile.nextPool
  split
  · rename_i hnone
    rw [hnone] at h1
    exact absurd h1 (by decide)
  rename_i c hcur
  dsimp only
  rw [pools_ids, hcur] at h2
  have key : ∀ t : zFile, t.zip_listfree ≠ [] →
      t.zip_listfree.map (fun p => p.id) ++ t.zip_listused.map (fun p => p.id)
        = s.zip_listfree.map (fun p => p.id)
            ++ (s.zip_listused ++ [c]).map (fun p => p.id) →
      PoolPartition n { t with zip_curpool := t.zip_listfree.head?,
                               zip_listfree := t.zip_listfree.tail } := by
    intro t hne heq
    obtain ⟨q, qs, hq⟩ : ∃ q qs, t.zip_listfree = q :: qs := by
      cases hl : t.zip_listfree with
      | nil => exact absurd hl hne
      | cons a as => exact ⟨a, as, rfl⟩
    refine ⟨?_, ?_⟩
    · show t.zip_listfree.head?.isSome = true
      rw [hq]
      rfl
    · rw [pools_ids]
      show (t.zip_listfree.head?.toList.map (fun p => p.id)
          ++ (t.zip_listfree.tail.map (fun p => p.id) ++ t.zip_listused.map (fun p => p.id))).Perm
            (List.range n)
      rw [hq] at heq ⊢
      simp only [List.head?_cons, Option.toList_some, List.tail_cons, List.map_cons,
        List.map_nil, List.singleton_append]
      simp only [List.map_cons, List.cons_append] at heq
      rw [heq]
      refine List.Perm.trans ?_ h2
      simp only [Option.toList_some, List.map_cons, List.map_nil, List.singleton_append,
        List.map_append]
      rw [← List.append_assoc]
      exact List.perm_append_singleton _ _
  split_ifs with hz
  · obtain ⟨f1, f2⟩ := flush_ids lib
      { s with zip_listused := s.zip_listused ++ [c], submitted := s.submitted ++ [c.inb] }
    obtain ⟨-, -, -, -, f5⟩ := flush_frame lib
      { s with zip_listused := s.zip_listused ++ [c], submitted := s.submitted ++ [c.inb] }
    exact key _ (f5 (by simp)) f2
  · refine key _ ?_ rfl
    intro h0
    apply hz
    show s.zip_listfree.length = 0
    rw [h0]
    rfl

end Zcp
namespace Zcp

theorem part_set_cur (n : Nat) (s : zFile) (c q : MemPool) (h : PoolPartition n s)
    (hcur : s.zip_curpool = some c) (hid : q.id = c.id) :
    PoolPartition n { s with zip_curpool := some q } := by
  obtain ⟨-, h2⟩ := h
  refine ⟨rfl, ?_⟩
  rw [pools_ids, hcur] at h2
  rw [pools_ids]
  simpa only [Option.toList_some, List.map_cons, List.map_nil, hid] using h2

theorem part_set_error (n : Nat) (s : zFile) (e : zFileError_t) (m : String)
    (h : PoolPartition n s) : PoolPartition n (s.setError e m) := h

theorem mwriteLoop_part (lib : Lib) (n : Nat) :
    ∀ (fuel : Nat) (s : zFile) (data : List Byte), PoolPartition n s →
      PoolPartition n (zFile.mwriteLoop lib fuel s data).1 := by
  intro fuel
  induction fuel with
  | zero => intro s data h; exact h
  | succ fuel ih =>
    intro s data h
    unfold zFile.mwriteLoop
    split_ifs with hd
    · split
      · exact h
      · rename_i c hcur
        dsimp only
        split_ifs with ha hr
        · split <;> exact h
        · exact ih _ _ (nextPool_part lib n _
            (part_set_cur n s c _ h hcur (MemPool.run_id lib _ c)))
        · exact ih _ _ (part_set_cur n s c _ h hcur (MemPool.add_id c data))
    · exact h

theorem mwrite_part (lib : Lib) (n : Nat) (s : zFile) (data : List Byte)
    (h : PoolPartition n s) : PoolPartition n (zFile.mwrite lib s data).1 := by
  unfold zFile.mwrite
  split_ifs
  · exact h
  · exact mwriteLoop_part lib n _ s data h

theorem flushLoop_part (lib : Lib) (n : Nat) :
    ∀ (fuel : Nat) (s : zFile), PoolPartition n s →
      PoolPartition n (zFile.flushLoop lib fuel s) := by
  intro fuel
  induction fuel with
  | zero => intro s h; exact h
  | succ fuel ih =>
    intro s h
    unfold zFile.flushLoop
    split_ifs
    · exact ih _ (flush_part lib n s h)
    · exact h

theorem close_part (lib : Lib) (n : Nat) (s : zFile) (h : PoolPartition n s) :
    PoolPartition n (zFile.close lib s) := by
  unfold zFile.close
  split_ifs
  · split
    · exact h
    · rename_i c hcur
      dsimp only
      apply flushLoop_part
      split_ifs
      · exact nextPool_part lib n _ (part_set_cur n s c _ h hcur (MemPool.run_id lib _ c))
      · exact h
  · exact h

theorem workerDone_part (n : Nat) (s : zFile) (id : Nat) (h : PoolPartition n s) :
    PoolPartition n (s.workerDone id) := by
  obtain ⟨h1, h2⟩ := h
  refine ⟨h1, ?_⟩
  rw [pools_ids] at h2 ⊢
  have hm : (s.zip_listused.map (fun p => if p.id = id then p.finish else p)).map
      (fun p => p.id) = s.zip_listused.map (fun p => p.id) := by
    rw [List.map_map]
    apply List.map_congr_left
    intro p _
    simp only [Function.comp]
    split_ifs
    · exact MemPool.finish_id p
    · rfl
  show (s.zip_curpool.toList.map (fun p => p.id) ++ (s.zip_listfree.map (fun p => p.id)
    ++ (s.zip_listused.map (fun p => if p.id = id then p.finish else p)).map
        (fun p => p.id))).Perm (List.range n)
  rw [hm]
  exact h2

theorem runEvents_part (lib : Lib) (n : Nat) :
    ∀ (evs : List WEvent) (s : zFile), PoolPartition n s →
      PoolPartition n (runEvents lib evs s) := by
  intro evs
  induction evs with
  | nil => intro s h; exact h
  | cons e es ih =>
    intro s h
    cases e with
    | mwrite data => exact ih _ (mwrite_part lib n s data h)
    | close => exact ih _ (close_part lib n s h)
    | workerDone id => exact ih _ (workerDone_part n s id h)

theorem mkPools_ids (C : Nat) :
    ∀ (k first : Nat), (zFile.mkPools C first k).map (fun p => p.id)
      = List.range' first k := by
  intro k
  induction k with
  | zero => intro first; rfl
  | succ k ih =>
    intro first
    simp only [zFile.mkPools, List.map_cons, ih, List.range'_succ]
    rfl

/-- The write-mode constructor with `n ≥ 1` buffers leaves buffer 0 current, buffers
`1 .. n-1` in the free queue and the in-flight queue empty. -/
theorem ctor_part (lib : Lib) (file : List Byte) (b level n : Nat) (hn : 1 ≤ n) :
    ∃ s0, zFilelz4.ctor lib (some file) .e_WriteMode b level n = some s0 ∧
      s0.zip_listused = [] ∧ PoolPartition n s0 := by
  obtain ⟨s0, hs0, hsub, hinv⟩ := ctor_write_inv lib file b level n hn
  obtain ⟨s1, hs1, -, hcur, hfree, -⟩ := ctor_write_blocsize lib file b level n
  have e1 : s1 = s0 := Option.some.inj (hs1.symm.trans hs0)
  rw [e1] at hcur hfree
  have hused : s0.zip_listused = [] := by
    have := hinv.sub
    rw [hsub, List.nil_append] at this
    exact List.map_eq_nil_iff.1 this.symm
  refine ⟨s0, hs0, hused, ?_⟩
  obtain ⟨k, rfl⟩ : ∃ k, n = k + 1 := ⟨n - 1, by omega⟩
  have hids := mkPools_ids (min b LZ4F_MAXBLOC_SIZE) (k + 1) 0
  refine ⟨by rw [hcur]; rfl, ?_⟩
  rw [pools_ids, hcur, hfree, hused]
  simp only [zFile.mkPools, List.head?_cons, Option.toList_some, List.tail_cons,
    List.map_cons, List.map_nil, List.append_nil, List.singleton_append]
  simp only [zFile.mkPools, List.map_cons] at hids
  rw [hids, List.range_eq_range']

/-- What the partition gives: the queues hold `n - 1` buffers, no identifier appears
twice, and every pool has an identifier below `n`. -/
theorem part_counts (n : Nat) (s : zFile) (h : PoolPartition n s) :
    s.zip_listfree.length + s.zip_listused.length = n - 1 ∧
    (s.pools.map (fun p => p.id)).Nodup ∧
    s.zip_listused.length ≤ n := by
  obtain ⟨h1, h2⟩ := h
  have hl := h2.length_eq
  have hnd : (s.pools.map (fun p => p.id)).Nodup := h2.nodup_iff.2 (List.nodup_range n)
  obtain ⟨c, hc⟩ := Option.isSome_iff_exists.1 h1
  rw [pools_ids, hc] at hl
  simp only [Option.toList_some, List.map_cons, List.map_nil, List.length_append,
    List.length_cons, List.length_nil, List.length_map, List.length_range] at hl
  exact ⟨by omega, hnd, by omega⟩

end Zcp
namespace Zcp

/-- C27 (pool partition and backpressure). A write-mode stream opened with `n ≥ 1`
buffers: after the constructor buffer 0 is current, the others are free and none is in
flight; the partition (each of the identifiers `0 .. n-1` exactly once among the current
pool, the free queue and the in-flight queue) holds after any sequence of `mwrite`,
`close` and worker ends, and it is preserved by `mwrite`, `nextPool`, `flush` (called
with a non-empty in-flight queue), `close` and the end of a worker; in a state with the
partition the two queues hold `n - 1` buffers together, no identifier appears twice, and
the in-flight queue holds at most `n` buffers even with the current one pushed on it. -/
theorem C27_pool_partition (lib : Lib) (file : List Byte) (b level n : Nat)
    (evs : List WEvent) (hn : 1 ≤ n) :
    ∃ s0, zFilelz4.ctor lib (some file) .e_WriteMode b level n = some s0 ∧
      s0.zip_listused = [] ∧ PoolPartition n s0 ∧
      PoolPartition n (runEvents lib evs s0) ∧
      ∀ s : zFile, PoolPartition n s →
        (∀ data, PoolPartition n (zFile.mwrite lib s data).1) ∧
        PoolPartition n (zFile.nextPool lib s) ∧
        (s.zip_listused ≠ [] → PoolPartition n (zFile.flush lib s)) ∧
        PoolPartition n (zFile.close lib s) ∧
        (∀ id, PoolPartition n (s.workerDone id)) ∧
        s.zip_listfree.length + s.zip_listused.length = n - 1 ∧
        (s.pools.map (fun p => p.id)).Nodup ∧
        s.zip_listused.length + 1 ≤ n := by
  obtain ⟨s0, hs0, hused, hp⟩ := ctor_part lib file b level n hn
  refine ⟨s0, hs0, hused, hp, runEvents_part lib n evs s0 hp, ?_⟩
  intro s h
  obtain ⟨c1, c2, -⟩ := part_counts n s h
  exact ⟨fun data => mwrite_part lib n s data h, nextPool_part lib n s h,
    fun _ => flush_part lib n s h, close_part lib n s h,
    fun id => workerDone_part n s id h, c1, c2, by omega⟩

/-- Witness of C27: two buffers of 4 bytes; after `mwrite` of nine bytes buffer 0 is
current again, buffer 1 is in flight and the free queue is empty. -/
theorem C27_pool_partition_witness :
    (zFilelz4.ctor libRun (some []) .e_WriteMode 4 1 2).map (fun s0 =>
      ((runEvents libRun [.mwrite [1, 2, 3, 4, 5, 6, 7, 8, 9]] s0).zip_curpool.map
          (fun p => p.id),
       (runEvents libRun [.mwrite [1, 2, 3, 4, 5, 6, 7, 8, 9]] s0).zip_listfree.map
          (fun p => p.id),
       (runEvents libRun [.mwrite [1, 2, 3, 4, 5, 6, 7, 8, 9]] s0).zip_listused.map
          (fun p => p.id)))
      = some (some 0, [], [1]) ∧
    ∃ s0, zFilelz4.ctor libRun (some []) .e_WriteMode 4 1 2 = some s0 ∧
      PoolPartition 2 (runEvents libRun [.mwrite [1, 2, 3, 4, 5, 6, 7, 8, 9]] s0) := by
  refine ⟨by decide, ?_⟩
  obtain ⟨s0, h0, -, -, h, -⟩ := C27_pool_partition libRun [] 4 1 2
    [.mwrite [1, 2, 3, 4, 5, 6, 7, 8, 9]] (by decide)
  exact ⟨s0, h0, h⟩

end Zcp
namespace Zcp

/-- The state `close()` leaves on a write-mode stream whose free pools are empty: no pool
in flight, and a current pool that is empty, or is the pool the call found and could not
launch. -/
theorem close_result_pool (lib : Lib) (s : zFile) (c : MemPool)
    (hfree : ∀ p ∈ s.zip_listfree, p.inb = [])
    (hmode : s.file_mode = .e_WriteMode) (hcur : s.zip_curpool = some c) :
    (zFile.close lib s).file_mode = .e_WriteMode ∧
    (zFile.close lib s).zip_listused = [] ∧
    ∃ q, (zFile.close lib s).zip_curpool = some q ∧
      (q.inb = [] ∨ ¬ (lib.pthread_attr_init = 0 ∧ lib.pthread_create = 0)) := by
  obtain ⟨r1, r2, -, -⟩ := close_result lib s c hfree hmode hcur
  refine ⟨r1, r2, ?_⟩
  unfold zFile.close
  rw [if_pos hmode]
  split
  · rename_i hnone
    rw [hcur] at hnone
    exact absurd hnone (by simp)
  rename_i cur2 hsome
  have hcc : c = cur2 := by
    rw [hcur] at hsome
    exact Option.some.inj hsome
  subst hcc
  dsimp only
  split_ifs with hrun
  · obtain ⟨-, -, q, n3, n4⟩ := nextPool_frame lib
      { s with zip_curpool := some (c.run lib (s.threadJob lib c)).1 } _ rfl
    obtain ⟨-, f2, -, -⟩ := flushLoop_frame lib
      (zFile.nextPool lib
        { s with zip_curpool := some (c.run lib (s.threadJob lib c)).1 }).zip_listused.length
      (zFile.nextPool lib { s with zip_curpool := some (c.run lib (s.threadJob lib c)).1 })
    refine ⟨q, by rw [f2, n3], Or.inl ?_⟩
    rcases n4 with h2 | h2
    · exact hfree q h2
    · exact h2
  · obtain ⟨-, f2, -, -⟩ := flushLoop_frame lib s.zip_listused.length s
    refine ⟨c, by rw [f2, hcur], ?_⟩
    by_cases hc : c.inb = []
    · exact Or.inl hc
    · right
      rintro ⟨h1, h2⟩
      apply hrun
      simp [MemPool.run, hc, h1, h2]

/-- A second `close()` changes nothing when the first one launched its pool, or when the
second one cannot launch either. -/
theorem close_close_calls (lib1 lib2 : Lib) (s : zFile)
    (hfree : ∀ p ∈ s.zip_listfree, p.inb = [])
    (hl : (lib1.pthread_attr_init = 0 ∧ lib1.pthread_create = 0) ∨
      ¬ (lib2.pthread_attr_init = 0 ∧ lib2.pthread_create = 0)) :
    zFile.close lib2 (zFile.close lib1 s) = zFile.close lib1 s := by
  by_cases hmode : s.file_mode = .e_WriteMode
  · cases hcur : s.zip_curpool with
    | none =>
      have h1 : ∀ lib, zFile.close lib s = s := by
        intro lib
        unfold zFile.close
        rw [if_pos hmode, hcur]
      rw [h1, h1]
    | some c =>
      obtain ⟨r1, r2, q, r4, r5⟩ := close_result_pool lib1 s c hfree hmode hcur
      generalize zFile.close lib1 s = r at *
      unfold zFile.close
      rw [if_pos r1]
      split
      · rfl
      · rename_i c2 hc2
        have : q = c2 := by
          rw [r4] at hc2
          exact Option.some.inj hc2
        subst this
        dsimp only
        have hno : ¬ (q.run lib2 (r.threadJob lib2 q)).2 = 0 := by
          by_cases hq : q.inb = []
          · simp [MemPool.run, hq]
          · have h2 : ¬ (lib2.pthread_attr_init = 0 ∧ lib2.pthread_create = 0) := by
              rcases hl with h | h
              · rcases r5 with h5 | h5
                · exact absurd h5 hq
                · exact absurd h h5
              · exact h
            unfold MemPool.run
            split_ifs <;> simp_all
        rw [if_neg hno, r2]
        rfl
  · have h1 : ∀ lib, zFile.close lib s = s := by
      intro lib
      unfold zFile.close
      rw [if_neg hmode]
    rw [h1, h1]

theorem runCalls_free :
    ∀ (evs : List (Lib × WEvent)) (s : zFile), (∀ p ∈ s.zip_listfree, p.inb = []) →
      ∀ p ∈ (runCalls evs s).zip_listfree, p.inb = [] := by
  intro evs
  induction evs with
  | nil =>
    intro s h
    exact h
  | cons e es ih =>
    intro s h
    obtain ⟨lib, e⟩ := e
    cases e with
    | mwrite data => exact ih _ (runEvents_free lib [WEvent.mwrite data] s h)
    | close => exact ih _ (runEvents_free lib [WEvent.close] s h)
    | workerDone id => exact ih _ h

theorem runCalls_part (n : Nat) :
    ∀ (evs : List (Lib × WEvent)) (s : zFile), PoolPartition n s →
      PoolPartition n (runCalls evs s) := by
  intro evs
  induction evs with
  | nil => intro s h; exact h
  | cons e es ih =>
    intro s h
    obtain ⟨lib, e⟩ := e
    cases e with
    | mwrite data => exact ih _ (mwrite_part lib n s data h)
    | close => exact ih _ (close_part lib n s h)
    | workerDone id => exact ih _ (workerDone_part n s id h)

theorem runCalls_const (lib : Lib) :
    ∀ (evs : List WEvent) (s : zFile),
      runCalls (evs.map (fun e => (lib, e))) s = runEvents lib evs s := by
  intro evs
  induction evs with
  | nil => intro s; rfl
  | cons e es ih =>
    intro s
    cases e <;> exact ih _

/-- The launch fails in the first close and succeeds in the second: the first close leaves
the 7 bytes of the frame header and the counter N at 0, the second writes the block of the 3
bytes. -/
theorem C15_counterexample :
    ((zFilelz4.ctor libRun (some []) .e_WriteMode 4 1 1).map (fun s0 =>
      let s := (zFile.mwrite libRun s0 [1, 2, 3]).1
      let c1 := zFile.close { libRun with pthread_create := 1 } s
      let c2 := zFile.close libRun c1
      (c1.file_stream.content.length, c1.zip_noffset, c2.file_stream.content.length,
        c2.zip_noffset, decide (c2 = c1))))
      = some (7, 0, 14, 3, false) := by
  decide

/-- C15 (idempotent close), amended. The stream is built with at least one pool and has
gone through any sequence of `mwrite` calls, `close` calls and worker completions, each
call with its own results of the thread operations. Then a current pool is set, and a
second `close()` leaves the whole state (file, queues, counters, index, error) as the first
one left it, provided the first close launched its pool (`pthread_attr_init` and
`pthread_create` returned 0 in it) or the second close cannot launch it either. -/
theorem C15_close_idempotent (lib0 lib1 lib2 : Lib) (file : List Byte)
    (b level nthread : Nat) (calls : List (Lib × WEvent)) (hn : 1 ≤ nthread)
    (hl : (lib1.pthread_attr_init = 0 ∧ lib1.pthread_create = 0) ∨
      ¬ (lib2.pthread_attr_init = 0 ∧ lib2.pthread_create = 0)) :
    ∃ s0, zFilelz4.ctor lib0 (some file) .e_WriteMode b level nthread = some s0 ∧
      (runCalls calls s0).zip_curpool.isSome = true ∧
      zFile.close lib2 (zFile.close lib1 (runCalls calls s0))
        = zFile.close lib1 (runCalls calls s0) := by
  obtain ⟨s0, hs0, -, -, hfree, -⟩ := ctor_write_blocsize lib0 file b level nthread
  obtain ⟨s1, hs1, -, hpart⟩ := ctor_part lib0 file b level nthread hn
  have e1 : s1 = s0 := Option.some.inj (hs1.symm.trans hs0)
  rw [e1] at hpart
  refine ⟨s0, hs0, (runCalls_part nthread calls s0 hpart).1, ?_⟩
  apply close_close_calls _ _ _ _ hl
  apply runCalls_free
  intro p hp
  rw [hfree] at hp
  exact (MemPool.reset_self p (mkPools_reset _ _ _ _ (List.mem_of_mem_tail hp))).2

theorem C15_close_idempotent_witness :
    ((zFilelz4.ctor libRun (some []) .e_WriteMode 4 1 1).map (fun s0 =>
      let c1 := zFile.close libRun (runCalls [(libRun, WEvent.mwrite [1, 2, 3])] s0)
      (c1.file_stream.content.length, c1.zip_noffset,
        decide (zFile.close libRun c1 = c1),
        decide (zFile.close { libRun with pthread_create := 1 } c1 = c1)))
      = some (14, 3, true, true)) ∧
    ∃ s0, zFilelz4.ctor libRun (some []) .e_WriteMode 4 1 1 = some s0 ∧
      (runCalls [(libRun, WEvent.mwrite [1, 2, 3])] s0).zip_curpool.isSome = true ∧
      zFile.close libRun (zFile.close libRun (runCalls [(libRun, WEvent.mwrite [1, 2, 3])] s0))
        = zFile.close libRun (runCalls [(libRun, WEvent.mwrite [1, 2, 3])] s0) :=
  ⟨by decide, C15_close_idempotent libRun libRun libRun [] 4 1 1
    [(libRun, WEvent.mwrite [1, 2, 3])] (by decide) (Or.inl (by decide))⟩

end Zcp
namespace Zcp

/-- The frame of a block of at most `C ≤ 4 MiB` bytes, for a block compressor that
respects its destination bound and delivers the bytes it reports: the frame has `out_len`
bytes, `out_len ≤ C + 4`, and the mask `0x7FFFFFFF` leaves `out_len` unchanged. -/
theorem blockFrame_length (lib : Lib) (hc : lib.compressBounded) (hf : lib.compressFills)
    (func : compressFunc_t) (level C : Nat) (inb : List Byte)
    (hC : C ≤ 4194304) (hin : inb.length ≤ C) :
    (blockFrame lib func level inb C).length = (zFilelz4.compress lib func level inb C).1 ∧
    (zFilelz4.compress lib func level inb C).1 &&& 0x7fffffff
      = (zFilelz4.compress lib func level inb C).1 ∧
    (zFilelz4.compress lib func level inb C).1 ≤ C + 4 := by
  have hle := compress_size_le lib hc func level C inb hin
  obtain ⟨hr0, hr1⟩ := hc func inb (toInt32 (sizeSub C 4)) level
  have hfill := hf func inb (toInt32 (sizeSub C 4)) level
  have hlt := toInt32_lt (sizeSub C 4)
  refine ⟨?_, ?_, hle⟩
  · unfold blockFrame
    rw [List.length_take]
    apply Nat.min_eq_left
    unfold zFilelz4.compress
    generalize toInt32 (sizeSub C 4) = dst at *
    generalize lib.compress func inb dst level = res at *
    obtain ⟨r, out⟩ := res
    simp only at hr0 hr1 hfill ⊢
    have hrlt : r < 18446744073709551616 := by omega
    rw [toSizeT_of_nonneg r hr0 hrlt]
    split_ifs with hz
    · simp only [List.length_append, le32_length]
      exact Nat.le_trans (Nat.mod_le _ _) (by omega)
    · simp only [List.length_append, le32_length]
      exact Nat.le_trans (Nat.mod_le _ _) (by omega)
  · rw [and_7fffffff]
    exact Nat.mod_eq_of_lt (by omega)

theorem frames_length (lib : Lib) (hc : lib.compressBounded) (hf : lib.compressFills)
    (func : compressFunc_t) (level C : Nat) (hC : C ≤ 4194304) :
    ∀ done : List (List Byte), (∀ x ∈ done, x.length ≤ C) →
      (done.flatMap (fun x => blockFrame lib func level x C)).length
        = sumZ lib func level C done := by
  intro done
  induction done with
  | nil => intro _; rfl
  | cons x t ih =>
    intro h
    obtain ⟨f1, f2, -⟩ := blockFrame_length lib hc hf func level C x hC
      (h x (List.mem_cons_self _ _))
    have hs : sumZ lib func level C (x :: t)
        = ((zFilelz4.compress lib func level x C).1 &&& 0x7fffffff)
            + sumZ lib func level C t := by simp [sumZ]
    rw [List.flatMap_cons, List.length_append, ih (fun y hy => h y (List.mem_cons_of_mem _ hy)),
      f1, hs, f2]

theorem ctor_write_hdr (lib : Lib) (file : List Byte) (b level nthread : Nat) :
    ∃ s0, zFilelz4.ctor lib (some file) .e_WriteMode b level nthread = some s0 ∧
      s0.file_stream.content.length = 7 := by
  have hmode : (zFilelz4.ctorInit (some file) .e_WriteMode b level nthread).file_mode
      = .e_WriteMode := by
    simp only [zFilelz4.ctorInit, zFile.ctor]
    split_ifs <;> rfl
  unfold zFilelz4.ctor
  dsimp only
  rw [if_pos hmode]
  refine ⟨_, rfl, ?_⟩
  simp [zFilelz4.writeHeader, zFilelz4.ctorInit, zFile.ctor, zFile.setError,
    FStream.openFile, FStream.fail, FStream.seekg, FStream.write, FStream.good, le32_length]

theorem libRun_compressFills : libRun.compressFills := by
  intro f src dst level
  cases src with
  | nil => exact Nat.le_refl _
  | cons x xs =>
    simp only [libRun]
    split_ifs
    · exact Nat.le_refl _
    · exact Nat.le_refl _

end Zcp
namespace Zcp

/-- C25 (offset accounting). A write-mode stream with at least one pool, joins that
succeed and a block compressor that respects its destination bound and delivers the bytes
it reports. After the constructor `N = 0` and `Z = 7`, the length of the header. After any
sequence of events `Z` is the number of bytes in the file and `N` the number of input
bytes of the blocks `done` flushed so far. A `flush` of the oldest in-flight pool adds its
`in_len` to `N` and `out_len & 0x7FFFFFFF` to `Z`; this is `out_len`, which is at most
`C + 4`, and the file grows by `out_len` bytes. -/
theorem C25_offset_accounting (lib : Lib) (file : List Byte) (b level n : Nat)
    (evs : List WEvent) (hn : 1 ≤ n) (hjoin : lib.pthread_join = 0)
    (hc : lib.compressBounded) (hf : lib.compressFills) :
    ∃ s0, ∃ done : List (List Byte),
      zFilelz4.ctor lib (some file) .e_WriteMode b level n = some s0 ∧
      s0.zip_noffset = 0 ∧ s0.zip_nzoffset = 7 ∧ s0.file_stream.content.length = 7 ∧
      (runEvents lib evs s0).submitted
        = done ++ (runEvents lib evs s0).zip_listused.map (fun p => p.inb) ∧
      (runEvents lib evs s0).zip_nzoffset
        = (runEvents lib evs s0).file_stream.content.length ∧
      (runEvents lib evs s0).zip_noffset = done.flatten.length ∧
      ∀ p rest, (runEvents lib evs s0).zip_listused = p :: rest →
        (zFile.flush lib (runEvents lib evs s0)).zip_noffset
          = (runEvents lib evs s0).zip_noffset + p.inb.length ∧
        (zFile.flush lib (runEvents lib evs s0)).zip_nzoffset
          = (runEvents lib evs s0).zip_nzoffset
              + ((p.wait lib).1.getOutsize &&& 0x7fffffff) ∧
        (p.wait lib).1.getOutsize &&& 0x7fffffff = (p.wait lib).1.getOutsize ∧
        (p.wait lib).1.getOutsize ≤ min b LZ4F_MAXBLOC_SIZE + 4 ∧
        (zFile.flush lib (runEvents lib evs s0)).file_stream.content.length
          = (runEvents lib evs s0).file_stream.content.length
              + (p.wait lib).1.getOutsize := by
  obtain ⟨s0, hs0, -, -, hinv0⟩ := ctor_sinv lib file b level n hn
  obtain ⟨s1, hs1, hlen0⟩ := ctor_write_hdr lib file b level n
  have e1 : s1 = s0 := Option.some.inj (hs1.symm.trans hs0)
  rw [e1] at hlen0
  have hC : min b LZ4F_MAXBLOC_SIZE ≤ 4194304 := by
    simp only [LZ4F_MAXBLOC_SIZE, LZ4F_BLOC7_SIZE]
    omega
  obtain ⟨d1, h1, -, -⟩ := runEvents_sinv lib _ (level % 256) _ _ hjoin evs s0 [] hinv0
  have hblocks : ∀ x ∈ d1, x.length ≤ min b LZ4F_MAXBLOC_SIZE := by
    intro x hx
    exact (h1.blocks x (by rw [h1.base.sub]; exact List.mem_append_left _ hx)).2
  have hZ : (runEvents lib evs s0).zip_nzoffset
      = (runEvents lib evs s0).file_stream.content.length := by
    rw [h1.base.nzoff, h1.base.content, List.length_append, hlen0,
      frames_length lib hc hf _ (level % 256) _ hC d1 hblocks]
  refine ⟨s0, d1, hs0, ?_, ?_, hlen0, h1.base.sub, hZ, ?_, ?_⟩
  · have := hinv0.base.noff
    rw [this]
    rfl
  · have := hinv0.base.nzoff
    rw [this]
    rfl
  · rw [h1.base.noff, sumN_eq_length]
  · intro p rest hu
    have he := flush_eq lib _ (level % 256) _ _ _ d1 p rest hjoin h1.base hu
    have hp : InFlight lib _ (level % 256) (min b LZ4F_MAXBLOC_SIZE) p :=
      h1.base.used p (by rw [hu]; exact List.mem_cons_self _ _)
    obtain ⟨-, -, -, -, -, -, hwo, -⟩ := wait_inFlight lib _ (level % 256) _ p hjoin hp
    have hpl : p.inb.length ≤ min b LZ4F_MAXBLOC_SIZE := by
      apply (h1.blocks p.inb _).2
      rw [h1.base.sub, hu]
      simp
    obtain ⟨f1, f2, f3⟩ := blockFrame_length lib hc hf _ (level % 256) _ p.inb hC hpl
    rw [he, MemPool.getOutsize, hwo]
    refine ⟨rfl, rfl, f2, f3, ?_⟩
    show ((runEvents lib evs s0).file_stream.write _).content.length = _
    rw [FStream.write_good _ _ h1.base.good]
    simp only [List.length_append, f1]

/-- Witness of C25: two pools of 4 bytes and nine bytes written; one block of 4 bytes is
flushed (stored raw, 8 bytes), so `N = 4` and `Z = 15`, the length of the file. -/
theorem C25_offset_accounting_witness :
    (zFilelz4.ctor libRun (some []) .e_WriteMode 4 1 2).map (fun s0 =>
      ((runEvents libRun [.mwrite [1, 2, 3, 4, 5, 6, 7, 8, 9]] s0).zip_noffset,
       (runEvents libRun [.mwrite [1, 2, 3, 4, 5, 6, 7, 8, 9]] s0).zip_nzoffset,
       (runEvents libRun [.mwrite [1, 2, 3, 4, 5, 6, 7, 8, 9]]
          s0).file_stream.content.length))
      = some (4, 15, 15) ∧
    ∃ s0, zFilelz4.ctor libRun (some []) .e_WriteMode 4 1 2 = some s0 ∧
      (runEvents libRun [.mwrite [1, 2, 3, 4, 5, 6, 7, 8, 9]] s0).zip_nzoffset
        = (runEvents libRun [.mwrite [1, 2, 3, 4, 5, 6, 7, 8, 9]]
            s0).file_stream.content.length := by
  refine ⟨by decide, ?_⟩
  obtain ⟨s0, done, h0, -, -, -, -, hz, -⟩ := C25_offset_accounting libRun [] 4 1 2
    [.mwrite [1, 2, 3, 4, 5, 6, 7, 8, 9]] (by decide) rfl libRun_compressBounded
    libRun_compressFills
  exact ⟨s0, h0, hz⟩

end Zcp
namespace Zcp

theorem flush_zFile_index (lib : Lib) (s : zFile) (hu : s.zip_listused ≠ []) :
    (zFile.flush_zFile lib s).listindex
      = setInsert (IndexEntry_t.ctor s.zip_noffset 0 s.zip_nzoffset 0) s.listindex := by
  unfold zFile.flush_zFile
  split
  · rename_i h
    exact absurd h hu
  · dsimp only
    split_ifs <;> rfl

end Zcp
namespace Zcp

theorem parsedIndex_getLast (lastbloc : Nat) (es : List IndexEntry_t) (l : IndexEntry_t)
    (h : es.getLast? = some l) :
    (parsedIndex lastbloc es).getLast? = some (lastEntry lastbloc l) := by
  simp only [parsedIndex, h, List.getLast?_append, List.getLast?_singleton]
  rfl

/-- C24 (last index entry). A write session with at least one pool, a block size `b ≥ 1`
and thread operations that succeed, in which a non-empty input is written and the
serialised index stays below `2^32` bytes and fits the room the stack has left for the
array of `readTail`. The produced file is
`pre ++ 50 2A 4D 18 ++ post`, where `pre` is the header, the block frames, the end mark and
the checksum, so the skippable frame begins at `tail_start = |pre|`. The read-mode
constructor returns, and the last parsed entry has the `zoff` of the last entry `l` the
writer stored and `zsize = (tail_start + 8) - zoff` (in `size_t`, stored in 32 bits):
eight bytes more than `tail_start - zoff`. -/
theorem C24_last_entry_zsize (lib : Lib) (file : List Byte) (b level nthread : Nat)
    (evs : List WEvent) (s0 : zFile) (b2 l2 n2 : Nat)
    (hs0 : zFilelz4.ctor lib (some file) .e_WriteMode b level nthread = some s0)
    (hn : 1 ≤ nthread) (hb : 1 ≤ b)
    (hattr : lib.pthread_attr_init = 0) (hcreate : lib.pthread_create = 0)
    (hjoin : lib.pthread_join = 0)
    (hX : bytesWritten evs ≠ [])
    (hS : 16 + (zFile.close lib (runEvents lib evs s0)).listindex.length * 8 + 8
            < 4294967296)
    (hstack : 16 + (zFile.close lib (runEvents lib evs s0)).listindex.length * 8 + 8
            ≤ lib.stack) :
    ∃ r e l pre post,
      zFilelz4.ctor lib
          (some (zFilelz4.dtor lib (runEvents lib evs s0)).file_stream.content)
          .e_ReadMode b2 l2 n2 = some r ∧
      (zFilelz4.dtor lib (runEvents lib evs s0)).file_stream.content
        = pre ++ (le32 0x184D2A50 ++ post) ∧
      pre.length = (zFile.close lib (runEvents lib evs s0)).file_stream.content.length + 8 ∧
      (zFile.close lib (runEvents lib evs s0)).listindex.getLast? = some l ∧
      r.listindex.getLast? = some e ∧
      e.offset.z = l.offset.z ∧
      e.size.z = sizeSub (pre.length + 8) l.offset.z % 4294967296 ∧
      (l.offset.z ≤ pre.length → pre.length + 8 < 4294967296 →
        e.size.z = pre.length - l.offset.z + 8) := by
  obtain ⟨d2, h2, hflag, hd, ha, hfile⟩ :=
    session_final lib file b level nthread evs s0 hs0 hn hb hattr hcreate hjoin
  have hne : d2 ≠ [] := by
    intro h0
    rw [h0] at ha
    exact hX ha.symm
  obtain ⟨r, hr, hri, hoff, -, hlt⟩ := written_reader lib _ (level % 256) _ _ _ d2 h2 hflag hne
    hS hstack b2 l2 n2
  obtain ⟨hwc, -⟩ := writeTail_content lib _ h2.base.good hflag
  have hne2 : (zFile.close lib (runEvents lib evs s0)).listindex ≠ [] := by
    intro h0
    have hidx := h2.base.index
    rw [h0] at hidx
    have hi : indexOffsets lib
        (if level % 256 < min_HClevel then compressFunc_t.compress_fast_extState
         else compressFunc_t.compress_HC_extStateHC) (level % 256)
        (min b LZ4F_MAXBLOC_SIZE) 0 7 d2 ≠ [] := by
      intro h1
      have := congrArg List.length h1
      rw [indexOffsets_length] at this
      exact hne (List.length_eq_zero.1 this)
    exact setOffsets_ne_nil _ hi hidx.symm
  obtain ⟨l, hl⟩ : ∃ l, (zFile.close lib (runEvents lib evs s0)).listindex.getLast? = some l := by
    cases hg : (zFile.close lib (runEvents lib evs s0)).listindex.getLast? with
    | none => exact absurd (List.getLast?_eq_none_iff.1 hg) hne2
    | some l => exact ⟨l, rfl⟩
  obtain ⟨-, hlz⟩ := hlt l (List.mem_of_getLast?_eq_some hl)
  have hez : (lastEntry ((zFile.close lib (runEvents lib evs s0)).file_stream.content.length
      + 16) l).offset.z = l.offset.z := by
    show l.offset.z % 4294967296 = l.offset.z
    exact Nat.mod_eq_of_lt hlz
  have hpl : ((zFile.close lib (runEvents lib evs s0)).file_stream.content ++
      (le32 0 ++ le32 (XXH32_digest lib (zFile.close lib (runEvents lib evs s0)).xxh32state))).length
      = (zFile.close lib (runEvents lib evs s0)).file_stream.content.length + 8 := by
    simp only [List.length_append, le32_length]
  refine ⟨r, lastEntry ((zFile.close lib (runEvents lib evs s0)).file_stream.content.length
      + 16) l, l,
    (zFile.close lib (runEvents lib evs s0)).file_stream.content ++
      (le32 0 ++ le32 (XXH32_digest lib (zFile.close lib (runEvents lib evs s0)).xxh32state)),
    le32 (16 + (zFile.close lib (runEvents lib evs s0)).listindex.length * 8 + 8) ++
      (le32 0xCAFEDECA ++ le32 1 ++ le32 0 ++
        le32 ((zFile.close lib (runEvents lib evs s0)).listindex.length * 8)) ++
      (zFile.close lib (runEvents lib evs s0)).listindex.flatMap
        (fun e => le32 e.offset.n ++ le32 e.offset.z) ++
      (le32 0x184D2A50 ++
        le32 (16 + (zFile.close lib (runEvents lib evs s0)).listindex.length * 8 + 8)),
    by rw [hfile]; exact hr, ?_, hpl, hl, ?_, hez, ?_, ?_⟩
  · rw [hfile, hwc]
    simp only [List.append_assoc]
  · rw [hri]
    exact parsedIndex_getLast _ _ l hl
  · rw [hpl]
    rfl
  · intro h1 h3
    rw [hpl] at h1 h3 ⊢
    show sizeSub _ l.offset.z % 4294967296 = _
    unfold sizeSub
    rw [if_pos (by omega), Nat.mod_eq_of_lt (by omega)]
    omega

/-- Witness of C24: "hello world", one pool of 64 KiB, block stored raw. The file has 70
bytes and the skippable frame begins at offset 30, but the parsed entry has
`zsize = 31 = (30 + 8) - 7`, not `30 - 7 = 23`. -/
theorem C24_last_entry_zsize_witness :
    (zFilelz4.ctor libRun (some []) .e_WriteMode 65536 1 1).bind (fun s0 =>
      (zFilelz4.ctor libRun
        (some (zFilelz4.dtor libRun (runEvents libRun [.mwrite helloWorld]
          s0)).file_stream.content) .e_ReadMode 65536 1 1).map (fun r =>
          ((zFilelz4.dtor libRun (runEvents libRun [.mwrite helloWorld]
              s0)).file_stream.content.length,
           ((zFilelz4.dtor libRun (runEvents libRun [.mwrite helloWorld]
              s0)).file_stream.content.drop 30).take 4,
           r.listindex.map (fun e => (e.offset.z, e.size.z)))))
      = some (70, [0x50, 0x2A, 0x4D, 0x18], [(7, 31)]) ∧
    ∃ s0 r e pre post,
      zFilelz4.ctor libRun (some []) .e_WriteMode 65536 1 1 = some s0 ∧
      zFilelz4.ctor libRun
          (some (zFilelz4.dtor libRun (runEvents libRun [.mwrite helloWorld]
            s0)).file_stream.content) .e_ReadMode 65536 1 1 = some r ∧
      (zFilelz4.dtor libRun (runEvents libRun [.mwrite helloWorld] s0)).file_stream.content
        = pre ++ (le32 0x184D2A50 ++ post) ∧
      r.listindex.getLast? = some e ∧
      e.size.z = sizeSub (pre.length + 8) e.offset.z % 4294967296 := by
  refine ⟨by decide, ?_⟩
  obtain ⟨s0, hs0, -⟩ := ctor_sinv libRun [] 65536 1 1 (by decide)
  have hc : (zFilelz4.ctor libRun (some []) .e_WriteMode 65536 1 1).map (fun s0 =>
      decide (16 + (zFile.close libRun (runEvents libRun [.mwrite helloWorld]
          s0)).listindex.length * 8 + 8 < 4294967296) &&
      decide (16 + (zFile.close libRun (runEvents libRun [.mwrite helloWorld]
          s0)).listindex.length * 8 + 8 ≤ libRun.stack)) = some true := by decide
  rw [hs0] at hc
  simp only [Option.map_some', Option.some.injEq, Bool.and_eq_true, decide_eq_true_eq] at hc
  obtain ⟨r, e, l, pre, post, hr, hF, -, -, he, hz, hsz, -⟩ := C24_last_entry_zsize libRun []
    65536 1 1 [.mwrite helloWorld] s0 65536 1 1 hs0 (by decide) (by decide) rfl rfl rfl
    (by decide) hc.1 hc.2
  exact ⟨s0, r, e, pre, post, hs0, hr, hF, he, by rw [hz]; exact hsz⟩

end Zcp
namespace Zcp

/-- C23, counterexample. A stream with one pool of capacity `C = 5` whose pool holds the
block `07 07 07 07 07`: called with the destination length 5 the stand-in codec packs the
block into 2 bytes, but the worker stores the block raw (`*preturn = 0`, `out_len = 9`),
because `zFilelz4::compress` passes the destination length `C - 4 = 1`. -/
theorem C23_counterexample :
    libRun.compress .compress_fast_extState [7, 7, 7, 7, 7] 5 1 = (2, [5, 7]) ∧
    toInt32 (sizeSub 5 4) = 1 ∧
    (zFilelz4.ctor libRun (some []) .e_WriteMode 5 1 1).map (fun s0 =>
      s0.zip_curpool.map (fun p =>
        (p.poolsize,
         (zFile.threadJob libRun s0 { p with inb := [7, 7, 7, 7, 7] }).outsize,
         (zFile.threadJob libRun s0 { p with inb := [7, 7, 7, 7, 7] }).out,
         (zFile.threadJob libRun s0 { p with inb := [7, 7, 7, 7, 7] }).zreturn)))
      = some (some (5, 9, [5, 0, 0, 0x80, 7, 7, 7, 7, 7], 0)) := by
  refine ⟨by decide, by decide, by decide⟩

/-- C23 (codec destination bound, amended). The worker of a zip pool of capacity
`C ≤ 4 MiB` of a `zFilelz4` stream calls the selected codec once, with the input of the pool
as source, the destination length `C - 4` and the level of the stream: two libraries whose
codecs agree on this call give the same job result. When the stored `size_t` result is not
0, the output buffer holds the length word in `out[0..4)` and the bytes of the codec from
`out[4]` on. -/
theorem C23_codec_destination (lib lib2 : Lib) (s : zFile) (p : MemPool)
    (f : compressFunc_t) (hft : s.file_type = .e_lz4) (hfn : s.lz4_compressfunc = some f)
    (hm : p.mode = .e_ZipPool) (hC : p.poolsize ≤ 4194304)
    (hcall : lib2.compress f p.inb ((p.poolsize : Int) - 4) s.zip_level
      = lib.compress f p.inb ((p.poolsize : Int) - 4) s.zip_level) :
    zFile.threadJob lib2 s p = zFile.threadJob lib s p ∧
    (toSizeT (lib.compress f p.inb ((p.poolsize : Int) - 4) s.zip_level).1 ≠ 0 →
      (zFile.threadJob lib s p).out.take 4
        = le32 (toSizeT (lib.compress f p.inb ((p.poolsize : Int) - 4) s.zip_level).1) ∧
      (zFile.threadJob lib s p).out.drop 4
        = (lib.compress f p.inb ((p.poolsize : Int) - 4) s.zip_level).2) := by
  have hd := toInt32_sizeSub_le p.poolsize hC
  have hj : ∀ l : Lib, zFile.threadJob l s p
      = { outsize := (zFilelz4.compress l f s.zip_level p.inb p.poolsize).1,
          out := (zFilelz4.compress l f s.zip_level p.inb p.poolsize).2.1,
          zreturn := (zFilelz4.compress l f s.zip_level p.inb p.poolsize).2.2,
          inb := p.inb } := by
    intro l
    simp only [zFile.threadJob, hm, zFile.compressV, hft, if_true, hfn]
  have hcz : zFilelz4.compress lib2 f s.zip_level p.inb p.poolsize
      = zFilelz4.compress lib f s.zip_level p.inb p.poolsize := by
    unfold zFilelz4.compress
    rw [hd, hcall]
  refine ⟨by rw [hj lib2, hj lib, hcz], ?_⟩
  intro hz
  rw [hj lib]
  unfold zFilelz4.compress
  rw [hd]
  simp only [hz, if_false]
  exact ⟨List.take_left' (le32_length _), List.drop_left' (le32_length _)⟩

/-- Witness of C23: a pool of capacity 6 holding `07 07 07 07 07`; the codec is called with
the destination length 2 and packs the block; a codec that differs from it for every other
destination length gives the same job. -/
theorem C23_codec_destination_witness :
    (zFile.threadJob libRun
        { writerWith [] with lz4_compressfunc := some .compress_fast_extState }
        { MemPool.ctor 0 6 .e_ZipPool with inb := [7, 7, 7, 7, 7] }).out
      = [2, 0, 0, 0, 5, 7] ∧
    zFile.threadJob
        { libRun with compress := fun f src dst level =>
            if dst = 2 then libRun.compress f src dst level else (7, []) }
        { writerWith [] with lz4_compressfunc := some .compress_fast_extState }
        { MemPool.ctor 0 6 .e_ZipPool with inb := [7, 7, 7, 7, 7] }
      = zFile.threadJob libRun
        { writerWith [] with lz4_compressfunc := some .compress_fast_extState }
        { MemPool.ctor 0 6 .e_ZipPool with inb := [7, 7, 7, 7, 7] } := by
  refine ⟨by decide, ?_⟩
  exact (C23_codec_destination libRun
    { libRun with compress := fun f src dst level =>
        if dst = 2 then libRun.compress f src dst level else (7, []) }
    { writerWith [] with lz4_compressfunc := some .compress_fast_extState }
    { MemPool.ctor 0 6 .e_ZipPool with inb := [7, 7, 7, 7, 7] }
    .compress_fast_extState (by decide) rfl rfl (by decide) (by decide)).1

end Zcp
namespace Zcp

/-- The loop of `zFilelz4::uncompress` positioned at the start of a sequence of
well-formed frames that is followed by more input: it decodes the frames and goes on
behind them. -/
theorem uncompressLoop_frames_tail (lib : Lib) (func : uncompressFunc_t) (outsize : Nat)
    (hout : outsize < 2147483648) (tail : List Byte) :
    ∀ (fs : List Frame) (pre acc : List Byte) (fuel : Nat),
      (∀ f ∈ fs, f.ok lib func) →
      acc.length + (framesPlain fs).length ≤ outsize →
      zFilelz4.uncompressLoop lib func (pre ++ framesBytes fs ++ tail) outsize
          (fs.length + fuel) pre.length acc.length acc
        = zFilelz4.uncompressLoop lib func (pre ++ framesBytes fs ++ tail) outsize fuel
            (pre ++ framesBytes fs).length (acc ++ framesPlain fs).length
            (acc ++ framesPlain fs) := by
  intro fs
  induction fs with
  | nil =>
    intro pre acc fuel _ _
    have hb : framesBytes [] = [] := rfl
    have hp : framesPlain [] = [] := rfl
    rw [hb, hp, List.append_nil, List.append_nil, List.length_nil, Nat.zero_add]
  | cons f fs ih =>
    intro pre acc fuel hok hsz
    obtain ⟨hp1, hp2, hraw, hzip⟩ := hok f (List.mem_cons_self _ _)
    have hfuel : (f :: fs).length + fuel = (fs.length + fuel) + 1 := by
      rw [List.length_cons]
      omega
    rw [hfuel]
    rw [framesPlain_cons, List.length_append] at hsz
    have hinb : pre ++ framesBytes (f :: fs) ++ tail
        = (pre ++ f.bytes) ++ framesBytes fs ++ tail := by
      rw [framesBytes_cons]
      simp only [List.append_assoc]
    have hinb2 : pre ++ framesBytes (f :: fs) = (pre ++ f.bytes) ++ framesBytes fs := by
      rw [framesBytes_cons, List.append_assoc]
    have hlen : (pre ++ framesBytes (f :: fs) ++ tail).length
        = pre.length + (4 + f.payload.length) + (framesBytes fs).length + tail.length := by
      rw [hinb, List.length_append, List.length_append, List.length_append,
        Frame.bytes_length]
    have hdrop : (pre ++ framesBytes (f :: fs) ++ tail).drop pre.length
        = f.bytes ++ (framesBytes fs ++ tail) := by
      rw [framesBytes_cons]
      simp only [List.append_assoc]
      exact List.drop_left' rfl
    have hdrop4 : (pre ++ framesBytes (f :: fs) ++ tail).drop (pre.length + 4)
        = f.payload ++ (framesBytes fs ++ tail) := by
      rw [← List.drop_drop, hdrop, Frame.bytes, List.append_assoc]
      exact List.drop_left' (le32_length _)
    have hpay : ((pre ++ framesBytes (f :: fs) ++ tail).drop (pre.length + 4)).take
        f.payload.length = f.payload := by
      rw [hdrop4]
      exact List.take_left' rfl
    have hword : le32toh ((pre ++ framesBytes (f :: fs) ++ tail).drop pre.length)
        = (if f.raw then f.payload.length + 2147483648 else f.payload.length) := by
      rw [hdrop, Frame.bytes, List.append_assoc, le32toh_le32_append]
      split_ifs <;> omega
    have hzb : (le32toh ((pre ++ framesBytes (f :: fs) ++ tail).drop pre.length))
        &&& 0x7fffffff = f.payload.length := by
      rw [hword, and_7fffffff]
      split_ifs <;> omega
    have hflag : decide (2147483648
        ≤ le32toh ((pre ++ framesBytes (f :: fs) ++ tail).drop pre.length)) = f.raw := by
      rw [hword]
      cases hr : f.raw
      · simp only [Bool.false_eq_true, if_false, decide_eq_false_iff_not]
        omega
      · simp only [if_true, decide_eq_true_eq]
        omega
    have hpre2 : pre.length + f.payload.length + 4 = (pre ++ f.bytes).length := by
      rw [List.length_append, Frame.bytes_length]
      omega
    rw [zFilelz4.uncompressLoop]
    have c1 : pre.length + 4 < (pre ++ framesBytes (f :: fs) ++ tail).length := by
      rw [hlen]
      omega
    have c2 : ¬ (pre.length + f.payload.length + 4
        > (pre ++ framesBytes (f :: fs) ++ tail).length) := by
      rw [hlen]
      omega
    have c3 : ¬ (f.payload.length = LZ4S_EOS) := by
      simp only [LZ4S_EOS]
      omega
    simp only [c1, if_true, hzb, c2, if_false, c3, hflag, hpay]
    cases hr : f.raw
    · obtain ⟨hl1, hdec⟩ := hzip hr
      have hcap : toInt32 (sizeSub outsize acc.length)
          = ((outsize - acc.length : Nat) : Int) := by
        have : sizeSub outsize acc.length = outsize - acc.length := by
          simp only [sizeSub]
          rw [if_pos (by omega)]
        rw [this, toInt32_small _ (by omega)]
      obtain ⟨d1, d2⟩ := hdec (toInt32 (sizeSub outsize acc.length)) (by
        rw [hcap]
        omega)
      have c4 : ¬ ((f.plain.length : Int) ≤ 0) := by omega
      simp only [Bool.false_eq_true, if_false, d1, c4, Int.toNat_ofNat, d2]
      rw [hpre2, hinb, hinb2]
      have hacc : acc.length + f.plain.length = (acc ++ f.plain).length := by
        rw [List.length_append]
      rw [hacc, ih (pre ++ f.bytes) (acc ++ f.plain) fuel
        (fun g hg => hok g (List.mem_cons_of_mem _ hg))
        (by rw [List.length_append]; omega)]
      simp only [framesPlain_cons, List.append_assoc]
    · have hpl := hraw hr
      rw [hpl] at hsz
      have c4 : ¬ (acc.length + f.payload.length > outsize) := by omega
      simp only [if_true, c4, if_false]
      rw [hpre2, hinb, hinb2]
      have hacc : acc.length + f.payload.length = (acc ++ f.payload).length := by
        rw [List.length_append]
      rw [hacc, ih (pre ++ f.bytes) (acc ++ f.payload) fuel
        (fun g hg => hok g (List.mem_cons_of_mem _ hg))
        (by rw [List.length_append]; omega)]
      simp only [framesPlain_cons, hpl, List.append_assoc]

/-- One call of `zFilelz4::uncompress` on well-formed frames followed by `tail`: the loop
goes on behind the frames with at least one turn left. -/
theorem uncompress_frames_tail (lib : Lib) (func : uncompressFunc_t) (C : Nat)
    (hC : C < 2147483648) (fs : List Frame) (tail : List Byte)
    (hok : ∀ f ∈ fs, f.ok lib func) (hsz : (framesPlain fs).length ≤ C) :
    ∃ fuel, zFilelz4.uncompressLoop lib func (framesBytes fs ++ tail) C
        ((framesBytes fs ++ tail).length + 1) 0 0 []
      = zFilelz4.uncompressLoop lib func (framesBytes fs ++ tail) C (fuel + 1)
          (framesBytes fs).length (framesPlain fs).length (framesPlain fs) := by
  have hge := framesBytes_length_ge fs
  refine ⟨(framesBytes fs ++ tail).length - fs.length, ?_⟩
  have hf : (framesBytes fs ++ tail).length + 1
      = fs.length + ((framesBytes fs ++ tail).length - fs.length + 1) := by
    rw [List.length_append]
    omega
  have h := uncompressLoop_frames_tail lib func C hC tail fs [] []
    ((framesBytes fs ++ tail).length - fs.length + 1) hok (by simpa using hsz)
  simp only [List.nil_append, List.length_nil] at h
  rw [hf]
  exact h

end Zcp
namespace Zcp

/-- C22 (decode loop bound). The loop of `zFilelz4::uncompress` runs while
`inptrsz + 4 < insize`: for an input of well-formed frames (plaintexts fitting the output
capacity `C < 2^31`) that ends with the zero end-of-stream word, the pass decodes the
frames and stops in front of the word with the return code 0 and 4 remaining bytes - it
does not return 3; it returns 3 when at least one more byte follows the word. -/
theorem C22_decode_loop_bound (lib : Lib) (func : uncompressFunc_t) (fs : List Frame)
    (C : Nat) (x : Byte) (rest : List Byte) (hok : ∀ f ∈ fs, f.ok lib func)
    (hsz : (framesPlain fs).length ≤ C) (hC : C < 2147483648) :
    zFilelz4.uncompress lib func (framesBytes fs ++ le32 0) C
      = ((framesPlain fs).length, framesPlain fs, 0, 4) ∧
    zFilelz4.uncompress lib func (framesBytes fs ++ (le32 0 ++ x :: rest)) C
      = ((framesPlain fs).length, framesPlain fs, 3, 0) := by
  constructor
  · obtain ⟨fuel, h⟩ := uncompress_frames_tail lib func C hC fs (le32 0) hok hsz
    unfold zFilelz4.uncompress
    rw [h, zFilelz4.uncompressLoop]
    have c1 : ¬ ((framesBytes fs).length + 4 < (framesBytes fs ++ le32 0).length) := by
      rw [List.length_append, le32_length]
      omega
    rw [if_neg c1]
    simp only [List.length_append, le32_length]
    have : (framesBytes fs).length + 4 - (framesBytes fs).length = 4 := by omega
    rw [this]
  · obtain ⟨fuel, h⟩ := uncompress_frames_tail lib func C hC fs (le32 0 ++ x :: rest) hok hsz
    unfold zFilelz4.uncompress
    rw [h, zFilelz4.uncompressLoop]
    have hlen : (framesBytes fs ++ (le32 0 ++ x :: rest)).length
        = (framesBytes fs).length + 4 + (rest.length + 1) := by
      simp only [List.length_append, le32_length, List.length_cons]
      omega
    have c1 : (framesBytes fs).length + 4 < (framesBytes fs ++ (le32 0 ++ x :: rest)).length := by
      rw [hlen]
      omega
    have hw : le32toh ((framesBytes fs ++ (le32 0 ++ x :: rest)).drop (framesBytes fs).length)
        = 0 := by
      rw [List.drop_left' rfl, le32toh_le32_append]
    have c2 : ¬ ((framesBytes fs).length + 0 + 4
        > (framesBytes fs ++ (le32 0 ++ x :: rest)).length) := by
      rw [hlen]
      omega
    rw [if_pos c1]
    simp only [hw, Nat.zero_and]
    rw [if_neg c2]
    simp only [LZ4S_EOS, if_true, Nat.sub_self]

/-- Witness of C22: the input `00 00 00 00` gives the return code 0 and 4 remaining
bytes; the raw frame `02 00 00 80 41 42` followed by the end mark gives `41 42`, the code 0
and 4 remaining bytes; with one more byte behind the end mark the code is 3. -/
theorem C22_decode_loop_bound_witness :
    zFilelz4.uncompress libRun .decompress_fast [0, 0, 0, 0] 65536 = (0, [], 0, 4) ∧
    zFilelz4.uncompress libRun .decompress_fast [2, 0, 0, 0x80, 65, 66, 0, 0, 0, 0] 65536
      = (2, [65, 66], 0, 4) ∧
    zFilelz4.uncompress libRun .decompress_fast [2, 0, 0, 0x80, 65, 66, 0, 0, 0, 0, 9] 65536
      = (2, [65, 66], 3, 0) := by
  have hok : ∀ f ∈ [({ raw := true, payload := [65, 66], plain := [65, 66] } : Frame)],
      f.ok libRun .decompress_fast := by
    intro f hf
    rw [List.mem_singleton.1 hf]
    exact ⟨by decide, by decide, fun _ => rfl,
      fun h => absurd (show true = false from h) (by decide)⟩
  obtain ⟨h1, h2⟩ := C22_decode_loop_bound libRun .decompress_fast
    [{ raw := true, payload := [65, 66], plain := [65, 66] }] 65536 9 [] hok
    (by decide) (by decide)
  exact ⟨by decide, h1, h2⟩

end Zcp
namespace Zcp

theorem Frame.bytes_take (g : Frame) (k : Nat) :
    g.bytes.take (4 + k)
      = le32 (if g.raw then g.payload.length + 2147483648 else g.payload.length)
          ++ g.payload.take k := by
  unfold Frame.bytes
  have h := @List.take_append Byte
    (le32 (if g.raw then g.payload.length + 2147483648 else g.payload.length)) g.payload k
  rw [le32_length] at h
  exact h

/-- C21 (short-input carry). The input holds well-formed frames `fs` followed by the first
`4 + k` bytes of a well-formed frame `g` - its length word and `k` payload bytes, fewer
than the payload has (plaintexts fitting the capacity `C < 2^31`). One pass decodes the
frames `fs` and leaves `4 + k` remaining bytes; its return code is 1 when `k ≥ 1`, but 0
when only the length word is present (`k = 0`), because the loop runs while
`inptrsz + 4 < insize`. The worker of an unzip pool keeps exactly these `4 + k` bytes as
the new input, and a pass over them followed by the missing bytes gives the plaintext of
`g`. -/
theorem C21_short_input_carry (lib : Lib) (func : uncompressFunc_t) (fs : List Frame)
    (g : Frame) (k C : Nat) (hok : ∀ f ∈ fs, f.ok lib func) (hg : g.ok lib func)
    (hk : k < g.payload.length) (hsz : (framesPlain fs).length ≤ C)
    (hgsz : g.plain.length ≤ C) (hC : C < 2147483648) :
    zFilelz4.uncompress lib func (framesBytes fs ++ g.bytes.take (4 + k)) C
      = ((framesPlain fs).length, framesPlain fs, (if k = 0 then 0 else 1), 4 + k) ∧
    (∀ (s : zFile) (p : MemPool), s.file_type = .e_lz4 →
      s.unlz4_uncompressfunc = some func → p.mode = .e_UnzipPool →
      p.inb = framesBytes fs ++ g.bytes.take (4 + k) → p.poolsize = C →
      zFile.threadJob lib s p
        = { outsize := (framesPlain fs).length, out := framesPlain fs,
            zreturn := (if k = 0 then 0 else 1), inb := g.bytes.take (4 + k) }) ∧
    zFilelz4.uncompress lib func (g.bytes.take (4 + k) ++ g.bytes.drop (4 + k)) C
      = (g.plain.length, g.plain, 0, 0) := by
  have htl : (g.bytes.take (4 + k)).length = 4 + k := by
    rw [List.length_take, Frame.bytes_length]
    omega
  have hu : zFilelz4.uncompress lib func (framesBytes fs ++ g.bytes.take (4 + k)) C
      = ((framesPlain fs).length, framesPlain fs, (if k = 0 then 0 else 1), 4 + k) := by
    obtain ⟨fuel, h⟩ := uncompress_frames_tail lib func C hC fs (g.bytes.take (4 + k)) hok hsz
    unfold zFilelz4.uncompress
    rw [h, zFilelz4.uncompressLoop]
    have hlen : (framesBytes fs ++ g.bytes.take (4 + k)).length
        = (framesBytes fs).length + 4 + k := by
      rw [List.length_append, htl]
      omega
    have hrem : (framesBytes fs ++ g.bytes.take (4 + k)).length - (framesBytes fs).length
        = 4 + k := by
      rw [hlen]
      omega
    by_cases hk0 : k = 0
    · have c1 : ¬ ((framesBytes fs).length + 4
          < (framesBytes fs ++ g.bytes.take (4 + k)).length) := by
        rw [hlen]
        omega
      rw [if_neg c1, if_pos hk0]
      simp only [hrem]
    · have c1 : (framesBytes fs).length + 4
          < (framesBytes fs ++ g.bytes.take (4 + k)).length := by
        rw [hlen]
        omega
      have hw : le32toh ((framesBytes fs ++ g.bytes.take (4 + k)).drop (framesBytes fs).length)
          &&& 0x7fffffff = g.payload.length := by
        rw [List.drop_left' rfl, Frame.bytes_take, le32toh_le32_append, and_7fffffff]
        have := hg.2.1
        split_ifs <;> omega
      have c2 : (framesBytes fs).length + g.payload.length + 4
          > (framesBytes fs ++ g.bytes.take (4 + k)).length := by
        rw [hlen]
        omega
      rw [if_pos c1, if_neg hk0]
      simp only [hw]
      rw [if_pos c2]
      simp only [hrem]
  refine ⟨hu, ?_, ?_⟩
  · intro s p ht hf hm hi hp
    unfold zFile.threadJob
    rw [hm]
    simp only [zFile.uncompressV, ht, if_true, hf, hi, hp, hu]
    have hd : (framesBytes fs ++ g.bytes.take (4 + k)).length - (4 + k)
        = (framesBytes fs).length := by
      rw [List.length_append, htl]
      omega
    rw [hd, List.drop_left' rfl, List.take_of_length_le (by rw [htl])]
  · rw [List.take_append_drop]
    have hb : framesBytes [g] = g.bytes := by
      simp [framesBytes]
    have hp : framesPlain [g] = g.plain := by
      simp [framesPlain]
    have h := uncompressLoop_frames lib func C hC [g] [] [] (g.bytes.length + 1)
      (fun f hf => by rw [List.mem_singleton.1 hf]; exact hg)
      (by rw [hp]; simpa using hgsz) (by simp)
    simp only [List.nil_append, List.length_nil, Nat.zero_add, hb, hp] at h
    unfold zFilelz4.uncompress
    rw [h]
    simp

/-- Witness of C21: the raw frame `02 00 00 80 41 42` followed by the beginning of the raw
frame `03 00 00 80 01 02 03`. With one payload byte present the pass returns the code 1
and carries `03 00 00 80 01`; with the length word alone it returns the code 0 and
carries `03 00 00 80`. -/
theorem C21_short_input_carry_witness :
    zFilelz4.uncompress libRun .decompress_fast
        [2, 0, 0, 0x80, 65, 66, 3, 0, 0, 0x80, 1] 65536 = (2, [65, 66], 1, 5) ∧
    zFilelz4.uncompress libRun .decompress_fast
        [2, 0, 0, 0x80, 65, 66, 3, 0, 0, 0x80] 65536 = (2, [65, 66], 0, 4) ∧
    zFilelz4.uncompress libRun .decompress_fast [3, 0, 0, 0x80, 1, 2, 3] 65536
      = (3, [1, 2, 3], 0, 0) := by
  have hok : ∀ f ∈ [({ raw := true, payload := [65, 66], plain := [65, 66] } : Frame)],
      f.ok libRun .decompress_fast := by
    intro f hf
    rw [List.mem_singleton.1 hf]
    exact ⟨by decide, by decide, fun _ => rfl,
      fun h => absurd (show true = false from h) (by decide)⟩
  have hg : Frame.ok libRun .decompress_fast
      { raw := true, payload := [1, 2, 3], plain := [1, 2, 3] } :=
    ⟨by decide, by decide, fun _ => rfl,
      fun h => absurd (show true = false from h) (by decide)⟩
  obtain ⟨h1, -, h3⟩ := C21_short_input_carry libRun .decompress_fast
    [{ raw := true, payload := [65, 66], plain := [65, 66] }]
    { raw := true, payload := [1, 2, 3], plain := [1, 2, 3] } 1 65536 hok hg
    (by decide) (by decide) (by decide) (by decide)
  exact ⟨h1, by decide, h3⟩

end Zcp
namespace Zcp

/-- C40 (wrong-mode calls). `read` on a stream opened in write mode returns 0, copies
nothing and records `e_ReadError`; `mwrite` on a stream opened in read mode returns 0 and
records `e_WriteError`; in both cases the state afterwards differs from the state before
in the recorded error and its message only, so pools, queues, counters, index and file are
unchanged. -/
theorem C40_wrong_mode (lib : Lib) (fuel : Nat) (s : zFile) (size : Nat) (data : List Byte) :
    (s.file_mode = .e_WriteMode →
      zFile.read lib fuel s size
        = some ({ s with lasterror := .e_ReadError,
                         errormsg := "Error reading a file openned in write mode" }, 0, [])) ∧
    (s.file_mode = .e_ReadMode →
      zFile.mwrite lib s data
        = ({ s with lasterror := .e_WriteError,
                    errormsg := "Error writing in a read mode file" }, 0)) := by
  constructor
  · intro h
    simp only [zFile.read, h, if_true, zFile.setError]
  · intro h
    have hne : s.file_mode ≠ .e_WriteMode := by
      rw [h]
      decide
    simp only [zFile.mwrite, hne, ne_eq, not_false_eq_true, if_true, zFile.setError]

/-- Witness of C40: `read` of 5 bytes on a stream opened for writing and `mwrite` of 3
bytes on a stream opened for reading "hello world". -/
theorem C40_wrong_mode_witness :
    (zFile.read libRun 10 (writerWith []) 5).map (fun r => (r.1.lasterror, r.2))
      = some (.e_ReadError, 0, []) ∧
    ((zFile.mwrite libRun (readerOn helloFile) [1, 2, 3]).1.lasterror,
     (zFile.mwrite libRun (readerOn helloFile) [1, 2, 3]).2) = (.e_WriteError, 0) ∧
    zFile.read libRun 10 (writerWith []) 5
      = some ({ writerWith [] with
                  lasterror := .e_ReadError,
                  errormsg := "Error reading a file openned in write mode" }, 0, []) ∧
    zFile.mwrite libRun (readerOn helloFile) [1, 2, 3]
      = ({ readerOn helloFile with
             lasterror := .e_WriteError,
             errormsg := "Error writing in a read mode file" }, 0) :=
  ⟨by decide, by decide,
   (C40_wrong_mode libRun 10 (writerWith []) 5 []).1 (by decide),
   (C40_wrong_mode libRun 10 (readerOn helloFile) 5 [1, 2, 3]).2 (by decide)⟩

end Zcp
namespace Zcp

theorem ctor_write_select (lib : Lib) (file : List Byte) (b level nthread : Nat) :
    ∃ s0, zFilelz4.ctor lib (some file) .e_WriteMode b level nthread = some s0 ∧
      s0.zip_level = level % 256 ∧ s0.flag = Flag.ctor ∧
      s0.zip_listpool = List.range nthread ∧
      s0.lz4_ncontext = nthread ∧
      s0.lz4_compressfunc = some (zFilelz4.selectCompressFunc (level % 256) Flag.ctor) := by
  have hmode : (zFilelz4.ctorInit (some file) .e_WriteMode b level nthread).file_mode
      = .e_WriteMode := by
    simp only [zFilelz4.ctorInit, zFile.ctor]
    split_ifs <;> rfl
  unfold zFilelz4.ctor
  dsimp only
  rw [if_pos hmode]
  refine ⟨_, rfl, ?_, ?_, ?_, ?_, ?_⟩
  · simp [zFilelz4.writeHeader, zFilelz4.ctorInit, zFile.ctor, zFile.setError,
      FStream.openFile, FStream.fail, FStream.seekg, FStream.write, FStream.good]
  · simp [zFilelz4.writeHeader, zFilelz4.ctorInit, zFile.ctor, zFile.setError,
      FStream.openFile, FStream.fail, FStream.seekg, FStream.write, FStream.good]
  · simp [zFilelz4.writeHeader, zFilelz4.ctorInit, zFile.ctor, zFile.setError,
      FStream.openFile, FStream.fail, FStream.seekg, FStream.write, FStream.good]
  · simp [zFilelz4.writeHeader, zFilelz4.ctorInit, zFile.ctor, zFile.setError,
      FStream.openFile, FStream.fail, FStream.seekg, FStream.write, FStream.good]
  · simp [zFilelz4.writeHeader, zFilelz4.ctorInit, zFile.ctor, zFile.setError,
      FStream.openFile, FStream.fail, FStream.seekg, FStream.write, FStream.good,
      zFilelz4.selectCompressFunc]

/-- C31, counterexample. The level 256 is not below 3 and the flags of the constructor
have `blockIndependence = 1`, but the stream `zFile::create` builds for it holds the level
0, the function `fast_extState` and an `LZ4_stream_t` context: the constructor takes the
level as a `uint8_t`. -/
theorem C31_counterexample :
    3 ≤ 256 ∧ Flag.ctor.blockIndependence = 1 ∧
    (zFile.create libRun (some []) .e_WriteMode .e_lz4 256 65536 1).map (fun o =>
      o.map (fun s =>
        (decide (s.lz4_compressfunc = some compressFunc_t.compress_fast_extState),
         decide (s.lz4_compressfunc = some compressFunc_t.compress_HC_extStateHC),
         s.zip_level, zFilelz4.contextKinds s)))
      = some (some (true, false, 0, [ContextKind.stream])) := by
  decide

/-- C31 (codec selection, amended). The constructor receives the level as an 8-bit value:
of the level `level` given to `zFile::create` it keeps `level mod 256`. For every level
and every value of the flags, the selection of the constructor gives `fast_extState` for
`level mod 256 < 3` and `blockIndependence = 1`, `fast_continue` for `level mod 256 < 3`
and `blockIndependence ≠ 1`, `HC_extStateHC` for `level mod 256 ≥ 3` and
`blockIndependence = 1`, `HC_continue` for `level mod 256 ≥ 3` and
`blockIndependence ≠ 1`. A write-mode stream built with the level `level` and `n` pools
(by the constructor, which is what `zFile::create` returns) holds the level
`level mod 256`, this selection for its flags (`blockIndependence = 1`), and one context
per pool: an `LZ4_stream_t` when `level mod 256 < 3`, an `LZ4_streamHC_t` otherwise - the
kind of the selected function. -/
theorem C31_codec_selection (lib : Lib) (file : List Byte) (b level n : Nat) (flag : Flag) :
    (level % 256 < 3 → flag.blockIndependence = 1 →
      zFilelz4.selectCompressFunc (level % 256) flag = .compress_fast_extState) ∧
    (level % 256 < 3 → flag.blockIndependence ≠ 1 →
      zFilelz4.selectCompressFunc (level % 256) flag = .compress_fast_continue) ∧
    (3 ≤ level % 256 → flag.blockIndependence = 1 →
      zFilelz4.selectCompressFunc (level % 256) flag = .compress_HC_extStateHC) ∧
    (3 ≤ level % 256 → flag.blockIndependence ≠ 1 →
      zFilelz4.selectCompressFunc (level % 256) flag = .compress_HC_continue) ∧
    ∃ s0, zFilelz4.ctor lib (some file) .e_WriteMode b level n = some s0 ∧
      zFile.create lib (some file) .e_WriteMode .e_lz4 level b n = some (some s0) ∧
      s0.zip_level = level % 256 ∧
      s0.flag.blockIndependence = 1 ∧
      s0.lz4_compressfunc = some (zFilelz4.selectCompressFunc (level % 256) s0.flag) ∧
      s0.lz4_compressfunc
        = some (if level % 256 < 3 then compressFunc_t.compress_fast_extState
                else compressFunc_t.compress_HC_extStateHC) ∧
      zFilelz4.contextKinds s0
        = List.replicate n
            (if level % 256 < 3 then ContextKind.stream else ContextKind.streamHC) := by
  have h3 : min_HClevel = 3 := rfl
  refine ⟨?_, ?_, ?_, ?_, ?_⟩
  · intro h1 h2
    simp [zFilelz4.selectCompressFunc, h3, h1, h2]
  · intro h1 h2
    simp [zFilelz4.selectCompressFunc, h3, h1, h2]
  · intro h1 h2
    have : ¬ level % 256 < 3 := by omega
    simp [zFilelz4.selectCompressFunc, h3, this, h2]
  · intro h1 h2
    have : ¬ level % 256 < 3 := by omega
    simp [zFilelz4.selectCompressFunc, h3, this, h2]
  · obtain ⟨s0, hs0, hl, hf, hp, -, hc⟩ := ctor_write_select lib file b level n
    refine ⟨s0, hs0, ?_, hl, by rw [hf]; rfl, by rw [hc, hf], ?_, ?_⟩
    · simp only [zFile.create, hs0, Option.map_some']
    · rw [hc]
      have hb1 : Flag.ctor.blockIndependence = 1 := rfl
      simp only [zFilelz4.selectCompressFunc, h3, hb1, if_true]
    · simp only [zFilelz4.contextKinds, hp, hl, h3]
      rw [List.eq_replicate_iff]
      refine ⟨by simp, ?_⟩
      intro k hk
      simp only [List.mem_map, List.mem_range] at hk
      obtain ⟨_, _, rfl⟩ := hk
      rfl

/-- Witness of C31: the levels 1 and 9 with the flags of the constructor, the level 1
with dependent blocks, and the level 259, which is taken as the level 3. -/
theorem C31_codec_selection_witness :
    zFilelz4.selectCompressFunc 1 Flag.ctor = .compress_fast_extState ∧
    zFilelz4.selectCompressFunc 9 Flag.ctor = .compress_HC_extStateHC ∧
    zFilelz4.selectCompressFunc 1 { Flag.ctor with blockIndependence := 0 }
      = .compress_fast_continue ∧
    zFilelz4.selectCompressFunc 9 { Flag.ctor with blockIndependence := 0 }
      = .compress_HC_continue ∧
    zFilelz4.selectCompressFunc (259 % 256) Flag.ctor = .compress_HC_extStateHC :=
  ⟨(C31_codec_selection libRun [] 65536 1 1 Flag.ctor).1 (by decide) (by decide),
   (C31_codec_selection libRun [] 65536 9 1 Flag.ctor).2.2.1 (by decide) (by decide),
   (C31_codec_selection libRun [] 65536 1 1 { Flag.ctor with blockIndependence := 0 }).2.1
     (by decide) (by decide),
   (C31_codec_selection libRun [] 65536 9 1 { Flag.ctor with blockIndependence := 0 }).2.2.2.1
     (by decide) (by decide),
   (C31_codec_selection libRun [] 65536 259 1 Flag.ctor).2.2.1 (by decide) (by decide)⟩

end Zcp
namespace Zcp

/-- The parse of an identification that announces 0 bytes of index: the loop bound
`0 / 8 - 1` is computed in `size_t`, and the entries the loop visits do not fit in the
array. -/
theorem parseMeta_empty (post : List Byte) (lastbloc : Nat) (idx : List IndexEntry_t)
    (hpost : post.length < 4294967296) :
    zFilelz4.parseMeta ((le32 0xCAFEDECA ++ le32 1 ++ le32 0 ++ le32 0) ++ post) lastbloc idx
      = none := by
  generalize hptr : (le32 0xCAFEDECA ++ le32 1 ++ le32 0 ++ le32 0) ++ post = ptr
  have hlen : ptr.length = 16 + post.length := by
    rw [← hptr]
    simp only [List.length_append, le32_length]
  have hm : le32toh ptr = METADATA_MAGIC_NUMBER_0 := by
    rw [← hptr]
    simp only [List.append_assoc]
    rw [le32toh_le32_append]
    rfl
  have hv : le32toh (ptr.drop 4) = 1 := by
    rw [← hptr]
    simp only [List.append_assoc]
    rw [List.drop_left' (le32_length _), le32toh_le32_append]
  have ht : le32toh (ptr.drop 8) = 0 := by
    rw [← hptr]
    simp only [List.append_assoc]
    rw [← List.append_assoc (le32 0xCAFEDECA), List.drop_left' (by simp [le32_length]),
      le32toh_le32_append]
  have hs : le32toh (ptr.drop 12) = 0 := by
    rw [← hptr]
    simp only [List.append_assoc]
    rw [← List.append_assoc (le32 1), ← List.append_assoc (le32 0xCAFEDECA),
      List.drop_left' (by simp [le32_length]), le32toh_le32_append]
  have hcount : sizeSub (0 / indexsize) 1 = 18446744073709551615 := by decide
  unfold zFilelz4.parseMeta
  have h16 : ¬ (ptr.length < sizeof_MetaIdentification_t) := by
    simp only [sizeof_MetaIdentification_t]
    omega
  rw [if_neg h16]
  simp only [hm, hv, ht, hs, hcount, true_and, if_true]
  rw [if_neg]
  simp only [sizeof_MetaIdentification_t, indexsize]
  omega

/-- The parse by `readTail` of a file that ends with the output of `writeTail` for an empty
index: `readTail` does not return (it reads outside its array, if the array fits in the
stack at all). -/
theorem readTail_empty (lib : Lib) (w r : zFile)
    (hw : w.file_stream.good = true) (hwf : w.flag = Flag.ctor)
    (he : w.listindex = [])
    (hr : r.file_stream.good = true)
    (hrc : r.file_stream.content = (zFilelz4.writeTail lib w).file_stream.content) :
    zFilelz4.readTail lib r = none := by
  have hc := (writeTail_content lib w hw hwf).1
  rw [← hrc, he] at hc
  simp only [List.length_nil, Nat.zero_mul, Nat.add_zero, List.flatMap_nil,
    List.append_nil] at hc
  have e24 : (16 + 8 : Nat) = 24 := rfl
  rw [e24] at hc
  have hd8 : r.file_stream.content.drop (r.file_stream.content.length - 8)
      = le32 0x184D2A50 ++ le32 24 := by
    rw [hc, ← List.append_assoc]
    exact drop_length_sub _ _ 8 (by simp [le32_length])
  have hd4 : r.file_stream.content.drop (r.file_stream.content.length - 4) = le32 24 := by
    rw [hc, ← List.append_assoc, ← List.append_assoc]
    exact drop_length_sub _ _ 4 (le32_length _)
  have hdS : r.file_stream.content.drop (r.file_stream.content.length - 24)
      = (le32 0xCAFEDECA ++ le32 1 ++ le32 0 ++ le32 0) ++ (le32 0x184D2A50 ++ le32 24) := by
    rw [hc]
    have : w.file_stream.content ++
        (le32 0 ++ le32 (XXH32_digest lib w.xxh32state) ++ (le32 0x184D2A50 ++ le32 24) ++
          (le32 0xCAFEDECA ++ le32 1 ++ le32 0 ++ le32 0) ++ (le32 0x184D2A50 ++ le32 24))
        = (w.file_stream.content ++
            (le32 0 ++ le32 (XXH32_digest lib w.xxh32state) ++ (le32 0x184D2A50 ++ le32 24))) ++
          ((le32 0xCAFEDECA ++ le32 1 ++ le32 0 ++ le32 0) ++ (le32 0x184D2A50 ++ le32 24)) := by
      simp only [List.append_assoc]
    rw [this]
    apply drop_length_sub
    simp only [List.length_append, le32_length]
  have hlen : r.file_stream.content.length = w.file_stream.content.length + 40 := by
    rw [hc]
    simp only [List.length_append, le32_length]
  have hread := readTail_good lib r hr (by omega)
  have hmagic : le32toh (le32 0x184D2A50 ++ le32 24) = SKIPPABLE_MAGIC_NUMBER_0 := by
    rw [le32toh_le32_append]
    rfl
  have hsz : le32toh (le32 24) = 24 := by
    rw [le32toh_le32]
  have hnlt : ¬ (r.file_stream.content.length < 24) := by omega
  have hidx := parseMeta_empty (le32 0x184D2A50 ++ le32 24)
    (r.file_stream.content.length - 24) r.listindex (by simp [le32_length])
  simp only [hd8, hd4, hmagic, hsz, hnlt, hdS, hidx, if_true, if_false, ite_self] at hread
  exact hread

/-- C36 (empty index). A write session with at least one pool, a block size `b ≥ 1` and
thread operations that succeed, closed without any byte written: the index of the writer
is empty and the identification of the tail announces 0 bytes of entries; the read-mode
constructor on the produced file does not return - `readTail` runs its loop
`0 / 8 - 1 = 2^64 - 1` times (the bound is computed in `size_t`) and reads entries outside
the array that holds the skippable payload. -/
theorem C36_empty_index (lib : Lib) (file : List Byte) (b level nthread : Nat)
    (evs : List WEvent) (s0 : zFile) (b2 l2 n2 : Nat)
    (hs0 : zFilelz4.ctor lib (some file) .e_WriteMode b level nthread = some s0)
    (hn : 1 ≤ nthread) (hb : 1 ≤ b)
    (hattr : lib.pthread_attr_init = 0) (hcreate : lib.pthread_create = 0)
    (hjoin : lib.pthread_join = 0)
    (hX : bytesWritten evs = []) :
    (zFile.close lib (runEvents lib evs s0)).listindex = [] ∧
    zFilelz4.ctor lib (some (zFilelz4.dtor lib (runEvents lib evs s0)).file_stream.content)
      .e_ReadMode b2 l2 n2 = none := by
  obtain ⟨d2, h2, hflag, hd, ha, hfile⟩ :=
    session_final lib file b level nthread evs s0 hs0 hn hb hattr hcreate hjoin
  have hd0 : d2 = [] := by
    cases d2 with
    | nil => rfl
    | cons x t =>
      have hx := (h2.blocks x (by rw [hd]; exact List.mem_cons_self _ _)).1
      rw [hX, List.flatten_cons] at ha
      exact absurd (List.append_eq_nil.1 ha).1 hx
  have hidx : (zFile.close lib (runEvents lib evs s0)).listindex = [] := by
    have := h2.base.index
    rw [hd0] at this
    exact List.map_eq_nil_iff.1 this
  refine ⟨hidx, ?_⟩
  obtain ⟨hwc, -⟩ := writeTail_content lib _ h2.base.good hflag
  have hlen : 7 ≤ (zFilelz4.writeTail lib
      (zFile.close lib (runEvents lib evs s0))).file_stream.content.length := by
    rw [hwc]
    simp only [List.length_append, le32_length]
    omega
  obtain ⟨hst, -, -⟩ := readHeader_init lib _ b2 l2 n2 hlen
  obtain ⟨-, -, -, -, hmode⟩ := ctorInit_read
    (zFilelz4.writeTail lib (zFile.close lib (runEvents lib evs s0))).file_stream.content
    b2 l2 n2
  have hrt := readTail_empty lib (zFile.close lib (runEvents lib evs s0))
    (zFilelz4.readHeader lib (zFilelz4.ctorInit
      (some (zFilelz4.writeTail lib
        (zFile.close lib (runEvents lib evs s0))).file_stream.content) .e_ReadMode b2 l2 n2))
    h2.base.good hflag hidx (by rw [hst]; rfl) (by rw [hst])
  rw [hfile]
  simp only [zFilelz4.ctor, hmode, hrt]
  rfl

/-- Witness of C36: one pool of 64 KiB and no `mwrite`; the produced file has 47 bytes
and its identification carries the size 0. -/
theorem C36_empty_index_witness :
    (zFilelz4.ctor libRun (some []) .e_WriteMode 65536 1 1).map (fun s0 =>
      (zFilelz4.dtor libRun (runEvents libRun [] s0)).file_stream.content)
      = some [0x04, 0x22, 0x4D, 0x18, 0x64, 0x40, 0xA7, 0, 0, 0, 0, 0x05, 0x5D, 0xCC, 0x02,
              0x50, 0x2A, 0x4D, 0x18, 24, 0, 0, 0, 0xCA, 0xDE, 0xFE, 0xCA, 1, 0, 0, 0,
              0, 0, 0, 0, 0, 0, 0, 0, 0x50, 0x2A, 0x4D, 0x18, 24, 0, 0, 0] ∧
    ∃ s0, zFilelz4.ctor libRun (some []) .e_WriteMode 65536 1 1 = some s0 ∧
      zFilelz4.ctor libRun
        (some (zFilelz4.dtor libRun (runEvents libRun [] s0)).file_stream.content)
        .e_ReadMode 65536 1 1 = none := by
  refine ⟨by decide, ?_⟩
  obtain ⟨s0, hs0, -⟩ := ctor_sinv libRun [] 65536 1 1 (by decide)
  exact ⟨s0, hs0, (C36_empty_index libRun [] 65536 1 1 [] s0 65536 1 1 hs0 (by decide)
    (by decide) rfl rfl rfl rfl).2⟩

end Zcp
namespace Zcp

/-- What `add` from a stream appends: a prefix of the unread bytes of the file, at most
`size` of them and at most the room left in the pool; nothing else of the pool changes. -/
theorem MemPool.addStream_spec (p : MemPool) (fs : FStream) (size : Nat) :
    ∃ bytes, (p.addStream fs size).1 = { p with inb := p.inb ++ bytes } ∧
      (p.addStream fs size).2.2 = bytes.length ∧
      bytes <+: fs.content.drop fs.pos ∧
      bytes.length ≤ min (sizeSub p.poolsize p.inb.length) size ∧
      (p.addStream fs size).2.1.content = fs.content := by
  unfold MemPool.addStream
  dsimp only
  split_ifs with h0
  · refine ⟨[], ?_, rfl, List.nil_prefix, Nat.zero_le _, rfl⟩
    rw [List.append_nil]
  · generalize min (sizeSub p.poolsize p.inb.length) size = m
    refine ⟨(fs.read m).2, rfl, rfl, ?_, ?_, ?_⟩
    · unfold FStream.read
      dsimp only
      split_ifs
      · exact List.take_prefix _ _
      · exact List.take_prefix _ _
      · exact List.nil_prefix
    · unfold FStream.read
      dsimp only
      split_ifs
      · exact List.length_take_le _ _
      · exact List.length_take_le _ _
      · exact Nat.zero_le _
    · unfold FStream.read
      dsimp only
      split_ifs <;> rfl

/-- C32 (pull-loop gating). A turn of the loop of `read` in which `get` returns 0. When
the return code of the last decode pass is 2, the pool and the file stream are left as
they are and the decode pass is launched on the pool (`r` is the result of `run`, `w` of
`wait`): the file is not touched. When the code is not 2, `add` from the file stream runs
first (`a`): it appends a prefix of the unread file bytes (at most `_blocsize`, at most the
room in the pool) to the input, the turn ends with `e_ReadError` when the stream has failed
and no byte was appended, and otherwise the decode pass is launched on the pool with the
appended bytes, in the state `s1` that holds this pool and the advanced stream. -/
theorem C32_pull_loop_gating (lib : Lib) (fuel : Nat) (s : zFile) (rp : MemPool) (k : Nat)
    (acc : List Byte) (hk : 0 < k) (hrp : s.unzip_readpool = some rp)
    (hget : (rp.get k).2.1 = 0) :
    (rp.zreturn = 2 →
      ∀ r, r = rp.run lib (s.threadJob lib rp) → ∀ w, w = r.1.wait lib →
      zFile.readLoop lib (fuel + 1) s k acc
        = if r.2 ≠ 0 then
            some (s.setError .e_ReadError "Error running read thread", k, acc)
          else if w.2 ≠ 0 then
            some ({ s with unzip_readpool := some w.1 }.setError
                    .e_ReadError "Error joining read thread", k, acc)
          else zFile.readLoop lib fuel { s with unzip_readpool := some w.1 } k acc) ∧
    (rp.zreturn ≠ 2 →
      ∀ a, a = rp.addStream s.file_stream s.blocsize →
      ∀ s1, s1 = { s with unzip_readpool := some a.1, file_stream := a.2.1 } →
      ∀ r, r = a.1.run lib (s1.threadJob lib a.1) → ∀ w, w = r.1.wait lib →
      (∃ bytes, a.1 = { rp with inb := rp.inb ++ bytes } ∧ a.2.2 = bytes.length ∧
        bytes <+: s.file_stream.content.drop s.file_stream.pos ∧
        bytes.length ≤ s.blocsize) ∧
      zFile.readLoop lib (fuel + 1) s k acc
        = if a.2.1.fail = true ∧ a.2.2 = 0 then
            some (s1.setError .e_ReadError "Error reading data", k, acc)
          else if r.2 ≠ 0 then
            some (s1.setError .e_ReadError "Error running read thread", k, acc)
          else if w.2 ≠ 0 then
            some ({ s1 with unzip_readpool := some w.1 }.setError
                    .e_ReadError "Error joining read thread", k, acc)
          else zFile.readLoop lib fuel { s1 with unzip_readpool := some w.1 } k acc) := by
  have hs : ({ s with unzip_readpool := some rp, file_stream := s.file_stream } : zFile) = s := by
    cases s
    simp only at hrp
    subst hrp
    rfl
  constructor
  · intro h2 r hr w hw
    subst hr hw
    rw [zFile.readLoop]
    simp only [hk, if_true, hrp, hget, ne_eq, not_true_eq_false, if_false, MemPool.getReturn,
      h2, false_and, hs]
  · intro h2 a ha s1 hs1 r hr w hw
    subst ha hs1 hr hw
    refine ⟨?_, ?_⟩
    · obtain ⟨bytes, b1, b2, b3, b4, -⟩ := MemPool.addStream_spec rp s.file_stream s.blocsize
      exact ⟨bytes, b1, b2, b3, Nat.le_trans b4 (Nat.min_le_right _ _)⟩
    · rw [zFile.readLoop]
      simp only [hk, if_true, hrp, hget, ne_eq, not_true_eq_false, if_false,
        MemPool.getReturn, h2, not_false_eq_true, true_and]

/-- Witness of C32: the reader pool of a stream on the 70-byte file of "hello world" with
nothing to hand out. With the return code 0 the turn appends the 70 bytes of the file; with
the return code 2 (and the carried input `01 00 00 00 09`) the turn runs the decode pass
and leaves the file position where it was. -/
theorem C32_pull_loop_gating_witness :
    ((MemPool.ctor 0 4194304 .e_UnzipPool).addStream (readerOn helloFile).file_stream
        (readerOn helloFile).blocsize).2.2 = 70 ∧
    (∃ bytes,
      ((MemPool.ctor 0 4194304 .e_UnzipPool).addStream (readerOn helloFile).file_stream
          (readerOn helloFile).blocsize).1
        = { MemPool.ctor 0 4194304 .e_UnzipPool with
            inb := (MemPool.ctor 0 4194304 .e_UnzipPool).inb ++ bytes } ∧
      bytes <+: (readerOn helloFile).file_stream.content.drop
        (readerOn helloFile).file_stream.pos) ∧
    zFile.readLoop libRun 1
        { readerOn helloFile with
            unlz4_uncompressfunc := some .decompress_fast
            unzip_readpool := some { MemPool.ctor 0 4194304 .e_UnzipPool with
                                       zreturn := 2, inb := [1, 0, 0, 0, 9] } } 3 []
      = none := by
  refine ⟨by decide, ?_, ?_⟩
  · obtain ⟨⟨bytes, h1, -, h3, -⟩, -⟩ := (C32_pull_loop_gating libRun 0 (readerOn helloFile)
      (MemPool.ctor 0 4194304 .e_UnzipPool) 3 [] (by decide) rfl (by decide)).2 (by decide)
      _ rfl _ rfl _ rfl _ rfl
    exact ⟨bytes, h1, h3⟩
  · have h := (C32_pull_loop_gating libRun 0
      { readerOn helloFile with
          unlz4_uncompressfunc := some .decompress_fast
          unzip_readpool := some { MemPool.ctor 0 4194304 .e_UnzipPool with
                                     zreturn := 2, inb := [1, 0, 0, 0, 9] } }
      { MemPool.ctor 0 4194304 .e_UnzipPool with zreturn := 2, inb := [1, 0, 0, 0, 9] }
      3 [] (by decide) rfl (by decide)).1 rfl _ rfl _ rfl
    rw [h]
    decide

end Zcp
namespace Zcp

/-- The offsets of the index after a `flush`: the counters before the call, as 32-bit
values, are inserted in the index. -/
theorem flush_index (lib : Lib) (s : zFile) (hu : s.zip_listused ≠ []) :
    (zFile.flush lib s).listindex.map (fun e => (e.offset.n, e.offset.z))
      = insertOffset (s.zip_noffset % 4294967296, s.zip_nzoffset % 4294967296)
          (s.listindex.map (fun e => (e.offset.n, e.offset.z))) := by
  have key : ∀ t : zFile, t.zip_listused ≠ [] → t.listindex = s.listindex →
      t.zip_noffset = s.zip_noffset → t.zip_nzoffset = s.zip_nzoffset →
      (zFile.flush_zFile lib t).listindex.map (fun e => (e.offset.n, e.offset.z))
        = insertOffset (s.zip_noffset % 4294967296, s.zip_nzoffset % 4294967296)
            (s.listindex.map (fun e => (e.offset.n, e.offset.z))) := by
    intro t t0 t1 t2 t3
    rw [flush_zFile_index lib t t0, t1, t2, t3, setInsert_offsets]
    rfl
  unfold zFile.flush
  split_ifs
  · unfold zFile.flush_zFilelz4
    split
    · rename_i h
      exact absurd h hu
    · rename_i pool rest h
      dsimp only
      refine key _ ?_ ?_ ?_ ?_
      · simp
      · split_ifs <;> rfl
      · split_ifs <;> rfl
      · split_ifs <;> rfl
  · exact key s hu rfl rfl rfl

/-- The recorded offsets are the true offsets reduced modulo `2^32`. -/
theorem indexOffsets_true (lib : Lib) (hc : lib.compressBounded) (hf : lib.compressFills)
    (func : compressFunc_t) (level C : Nat) (hC : C ≤ 4194304) :
    ∀ (bs : List (List Byte)) (n z : Nat), (∀ x ∈ bs, x.length ≤ C) →
      indexOffsets lib func level C n z bs
        = (specTrueOffsets lib func level C n z bs).map
            (fun p => (p.1 % 4294967296, p.2 % 4294967296)) := by
  intro bs
  induction bs with
  | nil => intro n z _; rfl
  | cons x t ih =>
    intro n z h
    obtain ⟨f1, f2, -⟩ := blockFrame_length lib hc hf func level C x hC
      (h x (List.mem_cons_self _ _))
    simp only [indexOffsets, specTrueOffsets, List.map_cons]
    rw [ih _ _ (fun y hy => h y (List.mem_cons_of_mem _ hy)), f1, f2]

/-- The true offsets are bounded by the counters after the last block. -/
theorem specTrueOffsets_le (lib : Lib) (hc : lib.compressBounded) (hf : lib.compressFills)
    (func : compressFunc_t) (level C : Nat) (hC : C ≤ 4194304) :
    ∀ (bs : List (List Byte)) (n z : Nat), (∀ x ∈ bs, x.length ≤ C) →
      ∀ p ∈ specTrueOffsets lib func level C n z bs,
        p.1 ≤ n + sumN bs ∧ p.2 ≤ z + sumZ lib func level C bs := by
  intro bs
  induction bs with
  | nil =>
    intro n z _ p hp
    simp [specTrueOffsets] at hp
  | cons x t ih =>
    intro n z h p hp
    obtain ⟨f1, f2, -⟩ := blockFrame_length lib hc hf func level C x hC
      (h x (List.mem_cons_self _ _))
    have hsN : sumN (x :: t) = x.length + sumN t := by simp [sumN]
    have hsZ : sumZ lib func level C (x :: t)
        = ((zFilelz4.compress lib func level x C).1 &&& 0x7fffffff)
            + sumZ lib func level C t := by simp [sumZ]
    simp only [specTrueOffsets, List.mem_cons] at hp
    rcases hp with hp | hp
    · subst hp
      exact ⟨Nat.le_add_right _ _, Nat.le_add_right _ _⟩
    · obtain ⟨h1, h2⟩ := ih _ _ (fun y hy => h y (List.mem_cons_of_mem _ hy)) p hp
      rw [hsN, hsZ, f2]
      rw [f1] at h2
      omega

/-- C39 (32-bit index offsets). A write-mode stream with at least one pool, joins that
succeed and a block compressor that respects its destination bound and delivers the bytes
it reports, after any sequence of events; `done` are the blocks flushed so far. A `flush`
inserts in the index the offsets `(N mod 2^32, Z mod 2^32)` of the counters before the
call; the offsets of the index are those of the true offsets of the flushed blocks
reduced modulo `2^32`, as the set ordered by `uoff` keeps them, so every entry holds the
true offsets of a flushed block modulo `2^32`; and when `N < 2^32` and `Z < 2^32` the
recorded offsets are the true offsets, in the order of the blocks, the tail that
`writeTail` appends holds their little-endian words, and each word reads back as the true
offset. -/
theorem C39_index_offsets_32bit (lib : Lib) (file : List Byte) (b level n : Nat)
    (evs : List WEvent) (hn : 1 ≤ n) (hjoin : lib.pthread_join = 0)
    (hc : lib.compressBounded) (hf : lib.compressFills) :
    ∃ s0, ∃ done : List (List Byte),
      zFilelz4.ctor lib (some file) .e_WriteMode b level n = some s0 ∧
      (runEvents lib evs s0).submitted
        = done ++ (runEvents lib evs s0).zip_listused.map (fun p => p.inb) ∧
      (∀ t : zFile, t.zip_listused ≠ [] →
        (zFile.flush lib t).listindex.map (fun e => (e.offset.n, e.offset.z))
          = insertOffset (t.zip_noffset % 4294967296, t.zip_nzoffset % 4294967296)
              (t.listindex.map (fun e => (e.offset.n, e.offset.z)))) ∧
      (runEvents lib evs s0).listindex.map (fun e => (e.offset.n, e.offset.z))
        = setOffsets ((specTrueOffsets lib
            (if level % 256 < min_HClevel then compressFunc_t.compress_fast_extState
             else compressFunc_t.compress_HC_extStateHC) (level % 256)
            (min b LZ4F_MAXBLOC_SIZE) 0 7 done).map
            (fun p => (p.1 % 4294967296, p.2 % 4294967296))) ∧
      (∀ e ∈ (runEvents lib evs s0).listindex,
        ∃ p ∈ specTrueOffsets lib
            (if level % 256 < min_HClevel then compressFunc_t.compress_fast_extState
             else compressFunc_t.compress_HC_extStateHC) (level % 256)
            (min b LZ4F_MAXBLOC_SIZE) 0 7 done,
          e.offset.n = p.1 % 4294967296 ∧ e.offset.z = p.2 % 4294967296) ∧
      ((runEvents lib evs s0).zip_noffset < 4294967296 →
       (runEvents lib evs s0).zip_nzoffset < 4294967296 →
        (runEvents lib evs s0).listindex.map (fun e => (e.offset.n, e.offset.z))
          = specTrueOffsets lib
              (if level % 256 < min_HClevel then compressFunc_t.compress_fast_extState
               else compressFunc_t.compress_HC_extStateHC) (level % 256)
              (min b LZ4F_MAXBLOC_SIZE) 0 7 done ∧
        (zFilelz4.writeTail lib (runEvents lib evs s0)).file_stream.content
          = (runEvents lib evs s0).file_stream.content ++
            (le32 0 ++ le32 (XXH32_digest lib (runEvents lib evs s0).xxh32state) ++
             (le32 0x184D2A50 ++ le32 (16 + done.length * 8 + 8)) ++
             (le32 0xCAFEDECA ++ le32 1 ++ le32 0 ++ le32 (done.length * 8)) ++
             (specTrueOffsets lib
                (if level % 256 < min_HClevel then compressFunc_t.compress_fast_extState
                 else compressFunc_t.compress_HC_extStateHC) (level % 256)
                (min b LZ4F_MAXBLOC_SIZE) 0 7 done).flatMap
                (fun p => le32 p.1 ++ le32 p.2) ++
             (le32 0x184D2A50 ++ le32 (16 + done.length * 8 + 8))) ∧
        ∀ p ∈ specTrueOffsets lib
                (if level % 256 < min_HClevel then compressFunc_t.compress_fast_extState
                 else compressFunc_t.compress_HC_extStateHC) (level % 256)
                (min b LZ4F_MAXBLOC_SIZE) 0 7 done,
          le32toh (le32 p.1) = p.1 ∧ le32toh (le32 p.2) = p.2) := by
  obtain ⟨s0, hs0, -, -, hinv0⟩ := ctor_sinv lib file b level n hn
  obtain ⟨s2, hs2, hflag0⟩ := ctor_write_flag lib file b level n
  have e2 : s2 = s0 := Option.some.inj (hs2.symm.trans hs0)
  rw [e2] at hflag0
  have hC : min b LZ4F_MAXBLOC_SIZE ≤ 4194304 := by
    simp only [LZ4F_MAXBLOC_SIZE, LZ4F_BLOC7_SIZE]
    omega
  obtain ⟨d1, h1, -, -⟩ := runEvents_sinv lib _ (level % 256) _ _ hjoin evs s0 [] hinv0
  have hblocks : ∀ x ∈ d1, x.length ≤ min b LZ4F_MAXBLOC_SIZE := by
    intro x hx
    exact (h1.blocks x (by rw [h1.base.sub]; exact List.mem_append_left _ hx)).2
  have hnonempty : ∀ x ∈ d1, x ≠ [] := by
    intro x hx
    exact (h1.blocks x (by rw [h1.base.sub]; exact List.mem_append_left _ hx)).1
  have htrue := indexOffsets_true lib hc hf
    (if level % 256 < min_HClevel then compressFunc_t.compress_fast_extState
     else compressFunc_t.compress_HC_extStateHC) (level % 256) _ hC d1 0 7 hblocks
  have hidx := h1.base.index
  rw [htrue] at hidx
  refine ⟨s0, d1, hs0, h1.base.sub, ?_, hidx, ?_, ?_⟩
  · intro t ht
    exact flush_index lib t ht
  · intro e he
    have hm : (e.offset.n, e.offset.z) ∈ (runEvents lib evs s0).listindex.map
        (fun e => (e.offset.n, e.offset.z)) := List.mem_map.2 ⟨e, he, rfl⟩
    rw [hidx] at hm
    obtain ⟨p, hp, hpe⟩ := List.mem_map.1 (setOffsets_mem _ _ hm)
    obtain ⟨q1, q2⟩ := Prod.mk.inj hpe
    exact ⟨p, hp, q1.symm, q2.symm⟩
  · intro hN hZ
    have hbound := specTrueOffsets_le lib hc hf
      (if level % 256 < min_HClevel then compressFunc_t.compress_fast_extState
       else compressFunc_t.compress_HC_extStateHC) (level % 256) _ hC d1 0 7 hblocks
    rw [h1.base.noff] at hN
    rw [h1.base.nzoff] at hZ
    have hid : (specTrueOffsets lib (if level % 256 < min_HClevel
          then compressFunc_t.compress_fast_extState
          else compressFunc_t.compress_HC_extStateHC) (level % 256)
          (min b LZ4F_MAXBLOC_SIZE) 0 7 d1).map
            (fun p => (p.1 % 4294967296, p.2 % 4294967296))
        = specTrueOffsets lib (if level % 256 < min_HClevel
            then compressFunc_t.compress_fast_extState
            else compressFunc_t.compress_HC_extStateHC) (level % 256)
            (min b LZ4F_MAXBLOC_SIZE) 0 7 d1 := by
      conv_rhs => rw [← List.map_id (specTrueOffsets lib (if level % 256 < min_HClevel
          then compressFunc_t.compress_fast_extState
          else compressFunc_t.compress_HC_extStateHC) (level % 256)
          (min b LZ4F_MAXBLOC_SIZE) 0 7 d1)]
      apply List.map_congr_left
      intro p hp
      obtain ⟨b1, b2⟩ := hbound p hp
      rw [Nat.mod_eq_of_lt (by omega), Nat.mod_eq_of_lt (by omega)]
      rfl
    have hset := indexOffsets_set lib
      (if level % 256 < min_HClevel then compressFunc_t.compress_fast_extState
       else compressFunc_t.compress_HC_extStateHC) (level % 256) (min b LZ4F_MAXBLOC_SIZE)
      d1 0 7 hnonempty (by omega)
    rw [htrue, hid] at hset
    rw [hid, hset] at hidx
    have hflag : (runEvents lib evs s0).flag = Flag.ctor := by
      rw [runEvents_flag, hflag0]
    have hlen : (runEvents lib evs s0).listindex.length = d1.length := by
      have hl2 := congrArg List.length htrue
      rw [indexOffsets_length, List.length_map] at hl2
      have := congrArg List.length hidx
      rw [List.length_map, ← hl2] at this
      exact this
    have hbytes : (runEvents lib evs s0).listindex.flatMap
          (fun e => le32 e.offset.n ++ le32 e.offset.z)
        = (specTrueOffsets lib (if level % 256 < min_HClevel
            then compressFunc_t.compress_fast_extState
            else compressFunc_t.compress_HC_extStateHC) (level % 256)
            (min b LZ4F_MAXBLOC_SIZE) 0 7 d1).flatMap (fun p => le32 p.1 ++ le32 p.2) := by
      rw [← hidx, List.flatMap_map]
    refine ⟨hidx, ?_, ?_⟩
    · rw [(writeTail_content lib _ h1.base.good hflag).1, hlen, hbytes]
    · intro p hp
      obtain ⟨b1, b2⟩ := hbound p hp
      rw [le32toh_le32, le32toh_le32, Nat.mod_eq_of_lt (by omega), Nat.mod_eq_of_lt (by omega)]
      exact ⟨rfl, rfl⟩

/-- Witness of C39: two pools of 4 bytes and nine bytes written; one block of 4 bytes is
flushed (stored raw, 8 bytes): the index holds the true offsets `(0, 7)` of that block and
the counters are `N = 4`, `Z = 15`. -/
theorem C39_index_offsets_32bit_witness :
    (zFilelz4.ctor libRun (some []) .e_WriteMode 4 1 2).map (fun s0 =>
      ((runEvents libRun [.mwrite [1, 2, 3, 4, 5, 6, 7, 8, 9]] s0).listindex.map
          (fun e => (e.offset.n, e.offset.z)),
       (runEvents libRun [.mwrite [1, 2, 3, 4, 5, 6, 7, 8, 9]] s0).zip_noffset,
       (runEvents libRun [.mwrite [1, 2, 3, 4, 5, 6, 7, 8, 9]] s0).zip_nzoffset))
      = some ([(0, 7)], 4, 15) ∧
    ∃ s0, ∃ done : List (List Byte),
      zFilelz4.ctor libRun (some []) .e_WriteMode 4 1 2 = some s0 ∧
      (runEvents libRun [.mwrite [1, 2, 3, 4, 5, 6, 7, 8, 9]] s0).listindex.map
          (fun e => (e.offset.n, e.offset.z))
        = setOffsets ((specTrueOffsets libRun
            (if 1 % 256 < min_HClevel then compressFunc_t.compress_fast_extState
             else compressFunc_t.compress_HC_extStateHC) (1 % 256)
            (min 4 LZ4F_MAXBLOC_SIZE) 0 7 done).map
            (fun p => (p.1 % 4294967296, p.2 % 4294967296))) := by
  refine ⟨by decide, ?_⟩
  obtain ⟨s0, done, h0, -, -, h, -⟩ := C39_index_offsets_32bit libRun [] 4 1 2
    [.mwrite [1, 2, 3, 4, 5, 6, 7, 8, 9]] (by decide) rfl libRun_compressBounded
    libRun_compressFills
  exact ⟨s0, done, h0, h⟩

end Zcp
namespace Zcp

theorem mwriteLoop_nil (lib : Lib) (f : Nat) (s : zFile) :
    zFile.mwriteLoop lib f s [] = (s, []) := by
  cases f with
  | zero => rfl
  | succ f => simp [zFile.mwriteLoop]

/-- One turn of the loop of `mwrite` with bytes left and a current pool. -/
theorem mwriteLoop_succ (lib : Lib) (f : Nat) (s : zFile) (d : List Byte) (c : MemPool)
    (hd : d ≠ []) (hcur : s.zip_curpool = some c) :
    zFile.mwriteLoop lib (f + 1) s d
      = if (c.add d).2 = 0 then
          (if (c.run lib (s.threadJob lib c)).2 ≠ 0 then
            (match (c.run lib (s.threadJob lib c)).2 with
             | 1 => s.setError .e_JobInitError "Error initializing write thread"
             | 2 => s.setError .e_JobCreateError "Error running write thread"
             | _ => s.setError .e_JobUnknownError "Unhandled write thread error", d)
           else zFile.mwriteLoop lib f
                  (zFile.nextPool lib
                    { s with zip_curpool := some (c.run lib (s.threadJob lib c)).1 }) d)
        else zFile.mwriteLoop lib f { s with zip_curpool := some (c.add d).1 }
               (d.drop (c.add d).2) := by
  have hl : d.length > 0 := List.length_pos.2 hd
  rw [zFile.mwriteLoop]
  simp only [hl, if_true, hcur]

/-- A loop of `mwrite` that took every byte gives the same result with more turns. -/
theorem mwriteLoop_mono (lib : Lib) :
    ∀ (f : Nat) (s : zFile) (d : List Byte) (r : zFile),
      zFile.mwriteLoop lib f s d = (r, []) →
      ∀ g, zFile.mwriteLoop lib (f + g) s d = (r, []) := by
  intro f
  induction f with
  | zero =>
    intro s d r h g
    have h2 : (s, d) = (r, ([] : List Byte)) := h
    obtain ⟨h3, h4⟩ := Prod.mk.inj h2
    subst h3 h4
    exact mwriteLoop_nil lib _ s
  | succ f ih =>
    intro s d r h g
    have hfg : f + 1 + g = (f + g) + 1 := by omega
    rw [hfg]
    by_cases hd : d = []
    · subst hd
      rw [mwriteLoop_nil] at h ⊢
      exact h
    · cases hcur : s.zip_curpool with
      | none =>
        exfalso
        rw [zFile.mwriteLoop] at h
        simp only [List.length_pos.2 hd, if_true, hcur] at h
        exact hd (Prod.mk.inj h).2
      | some c =>
        rw [mwriteLoop_succ lib _ s d c hd hcur] at h ⊢
        by_cases ha : (c.add d).2 = 0
        · rw [if_pos ha] at h ⊢
          by_cases hrun : (c.run lib (s.threadJob lib c)).2 = 0
          · rw [if_neg (not_not.2 hrun)] at h ⊢
            exact ih _ _ _ h g
          · rw [if_pos hrun] at h
            exact absurd (Prod.mk.inj h).2 hd
        · rw [if_neg ha] at h ⊢
          exact ih _ _ _ h g

theorem MemPool.add_full (c : MemPool) (d : List Byte)
    (h : sizeSub c.poolsize c.inb.length = 0) : c.add d = (c, 0) := by
  simp [MemPool.add, h]

theorem MemPool.add_room (c : MemPool) (d : List Byte)
    (h : 0 < sizeSub c.poolsize c.inb.length) (hd : d ≠ []) :
    c.add d = ({ c with inb := c.inb ++ d.take (min (sizeSub c.poolsize c.inb.length) d.length) },
               min (sizeSub c.poolsize c.inb.length) d.length) := by
  have hl : 0 < d.length := List.length_pos.2 hd
  have : min (sizeSub c.poolsize c.inb.length) d.length ≠ 0 := by omega
  simp only [MemPool.add, this, if_false]

theorem sizeSub_add (p i a : Nat) (h : a ≤ sizeSub p i) :
    sizeSub p (i + a) = sizeSub p i - a := by
  unfold sizeSub at h ⊢
  split_ifs at h ⊢ <;> omega

/-- Two consecutive loops of `mwrite` that take every byte are one loop on the
concatenated bytes. -/
theorem mwriteLoop_append (lib : Lib) :
    ∀ (f : Nat) (s : zFile) (a : List Byte) (s1 : zFile),
      zFile.mwriteLoop lib f s a = (s1, []) →
      ∀ (g : Nat) (b : List Byte) (s2 : zFile),
        zFile.mwriteLoop lib g s1 b = (s2, []) →
        zFile.mwriteLoop lib (f + g) s (a ++ b) = (s2, []) := by
  intro f
  induction f with
  | zero =>
    intro s a s1 h g b s2 hg
    have h2 : (s, a) = (s1, ([] : List Byte)) := h
    obtain ⟨h3, h4⟩ := Prod.mk.inj h2
    subst h3 h4
    rw [List.nil_append, Nat.zero_add]
    exact hg
  | succ f ih =>
    intro s a s1 h g b s2 hg
    by_cases ha : a = []
    · subst ha
      rw [mwriteLoop_nil] at h
      have h3 := (Prod.mk.inj h).1
      subst h3
      rw [List.nil_append, Nat.add_comm]
      exact mwriteLoop_mono lib g s b s2 hg (f + 1)
    · by_cases hb : b = []
      · subst hb
        rw [mwriteLoop_nil] at hg
        have h3 := (Prod.mk.inj hg).1
        subst h3
        rw [List.append_nil]
        exact mwriteLoop_mono lib (f + 1) s a s1 h g
      · have hab : a ++ b ≠ [] := by
          intro h0
          exact ha (List.append_eq_nil.1 h0).1
        have hfg : f + 1 + g = (f + g) + 1 := by omega
        rw [hfg]
        cases hcur : s.zip_curpool with
        | none =>
          exfalso
          rw [zFile.mwriteLoop] at h
          simp only [List.length_pos.2 ha, if_true, hcur] at h
          exact ha (Prod.mk.inj h).2
        | some c =>
          rw [mwriteLoop_succ lib _ s a c ha hcur] at h
          rw [mwriteLoop_succ lib _ s (a ++ b) c hab hcur]
          rcases Nat.eq_zero_or_pos (sizeSub c.poolsize c.inb.length) with hroom | hroom
          · rw [MemPool.add_full c a hroom] at h
            rw [MemPool.add_full c (a ++ b) hroom]
            simp only [if_true] at h ⊢
            by_cases hrun : (c.run lib (s.threadJob lib c)).2 = 0
            · rw [if_neg (not_not.2 hrun)] at h ⊢
              exact ih _ _ _ h g b s2 hg
            · rw [if_pos hrun] at h
              exact absurd (Prod.mk.inj h).2 ha
          · rw [MemPool.add_room c a hroom ha] at h
            rw [MemPool.add_room c (a ++ b) hroom hab]
            have hla : 0 < a.length := List.length_pos.2 ha
            have hlb : 0 < b.length := List.length_pos.2 hb
            have hk1 : min (sizeSub c.poolsize c.inb.length) a.length ≠ 0 := by omega
            have hk2 : min (sizeSub c.poolsize c.inb.length) (a ++ b).length ≠ 0 := by
              rw [List.length_append]
              omega
            simp only [hk1, hk2, if_false] at h ⊢
            rcases Nat.lt_or_ge (sizeSub c.poolsize c.inb.length) a.length with hlt | hge
            · have e1 : min (sizeSub c.poolsize c.inb.length) a.length
                  = sizeSub c.poolsize c.inb.length := by omega
              have e2 : min (sizeSub c.poolsize c.inb.length) (a ++ b).length
                  = sizeSub c.poolsize c.inb.length := by
                rw [List.length_append]
                omega
              rw [e1] at h
              rw [e2, List.take_append_of_le_length (Nat.le_of_lt hlt),
                List.drop_append_of_le_length (Nat.le_of_lt hlt)]
              exact ih _ _ _ h g b s2 hg
            · have e1 : min (sizeSub c.poolsize c.inb.length) a.length = a.length := by omega
              rw [e1, List.take_length, List.drop_length, mwriteLoop_nil] at h
              have h3 := (Prod.mk.inj h).1
              rcases Nat.eq_or_lt_of_le hge with heq | hgt
              · have e2 : min (sizeSub c.poolsize c.inb.length) (a ++ b).length = a.length := by
                  rw [List.length_append]
                  omega
                rw [e2, List.take_left', List.drop_left', h3, Nat.add_comm]
                · exact mwriteLoop_mono lib g s1 b s2 hg f
                · rfl
                · rfl
              · cases g with
                | zero =>
                  exfalso
                  exact hb (Prod.mk.inj hg).2
                | succ g =>
                  subst h3
                  have hcur1 : ({ s with zip_curpool := some { c with inb := c.inb ++ a } }
                      : zFile).zip_curpool = some { c with inb := c.inb ++ a } := rfl
                  rw [mwriteLoop_succ lib _ _ b _ hb hcur1] at hg
                  have hroom1 : sizeSub c.poolsize (c.inb ++ a).length
                      = sizeSub c.poolsize c.inb.length - a.length := by
                    rw [List.length_append]
                    exact sizeSub_add _ _ _ hge
                  have hroom1p : 0 < sizeSub ({ c with inb := c.inb ++ a } : MemPool).poolsize
                      ({ c with inb := c.inb ++ a } : MemPool).inb.length := by
                    show 0 < sizeSub c.poolsize (c.inb ++ a).length
                    rw [hroom1]
                    omega
                  rw [MemPool.add_room _ b hroom1p hb] at hg
                  have hj : min (sizeSub ({ c with inb := c.inb ++ a } : MemPool).poolsize
                      ({ c with inb := c.inb ++ a } : MemPool).inb.length) b.length
                      = min (sizeSub c.poolsize c.inb.length - a.length) b.length := by
                    show min (sizeSub c.poolsize (c.inb ++ a).length) b.length = _
                    rw [hroom1]
                  rw [hj] at hg
                  have hj0 : min (sizeSub c.poolsize c.inb.length - a.length) b.length ≠ 0 := by
                    omega
                  simp only [hj0, if_false] at hg
                  have e2 : min (sizeSub c.poolsize c.inb.length) (a ++ b).length
                      = a.length + min (sizeSub c.poolsize c.inb.length - a.length) b.length := by
                    rw [List.length_append]
                    omega
                  rw [e2, List.take_append, List.drop_append]
                  have := mwriteLoop_mono lib g _ _ s2 hg (f + 1)
                  have e4 : f + (g + 1) = g + (f + 1) := by omega
                  rw [e4]
                  simp only [List.append_assoc] at this ⊢
                  exact this

end Zcp
namespace Zcp

/-- The call `mwrite` on a stream that satisfies the invariant, with `C ≥ 1` and thread
launches that succeed: its loop takes every byte within the turns the model gives it. -/
theorem mwrite_loop_done (lib : Lib) (func : compressFunc_t) (level C : Nat) (hdr : List Byte)
    (hjoin : lib.pthread_join = 0) (hattr : lib.pthread_attr_init = 0)
    (hcreate : lib.pthread_create = 0) (hC : 1 ≤ C) (s : zFile) (d : List Byte)
    (done : List (List Byte)) (h : SInv lib func level C hdr s done) :
    ∃ r, zFile.mwriteLoop lib (2 * d.length + s.zip_listfree.length + 2) s d = (r, []) ∧
      zFile.mwrite lib s d = (r, d.length) ∧
      ∃ done2, SInv lib func level C hdr r done2 := by
  obtain ⟨d2, h2, -, hfuel⟩ := mwriteLoop_sinv lib func level C hdr hjoin
    (2 * d.length + s.zip_listfree.length + 2) s d done _ h rfl
  have hnil := (hfuel hattr hcreate hC (by
    intro c _
    split_ifs <;> omega)).1
  generalize hr : zFile.mwriteLoop lib (2 * d.length + s.zip_listfree.length + 2) s d = r
    at h2 hnil
  obtain ⟨r1, r2⟩ := r
  simp only at hnil h2
  subst hnil
  refine ⟨r1, rfl, ?_, d2, h2⟩
  simp [zFile.mwrite, h.base.fmode, hr]

/-- Events other than `close()` submit full pools only. -/
theorem runEvents_full (lib : Lib) (func : compressFunc_t) (level C : Nat) (hdr : List Byte)
    (hjoin : lib.pthread_join = 0) :
    ∀ (evs : List WEvent) (s : zFile) (done : List (List Byte)),
      SInv lib func level C hdr s done → (∀ e ∈ evs, e ≠ WEvent.close) →
      (∀ x ∈ s.submitted, x.length = C) →
      ∀ x ∈ (runEvents lib evs s).submitted, x.length = C := by
  intro evs
  induction evs with
  | nil =>
    intro s done _ _ hf
    exact hf
  | cons e es ih =>
    intro s done h hne hf
    have hes : ∀ e ∈ es, e ≠ WEvent.close := fun e he => hne e (List.mem_cons_of_mem _ he)
    cases e with
    | mwrite data =>
      obtain ⟨d2, h2, -, -⟩ := mwrite_sinv lib func level C hdr hjoin s data done h
      have hmw : (zFile.mwrite lib s data).1
          = (zFile.mwriteLoop lib (2 * data.length + s.zip_listfree.length + 2) s data).1 := by
        simp [zFile.mwrite, h.base.fmode]
      apply ih _ d2 h2 hes
      rw [hmw]
      exact mwriteLoop_full lib func level C hdr hjoin _ s data done _ h rfl hf
    | close => exact absurd rfl (hne _ (List.mem_cons_self _ _))
    | workerDone id =>
      exact ih _ done (workerDone_sinv lib func level C hdr s done id h) hes hf

end Zcp
namespace Zcp

/-- The header a write-mode constructor writes does not depend on the thread count. -/
theorem ctor_write_content (lib : Lib) (file : List Byte) (b level n m : Nat) :
    ∃ s1 s2, zFilelz4.ctor lib (some file) .e_WriteMode b level n = some s1 ∧
      zFilelz4.ctor lib (some file) .e_WriteMode b level m = some s2 ∧
      s1.file_stream.content = s2.file_stream.content := by
  have hmode : ∀ k, (zFilelz4.ctorInit (some file) .e_WriteMode b level k).file_mode
      = .e_WriteMode := by
    intro k
    simp only [zFilelz4.ctorInit, zFile.ctor]
    split_ifs <;> rfl
  unfold zFilelz4.ctor
  dsimp only
  rw [if_pos (hmode n), if_pos (hmode m)]
  refine ⟨_, _, rfl, rfl, ?_⟩
  simp [zFilelz4.writeHeader, zFilelz4.ctorInit, zFile.ctor, zFile.setError,
    FStream.openFile, FStream.fail, FStream.seekg, FStream.write, FStream.good]

theorem flatten_eq_nil_of_ne (d : List (List Byte)) (hd : ∀ x ∈ d, x ≠ [])
    (h : d.flatten = []) : d = [] := by
  cases d with
  | nil => rfl
  | cons x t =>
    exfalso
    rw [List.flatten_cons] at h
    exact hd x (List.mem_cons_self _ _) (List.append_eq_nil.1 h).1

/-- Two ways of cutting the same bytes in non-empty blocks of at most `C` bytes, all full
except the last of each, are equal. -/
theorem chunks_unique (C : Nat) :
    ∀ d e : List (List Byte), d.flatten = e.flatten →
      (∀ x ∈ d.dropLast, x.length = C) → (∀ x ∈ e.dropLast, x.length = C) →
      (∀ x ∈ d, x ≠ [] ∧ x.length ≤ C) → (∀ x ∈ e, x ≠ [] ∧ x.length ≤ C) → d = e := by
  intro d
  induction d with
  | nil =>
    intro e h _ _ _ he
    exact (flatten_eq_nil_of_ne e (fun x hx => (he x hx).1) h.symm).symm
  | cons x t ih =>
    intro e h hdl hel hd he
    cases e with
    | nil => exact flatten_eq_nil_of_ne _ (fun y hy => (hd y hy).1) h
    | cons y u =>
      have hxC := (hd x (List.mem_cons_self _ _)).2
      have hyC := (he y (List.mem_cons_self _ _)).2
      have ht : ∀ z ∈ t, z ≠ [] ∧ z.length ≤ C := fun z hz => hd z (List.mem_cons_of_mem _ hz)
      have hu : ∀ z ∈ u, z ≠ [] ∧ z.length ≤ C := fun z hz => he z (List.mem_cons_of_mem _ hz)
      rw [List.flatten_cons, List.flatten_cons] at h
      have hlen := congrArg List.length h
      rw [List.length_append, List.length_append] at hlen
      have hxy : x.length = y.length := by
        cases t with
        | nil =>
          cases u with
          | nil => simpa using hlen
          | cons u1 u2 =>
            have hy : y.length = C := hel y (by simp [List.dropLast])
            have hu1 := (hu u1 (List.mem_cons_self _ _)).1
            have : 0 < u1.length := List.length_pos.2 hu1
            simp only [List.flatten_nil, List.length_nil, List.flatten_cons,
              List.length_append] at hlen
            omega
        | cons t1 t2 =>
          have hx : x.length = C := hdl x (by simp [List.dropLast])
          cases u with
          | nil =>
            have ht1 := (ht t1 (List.mem_cons_self _ _)).1
            have : 0 < t1.length := List.length_pos.2 ht1
            simp only [List.flatten_nil, List.length_nil, List.flatten_cons,
              List.length_append] at hlen
            omega
          | cons u1 u2 =>
            have hy : y.length = C := hel y (by simp [List.dropLast])
            omega
      obtain ⟨e1, e2⟩ := List.append_inj h hxy
      have htl : ∀ z ∈ t.dropLast, z.length = C := by
        intro z hz
        cases t with
        | nil => simp at hz
        | cons t1 t2 =>
          apply hdl z
          rw [List.dropLast_cons₂]
          exact List.mem_cons_of_mem _ hz
      have hul : ∀ z ∈ u.dropLast, z.length = C := by
        intro z hz
        cases u with
        | nil => simp at hz
        | cons u1 u2 =>
          apply hel z
          rw [List.dropLast_cons₂]
          exact List.mem_cons_of_mem _ hz
      rw [e1, ih u e2 htl hul ht hu]

/-- The file `writeTail` leaves depends on the state through the header, the flushed
blocks, the checksum state and the recorded offsets only. -/
theorem writeTail_determined (lib : Lib) (func : compressFunc_t) (level C : Nat)
    (hdr : List Byte) (d : List (List Byte)) (w1 w2 : zFile)
    (h1 : SInv lib func level C hdr w1 d) (h2 : SInv lib func level C hdr w2 d)
    (f1 : w1.flag = Flag.ctor) (f2 : w2.flag = Flag.ctor) :
    (zFilelz4.writeTail lib w1).file_stream.content
      = (zFilelz4.writeTail lib w2).file_stream.content := by
  rw [(writeTail_content lib w1 h1.base.good f1).1, (writeTail_content lib w2 h2.base.good f2).1]
  have hlen : ∀ w : zFile, SInv lib func level C hdr w d →
      w.listindex.length = (setOffsets (indexOffsets lib func level C 0 7 d)).length := by
    intro w hw
    have := congrArg List.length hw.base.index
    rw [List.length_map] at this
    exact this
  have hbytes : ∀ w : zFile, SInv lib func level C hdr w d →
      w.listindex.flatMap (fun e => le32 e.offset.n ++ le32 e.offset.z)
        = (setOffsets (indexOffsets lib func level C 0 7 d)).flatMap
            (fun p => le32 p.1 ++ le32 p.2) := by
    intro w hw
    rw [← hw.base.index, List.flatMap_map]
  rw [hlen w1 h1, hlen w2 h2, hbytes w1 h1, hbytes w2 h2, h1.base.content, h2.base.content,
    h1.xxh, h2.xxh]

end Zcp
namespace Zcp

/-- The destructor after `close()` leaves what the destructor alone leaves. -/
theorem dtor_close (lib : Lib) (func : compressFunc_t) (level C : Nat) (hdr : List Byte)
    (hjoin : lib.pthread_join = 0) (s : zFile) (done : List (List Byte))
    (h : SInv lib func level C hdr s done) :
    zFilelz4.dtor lib (zFile.close lib s) = zFilelz4.dtor lib s := by
  obtain ⟨d2, h2, -, -, -⟩ := close_sinv lib func level C hdr hjoin s done h
  have hfree : ∀ p ∈ s.zip_listfree, p.inb = [] := by
    intro p hp
    have := congrArg MemPool.inb (h.free p hp)
    exact this.symm
  unfold zFilelz4.dtor
  rw [if_pos h2.base.fmode, if_pos h.base.fmode, close_close lib s hfree]

/-- The blocks of a write session without an intermediate `close()`: after the final
`close()` every submitted block except the last has `C` bytes. -/
theorem session_full_blocks (lib : Lib) (file : List Byte) (b level n : Nat)
    (evs : List WEvent) (s0 : zFile)
    (hs0 : zFilelz4.ctor lib (some file) .e_WriteMode b level n = some s0)
    (hn : 1 ≤ n) (hattr : lib.pthread_attr_init = 0) (hcreate : lib.pthread_create = 0)
    (hjoin : lib.pthread_join = 0) (hne : ∀ e ∈ evs, e ≠ WEvent.close) :
    ∀ x ∈ (zFile.close lib (runEvents lib evs s0)).submitted.dropLast,
      x.length = min b LZ4F_MAXBLOC_SIZE := by
  obtain ⟨s1, hs1, -, -, hinv0⟩ := ctor_sinv lib file b level n hn
  have e1 : s1 = s0 := Option.some.inj (hs1.symm.trans hs0)
  rw [e1] at hinv0
  obtain ⟨s2, hs2, hsub2, -⟩ := ctor_write_inv lib file b level n hn
  have e2 : s2 = s0 := Option.some.inj (hs2.symm.trans hs0)
  rw [e2] at hsub2
  obtain ⟨d1, h1, -, -⟩ := runEvents_sinv lib _ (level % 256) _ _ hjoin evs s0 [] hinv0
  have hfull := runEvents_full lib _ (level % 256) _ _ hjoin evs s0 [] hinv0 hne
    (by rw [hsub2]; intro x hx; simp at hx)
  obtain ⟨d3, h3, hused, -, hok2⟩ := close_sinv lib _ (level % 256) _ _ hjoin _ d1 h1
  obtain ⟨-, -, hsubc⟩ := hok2 hattr hcreate
  obtain ⟨c, hc, -, -⟩ := h1.base.cur
  have hsc := hsubc c hc
  intro x hx
  by_cases hci : c.inb = []
  · rw [hsc, if_pos hci] at hx
    exact hfull x (List.mem_of_mem_dropLast hx)
  · rw [hsc, if_neg hci, List.dropLast_concat] at hx
    exact hfull x hx

/-- Two write sessions on the same file with the same block size and level, without an
intermediate `close()`, that pass the same bytes to `mwrite` produce the same file,
whatever their thread counts, the cutting of the bytes in calls and the order in which
the workers end. -/
theorem session_file_eq (lib : Lib) (file : List Byte) (b level n1 n2 : Nat)
    (hn1 : 1 ≤ n1) (hn2 : 1 ≤ n2) (hb : 1 ≤ b)
    (hattr : lib.pthread_attr_init = 0) (hcreate : lib.pthread_create = 0)
    (hjoin : lib.pthread_join = 0) (evs1 evs2 : List WEvent) (s1 s2 : zFile)
    (hs1 : zFilelz4.ctor lib (some file) .e_WriteMode b level n1 = some s1)
    (hs2 : zFilelz4.ctor lib (some file) .e_WriteMode b level n2 = some s2)
    (hc1 : ∀ e ∈ evs1, e ≠ WEvent.close) (hc2 : ∀ e ∈ evs2, e ≠ WEvent.close)
    (hX : bytesWritten evs1 = bytesWritten evs2) :
    (zFilelz4.dtor lib (runEvents lib evs1 s1)).file_stream.content
      = (zFilelz4.dtor lib (runEvents lib evs2 s2)).file_stream.content := by
  obtain ⟨d1, i1, f1, u1, a1, c1⟩ :=
    session_final lib file b level n1 evs1 s1 hs1 hn1 hb hattr hcreate hjoin
  obtain ⟨d2, i2, f2, u2, a2, c2⟩ :=
    session_final lib file b level n2 evs2 s2 hs2 hn2 hb hattr hcreate hjoin
  have l1 := session_full_blocks lib file b level n1 evs1 s1 hs1 hn1 hattr hcreate hjoin hc1
  have l2 := session_full_blocks lib file b level n2 evs2 s2 hs2 hn2 hattr hcreate hjoin hc2
  rw [u1] at l1
  rw [u2] at l2
  have hd : d1 = d2 := by
    apply chunks_unique (min b LZ4F_MAXBLOC_SIZE) d1 d2 (by rw [a1, a2, hX]) l1 l2
    · intro x hx
      exact i1.blocks x (by rw [u1]; exact hx)
    · intro x hx
      exact i2.blocks x (by rw [u2]; exact hx)
  obtain ⟨t1, t2, ht1, ht2, hhdr⟩ := ctor_write_content lib file b level n1 n2
  have e1 : t1 = s1 := Option.some.inj (ht1.symm.trans hs1)
  have e2 : t2 = s2 := Option.some.inj (ht2.symm.trans hs2)
  rw [e1, e2] at hhdr
  rw [c1, c2]
  rw [hd, hhdr] at i1
  exact writeTail_determined lib _ (level % 256) _ _ d2 _ _ i1 i2 f1 f2

/-- C38 (thread-count determinism). The block codec is a function of its arguments (the
record `lib`); thread operations succeed and the block size is at least 1. For every input
`X`, level and block size the write session produces the same file bytes for every two
thread counts `n1, n2 ≥ 1`; and the same holds for any two sessions without an intermediate
`close()` that pass the same bytes to `mwrite`, whatever the cutting of the bytes in calls
and the order in which the workers end. -/
theorem C38_thread_count_determinism (lib : Lib) (b level n1 n2 : Nat)
    (hn1 : 1 ≤ n1) (hn2 : 1 ≤ n2) (hb : 1 ≤ b)
    (hattr : lib.pthread_attr_init = 0) (hcreate : lib.pthread_create = 0)
    (hjoin : lib.pthread_join = 0) :
    (∀ X : List Byte, writeSession lib b level n1 X = writeSession lib b level n2 X) ∧
    (∀ (file : List Byte) (evs1 evs2 : List WEvent) (s1 s2 : zFile),
      zFilelz4.ctor lib (some file) .e_WriteMode b level n1 = some s1 →
      zFilelz4.ctor lib (some file) .e_WriteMode b level n2 = some s2 →
      (∀ e ∈ evs1, e ≠ WEvent.close) → (∀ e ∈ evs2, e ≠ WEvent.close) →
      bytesWritten evs1 = bytesWritten evs2 →
      (zFilelz4.dtor lib (runEvents lib evs1 s1)).file_stream.content
        = (zFilelz4.dtor lib (runEvents lib evs2 s2)).file_stream.content) := by
  refine ⟨?_, ?_⟩
  · intro X
    obtain ⟨s1, hs1, -, -, hinv1⟩ := ctor_sinv lib [] b level n1 hn1
    obtain ⟨s2, hs2, -, -, hinv2⟩ := ctor_sinv lib [] b level n2 hn2
    obtain ⟨d1, h1, -, -⟩ := runEvents_sinv lib _ (level % 256) _ _ hjoin [.mwrite X] s1 [] hinv1
    obtain ⟨d2, h2, -, -⟩ := runEvents_sinv lib _ (level % 256) _ _ hjoin [.mwrite X] s2 [] hinv2
    have hne : ∀ e ∈ [WEvent.mwrite X], e ≠ WEvent.close := by
      intro e he
      rw [List.mem_singleton.1 he]
      exact fun h => WEvent.noConfusion h
    have key := session_file_eq lib [] b level n1 n2 hn1 hn2 hb hattr hcreate hjoin
      [.mwrite X] [.mwrite X] s1 s2 hs1 hs2 hne hne rfl
    have r1 : runEvents lib [.mwrite X] s1 = (zFile.mwrite lib s1 X).1 := rfl
    have r2 : runEvents lib [.mwrite X] s2 = (zFile.mwrite lib s2 X).1 := rfl
    rw [r1] at h1 key
    rw [r2] at h2 key
    unfold writeSession
    rw [hs1, hs2, Option.map_some', Option.map_some',
      dtor_close lib _ (level % 256) _ _ hjoin _ d1 h1, dtor_close lib _ (level % 256) _ _ hjoin _ d2 h2, key]
  · intro file evs1 evs2 s1 s2 hs1 hs2 hc1 hc2 hX
    exact session_file_eq lib file b level n1 n2 hn1 hn2 hb hattr hcreate hjoin evs1 evs2
      s1 s2 hs1 hs2 hc1 hc2 hX

/-- Witness of C38: "hello world" written with blocks of 4 bytes at level 1 gives the same
file of 94 bytes with one thread and with three. -/
theorem C38_thread_count_determinism_witness :
    writeSession libRun 4 1 1 helloWorld = writeSession libRun 4 1 3 helloWorld ∧
    (writeSession libRun 4 1 1 helloWorld).map (fun f => f.length) = some 94 := by
  refine ⟨(C38_thread_count_determinism libRun 4 1 1 3 (by decide) (by decide) (by decide)
    rfl rfl rfl).1 helloWorld, by decide⟩

end Zcp
namespace Zcp

/-- The stand-in codec reports 0 on a block longer than 255 bytes. -/
theorem libRun_compress_long (f : compressFunc_t) (inb : List Byte) (dst : Int) (level : Nat)
    (h : 256 ≤ inb.length) : (libRun.compress f inb dst level).1 = 0 := by
  cases inb with
  | nil => rfl
  | cons x xs =>
    simp only [libRun]
    rw [if_neg]
    intro h2
    omega

/-- The pool of a read-mode `zFilelz4` object has a capacity of 4 MiB, whatever block
size the constructor is called with. -/
theorem ctorInit_read_pool (file : Option (List Byte)) (b l n : Nat) :
    (zFilelz4.ctorInit file .e_ReadMode b l n).unzip_readpool
      = some (MemPool.ctor 0 4194304 .e_UnzipPool) := by
  have hm : LZ4F_MAXBLOC_SIZE = 4194304 := by decide
  have hne : (OpenMode_t.e_ReadMode = OpenMode_t.e_WriteMode) = False := by simp
  simp only [zFilelz4.ctorInit, zFile.ctor, hne, if_false, hm]
  split_ifs <;> rfl

/-- The frame of a block of 4 MiB that the codec does not compress, in a pool of 4 MiB:
the word `0x80400000` and the block. -/
theorem blockFrame_raw_4M (lib : Lib) (func : compressFunc_t) (level : Nat) (X : List Byte)
    (hX : X.length = 4194304)
    (hraw : (lib.compress func X (toInt32 (sizeSub 4194304 4)) level).1 = 0) :
    (zFilelz4.compress lib func level X 4194304).1 = 4194308 ∧
    blockFrame lib func level X 4194304 = le32 0x80400000 ++ X := by
  have hs : toSizeT (0 : Int) = 0 := rfl
  have hc : zFilelz4.compress lib func level X 4194304
      = (4194308, le32 0x80400000 ++ X, 0) := by
    unfold zFilelz4.compress
    simp only [hraw, hs, if_true, hX]
    rfl
  refine ⟨by rw [hc], ?_⟩
  unfold blockFrame
  rw [hc]
  apply List.take_of_length_le
  simp only [List.length_append, le32_length, hX]
  decide

/-- C34 (every frame fits the reader), as the code behaves: it does not hold for a block
size of 4 MiB. The write-mode constructor called with 4 MiB builds pools of 4 MiB; for a
block `X` of 4 MiB that the codec does not compress (it returns 0) `zFilelz4::compress`
gives `out_len = 4 MiB + 4`, the frame being the word `0x80400000` followed by `X`; the
input buffer of every reader holds 4 MiB, less than this frame; and a decode pass on a full
input buffer that starts with this frame returns short input (code 1) with no output and
all of the 4 MiB left. -/
theorem C34_frame_exceeds_reader (lib : Lib) (func : compressFunc_t) (ufunc : uncompressFunc_t)
    (level n : Nat) (X rest : List Byte) (file : Option (List Byte)) (b2 l2 n2 : Nat)
    (hX : X.length = 4194304)
    (hraw : (lib.compress func X (toInt32 (sizeSub 4194304 4)) level).1 = 0) :
    (∃ s0, zFilelz4.ctor lib (some []) .e_WriteMode 4194304 level n = some s0 ∧
      s0.blocsize = 4194304 ∧
      s0.zip_curpool = (zFile.mkPools 4194304 0 n).head? ∧
      s0.zip_listfree = (zFile.mkPools 4194304 0 n).tail) ∧
    (zFilelz4.compress lib func level X 4194304).1 = 4194308 ∧
    blockFrame lib func level X 4194304 = le32 0x80400000 ++ X ∧
    (zFilelz4.ctorInit file .e_ReadMode b2 l2 n2).unzip_readpool
      = some (MemPool.ctor 0 4194304 .e_UnzipPool) ∧
    (MemPool.ctor 0 4194304 .e_UnzipPool).poolsize
      < (zFilelz4.compress lib func level X 4194304).1 ∧
    ((blockFrame lib func level X 4194304 ++ rest).take 4194304).length = 4194304 ∧
    zFilelz4.uncompress lib ufunc ((blockFrame lib func level X 4194304 ++ rest).take 4194304)
        4194304
      = (0, [], 1, 4194304) := by
  obtain ⟨hlen, hframe⟩ := blockFrame_raw_4M lib func level X hX hraw
  have hinl : ((le32 0x80400000 ++ X ++ rest).take 4194304).length = 4194304 := by
    rw [List.length_take]
    simp only [List.length_append, le32_length, hX]
    omega
  have hword : le32toh ((le32 0x80400000 ++ X ++ rest).take 4194304) = 0x80400000 := by
    rw [le32toh_take _ _ (by decide), List.append_assoc, le32toh_le32_append]
  refine ⟨?_, hlen, hframe, ctorInit_read_pool file b2 l2 n2, ?_, ?_, ?_⟩
  · obtain ⟨s0, hs0, h1, h2, h3, -⟩ := ctor_write_blocsize lib [] 4194304 level n
    have hm : min 4194304 LZ4F_MAXBLOC_SIZE = 4194304 := by decide
    rw [hm] at h1 h2 h3
    exact ⟨s0, hs0, h1, h2, h3⟩
  · rw [hlen]
    decide
  · rw [hframe]
    exact hinl
  · rw [hframe]
    have h := uncompress_oversized lib ufunc ((le32 0x80400000 ++ X ++ rest).take 4194304)
      4194304 (by rw [hinl]; decide) (by rw [hinl, hword]; decide)
    rw [hinl] at h
    exact h

/-- Witness of C34: the stand-in codec stores a block of 4 MiB of zero bytes raw; its frame
has 4 194 308 bytes and a decode pass on the first 4 MiB of the frame, the end mark and
the rest of the file returns short input. -/
theorem C34_frame_exceeds_reader_witness :
    (zFilelz4.compress libRun .compress_fast_extState 1 (List.replicate 4194304 0) 4194304).1
      = 4194308 ∧
    (MemPool.ctor 0 4194304 .e_UnzipPool).poolsize
      < (zFilelz4.compress libRun .compress_fast_extState 1
          (List.replicate 4194304 0) 4194304).1 ∧
    zFilelz4.uncompress libRun .decompress_fast
        ((blockFrame libRun .compress_fast_extState 1 (List.replicate 4194304 0) 4194304
            ++ [0, 0, 0, 0]).take 4194304) 4194304
      = (0, [], 1, 4194304) := by
  have h := C34_frame_exceeds_reader libRun .compress_fast_extState .decompress_fast 1 1
    (List.replicate 4194304 0) [0, 0, 0, 0] none 65536 1 1 (List.length_replicate _ _)
    (libRun_compress_long _ _ _ _ (by rw [List.length_replicate]; decide))
  exact ⟨h.2.1, h.2.2.2.2.1, h.2.2.2.2.2.2⟩

end Zcp
namespace Zcp

/-- A turn of the loop of `read` in which `get` hands out bytes. -/
theorem readLoop_get_step (lib : Lib) (fuel : Nat) (s : zFile) (rp : MemPool) (k : Nat)
    (acc : List Byte) (hk : 0 < k) (hrp : s.unzip_readpool = some rp)
    (hget : (rp.get k).2.1 ≠ 0) :
    zFile.readLoop lib (fuel + 1) s k acc
      = zFile.readLoop lib fuel { s with unzip_readpool := some (rp.get k).1 }
          (k - (rp.get k).2.1) (acc ++ (rp.get k).2.2) := by
  rw [zFile.readLoop]
  simp only [hk, if_true, hrp, hget, ne_eq, not_false_eq_true]

/-- A turn of the loop of `read` in which `get` returns 0 and the last return code is 2:
the decode pass runs on the pool as it is. -/
theorem readLoop_redo_step (lib : Lib) (fuel : Nat) (s : zFile) (rp : MemPool) (k : Nat)
    (acc : List Byte) (hk : 0 < k) (hrp : s.unzip_readpool = some rp)
    (hget : (rp.get k).2.1 = 0) (h2 : rp.zreturn = 2) :
    zFile.readLoop lib (fuel + 1) s k acc
      = if (rp.run lib (s.threadJob lib rp)).2 ≠ 0 then
          some (s.setError .e_ReadError "Error running read thread", k, acc)
        else if ((rp.run lib (s.threadJob lib rp)).1.wait lib).2 ≠ 0 then
          some ({ s with unzip_readpool
                    := some ((rp.run lib (s.threadJob lib rp)).1.wait lib).1 }.setError
                  .e_ReadError "Error joining read thread", k, acc)
        else zFile.readLoop lib fuel
               { s with unzip_readpool
                   := some ((rp.run lib (s.threadJob lib rp)).1.wait lib).1 } k acc := by
  have hs : ({ s with unzip_readpool := some rp, file_stream := s.file_stream } : zFile) = s := by
    cases s
    simp only at hrp
    subst hrp
    rfl
  rw [zFile.readLoop]
  simp only [hk, if_true, hrp, hget, ne_eq, not_true_eq_false, if_false, MemPool.getReturn,
    h2, false_and, hs]

/-- A turn of the loop of `read` in which `get` returns 0 and the last return code is not
2: bytes of the file are appended first. -/
theorem readLoop_fill_step (lib : Lib) (fuel : Nat) (s : zFile) (rp : MemPool) (k : Nat)
    (acc : List Byte) (hk : 0 < k) (hrp : s.unzip_readpool = some rp)
    (hget : (rp.get k).2.1 = 0) (h2 : rp.zreturn ≠ 2) :
    ∀ a, a = rp.addStream s.file_stream s.blocsize →
    ∀ s1, s1 = { s with unzip_readpool := some a.1, file_stream := a.2.1 } →
    ∀ r, r = a.1.run lib (s1.threadJob lib a.1) → ∀ w, w = r.1.wait lib →
    zFile.readLoop lib (fuel + 1) s k acc
      = if a.2.1.fail = true ∧ a.2.2 = 0 then
          some (s1.setError .e_ReadError "Error reading data", k, acc)
        else if r.2 ≠ 0 then
          some (s1.setError .e_ReadError "Error running read thread", k, acc)
        else if w.2 ≠ 0 then
          some ({ s1 with unzip_readpool := some w.1 }.setError
                  .e_ReadError "Error joining read thread", k, acc)
        else zFile.readLoop lib fuel { s1 with unzip_readpool := some w.1 } k acc := by
  intro a ha s1 hs1 r hr w hw
  subst ha hs1 hr hw
  rw [zFile.readLoop]
  simp only [hk, if_true, hrp, hget, ne_eq, not_true_eq_false, if_false,
    MemPool.getReturn, h2, not_false_eq_true, true_and]

/-- A decode pass on a non-empty unzip pool of an lz4 stream when the thread operations
succeed: `run` and `wait` return 0 and the pool holds the result of
`zFilelz4::uncompress` on its input, with the unconsumed input moved to the front. -/
theorem decode_pass (lib : Lib) (hattr : lib.pthread_attr_init = 0)
    (hcreate : lib.pthread_create = 0) (hjoin : lib.pthread_join = 0)
    (s : zFile) (p : MemPool) (f : uncompressFunc_t)
    (htype : s.file_type = .e_lz4) (hf : s.unlz4_uncompressfunc = some f)
    (hm : p.mode = .e_UnzipPool) (hne : p.inb ≠ []) :
    ∀ u, u = zFilelz4.uncompress lib f p.inb p.poolsize →
    (p.run lib (s.threadJob lib p)).2 = 0 ∧
    ((p.run lib (s.threadJob lib p)).1.wait lib).2 = 0 ∧
    ((p.run lib (s.threadJob lib p)).1.wait lib).1
      = { p with outsize := u.1, out := u.2.1, zreturn := u.2.2.1,
                 inb := (p.inb.drop (p.inb.length - u.2.2.2)).take u.2.2.2,
                 ptr := 0, job := none, thid := 0 } := by
  intro u hu
  have hl : p.inb.length ≠ 0 := fun h => hne (List.length_eq_zero.1 h)
  have hj : zFile.threadJob lib s p
      = { outsize := u.1, out := u.2.1, zreturn := u.2.2.1,
          inb := (p.inb.drop (p.inb.length - u.2.2.2)).take u.2.2.2 } := by
    unfold zFile.threadJob
    rw [hm]
    simp only [zFile.uncompressV, htype, if_true, hf, ← hu]
  rw [hj]
  simp only [MemPool.run, hl, if_false, hattr, hcreate, ne_eq, not_true_eq_false,
    MemPool.wait, Nat.add_one_ne_zero, hjoin, MemPool.finish, and_self, true_and]

end Zcp
namespace Zcp

/-- On an input that starts with a complete compressed frame the block decoder rejects
(result `≤ 0`), `zFilelz4::uncompress` produces no output, consumes nothing and reports a
short output (`*preturn = 2`). -/
theorem uncompress_rejected (lib : Lib) (f : uncompressFunc_t) (inb : List Byte)
    (outsize : Nat) (h4 : 4 < inb.length) (hw0 : le32toh inb ≠ 0)
    (hw1 : le32toh inb < 2147483648) (hw2 : le32toh inb + 4 ≤ inb.length)
    (hrej : (lib.decompress f ((inb.drop 4).take (le32toh inb))
              (toInt32 (sizeSub outsize 0))).1 ≤ 0) :
    zFilelz4.uncompress lib f inb outsize = (0, [], 2, inb.length) := by
  unfold zFilelz4.uncompress
  have hz : le32toh inb &&& 0x7fffffff = le32toh inb := by
    rw [and_7fffffff]
    exact Nat.mod_eq_of_lt hw1
  have h1 : zFilelz4.uncompressLoop lib f inb outsize (inb.length + 1) 0 0 []
      = (0, 0, [], 2) := by
    rw [zFilelz4.uncompressLoop]
    have ha : 0 + 4 < inb.length := by omega
    have hb : ¬ (0 + (le32toh inb) + 4 > inb.length) := by omega
    have hb2 : ¬ (le32toh inb + 4 > inb.length) := by omega
    have hc : ¬ (2147483648 ≤ le32toh inb) := by omega
    have he : ¬ (le32toh inb = LZ4S_EOS) := hw0
    simp only [ha, if_true, List.drop_zero, hz, hb, if_false, he, hc, decide_False,
      Bool.false_eq_true, Nat.zero_add, hrej, hb2]
  rw [h1]
  simp

/-- A drained reader pool whose last return code is 2 and whose input starts with a
complete compressed frame the block decoder rejects: every turn of the loop of `read`
repeats the same decode pass, and the loop does not end. -/
theorem readLoop_rejected (lib : Lib) (hattr : lib.pthread_attr_init = 0)
    (hcreate : lib.pthread_create = 0) (hjoin : lib.pthread_join = 0)
    (f : uncompressFunc_t) (inb : List Byte) (C : Nat) (hne : inb ≠ [])
    (hu : zFilelz4.uncompress lib f inb C = (0, [], 2, inb.length)) :
    ∀ (fuel : Nat) (s : zFile) (rp : MemPool) (k : Nat) (acc : List Byte), 0 < k →
      s.file_type = .e_lz4 → s.unlz4_uncompressfunc = some f →
      s.unzip_readpool = some rp → rp.mode = .e_UnzipPool → rp.poolsize = C →
      rp.inb = inb → sizeSub rp.outsize rp.ptr = 0 → rp.zreturn = 2 →
      zFile.readLoop lib fuel s k acc = none := by
  intro fuel
  induction fuel with
  | zero =>
    intro s rp k acc _ _ _ _ _ _ _ _ _
    rfl
  | succ fuel ih =>
    intro s rp k acc hk htype hf hrp hm hC hin hout hz
    have hget : (rp.get k).2.1 = 0 := by
      simp [MemPool.get, hout]
    have hne2 : rp.inb ≠ [] := by rw [hin]; exact hne
    obtain ⟨p1, p2, p3⟩ := decode_pass lib hattr hcreate hjoin s rp f htype hf hm hne2 _ rfl
    rw [readLoop_redo_step lib fuel s rp k acc hk hrp hget hz, if_neg (not_not.2 p1),
      if_neg (not_not.2 p2), p3]
    rw [hC, hin, hu]
    refine ih _ _ k acc hk htype hf rfl hm rfl ?_ rfl rfl
    simp

/-- C35 (read terminates), as the code behaves: it does not hold. A read-mode lz4 stream
whose thread operations succeed, with a fresh reader pool (no input, nothing to hand out,
return code not 2) and a file stream in good state; `inb` are the bytes the first turn of
`read` appends (up to `min(capacity, _blocsize)` bytes of the file from the current
position). When `inb` starts with a complete compressed frame that the block decoder
rejects, the decode pass returns short output (code 2) with no output byte and nothing
consumed, and `read(dst, k)` with `k ≥ 1` never returns: no number of turns of its loop
gives a result. -/
theorem C35_read_never_returns (lib : Lib) (hattr : lib.pthread_attr_init = 0)
    (hcreate : lib.pthread_create = 0) (hjoin : lib.pthread_join = 0)
    (s : zFile) (rp : MemPool) (f : uncompressFunc_t) (k : Nat) (inb : List Byte)
    (hk : 0 < k)
    (hmode : s.file_mode = .e_ReadMode) (htype : s.file_type = .e_lz4)
    (hf : s.unlz4_uncompressfunc = some f)
    (hrp : s.unzip_readpool = some rp) (hrm : rp.mode = .e_UnzipPool)
    (hin : rp.inb = []) (hout : sizeSub rp.outsize rp.ptr = 0) (hret : rp.zreturn ≠ 2)
    (hgood : s.file_stream.good = true)
    (hinb : inb = (s.file_stream.content.drop s.file_stream.pos).take
              (min rp.poolsize s.blocsize))
    (h4 : 4 < inb.length) (hw0 : le32toh inb ≠ 0) (hw1 : le32toh inb < 2147483648)
    (hw2 : le32toh inb + 4 ≤ inb.length)
    (hrej : (lib.decompress f ((inb.drop 4).take (le32toh inb))
              (toInt32 (sizeSub rp.poolsize 0))).1 ≤ 0) :
    zFilelz4.uncompress lib f inb rp.poolsize = (0, [], 2, inb.length) ∧
    ∀ fuel, zFile.read lib fuel s k = none := by
  have hu := uncompress_rejected lib f inb rp.poolsize h4 hw0 hw1 hw2 hrej
  refine ⟨hu, ?_⟩
  intro fuel
  have hnw : ¬ (s.file_mode = OpenMode_t.e_WriteMode) := by
    rw [hmode]
    decide
  unfold zFile.read
  rw [if_neg hnw]
  cases fuel with
  | zero => rfl
  | succ fuel =>
    have hne : inb ≠ [] := by
      intro h0
      rw [h0] at h4
      simp at h4
    have hget : (rp.get k).2.1 = 0 := by
      simp [MemPool.get, hout]
    have hroom : sizeSub rp.poolsize rp.inb.length = rp.poolsize := by
      rw [hin]
      simp [sizeSub]
    have hn0 : min rp.poolsize s.blocsize ≠ 0 := by
      intro h0
      rw [h0, List.take_zero] at hinb
      exact hne hinb
    have hread : (s.file_stream.read (min rp.poolsize s.blocsize)).2 = inb := by
      unfold FStream.read
      rw [if_pos hgood, hinb]
      dsimp only
      split_ifs <;> rfl
    have hadd : rp.addStream s.file_stream s.blocsize
        = ({ rp with inb := inb }, (s.file_stream.read (min rp.poolsize s.blocsize)).1,
           inb.length) := by
      unfold MemPool.addStream
      dsimp only
      rw [hroom, if_neg hn0, hread, hin, List.nil_append]
    have hstep := readLoop_fill_step lib fuel s rp k [] hk hrp hget hret _ rfl _ rfl _ rfl _ rfl
    rw [hadd] at hstep
    have hl : inb.length ≠ 0 := fun h => hne (List.length_eq_zero.1 h)
    obtain ⟨p1, p2, p3⟩ := decode_pass lib hattr hcreate hjoin
      { s with unzip_readpool := some { rp with inb := inb },
               file_stream := (s.file_stream.read (min rp.poolsize s.blocsize)).1 }
      { rp with inb := inb } f htype hf hrm hne _ rfl
    simp only [hl, and_false, if_false] at hstep
    rw [if_neg (not_not.2 p1), if_neg (not_not.2 p2)] at hstep
    rw [hstep]
    have hmap : ∀ x : Option (zFile × Nat × List Byte), x = none →
        Option.map (fun r => (r.1, k - r.2.1, r.2.2)) x = none := by
      intro x hx
      rw [hx]
      rfl
    apply hmap
    refine readLoop_rejected lib hattr hcreate hjoin f inb rp.poolsize hne hu fuel _ _ k []
      hk htype hf rfl ?_ ?_ ?_ ?_ ?_
    · rw [p3]
      exact hrm
    · rw [p3]
    · rw [p3]
      simp [hu]
    · rw [p3]
      simp [hu, sizeSub]
    · rw [p3]
      simp [hu]

/-- Witness of C35: the reader the constructor builds on an 18-byte file whose first frame
is the compressed frame `03 00 00 00 01 02 03`, which the stand-in decoder rejects: the
constructor records no error and a `read` of one byte never returns. -/
theorem C35_read_never_returns_witness :
    ∃ r, zFilelz4.ctor libRun (some rejectedFile) .e_ReadMode 65536 1 1 = some r ∧
      r.lasterror = .e_SuccessError ∧
      zFilelz4.uncompress libRun .decompress_fast [3, 0, 0, 0, 1, 2, 3, 0, 0, 0, 0] 4194304
        = (0, [], 2, 11) ∧
      ∀ fuel, zFile.read libRun fuel r 1 = none := by
  have hc : (zFilelz4.ctor libRun (some rejectedFile) .e_ReadMode 65536 1 1).isSome = true := by
    decide
  obtain ⟨r, hr⟩ := Option.isSome_iff_exists.1 hc
  have facts : (zFilelz4.ctor libRun (some rejectedFile) .e_ReadMode 65536 1 1).map (fun r =>
      decide (r.file_mode = .e_ReadMode ∧ r.file_type = .e_lz4 ∧
        r.unlz4_uncompressfunc = some .decompress_fast ∧
        r.unzip_readpool = some (MemPool.ctor 0 4194304 .e_UnzipPool) ∧
        r.file_stream = { content := rejectedFile, pos := 7, eofbit := false, failbit := false } ∧
        r.blocsize = 4194304 ∧ r.lasterror = .e_SuccessError)) = some true := by decide
  rw [hr] at facts
  simp only [Option.map_some', Option.some.injEq, decide_eq_true_eq] at facts
  obtain ⟨f1, f2, f3, f4, f5, f6, f7⟩ := facts
  have h := C35_read_never_returns libRun rfl rfl rfl r (MemPool.ctor 0 4194304 .e_UnzipPool)
    .decompress_fast 1 [3, 0, 0, 0, 1, 2, 3, 0, 0, 0, 0] (by decide) f1 f2 f3 f4 rfl rfl
    (by decide) (by decide) (by rw [f5]; rfl) (by rw [f5, f6]; decide) (by decide) (by decide)
    (by decide) (by decide) (by decide)
  exact ⟨r, hr, f7, h.1, h.2⟩

end Zcp
namespace Zcp

/-- One call of `zFilelz4::uncompress` on well-formed frames followed by the end mark and
at least one more byte: the frames are decoded, the return code is 3 and the whole input
is consumed, the bytes behind the end mark included. -/
theorem uncompress_eos (lib : Lib) (func : uncompressFunc_t) (fs : List Frame)
    (C : Nat) (x : Byte) (rest : List Byte) (hok : ∀ f ∈ fs, f.ok lib func)
    (hsz : (framesPlain fs).length ≤ C) (hC : C < 2147483648) :
    zFilelz4.uncompress lib func (framesBytes fs ++ (le32 0 ++ x :: rest)) C
      = ((framesPlain fs).length, framesPlain fs, 3, 0) := by
  obtain ⟨fuel, h⟩ := uncompress_frames_tail lib func C hC fs (le32 0 ++ x :: rest) hok hsz
  unfold zFilelz4.uncompress
  rw [h, zFilelz4.uncompressLoop]
  have hlen : (framesBytes fs ++ (le32 0 ++ x :: rest)).length
      = (framesBytes fs).length + 4 + (rest.length + 1) := by
    simp only [List.length_append, le32_length, List.length_cons]
    omega
  have c1 : (framesBytes fs).length + 4 < (framesBytes fs ++ (le32 0 ++ x :: rest)).length := by
    rw [hlen]
    omega
  have hw : le32toh ((framesBytes fs ++ (le32 0 ++ x :: rest)).drop (framesBytes fs).length)
      = 0 := by
    rw [List.drop_left' rfl, le32toh_le32_append]
  have c2 : ¬ ((framesBytes fs).length + 0 + 4
      > (framesBytes fs ++ (le32 0 ++ x :: rest)).length) := by
    rw [hlen]
    omega
  rw [if_pos c1]
  simp only [hw, Nat.zero_and]
  rw [if_neg c2]
  simp only [LZ4S_EOS, if_true, Nat.sub_self]

/-- What `add` from a good stream appends to a pool without input, when the requested
size is the capacity of the pool: the next bytes of the file, up to the capacity. -/
theorem MemPool.addStream_fresh (p : MemPool) (fs : FStream) (hin : p.inb = [])
    (hgood : fs.good = true) (chunk : List Byte)
    (hchunk : chunk = (fs.content.drop fs.pos).take p.poolsize) (hne : chunk ≠ []) :
    p.addStream fs p.poolsize
      = ({ p with inb := chunk }, (fs.read p.poolsize).1, chunk.length) := by
  have hroom : sizeSub p.poolsize p.inb.length = p.poolsize := by
    rw [hin]
    simp [sizeSub]
  have hn0 : min p.poolsize p.poolsize ≠ 0 := by
    intro h0
    rw [Nat.min_self] at h0
    rw [h0, List.take_zero] at hchunk
    exact hne hchunk
  have hread : (fs.read p.poolsize).2 = chunk := by
    unfold FStream.read
    rw [if_pos hgood, hchunk]
    dsimp only
    split_ifs <;> rfl
  unfold MemPool.addStream
  dsimp only
  rw [hroom, if_neg hn0, Nat.min_self, hread, hin, List.nil_append]

/-- A call `read(dst, k)` on a read-mode lz4 stream whose pool has no input and nothing to
hand out, with a return code other than 2, a good file stream and thread operations that
succeed: the first turn appends the next bytes of the file (`chunk`, up to the capacity)
and runs the decode pass on them (`u` is its result); when the pass gives at least `k`
bytes the second turn hands out the first `k` of them and the call returns `k`. -/
theorem read_fill_get (lib : Lib) (hattr : lib.pthread_attr_init = 0)
    (hcreate : lib.pthread_create = 0) (hjoin : lib.pthread_join = 0)
    (s : zFile) (rp : MemPool) (f : uncompressFunc_t) (k : Nat) (chunk : List Byte)
    (hk : 1 ≤ k)
    (hmode : s.file_mode = .e_ReadMode) (htype : s.file_type = .e_lz4)
    (hf : s.unlz4_uncompressfunc = some f)
    (hrp : s.unzip_readpool = some rp) (hrm : rp.mode = .e_UnzipPool)
    (hin : rp.inb = []) (hout : sizeSub rp.outsize rp.ptr = 0) (hret : rp.zreturn ≠ 2)
    (hbs : s.blocsize = rp.poolsize) (hgood : s.file_stream.good = true)
    (hchunk : chunk = (s.file_stream.content.drop s.file_stream.pos).take rp.poolsize)
    (hne : chunk ≠ []) :
    ∀ u, u = zFilelz4.uncompress lib f chunk rp.poolsize → k ≤ u.1 →
    ∀ fuel, zFile.read lib (fuel + 3) s k
      = some ({ s with
                  unzip_readpool := some
                    { rp with outsize := u.1, out := u.2.1, zreturn := u.2.2.1,
                              inb := (chunk.drop (chunk.length - u.2.2.2)).take u.2.2.2,
                              ptr := k, job := none, thid := 0 },
                  file_stream := (s.file_stream.read rp.poolsize).1 },
              k, u.2.1.take k) := by
  intro u hu hku fuel
  have hnw : ¬ (s.file_mode = OpenMode_t.e_WriteMode) := by
    rw [hmode]
    decide
  have hk0 : 0 < k := hk
  have hget : (rp.get k).2.1 = 0 := by
    simp [MemPool.get, hout]
  have hadd : rp.addStream s.file_stream s.blocsize
      = ({ rp with inb := chunk }, (s.file_stream.read rp.poolsize).1, chunk.length) := by
    rw [hbs]
    exact MemPool.addStream_fresh rp s.file_stream hin hgood chunk hchunk hne
  have hl : chunk.length ≠ 0 := fun h => hne (List.length_eq_zero.1 h)
  have hstep := readLoop_fill_step lib (fuel + 2) s rp k [] hk0 hrp hget hret _ rfl _ rfl _ rfl
    _ rfl
  rw [hadd] at hstep
  obtain ⟨p1, p2, p3⟩ := decode_pass lib hattr hcreate hjoin
    { s with unzip_readpool := some { rp with inb := chunk },
             file_stream := (s.file_stream.read rp.poolsize).1 }
    { rp with inb := chunk } f htype hf hrm hne _ rfl
  simp only [hl, and_false, if_false] at hstep
  rw [if_neg (not_not.2 p1), if_neg (not_not.2 p2), p3] at hstep
  simp only [← hu] at hstep
  have hg2 : ∀ q : MemPool, q.outsize = u.1 → q.ptr = 0 → q.out = u.2.1 →
      q.get k = ({ q with ptr := k }, k, u.2.1.take k) := by
    intro q h1 h2 h3
    have hs : sizeSub q.outsize q.ptr = u.1 := by
      rw [h1, h2]
      simp [sizeSub]
    have hm : min u.1 k = k := Nat.min_eq_right hku
    have hk1 : k ≠ 0 := by omega
    unfold MemPool.get
    dsimp only
    rw [hs, hm, if_neg hk1, h2, h3, Nat.zero_add, List.drop_zero]
  have hstep2 := readLoop_get_step lib (fuel + 1)
    { s with unzip_readpool := some
               { rp with outsize := u.1, out := u.2.1, zreturn := u.2.2.1,
                         inb := (chunk.drop (chunk.length - u.2.2.2)).take u.2.2.2,
                         ptr := 0, job := none, thid := 0 },
             file_stream := (s.file_stream.read rp.poolsize).1 }
    { rp with outsize := u.1, out := u.2.1, zreturn := u.2.2.1,
              inb := (chunk.drop (chunk.length - u.2.2.2)).take u.2.2.2,
              ptr := 0, job := none, thid := 0 } k [] hk0 rfl
    (by
      rw [hg2 _ rfl rfl rfl]
      show k ≠ 0
      omega)
  rw [hg2 _ rfl rfl rfl] at hstep2
  simp only [Nat.sub_self, List.nil_append] at hstep2
  have hstep3 : ∀ (t : zFile) (acc : List Byte),
      zFile.readLoop lib (fuel + 1) t 0 acc = some (t, 0, acc) := by
    intro t acc
    rw [zFile.readLoop]
    simp
  unfold zFile.read
  rw [if_neg hnw]
  have e3 : fuel + 3 = (fuel + 2) + 1 := rfl
  rw [e3, hstep]
  have e2 : fuel + 2 = (fuel + 1) + 1 := rfl
  rw [e2, hstep2, hstep3]
  simp

end Zcp
namespace Zcp

/-- C33 (EOS terminates the block sequence), as the code behaves: it does not hold when
bytes of the file follow the chunk that holds the end mark. A read-mode lz4 stream whose
thread operations succeed, with a fresh reader pool of capacity `P` and a good file
stream positioned on well-formed frames `fs`, followed by the end mark and bytes `x ::
after` that fill the first chunk of `P` bytes exactly, followed by more bytes `rest` of
the file. The first `read` returns the plaintext of the frames, its decode pass returns
EOS (code 3) and drops the bytes `x :: after`. The next `read` appends the bytes `rest`
(up to `P`) to the input and runs the decode pass on them as if they were block frames
(`u` is the result of `zFilelz4::uncompress` on them): when this pass gives `u.1 ≥ k ≥ 1`
bytes, the call returns `k` and delivers the first `k` of them to the caller. -/
theorem C33_bytes_after_eos_decoded (lib : Lib) (hattr : lib.pthread_attr_init = 0)
    (hcreate : lib.pthread_create = 0) (hjoin : lib.pthread_join = 0)
    (s : zFile) (rp : MemPool) (f : uncompressFunc_t) (fs : List Frame) (x : Byte)
    (after rest : List Byte)
    (hmode : s.file_mode = .e_ReadMode) (htype : s.file_type = .e_lz4)
    (hf : s.unlz4_uncompressfunc = some f)
    (hrp : s.unzip_readpool = some rp) (hrm : rp.mode = .e_UnzipPool)
    (hin : rp.inb = []) (hout : sizeSub rp.outsize rp.ptr = 0) (hret : rp.zreturn ≠ 2)
    (hP : rp.poolsize < 2147483648) (hbs : s.blocsize = rp.poolsize)
    (hgood : s.file_stream.good = true)
    (hfile : s.file_stream.content.drop s.file_stream.pos
        = framesBytes fs ++ (le32 0 ++ x :: after) ++ rest)
    (hchunk : (framesBytes fs ++ (le32 0 ++ x :: after)).length = rp.poolsize)
    (hok : ∀ g ∈ fs, g.ok lib f) (hplain : 1 ≤ (framesPlain fs).length)
    (hfit : (framesPlain fs).length ≤ rp.poolsize) (hrest : rest ≠ []) :
    ∃ s1 rp1,
      (∀ fuel, zFile.read lib (fuel + 3) s (framesPlain fs).length
          = some (s1, (framesPlain fs).length, framesPlain fs)) ∧
      s1.unzip_readpool = some rp1 ∧ rp1.zreturn = 3 ∧ rp1.inb = [] ∧
      s1.lasterror = s.lasterror ∧
      s1.file_stream.content.drop s1.file_stream.pos = rest ∧
      ∀ u, u = zFilelz4.uncompress lib f (rest.take rp.poolsize) rp.poolsize →
        ∀ k, 1 ≤ k → k ≤ u.1 → ∀ fuel, ∃ s2,
          zFile.read lib (fuel + 3) s1 k = some (s2, k, u.2.1.take k) := by
  have hc1 : framesBytes fs ++ (le32 0 ++ x :: after)
      = (s.file_stream.content.drop s.file_stream.pos).take rp.poolsize := by
    rw [hfile]
    exact (List.take_left' hchunk).symm
  have hne1 : framesBytes fs ++ (le32 0 ++ x :: after) ≠ [] := by
    intro h0
    have := congrArg List.length h0
    simp [le32_length] at this
  have hP1 : 1 ≤ rp.poolsize := by
    rw [← hchunk]
    simp only [List.length_append, le32_length, List.length_cons]
    omega
  have hu1 := uncompress_eos lib f fs rp.poolsize x after hok hfit hP
  have hread1 := read_fill_get lib hattr hcreate hjoin s rp f (framesPlain fs).length
    (framesBytes fs ++ (le32 0 ++ x :: after)) hplain hmode htype hf hrp hrm hin hout hret hbs
    hgood hc1 hne1 ((framesPlain fs).length, framesPlain fs, 3, 0) hu1.symm (Nat.le_refl _)
  have hlen : s.file_stream.pos + rp.poolsize ≤ s.file_stream.content.length := by
    have := congrArg List.length hfile
    rw [List.length_drop, List.length_append, hchunk] at this
    omega
  have hst : (s.file_stream.read rp.poolsize).1
      = { s.file_stream with pos := s.file_stream.pos + rp.poolsize } := by
    rw [FStream.read_exact _ _ hgood hlen]
  have hg := (FStream.good_iff _).1 hgood
  have hdrop : s.file_stream.content.drop (s.file_stream.pos + rp.poolsize) = rest := by
    rw [← List.drop_drop, hfile]
    exact List.drop_left' hchunk
  have hread1b : ∀ fuel, zFile.read lib (fuel + 3) s (framesPlain fs).length
      = some ({ s with
                  unzip_readpool := some
                    { rp with outsize := (framesPlain fs).length, out := framesPlain fs,
                              zreturn := 3, inb := [], ptr := (framesPlain fs).length,
                              job := none, thid := 0 },
                  file_stream := { s.file_stream with pos := s.file_stream.pos + rp.poolsize } },
              (framesPlain fs).length, framesPlain fs) := by
    intro fuel
    have h := hread1 fuel
    simp only [List.take_length, List.take_zero] at h
    rw [hst] at h
    exact h
  refine ⟨{ s with
              unzip_readpool := some
                { rp with outsize := (framesPlain fs).length, out := framesPlain fs,
                          zreturn := 3, inb := [], ptr := (framesPlain fs).length,
                          job := none, thid := 0 },
              file_stream := { s.file_stream with pos := s.file_stream.pos + rp.poolsize } },
    { rp with outsize := (framesPlain fs).length, out := framesPlain fs,
              zreturn := 3, inb := [], ptr := (framesPlain fs).length,
              job := none, thid := 0 }, hread1b, rfl, rfl, rfl, rfl, hdrop, ?_⟩
  intro u hu k hk hku fuel
  have hne2 : rest.take rp.poolsize ≠ [] := by
    intro h0
    have := congrArg List.length h0
    rw [List.length_take] at this
    have hr : 0 < rest.length := List.length_pos.2 hrest
    simp only [List.length_nil] at this
    omega
  have hread2 := read_fill_get lib hattr hcreate hjoin
    { s with
        unzip_readpool := some
          { rp with outsize := (framesPlain fs).length, out := framesPlain fs,
                    zreturn := 3, inb := [], ptr := (framesPlain fs).length,
                    job := none, thid := 0 },
        file_stream := { s.file_stream with pos := s.file_stream.pos + rp.poolsize } }
    { rp with outsize := (framesPlain fs).length, out := framesPlain fs,
              zreturn := 3, inb := [], ptr := (framesPlain fs).length,
              job := none, thid := 0 }
    f k (rest.take rp.poolsize) hk hmode htype hf rfl hrm rfl
    (by
      show sizeSub (framesPlain fs).length (framesPlain fs).length = 0
      simp [sizeSub])
    (by
      show (3 : Nat) ≠ 2
      decide)
    hbs
    (by
      show ({ s.file_stream with pos := s.file_stream.pos + rp.poolsize } : FStream).good
        = true
      simp only [FStream.good, hg.1, hg.2]
      rfl)
    (by
      show rest.take rp.poolsize
        = (s.file_stream.content.drop (s.file_stream.pos + rp.poolsize)).take rp.poolsize
      rw [hdrop])
    hne2 u hu hku fuel
  exact ⟨_, hread2⟩

end Zcp
namespace Zcp

/-- The fields `readHeader` leaves as they are. -/
theorem readHeader_keeps (lib : Lib) (s : zFile) :
    (zFilelz4.readHeader lib s).file_mode = s.file_mode ∧
    (zFilelz4.readHeader lib s).file_type = s.file_type ∧
    (zFilelz4.readHeader lib s).unzip_readpool = s.unzip_readpool ∧
    (zFilelz4.readHeader lib s).blocsize = s.blocsize ∧
    (zFilelz4.readHeader lib s).flag = s.flag := by
  unfold zFilelz4.readHeader
  dsimp only
  split_ifs <;> exact ⟨rfl, rfl, rfl, rfl, rfl⟩

/-- The type and the block size of a read-mode `zFilelz4` object. -/
theorem ctorInit_read_size (file : Option (List Byte)) (b l n : Nat) :
    (zFilelz4.ctorInit file .e_ReadMode b l n).file_type = .e_lz4 ∧
    (zFilelz4.ctorInit file .e_ReadMode b l n).blocsize = 4194304 := by
  have hm : LZ4F_MAXBLOC_SIZE = 4194304 := by decide
  have hne : (OpenMode_t.e_ReadMode = OpenMode_t.e_WriteMode) = False := by simp
  simp only [zFilelz4.ctorInit, zFile.ctor, hne, if_false, hm]
  split_ifs <;> simp [zFile.setError]

/-- The state of the read-mode constructor on the file `writeTail` leaves (same
conditions as `ctor_read_written`) when the header of the file is accepted: no error, the
stream positioned after the header, a fresh pool of 4 MiB and the decoder
`decompress_fast`. -/
theorem ctor_read_written_state (lib : Lib) (w : zFile) (b level nthread : Nat)
    (hw : w.file_stream.good = true) (hwf : w.flag = Flag.ctor)
    (hne : w.listindex ≠ [])
    (hlt : ∀ e ∈ w.listindex, e.offset.n < 4294967296 ∧ e.offset.z < 4294967296)
    (hsorted : w.listindex.Pairwise (fun a b => a.offset.n < b.offset.n))
    (hsize : 16 + w.listindex.length * 8 + 8 < 4294967296)
    (hstack : 16 + w.listindex.length * 8 + 8 ≤ lib.stack)
    (hacc : headerAccepted lib (zFilelz4.writeTail lib w).file_stream.content) :
    ∃ r, zFilelz4.ctor lib (some (zFilelz4.writeTail lib w).file_stream.content)
            .e_ReadMode b level nthread = some r ∧
      r.file_mode = .e_ReadMode ∧ r.file_type = .e_lz4 ∧
      r.unlz4_uncompressfunc = some .decompress_fast ∧
      r.unzip_readpool = some (MemPool.ctor 0 4194304 .e_UnzipPool) ∧
      r.file_stream = { content := (zFilelz4.writeTail lib w).file_stream.content, pos := 7,
                        eofbit := false, failbit := false } ∧
      r.blocsize = 4194304 ∧ r.lasterror = .e_SuccessError := by
  obtain ⟨hwc, -⟩ := writeTail_content lib w hw hwf
  have hlen : 7 ≤ (zFilelz4.writeTail lib w).file_stream.content.length := by
    rw [hwc]
    simp only [List.length_append, le32_length]
    omega
  obtain ⟨hst, herr, hidx⟩ := readHeader_init lib _ b level nthread hlen
  obtain ⟨-, -, hflag0, -, hmode⟩ := ctorInit_read (zFilelz4.writeTail lib w).file_stream.content
    b level nthread
  obtain ⟨k1, k2, k3, k4, k5⟩ := readHeader_keeps lib
    (zFilelz4.ctorInit (some (zFilelz4.writeTail lib w).file_stream.content) .e_ReadMode
      b level nthread)
  obtain ⟨c1, c2⟩ := ctorInit_read_size (some (zFilelz4.writeTail lib w).file_stream.content)
    b level nthread
  have cp := ctorInit_read_pool (some (zFilelz4.writeTail lib w).file_stream.content)
    b level nthread
  have hrt := readTail_parsed lib w
    (zFilelz4.readHeader lib (zFilelz4.ctorInit
      (some (zFilelz4.writeTail lib w).file_stream.content) .e_ReadMode b level nthread))
    hw hwf hne hlt hsorted hsize hstack (by rw [hst]; rfl) (by rw [hst]) hidx
  have herr2 := herr.2 hacc
  have hb1 : Flag.ctor.blockIndependence = 1 := rfl
  simp only [zFilelz4.ctor, hmode, hrt]
  refine ⟨_, rfl, ?_, ?_, ?_, ?_, ?_, ?_, ?_⟩
  · exact k1.trans hmode
  · exact k2.trans c1
  · show some (if (zFilelz4.readHeader lib (zFilelz4.ctorInit
        (some (zFilelz4.writeTail lib w).file_stream.content) .e_ReadMode b level
        nthread)).flag.blockIndependence = 1 then uncompressFunc_t.decompress_fast
        else uncompressFunc_t.decompress_fast_continue) = some .decompress_fast
    rw [k5, hflag0, if_pos hb1]
  · exact k3.trans cp
  · show ({ (zFilelz4.readHeader lib (zFilelz4.ctorInit
        (some (zFilelz4.writeTail lib w).file_stream.content) .e_ReadMode b level
        nthread)).file_stream with pos := offsetof_unused } : FStream) = _
    rw [hst]
    rfl
  · exact k4.trans c2
  · exact herr2

end Zcp
namespace Zcp

theorem framesBytes_replicate (g : Frame) :
    ∀ m : Nat, framesBytes (List.replicate m g) = (List.replicate m g.bytes).flatten := by
  intro m
  simp only [framesBytes, List.map_replicate]

theorem framesPlain_replicate (g : Frame) :
    ∀ m : Nat, framesPlain (List.replicate m g) = (List.replicate m g.plain).flatten := by
  intro m
  simp only [framesPlain, List.map_replicate]

theorem flatMap_replicate_flatten (f : List Byte → List Byte) (a : List Byte) :
    ∀ m : Nat, (List.replicate m a).flatMap f = (List.replicate m (f a)).flatten := by
  intro m
  induction m with
  | zero => rfl
  | succ m ih =>
    rw [List.replicate_succ, List.flatMap_cons, ih, List.replicate_succ, List.flatten_cons]

theorem flatten_replicate_length (a : List Byte) (m : Nat) :
    (List.replicate m a).flatten.length = m * a.length := by
  rw [flatten_length_full a.length _ (fun x hx => by rw [List.eq_of_mem_replicate hx]),
    List.length_replicate]

theorem flatten_replicate_pair (a : Byte) :
    ∀ m : Nat, (List.replicate m [a, a]).flatten = List.replicate (m * 2) a := by
  intro m
  induction m with
  | zero => rfl
  | succ m ih =>
    rw [List.replicate_succ, List.flatten_cons, ih, Nat.succ_mul]
    rfl

theorem flatMap_pairs_length (l : List (Nat × Nat)) :
    (l.flatMap (fun p => le32 p.1 ++ le32 p.2)).length = 8 * l.length := by
  induction l with
  | nil => rfl
  | cons e es ih =>
    simp only [List.flatMap_cons, List.length_append, le32_length, ih, List.length_cons]
    omega

/-- The stand-in decoder rejects every payload that is not two bytes long. -/
theorem libRun_decompress_reject (f : uncompressFunc_t) (src : List Byte) (cap : Int)
    (h : src.length ≠ 2) : libRun.decompress f src cap = (-1, []) := by
  match src, h with
  | [], _ => rfl
  | [_], _ => rfl
  | [_, _], h => exact absurd rfl h
  | _ :: _ :: _ :: _, _ => rfl

/-- The decode pass of the stand-in decoder on an input that starts with the index entries
`(2, 13)` and `(4, ...)` of a file of 2-byte blocks: the words `02 00 00 00`, `0D 00` are
taken for a compressed frame of two bytes that decodes to 13 zero bytes, the bytes
`00 00 04 00` for the length word of a frame of 262144 bytes, which the decoder rejects:
the pass returns 13 bytes and the code 2. -/
theorem uncompress_index_entries (f : uncompressFunc_t) (T : List Byte) (P : Nat)
    (hT : 262144 ≤ T.length) (hP1 : 13 ≤ P) (hP2 : P < 2147483648) :
    zFilelz4.uncompress libRun f
        ([2, 0, 0, 0, 13, 0] ++ ([0, 0, 4, 0] ++ T)) P
      = (13, List.replicate 13 0, 2, 4 + T.length) := by
  have hok : ∀ g ∈ [Frame.mk false [13, 0] (List.replicate 13 0)],
      g.ok libRun f := by
    intro g hg
    rw [List.mem_singleton.1 hg]
    exact libRun_frame_ok f 13 0 (by decide)
  have hb : framesBytes [Frame.mk false [13, 0] (List.replicate 13 0)] = [2, 0, 0, 0, 13, 0] := by decide
  have hp : framesPlain [Frame.mk false [13, 0] (List.replicate 13 0)] = List.replicate 13 0 := by decide
  obtain ⟨fuel, h⟩ := uncompress_frames_tail libRun f P hP2
    [Frame.mk false [13, 0] (List.replicate 13 0)] ([0, 0, 4, 0] ++ T)
    hok (by rw [hp]; exact hP1)
  rw [hb, hp] at h
  unfold zFilelz4.uncompress
  rw [h, zFilelz4.uncompressLoop]
  have hlen : ([2, 0, 0, 0, 13, 0] ++ ([0, 0, 4, 0] ++ T) : List Byte).length
      = 10 + T.length := by
    simp only [List.length_append, List.length_cons, List.length_nil]
    omega
  have hl6 : ([2, 0, 0, 0, 13, 0] : List Byte).length = 6 := rfl
  have hl13 : (List.replicate 13 (0 : Byte)).length = 13 := rfl
  have hd6 : ([2, 0, 0, 0, 13, 0] ++ ([0, 0, 4, 0] ++ T) : List Byte).drop 6
      = 0 :: 0 :: 4 :: 0 :: T := rfl
  have hd10 : ([2, 0, 0, 0, 13, 0] ++ ([0, 0, 4, 0] ++ T) : List Byte).drop (6 + 4) = T := rfl
  have hw : le32toh (0 :: 0 :: 4 :: 0 :: T : List Byte) = 262144 := by
    rw [le32toh_cons]
    rfl
  have hz : (262144 : Nat) &&& 0x7fffffff = 262144 := by decide
  have c1 : 6 + 4 < 10 + T.length := by omega
  have c2 : ¬ (6 + 262144 + 4 > 10 + T.length) := by omega
  have c3 : ¬ ((262144 : Nat) = LZ4S_EOS) := by decide
  have c4 : decide ((2147483648 : Nat) ≤ 262144) = false := by decide
  have hrej : libRun.decompress f (T.take 262144) (toInt32 (sizeSub P 13)) = (-1, []) := by
    apply libRun_decompress_reject
    rw [List.length_take]
    omega
  rw [hl6, hl13, hlen, if_pos c1, hd6, hw]
  dsimp only
  rw [hz, if_neg c2, if_neg c3, c4, hd10, hrej]
  simp only [Bool.false_eq_true, if_false]
  have c5 : ((-1 : Int) ≤ 0) := by decide
  rw [if_pos c5]
  have : 10 + T.length - 6 = 4 + T.length := by omega
  rw [this]

end Zcp
namespace Zcp

/-- The file the writer produces for `(m + 3)` blocks of two zero bytes (block size 2, level
1, one thread, stand-in codec), when its first `7 + 4194304` bytes end with the first index
entry, and the reader the constructor builds on it. After the header the file holds the
`m + 3` raw frames `02 00 00 80 00 00`, the end mark, 36 bytes (checksum, skippable header,
identification, entry `(0, 7)`) that complete the first 4 MiB, and then `rest`: the entries
`(2, 13)`, `(4, 19)`, ... and the second skippable header. The decode pass on the first
4 MiB of `rest` gives 13 zero bytes and the code 2. -/
theorem eos_tail_setup (m : Nat) (hm : 6 * (m + 3) + 40 = 4194304) :
    ∃ (F : List Byte) (r : zFile) (x : Byte) (after rest : List Byte),
      writeSession libRun 2 1 1 (List.replicate ((m + 3) * 2) 0) = some F ∧
      zFilelz4.ctor libRun (some F) .e_ReadMode 65536 1 1 = some r ∧
      r.file_mode = .e_ReadMode ∧ r.file_type = .e_lz4 ∧
      r.unlz4_uncompressfunc = some .decompress_fast ∧
      r.unzip_readpool = some (MemPool.ctor 0 4194304 .e_UnzipPool) ∧
      r.blocsize = 4194304 ∧ r.lasterror = .e_SuccessError ∧
      r.file_stream.good = true ∧
      r.file_stream.content.drop r.file_stream.pos
        = framesBytes (List.replicate (m + 3) (Frame.mk true [0, 0] [0, 0]))
            ++ (le32 0 ++ x :: after) ++ rest ∧
      (framesBytes (List.replicate (m + 3) (Frame.mk true [0, 0] [0, 0]))
            ++ (le32 0 ++ x :: after)).length = 4194304 ∧
      framesPlain (List.replicate (m + 3) (Frame.mk true [0, 0] [0, 0]))
        = List.replicate ((m + 3) * 2) 0 ∧
      rest ≠ [] ∧
      zFilelz4.uncompress libRun .decompress_fast (rest.take 4194304) 4194304
        = (13, List.replicate 13 0, 2, 4194298) := by
  obtain ⟨s0, hs0, -, -, hinv0⟩ := ctor_sinv libRun [] 2 1 1 (by decide)
  have hh : (zFilelz4.ctor libRun (some []) .e_WriteMode 2 1 1).map
      (fun s => s.file_stream.content) = some [0x04, 0x22, 0x4D, 0x18, 0x64, 0x40, 0xA7] := by
    decide
  rw [hs0] at hh
  simp only [Option.map_some', Option.some.injEq] at hh
  have hmin : min 2 LZ4F_MAXBLOC_SIZE = 2 := by decide
  have hfn : (if 1 < min_HClevel then compressFunc_t.compress_fast_extState
      else compressFunc_t.compress_HC_extStateHC) = compressFunc_t.compress_fast_extState := by
    decide
  have hl1 : (1 % 256 : Nat) = 1 := rfl
  have hX : List.replicate ((m + 3) * 2) (0 : Byte)
      = List.replicate ((m + 3) * min 2 LZ4F_MAXBLOC_SIZE) 0 := by rw [hmin]
  obtain ⟨h2, hflag, hsub, hfile⟩ := full_blocks_session libRun [] 2 1 1 s0 hs0
    (by decide) (by decide) rfl rfl rfl (m + 3) 0 _ hX
  obtain ⟨d1, h1, -, -⟩ := runEvents_sinv libRun _ 1 _ _ rfl
    [.mwrite (List.replicate ((m + 3) * 2) 0)] s0 [] hinv0
  have hws : writeSession libRun 2 1 1 (List.replicate ((m + 3) * 2) 0)
      = some (zFilelz4.writeTail libRun (zFile.close libRun (runEvents libRun
          [.mwrite (List.replicate ((m + 3) * 2) 0)] s0))).file_stream.content := by
    unfold writeSession
    rw [hs0, Option.map_some']
    have r1 : runEvents libRun [.mwrite (List.replicate ((m + 3) * 2) 0)] s0
        = (zFile.mwrite libRun s0 (List.replicate ((m + 3) * 2) 0)).1 := rfl
    rw [r1] at h1 hfile
    rw [dtor_close libRun _ 1 _ _ rfl _ d1 h1, hfile, r1]
  rw [hl1, hmin, hfn, hh] at h2
  rw [hmin] at hsub
  generalize zFile.close libRun (runEvents libRun
    [.mwrite (List.replicate ((m + 3) * 2) 0)] s0) = w at h2 hflag hsub hws
  have hblk : List.replicate 2 (0 : Byte) = [0, 0] := rfl
  rw [hblk] at h2 hsub
  have hix := h2.base.index
  rw [indexOffsets_set libRun _ 1 2 _ 0 7
    (by
      intro x hx
      rw [(List.mem_replicate.1 hx).2]
      exact List.cons_ne_nil _ _)
    (by
      rw [sumN_eq_length, flatten_replicate_length]
      simp only [List.length_cons, List.length_nil]
      omega)] at hix
  have hlen : w.listindex.length = m + 3 := by
    have := congrArg List.length hix
    rw [List.length_map, indexOffsets_length, List.length_replicate] at this
    exact this
  have hdne : List.replicate (m + 3) ([0, 0] : List Byte) ≠ [] := by
    intro h0
    have := congrArg List.length h0
    simp at this
  have hstk : libRun.stack = 8323072 := rfl
  obtain ⟨-, -, -, -, hsn, hlt⟩ := written_reader libRun _ 1 2 _ w _ h2 hflag hdne
    (by rw [hlen]; omega) (by rw [hlen, hstk]; omega) 65536 1 1
  have hne2 : w.listindex ≠ [] := by
    intro h0
    rw [h0] at hlen
    simp at hlen
  obtain ⟨hwc, -⟩ := writeTail_content libRun w h2.base.good hflag
  have hframe : blockFrame libRun .compress_fast_extState 1 [0, 0] 2
      = (Frame.mk true [0, 0] [0, 0]).bytes := by decide
  have hfr : (List.replicate (m + 3) ([0, 0] : List Byte)).flatMap
      (fun b => blockFrame libRun .compress_fast_extState 1 b 2)
      = framesBytes (List.replicate (m + 3) (Frame.mk true [0, 0] [0, 0])) := by
    rw [flatMap_replicate_flatten, framesBytes_replicate, hframe]
  have hzl : (zFilelz4.compress libRun .compress_fast_extState 1 [0, 0] 2).1 &&& 0x7fffffff
      = 6 := by decide
  have hrep : List.replicate (m + 3) ([0, 0] : List Byte)
      = [0, 0] :: [0, 0] :: [0, 0] :: List.replicate m [0, 0] := rfl
  have hidx : indexOffsets libRun .compress_fast_extState 1 2 0 7
      (List.replicate (m + 3) ([0, 0] : List Byte))
      = (0, 7) :: (2, 13) :: (4, 19) ::
          indexOffsets libRun .compress_fast_extState 1 2 6 25 (List.replicate m [0, 0]) := by
    rw [hrep]
    simp only [indexOffsets, hzl, List.length_cons, List.length_nil]
  have hE : w.listindex.flatMap (fun e => le32 e.offset.n ++ le32 e.offset.z)
      = [0, 0, 0, 0, 7, 0, 0, 0] ++ ([2, 0, 0, 0, 13, 0] ++ ([0, 0, 4, 0] ++
          ([0, 0, 19, 0, 0, 0] ++
            (indexOffsets libRun .compress_fast_extState 1 2 6 25
              (List.replicate m [0, 0])).flatMap (fun p => le32 p.1 ++ le32 p.2)))) := by
    have : w.listindex.flatMap (fun e => le32 e.offset.n ++ le32 e.offset.z)
        = (indexOffsets libRun .compress_fast_extState 1 2 0 7
            (List.replicate (m + 3) ([0, 0] : List Byte))).flatMap
            (fun p => le32 p.1 ++ le32 p.2) := by
      rw [← hix, List.flatMap_map]
    rw [this, hidx]
    rfl
  generalize hE3 : (indexOffsets libRun .compress_fast_extState 1 2 6 25
    (List.replicate m [0, 0])).flatMap (fun p => le32 p.1 ++ le32 p.2) = E3 at hE
  have hE3l : E3.length = 8 * m := by
    rw [← hE3, flatMap_pairs_length, indexOffsets_length, List.length_replicate]
  rw [h2.base.content, hE, hlen, hfr] at hwc
  generalize hfb : framesBytes (List.replicate (m + 3) (Frame.mk true [0, 0] [0, 0])) = FB
    at hwc
  have hFBl : FB.length = (m + 3) * 6 := by
    rw [← hfb, framesBytes_replicate, flatten_replicate_length]
    rfl
  generalize hcrc : XXH32_digest libRun w.xxh32state = crc at hwc
  generalize hS : 16 + (m + 3) * 8 + 8 = S at hwc
  have hFeq : (zFilelz4.writeTail libRun w).file_stream.content
      = [0x04, 0x22, 0x4D, 0x18, 0x64, 0x40, 0xA7] ++
          (FB ++ (le32 0 ++ byteOf crc ::
            ([byteOf (crc / 256), byteOf (crc / 65536), byteOf (crc / 16777216)] ++
              ((le32 0x184D2A50 ++ le32 S) ++
                ((le32 0xCAFEDECA ++ le32 1 ++ le32 0 ++ le32 ((m + 3) * 8)) ++
                  [0, 0, 0, 0, 7, 0, 0, 0]))))
            ++ ([2, 0, 0, 0, 13, 0] ++ ([0, 0, 4, 0] ++
                ([0, 0, 19, 0, 0, 0] ++ E3 ++ (le32 0x184D2A50 ++ le32 S))))) := by
    rw [hwc]
    simp only [le32, List.append_assoc, List.cons_append, List.nil_append]
  generalize hF : (zFilelz4.writeTail libRun w).file_stream.content = F at hws hFeq
  have hacc : headerAccepted libRun F := by
    rw [hFeq]
    refine ⟨?_, rfl, rfl, ?_⟩
    · simp only [List.length_append, List.length_cons, List.length_nil]
      omega
    · show (0xA7 : Byte) = zFilelz4.headerCrc libRun 0x64 0x40
      decide
  obtain ⟨r, hr, g1, g2, g3, g4, g5, g6, g7⟩ := ctor_read_written_state libRun w 65536 1 1
    h2.base.good hflag hne2 hlt hsn (by rw [hlen]; omega) (by rw [hlen, hstk]; omega)
    (by rw [hF]; exact hacc)
  rw [hF] at hr g5
  refine ⟨F, r, byteOf crc,
    [byteOf (crc / 256), byteOf (crc / 65536), byteOf (crc / 16777216)] ++
      ((le32 0x184D2A50 ++ le32 S) ++
        ((le32 0xCAFEDECA ++ le32 1 ++ le32 0 ++ le32 ((m + 3) * 8)) ++
          [0, 0, 0, 0, 7, 0, 0, 0])),
    [2, 0, 0, 0, 13, 0] ++ ([0, 0, 4, 0] ++
      ([0, 0, 19, 0, 0, 0] ++ E3 ++ (le32 0x184D2A50 ++ le32 S))),
    hws, hr, g1, g2, g3, g4, g6, g7, ?_, ?_, ?_, ?_, ?_, ?_⟩
  · rw [g5]
    rfl
  · rw [g5]
    show F.drop 7 = _
    rw [hFeq]
    exact List.drop_left' rfl
  · simp only [List.length_append, List.length_cons, List.length_nil, le32_length, hFBl]
    omega
  · rw [framesPlain_replicate]
    exact flatten_replicate_pair 0 (m + 3)
  · intro h0
    have := congrArg List.length h0
    simp at this
  · have htake : ([2, 0, 0, 0, 13, 0] ++ ([0, 0, 4, 0] ++
        ([0, 0, 19, 0, 0, 0] ++ E3 ++ (le32 0x184D2A50 ++ le32 S))) : List Byte).take 4194304
        = [2, 0, 0, 0, 13, 0] ++ ([0, 0, 4, 0] ++
            (([0, 0, 19, 0, 0, 0] ++ E3 ++ (le32 0x184D2A50 ++ le32 S)) : List Byte).take
              4194294) := by
      rw [List.take_append_eq_append_take, List.take_of_length_le (by decide),
        List.take_append_eq_append_take, List.take_of_length_le (by decide)]
      rfl
    rw [htake]
    have hTl : ((([0, 0, 19, 0, 0, 0] ++ E3 ++ (le32 0x184D2A50 ++ le32 S)) : List Byte).take
        4194294).length = 4194294 := by
      rw [List.length_take]
      simp only [List.length_append, List.length_cons, List.length_nil, le32_length, hE3l]
      omega
    rw [uncompress_index_entries .decompress_fast _ 4194304 (by rw [hTl]; decide) (by decide)
      (by decide), hTl]

end Zcp
namespace Zcp

/-- Witness of C33: 1 398 088 zero bytes written with a block size of 2 (699 044 raw
frames of 6 bytes, so that the first 4 MiB the reader takes from the file end with the
first index entry) and read back: the first `read` returns the 1 398 088 bytes and its
decode pass ends on the end mark; the next `read` of 13 bytes decodes the index entries
that follow in the file as block frames and returns 13 zero bytes that are not in the
input. -/
theorem C33_bytes_after_eos_decoded_witness :
    ∃ F r s1, writeSession libRun 2 1 1 (List.replicate 1398088 0) = some F ∧
      zFilelz4.ctor libRun (some F) .e_ReadMode 65536 1 1 = some r ∧
      r.lasterror = .e_SuccessError ∧
      (∀ fuel, zFile.read libRun (fuel + 3) r 1398088
        = some (s1, 1398088, List.replicate 1398088 0)) ∧
      s1.lasterror = .e_SuccessError ∧
      ∀ fuel, ∃ s2, zFile.read libRun (fuel + 3) s1 13 = some (s2, 13, List.replicate 13 0) := by
  obtain ⟨F, r, x, after, rest, hws, hr, g1, g2, g3, g4, g6, g7, hgood, hfile, hchunk, hpl,
    hrest, hu⟩ := eos_tail_setup 699041 (by decide)
  have e : (699041 + 3) * 2 = 1398088 := by decide
  rw [e] at hws hpl
  have hok : ∀ g ∈ List.replicate (699041 + 3) (Frame.mk true [0, 0] [0, 0]),
      g.ok libRun .decompress_fast := by
    intro g hg
    rw [List.eq_of_mem_replicate hg]
    exact ⟨by decide, by decide, fun _ => rfl,
      fun h => absurd (show true = false from h) (by decide)⟩
  have hlen : (framesPlain (List.replicate (699041 + 3) (Frame.mk true [0, 0] [0, 0]))).length
      = 1398088 := by
    rw [hpl, List.length_replicate]
  obtain ⟨s1, rp1, hread1, -, -, -, herr, -, hnext⟩ := C33_bytes_after_eos_decoded libRun
    rfl rfl rfl r (MemPool.ctor 0 4194304 .e_UnzipPool) .decompress_fast
    (List.replicate (699041 + 3) (Frame.mk true [0, 0] [0, 0])) x after rest g1 g2 g3 g4
    rfl rfl (by decide) (by decide) (by decide) g6 hgood hfile hchunk hok
    (by rw [hlen]; decide) (by rw [hlen]; decide) hrest
  rw [hlen, hpl] at hread1
  refine ⟨F, r, s1, hws, hr, g7, hread1, herr.trans g7, ?_⟩
  intro fuel
  exact hnext (13, List.replicate 13 0, 2, 4194298) hu.symm 13 (by decide) (by decide) fuel

end Zcp
namespace Zcp

/-- The state in which the loop of `mwrite` stops on a thread launch error is a fixed
point of the loop: the full current pool cannot take a byte and its launch fails again with
the same code, which records the same error. -/
theorem mwriteLoop_error_fix (lib : Lib) (s : zFile) (c : MemPool)
    (hcur : s.zip_curpool = some c) (hroom : sizeSub c.poolsize c.inb.length = 0)
    (hrun : (c.run lib (s.threadJob lib c)).2 ≠ 0) :
    ∀ s1, s1 = (match (c.run lib (s.threadJob lib c)).2 with
                | 1 => s.setError .e_JobInitError "Error initializing write thread"
                | 2 => s.setError .e_JobCreateError "Error running write thread"
                | _ => s.setError .e_JobUnknownError "Unhandled write thread error") →
      ∀ (g : Nat) (b : List Byte), zFile.mwriteLoop lib g s1 b = (s1, b) := by
  intro s1 hs1 g b
  cases g with
  | zero => rfl
  | succ g =>
    by_cases hb : b = []
    · rw [hb]
      exact mwriteLoop_nil lib _ s1
    · have hc1 : s1.zip_curpool = some c := by
        rw [hs1]
        split <;> exact hcur
      have hcode : (c.run lib (s1.threadJob lib c)).2 = (c.run lib (s.threadJob lib c)).2 :=
        MemPool.run_code lib c _ _
      rw [mwriteLoop_succ lib g s1 b c hb hc1, MemPool.add_full c b hroom]
      simp only [if_true]
      rw [if_pos (by rw [hcode]; exact hrun), hcode]
      generalize (c.run lib (s.threadJob lib c)).2 = k at hs1 hrun
      obtain rfl | rfl | rfl | hk : k = 0 ∨ k = 1 ∨ k = 2 ∨ 3 ≤ k := by omega
      · exact absurd rfl hrun
      · rw [hs1]
        rfl
      · rw [hs1]
        rfl
      · obtain ⟨j, rfl⟩ : ∃ j, k = j + 3 := ⟨k - 3, by omega⟩
        rw [hs1]
        rfl

/-- The loop of `mwrite` on a stream that satisfies the invariant, with two turns per byte
(one more when the current pool is full): more turns give the same result, and the loop
either takes every byte or stops in a state that is a fixed point of the loop. -/
theorem mwriteLoop_settled (lib : Lib) (func : compressFunc_t) (level C : Nat)
    (hdr : List Byte) (hjoin : lib.pthread_join = 0) :
    ∀ (f : Nat) (s : zFile) (d : List Byte) (done : List (List Byte)),
      SInv lib func level C hdr s done →
      (∀ c, s.zip_curpool = some c →
        2 * d.length + (if c.inb.length = C then 1 else 0) ≤ f) →
      (∀ g, zFile.mwriteLoop lib (f + g) s d = zFile.mwriteLoop lib f s d) ∧
      ((zFile.mwriteLoop lib f s d).2 = [] ∨
        ∀ (g : Nat) (b : List Byte),
          zFile.mwriteLoop lib g (zFile.mwriteLoop lib f s d).1 b
            = ((zFile.mwriteLoop lib f s d).1, b)) := by
  intro f
  induction f with
  | zero =>
    intro s d done h hf
    obtain ⟨c, hcur, -, -⟩ := h.base.cur
    have := hf c hcur
    have hd : d = [] := List.length_eq_zero.1 (by omega)
    subst hd
    refine ⟨fun g => ?_, Or.inl rfl⟩
    rw [mwriteLoop_nil]
    rfl
  | succ f ih =>
    intro s d done h hf
    by_cases hd : d = []
    · subst hd
      refine ⟨fun g => ?_, Or.inl ?_⟩
      · rw [mwriteLoop_nil, mwriteLoop_nil]
      · rw [mwriteLoop_nil]
    · obtain ⟨c, hcur, hm, hc⟩ := h.base.cur
      obtain ⟨hcr, hcl⟩ := h.cur c hcur
      obtain ⟨hadd2, hadd1⟩ := MemPool.add_spec c d C hc hcl
      have hfc := hf c hcur
      have hdl : 0 < d.length := List.length_pos.2 hd
      have hstep : ∀ g, zFile.mwriteLoop lib (f + 1 + g) s d
          = zFile.mwriteLoop lib ((f + g) + 1) s d := by
        intro g
        have : f + 1 + g = (f + g) + 1 := by omega
        rw [this]
      by_cases ha : (c.add d).2 = 0
      · have hfull : c.inb.length = C := by
          rw [ha] at hadd2
          omega
        by_cases hrun : (c.run lib (s.threadJob lib c)).2 = 0
        · obtain ⟨hne, hr1⟩ := MemPool.run_ok lib _ c hrun
          obtain ⟨hfl, hinb⟩ := run_inFlight lib func level C hdr s done c h.base hm hc hrun
          have hs1 : SInv lib func level C hdr
              { s with zip_curpool := some (c.run lib (s.threadJob lib c)).1 } done := by
            apply h.with_cur _ hfl.1 hfl.2.1
            · rw [hr1]
              have := hcr
              simp only [MemPool.reset, MemPool.mk.injEq] at this ⊢
              simp only [this, and_self]
            · rw [hinb]
              exact hcl
          obtain ⟨d2, q, h2, hq, hqi, -, -⟩ := nextPool_sinv lib func level C hdr _ done _
            hjoin hs1 rfl hfl (by rw [hinb]; exact hne)
          have hC1 : 1 ≤ C := by
            have : 0 < c.inb.length := List.length_pos.2 hne
            omega
          obtain ⟨i1, i2⟩ := ih _ d d2 h2 (by
            intro c2 hc2
            rw [hq] at hc2
            have := Option.some.inj hc2
            subst this
            rw [hqi]
            have : ¬ (([] : List Byte).length = C) := by
              simp only [List.length_nil]
              omega
            rw [if_neg this]
            rw [if_pos hfull] at hfc
            omega)
          have e1 : ∀ k, zFile.mwriteLoop lib (k + 1) s d
              = zFile.mwriteLoop lib k (zFile.nextPool lib
                  { s with zip_curpool := some (c.run lib (s.threadJob lib c)).1 }) d := by
            intro k
            rw [mwriteLoop_succ lib k s d c hd hcur, if_pos ha, if_neg (not_not.2 hrun)]
          refine ⟨fun g => ?_, ?_⟩
          · rw [hstep, e1, e1, i1]
          · rw [e1]
            exact i2
        · have hroom : sizeSub c.poolsize c.inb.length = 0 := by
            rw [hc, hfull]
            simp [sizeSub]
          have e1 : ∀ k, zFile.mwriteLoop lib (k + 1) s d
              = ((match (c.run lib (s.threadJob lib c)).2 with
                  | 1 => s.setError .e_JobInitError "Error initializing write thread"
                  | 2 => s.setError .e_JobCreateError "Error running write thread"
                  | _ => s.setError .e_JobUnknownError "Unhandled write thread error"), d) := by
            intro k
            rw [mwriteLoop_succ lib k s d c hd hcur, if_pos ha, if_pos hrun]
          refine ⟨fun g => ?_, Or.inr ?_⟩
          · rw [hstep, e1, e1]
          · rw [e1]
            exact mwriteLoop_error_fix lib s c hcur hroom hrun _ rfl
      · have hn1 : (c.add d).2 ≤ C - c.inb.length := by
          rw [hadd2]
          exact Nat.min_le_left _ _
        have hn2 : (c.add d).2 ≤ d.length := by
          rw [hadd2]
          exact Nat.min_le_right _ _
        have ha1 := hadd1 ha
        have hs1 : SInv lib func level C hdr { s with zip_curpool := some (c.add d).1 }
            done := by
          apply h.with_cur
          · rw [ha1]
            exact hm
          · rw [ha1]
            exact hc
          · rw [ha1]
            exact hcr
          · rw [ha1]
            simp only [List.length_append, List.length_take]
            omega
        obtain ⟨i1, i2⟩ := ih _ (d.drop (c.add d).2) done hs1 (by
          intro c2 _
          simp only [List.length_drop]
          split_ifs at hfc ⊢ <;> omega)
        have e1 : ∀ k, zFile.mwriteLoop lib (k + 1) s d
            = zFile.mwriteLoop lib k { s with zip_curpool := some (c.add d).1 }
                (d.drop (c.add d).2) := by
          intro k
          rw [mwriteLoop_succ lib k s d c hd hcur, if_neg ha]
        refine ⟨fun g => ?_, ?_⟩
        · rw [hstep, e1, e1, i1]
        · rw [e1]
          exact i2

/-- A loop of `mwrite` that stops with bytes left stops in the same state, with the
further bytes left as well, when more bytes follow. -/
theorem mwriteLoop_prefix (lib : Lib) :
    ∀ (f : Nat) (s : zFile) (a : List Byte) (s1 : zFile) (ra : List Byte),
      zFile.mwriteLoop lib f s a = (s1, ra) → ra ≠ [] →
      ∀ b, zFile.mwriteLoop lib f s (a ++ b) = (s1, ra ++ b) := by
  intro f
  induction f with
  | zero =>
    intro s a s1 ra h _ b
    have h2 : (s, a) = (s1, ra) := h
    obtain ⟨h3, h4⟩ := Prod.mk.inj h2
    subst h3 h4
    rfl
  | succ f ih =>
    intro s a s1 ra h hra b
    by_cases ha : a = []
    · subst ha
      rw [mwriteLoop_nil] at h
      exact absurd (Prod.mk.inj h).2.symm hra
    · have hab : a ++ b ≠ [] := by
        intro h0
        exact ha (List.append_eq_nil.1 h0).1
      cases hcur : s.zip_curpool with
      | none =>
        rw [zFile.mwriteLoop] at h ⊢
        simp only [List.length_pos.2 ha, List.length_pos.2 hab, if_true, hcur] at h ⊢
        obtain ⟨h3, h4⟩ := Prod.mk.inj h
        rw [h3, h4]
      | some c =>
        rw [mwriteLoop_succ lib _ s a c ha hcur] at h
        rw [mwriteLoop_succ lib _ s (a ++ b) c hab hcur]
        rcases Nat.eq_zero_or_pos (sizeSub c.poolsize c.inb.length) with hroom | hroom
        · rw [MemPool.add_full c a hroom] at h
          rw [MemPool.add_full c (a ++ b) hroom]
          simp only [if_true] at h ⊢
          by_cases hrun : (c.run lib (s.threadJob lib c)).2 = 0
          · rw [if_neg (not_not.2 hrun)] at h ⊢
            exact ih _ _ _ _ h hra b
          · rw [if_pos hrun] at h ⊢
            obtain ⟨h3, h4⟩ := Prod.mk.inj h
            rw [h3, h4]
        · rw [MemPool.add_room c a hroom ha] at h
          rw [MemPool.add_room c (a ++ b) hroom hab]
          have hla : 0 < a.length := List.length_pos.2 ha
          have hk1 : min (sizeSub c.poolsize c.inb.length) a.length ≠ 0 := by omega
          have hk2 : min (sizeSub c.poolsize c.inb.length) (a ++ b).length ≠ 0 := by
            rw [List.length_append]
            omega
          simp only [hk1, hk2, if_false] at h ⊢
          rcases Nat.lt_or_ge (sizeSub c.poolsize c.inb.length) a.length with hlt | hge
          · have e1 : min (sizeSub c.poolsize c.inb.length) a.length
                = sizeSub c.poolsize c.inb.length := by omega
            have e2 : min (sizeSub c.poolsize c.inb.length) (a ++ b).length
                = sizeSub c.poolsize c.inb.length := by
              rw [List.length_append]
              omega
            rw [e1] at h
            rw [e2, List.take_append_of_le_length (Nat.le_of_lt hlt),
              List.drop_append_of_le_length (Nat.le_of_lt hlt)]
            exact ih _ _ _ _ h hra b
          · have e1 : min (sizeSub c.poolsize c.inb.length) a.length = a.length := by omega
            rw [e1, List.take_length, List.drop_length, mwriteLoop_nil] at h
            exact absurd (Prod.mk.inj h).2.symm hra

/-- A loop of `mwrite` that takes every byte of `a`, followed by a loop on `b` whose
result does not depend on further turns, is one loop on `a ++ b`. -/
theorem mwriteLoop_append_stable (lib : Lib) :
    ∀ (f : Nat) (s : zFile) (a : List Byte) (s1 : zFile),
      zFile.mwriteLoop lib f s a = (s1, []) →
      ∀ (g : Nat) (b : List Byte),
        (∀ k, zFile.mwriteLoop lib (g + k) s1 b = zFile.mwriteLoop lib g s1 b) →
        zFile.mwriteLoop lib (f + g) s (a ++ b) = zFile.mwriteLoop lib g s1 b := by
  intro f
  induction f with
  | zero =>
    intro s a s1 h g b _
    have h2 : (s, a) = (s1, ([] : List Byte)) := h
    obtain ⟨h3, h4⟩ := Prod.mk.inj h2
    subst h3 h4
    rw [List.nil_append, Nat.zero_add]
  | succ f ih =>
    intro s a s1 h g b hst
    by_cases ha : a = []
    · subst ha
      rw [mwriteLoop_nil] at h
      have h3 := (Prod.mk.inj h).1
      subst h3
      rw [List.nil_append, Nat.add_comm]
      exact hst (f + 1)
    · by_cases hb : b = []
      · subst hb
        rw [List.append_nil, mwriteLoop_nil]
        exact mwriteLoop_mono lib (f + 1) s a s1 h g
      · have hab : a ++ b ≠ [] := by
          intro h0
          exact ha (List.append_eq_nil.1 h0).1
        have hfg : f + 1 + g = (f + g) + 1 := by omega
        rw [hfg]
        cases hcur : s.zip_curpool with
        | none =>
          exfalso
          rw [zFile.mwriteLoop] at h
          simp only [List.length_pos.2 ha, if_true, hcur] at h
          exact ha (Prod.mk.inj h).2
        | some c =>
          rw [mwriteLoop_succ lib _ s a c ha hcur] at h
          rw [mwriteLoop_succ lib _ s (a ++ b) c hab hcur]
          rcases Nat.eq_zero_or_pos (sizeSub c.poolsize c.inb.length) with hroom | hroom
          · rw [MemPool.add_full c a hroom] at h
            rw [MemPool.add_full c (a ++ b) hroom]
            simp only [if_true] at h ⊢
            by_cases hrun : (c.run lib (s.threadJob lib c)).2 = 0
            · rw [if_neg (not_not.2 hrun)] at h ⊢
              exact ih _ _ _ h g b hst
            · rw [if_pos hrun] at h
              exact absurd (Prod.mk.inj h).2 ha
          · rw [MemPool.add_room c a hroom ha] at h
            rw [MemPool.add_room c (a ++ b) hroom hab]
            have hla : 0 < a.length := List.length_pos.2 ha
            have hlb : 0 < b.length := List.length_pos.2 hb
            have hk1 : min (sizeSub c.poolsize c.inb.length) a.length ≠ 0 := by omega
            have hk2 : min (sizeSub c.poolsize c.inb.length) (a ++ b).length ≠ 0 := by
              rw [List.length_append]
              omega
            simp only [hk1, hk2, if_false] at h ⊢
            rcases Nat.lt_or_ge (sizeSub c.poolsize c.inb.length) a.length with hlt | hge
            · have e1 : min (sizeSub c.poolsize c.inb.length) a.length
                  = sizeSub c.poolsize c.inb.length := by omega
              have e2 : min (sizeSub c.poolsize c.inb.length) (a ++ b).length
                  = sizeSub c.poolsize c.inb.length := by
                rw [List.length_append]
                omega
              rw [e1] at h
              rw [e2, List.take_append_of_le_length (Nat.le_of_lt hlt),
                List.drop_append_of_le_length (Nat.le_of_lt hlt)]
              exact ih _ _ _ h g b hst
            · have e1 : min (sizeSub c.poolsize c.inb.length) a.length = a.length := by omega
              rw [e1, List.take_length, List.drop_length, mwriteLoop_nil] at h
              have h3 := (Prod.mk.inj h).1
              rcases Nat.eq_or_lt_of_le hge with heq | hgt
              · have e2 : min (sizeSub c.poolsize c.inb.length) (a ++ b).length = a.length := by
                  rw [List.length_append]
                  omega
                rw [e2, List.take_left', List.drop_left', h3, Nat.add_comm]
                · exact hst f
                · rfl
                · rfl
              · subst h3
                have hcur1 : ({ s with zip_curpool := some { c with inb := c.inb ++ a } }
                    : zFile).zip_curpool = some { c with inb := c.inb ++ a } := rfl
                have hroom1 : sizeSub c.poolsize (c.inb ++ a).length
                    = sizeSub c.poolsize c.inb.length - a.length := by
                  rw [List.length_append]
                  exact sizeSub_add _ _ _ hge
                have hroom1p : 0 < sizeSub ({ c with inb := c.inb ++ a } : MemPool).poolsize
                    ({ c with inb := c.inb ++ a } : MemPool).inb.length := by
                  show 0 < sizeSub c.poolsize (c.inb ++ a).length
                  rw [hroom1]
                  omega
                have hj : min (sizeSub ({ c with inb := c.inb ++ a } : MemPool).poolsize
                    ({ c with inb := c.inb ++ a } : MemPool).inb.length) b.length
                    = min (sizeSub c.poolsize c.inb.length - a.length) b.length := by
                  show min (sizeSub c.poolsize (c.inb ++ a).length) b.length = _
                  rw [hroom1]
                have hj0 : min (sizeSub c.poolsize c.inb.length - a.length) b.length ≠ 0 := by
                  omega
                have e2 : min (sizeSub c.poolsize c.inb.length) (a ++ b).length
                    = a.length + min (sizeSub c.poolsize c.inb.length - a.length) b.length := by
                  rw [List.length_append]
                  omega
                have hb1 := hst (f + 1)
                have e5 : g + (f + 1) = (g + f) + 1 := by omega
                rw [e5, mwriteLoop_succ lib _ _ b _ hb hcur1,
                  MemPool.add_room _ b hroom1p hb, hj] at hb1
                simp only [hj0, if_false] at hb1
                rw [← hb1, e2, List.take_append, List.drop_append]
                have e4 : f + g = g + f := by omega
                rw [e4]
                simp only [List.append_assoc]

end Zcp
namespace Zcp

/-- The call `close()` on a stream that satisfies the invariant submits the current pool
or nothing. -/
theorem close_submitted (lib : Lib) (func : compressFunc_t) (level C : Nat) (hdr : List Byte)
    (hjoin : lib.pthread_join = 0) (s : zFile) (done : List (List Byte))
    (h : SInv lib func level C hdr s done) (c : MemPool) (hcur : s.zip_curpool = some c) :
    (zFile.close lib s).submitted = s.submitted ∨
      (zFile.close lib s).submitted = s.submitted ++ [c.inb] := by
  obtain ⟨c0, hcur0, hm, hc⟩ := h.base.cur
  have hcc : c0 = c := Option.some.inj (hcur0.symm.trans hcur)
  subst hcc
  obtain ⟨hcr, hcl⟩ := h.cur c0 hcur
  generalize hr : zFile.close lib s = r
  unfold zFile.close at hr
  rw [if_pos h.base.fmode] at hr
  simp only [hcur] at hr
  by_cases hrun : (c0.run lib (s.threadJob lib c0)).2 = 0
  · simp only [hrun, if_true] at hr
    obtain ⟨hne, hr1⟩ := MemPool.run_ok lib _ c0 hrun
    obtain ⟨hfl, hinb⟩ := run_inFlight lib func level C hdr s done c0 h.base hm hc hrun
    have hs1 : SInv lib func level C hdr
        { s with zip_curpool := some (c0.run lib (s.threadJob lib c0)).1 } done := by
      apply h.with_cur _ hfl.1 hfl.2.1
      · rw [hr1]
        have := hcr
        simp only [MemPool.reset, MemPool.mk.injEq] at this ⊢
        simp only [this, and_self]
      · rw [hinb]
        exact hcl
    obtain ⟨d2, q, h2, -, -, hsub, -⟩ := nextPool_sinv lib func level C hdr _ done _
      hjoin hs1 rfl hfl (by rw [hinb]; exact hne)
    obtain ⟨-, -, -, -, e3, -⟩ := flushLoop_sinv lib func level C hdr hjoin _ _ d2 h2
      (Nat.le_refl _)
    rw [hr] at e3
    right
    rw [e3, hsub, hinb]
  · simp only [hrun, if_false] at hr
    obtain ⟨-, -, -, -, e3, -⟩ := flushLoop_sinv lib func level C hdr hjoin _ _ done h
      (Nat.le_refl _)
    rw [hr] at e3
    left
    exact e3

/-- C37 (chunking independence). A write-mode stream with at least one pool whose joins
succeed, after any sequence of events, with any block size and whether or not thread
launches succeed: `mwrite(a)` followed by `mwrite(b)` leaves the same state as
`mwrite(a ++ b)` - the whole object is equal, so buffers, queues, `N`, `Z`, index, error
and file bytes are - and the returned counts add up. When no event was `close()`, every
block submitted so far (`submitted` lists the input blocks in emission order) has exactly
`C` bytes, and after `close()` every block except the last has; the file then holds the
header and the frames of these blocks. -/
theorem C37_chunking_independence (lib : Lib) (file : List Byte) (bsize level n : Nat)
    (evs : List WEvent) (s0 : zFile) (a b : List Byte)
    (hs0 : zFilelz4.ctor lib (some file) .e_WriteMode bsize level n = some s0)
    (hn : 1 ≤ n) (hjoin : lib.pthread_join = 0) :
    (zFile.mwrite lib (zFile.mwrite lib (runEvents lib evs s0) a).1 b).1
      = (zFile.mwrite lib (runEvents lib evs s0) (a ++ b)).1 ∧
    (zFile.mwrite lib (runEvents lib evs s0) a).2
        + (zFile.mwrite lib (zFile.mwrite lib (runEvents lib evs s0) a).1 b).2
      = (zFile.mwrite lib (runEvents lib evs s0) (a ++ b)).2 ∧
    ((∀ e ∈ evs, e ≠ WEvent.close) →
      (∀ x ∈ (runEvents lib evs s0).submitted, x.length = min bsize LZ4F_MAXBLOC_SIZE) ∧
      (∀ x ∈ (zFile.close lib (runEvents lib evs s0)).submitted.dropLast,
        x.length = min bsize LZ4F_MAXBLOC_SIZE) ∧
      (zFile.close lib (runEvents lib evs s0)).file_stream.content
        = s0.file_stream.content ++
            (zFile.close lib (runEvents lib evs s0)).submitted.flatMap
              (fun x => blockFrame lib
                (if level % 256 < min_HClevel then compressFunc_t.compress_fast_extState
                 else compressFunc_t.compress_HC_extStateHC) (level % 256) x
                (min bsize LZ4F_MAXBLOC_SIZE))) := by
  obtain ⟨s1, hs1, -, -, hinv0⟩ := ctor_sinv lib file bsize level n hn
  have e1 : s1 = s0 := Option.some.inj (hs1.symm.trans hs0)
  rw [e1] at hinv0
  obtain ⟨d1, h1, -, -⟩ := runEvents_sinv lib _ (level % 256) _ _ hjoin evs s0 [] hinv0
  have hmw : ∀ (s : zFile) (d : List Byte) (dn : List (List Byte)),
      SInv lib (if level % 256 < min_HClevel then compressFunc_t.compress_fast_extState
          else compressFunc_t.compress_HC_extStateHC) (level % 256) (min bsize LZ4F_MAXBLOC_SIZE)
        s0.file_stream.content s dn →
      zFile.mwrite lib s d
        = ((zFile.mwriteLoop lib (2 * d.length + s.zip_listfree.length + 2) s d).1,
           d.length
            - (zFile.mwriteLoop lib (2 * d.length + s.zip_listfree.length + 2) s d).2.length) := by
    intro s d dn h
    simp [zFile.mwrite, h.base.fmode]
  have hfu : ∀ (s : zFile) (d : List Byte) (k : Nat), ∀ c, s.zip_curpool = some c →
      2 * d.length + (if c.inb.length = min bsize LZ4F_MAXBLOC_SIZE then 1 else 0)
        ≤ 2 * d.length + 1 + k := by
    intro s d k c _
    split_ifs <;> omega
  obtain ⟨stA, caseA⟩ := mwriteLoop_settled lib _ (level % 256) _ _ hjoin
    (2 * a.length + 1) (runEvents lib evs s0) a d1 h1 (hfu _ a 0)
  obtain ⟨stAB, -⟩ := mwriteLoop_settled lib _ (level % 256) _ _ hjoin
    (2 * (a ++ b).length + 1) (runEvents lib evs s0) (a ++ b) d1 h1 (hfu _ (a ++ b) 0)
  obtain ⟨da, hia, -, -⟩ := mwrite_sinv lib _ (level % 256) _ _ hjoin (runEvents lib evs s0) a d1 h1
  have hA := hmw (runEvents lib evs s0) a d1 h1
  have hAB := hmw (runEvents lib evs s0) (a ++ b) d1 h1
  have fA : 2 * a.length + (runEvents lib evs s0).zip_listfree.length + 2
      = 2 * a.length + 1 + ((runEvents lib evs s0).zip_listfree.length + 1) := by omega
  have fAB : 2 * (a ++ b).length + (runEvents lib evs s0).zip_listfree.length + 2
      = 2 * (a ++ b).length + 1 + ((runEvents lib evs s0).zip_listfree.length + 1) := by omega
  rw [fA, stA] at hA
  rw [fAB, stAB] at hAB
  rw [hA] at hia
  have hB := hmw _ b da hia
  obtain ⟨stB, -⟩ := mwriteLoop_settled lib _ (level % 256) _ _ hjoin
    (2 * b.length + 1) _ b da hia (hfu _ b 0)
  have fB : ∀ m : Nat, 2 * b.length + m + 2 = 2 * b.length + 1 + (m + 1) := by
    intro m
    omega
  rw [fB, stB] at hB
  rw [hA, hB, hAB]
  generalize hra : zFile.mwriteLoop lib (2 * a.length + 1) (runEvents lib evs s0) a = ra
    at stA caseA stB hB hia hA
  obtain ⟨sa, la⟩ := ra
  dsimp only at stA caseA stB hB hia hA ⊢
  have hrest := mwriteLoop_rest_le lib (2 * b.length + 1) sa b
  have hlen : (a ++ b).length = a.length + b.length := List.length_append _ _
  have key : (zFile.mwriteLoop lib (2 * (a ++ b).length + 1) (runEvents lib evs s0)
        (a ++ b)).1 = (zFile.mwriteLoop lib (2 * b.length + 1) sa b).1 ∧
      a.length - la.length + (b.length
          - (zFile.mwriteLoop lib (2 * b.length + 1) sa b).2.length)
        = (a ++ b).length - (zFile.mwriteLoop lib (2 * (a ++ b).length + 1)
            (runEvents lib evs s0) (a ++ b)).2.length := by
    by_cases hla : la = []
    · subst hla
      have happ := mwriteLoop_append_stable lib _ _ a sa hra (2 * b.length + 1) b stB
      have h2 : 2 * a.length + 1 + (2 * b.length + 1) = 2 * (a ++ b).length + 1 + 1 := by
        rw [hlen]
        omega
      rw [h2, stAB] at happ
      rw [happ]
      refine ⟨rfl, ?_⟩
      simp only [List.length_nil]
      omega
    · have hfix : ∀ (g : Nat) (b : List Byte), zFile.mwriteLoop lib g sa b = (sa, b) := by
        rcases caseA with h0 | h0
        · exact absurd h0 hla
        · exact h0
      have hmore := stA (2 * b.length)
      have hpre := mwriteLoop_prefix lib _ _ a sa la hmore hla b
      have h2 : 2 * a.length + 1 + 2 * b.length = 2 * (a ++ b).length + 1 := by
        rw [hlen]
        omega
      rw [h2] at hpre
      rw [hpre, hfix]
      refine ⟨rfl, ?_⟩
      have := mwriteLoop_rest_le lib (2 * a.length + 1) (runEvents lib evs s0) a
      rw [hra] at this
      simp only [List.length_append] at this ⊢
      omega
  refine ⟨key.1.symm, key.2, ?_⟩
  intro hne
  have hsub0 : s0.submitted = [] := by
    obtain ⟨s2, hs2, hsub2, -⟩ := ctor_write_inv lib file bsize level n hn
    have e2 : s2 = s0 := Option.some.inj (hs2.symm.trans hs0)
    rw [e2] at hsub2
    exact hsub2
  have hfull := runEvents_full lib _ (level % 256) _ _ hjoin evs s0 [] hinv0 hne
    (by rw [hsub0]; intro x hx; simp at hx)
  obtain ⟨d3, h3, hused, -, -⟩ := close_sinv lib _ (level % 256) _ _ hjoin _ d1 h1
  obtain ⟨c, hc, -, -⟩ := h1.base.cur
  refine ⟨hfull, ?_, ?_⟩
  · intro x hx
    rcases close_submitted lib _ (level % 256) _ _ hjoin _ d1 h1 c hc with hsc | hsc
    · rw [hsc] at hx
      exact hfull x (List.mem_of_mem_dropLast hx)
    · rw [hsc, List.dropLast_concat] at hx
      exact hfull x hx
  · have hd : (zFile.close lib (runEvents lib evs s0)).submitted = d3 := by
      have := h3.base.sub
      rw [hused] at this
      simpa using this
    rw [hd]
    exact h3.base.content

/-- Witness of C37: two pools of 4 bytes; `mwrite` of 3 bytes then of 6 bytes leaves the
state of one `mwrite` of the 9 bytes, with two full blocks submitted. -/
theorem C37_chunking_independence_witness :
    (zFilelz4.ctor libRun (some []) .e_WriteMode 4 1 2).map (fun s0 =>
      ((zFile.mwrite libRun (zFile.mwrite libRun (runEvents libRun [] s0) [1, 2, 3]).1
          [4, 5, 6, 7, 8, 9]).1.submitted,
       (zFile.mwrite libRun (zFile.mwrite libRun (runEvents libRun [] s0) [1, 2, 3]).1
          [4, 5, 6, 7, 8, 9]).1.zip_noffset))
      = some ([[1, 2, 3, 4], [5, 6, 7, 8]], 4) ∧
    ∃ s0, zFilelz4.ctor libRun (some []) .e_WriteMode 4 1 2 = some s0 ∧
      (zFile.mwrite libRun (zFile.mwrite libRun (runEvents libRun [] s0) [1, 2, 3]).1
          [4, 5, 6, 7, 8, 9]).1
        = (zFile.mwrite libRun (runEvents libRun [] s0) ([1, 2, 3] ++ [4, 5, 6, 7, 8, 9])).1 := by
  refine ⟨by decide, ?_⟩
  obtain ⟨s0, hs0, -⟩ := ctor_sinv libRun [] 4 1 2 (by decide)
  exact ⟨s0, hs0, (C37_chunking_independence libRun [] 4 1 2 [] s0 [1, 2, 3]
    [4, 5, 6, 7, 8, 9] hs0 (by decide) rfl).1⟩

end Zcp
